import Mathlib

/-!
# tsd-jsdoc: the doclet tree builder of `dist/Emitter.js`

A shallow embedding of `Emitter` (filtering, the two passes of tree construction,
the companion-namespace construction and the post-order synthesis walk) and of the
declaration helpers of `dist/create_helpers.js` that the walk dispatches to.

Modelling conventions.

* JavaScript objects have identity and are mutable.  Tree nodes live in an object
  store `Emitter.nodes`; a node reference is an index into that store.  The doclets
  of the input array live in `Emitter.docs` (a doclet reference `DocRef.src i` is the
  `i`-th object of the array); the doclet of a synthetic node is owned by the node
  (`DocRef.syn d`).  The objects of the input array are taken to be pairwise
  distinct objects.
* `this._treeNodes` is a finite map from strings to node references; an assignment
  `this._treeNodes[k] = v` puts the binding in front, a read returns the first
  binding of the key.  The table is a plain object, so a read at a property name of
  `Object.prototype` (`objectPrototypeKeys`) that has no binding returns an inherited
  value, which is not a tree node; the model has own bindings only and is the code on
  the runs that read no such key.  The builder and the walk read the table at the
  `longname` and the `memberof` of surviving doclets and at derived merge keys, so
  these are the runs on lists with `NoInheritedKeys`.
* A string-valued optional property is an `Option String`; it is truthy when it is
  present and not the empty string.
* `logger.warn` appends to `Emitter.warnings`.
* A JavaScript string is taken to be well-formed UTF-16, so that it is a sequence of
  characters; `String.prototype.length` is `utf16Length`, which counts a character
  outside the Basic Multilingual Plane twice.
-/

namespace TsdJsdoc

/-- An entry of a `properties`, `params` or `returns` list of a doclet. -/
structure PropDoc where
  name : String := ""
  description : Option String := none
  optional : Bool := false
  defaultvalue : Option String := none
  deriving DecidableEq, Repr, Inhabited

/-- One documentation record.  Fields that only the external type resolver reads
(`type`, `meta`, generic templates) are not part of the model. -/
structure Doclet where
  kind : String := ""
  name : String := ""
  longname : String := ""
  memberof : Option String := none
  scope : Option String := none
  access : Option String := none
  ignore : Bool := false
  isEnum : Option Bool := none
  implements : Option (List String) := none
  mixes : Option (List String) := none
  augments : Option (List String) := none
  properties : Option (List PropDoc) := none
  params : Option (List PropDoc) := none
  returns : Option (List PropDoc) := none
  description : Option String := none
  classdesc : Option String := none
  examples : Option (List String) := none
  comment : Option String := none
  readonly : Bool := false
  defaultvalue : Option String := none
  deriving DecidableEq, Repr, Inhabited

/-- The options object handed to the emitter (`options.private`, `options.access`). -/
structure Options where
  private_ : Bool := false
  access : Option String := none
  deriving DecidableEq, Repr, Inhabited

/-- JavaScript truthiness of an optional string. -/
def truthy (o : Option String) : Bool :=
  match o with
  | none => false
  | some s => decide (s ≠ "")

/-- Source: `isClassLike`. -/
def isClassLike (doclet : Doclet) : Bool :=
  decide (doclet.kind = "class" ∨ doclet.kind = "interface" ∨ doclet.kind = "mixin")

/-- Source: `isModuleLike`. -/
def isModuleLike (doclet : Doclet) : Bool :=
  decide (doclet.kind = "module" ∨ doclet.kind = "namespace")

/-- Source: `isEnum`. -/
def isEnum (doclet : Doclet) : Bool :=
  decide (doclet.kind = "member" ∨ doclet.kind = "constant") && decide (doclet.isEnum = some true)

/-- Source: `shouldMoveOutOfClass`. -/
def shouldMoveOutOfClass (doclet : Doclet) : Bool :=
  isClassLike doclet || isModuleLike doclet || isEnum doclet || decide (doclet.kind = "typedef")

/-- The array literal `accessLevels` of `_ignoreDoclet`. -/
def accessLevels : List String := ["private", "package", "protected", "public"]

/-- `Array.prototype.indexOf`: the first position of `x`, or `-1`. -/
def indexOf (xs : List String) (x : String) : Int :=
  if x ∈ xs then (List.indexOf x xs : Nat) else -1

/-- Source: `Emitter._ignoreDoclet`. -/
def _ignoreDoclet (options : Options) (doclet : Doclet) : Bool :=
  if doclet.kind = "package" ∨ doclet.ignore = true
      ∨ (options.private_ = false ∧ doclet.access = some "private") then true
  else
    match doclet.access with
    | none => false
    | some a =>
      decide (indexOf accessLevels a
        < indexOf accessLevels (if truthy options.access then options.access.getD "" else "package"))

/-- Source: `Emitter._getInterfaceKey`. -/
def _getInterfaceKey (longname : String) : String :=
  if longname ≠ "" then longname ++ "$$interface$helper" else ""

/-- Source: `Emitter._getNamespaceKey`. -/
def _getNamespaceKey (longname : String) : String :=
  if longname ≠ "" then longname ++ "$$namespace$helper" else ""

/-- The doclet a tree node wraps: an object of the input array, or a synthetic
doclet owned by the node. -/
inductive DocRef where
  | src (i : Nat)
  | syn (d : Doclet)
  deriving DecidableEq, Repr, Inhabited

/-- A tree node `{ doclet, children, isNested }`. -/
structure TreeNode where
  doclet : DocRef := DocRef.syn {}
  children : List Nat := []
  isNested : Bool := false
  deriving DecidableEq, Repr, Inhabited

/-- The messages handed to `logger.warn`. -/
inductive Warning where
  | missingNode (longname : String)
  | missingParent (longname : String) (memberof : String)
  | badChild (expected : String)
  deriving DecidableEq, Repr, Inhabited

/-- The emitter together with the objects it references (the `results` of the
synthesis walk are kept apart, see `ParseState`). -/
structure Emitter where
  options : Options := {}
  docs : List Doclet := []
  nodes : List TreeNode := []
  _treeRoots : List Nat := []
  _treeNodes : List (String × Nat) := []
  warnings : List Warning := []
  deriving DecidableEq, Repr, Inhabited

/-- Read `table[k]`. -/
def tableGet : List (String × Nat) → String → Option Nat
  | [], _ => none
  | (k', v) :: t, k => if k' = k then some v else tableGet t k

namespace Emitter

/-- The node object behind a reference. -/
def node (s : Emitter) (n : Nat) : TreeNode := (s.nodes[n]?).getD {}

/-- The `i`-th doclet object of the input array. -/
def doc (s : Emitter) (i : Nat) : Doclet := (s.docs[i]?).getD {}

/-- The doclet object behind a doclet reference. -/
def deref (s : Emitter) : DocRef → Doclet
  | DocRef.src i => s.doc i
  | DocRef.syn d => d

/-- The current contents of `node.doclet`. -/
def docOf (s : Emitter) (n : Nat) : Doclet := s.deref (s.node n).doclet

/-- The current contents of `node.children`. -/
def childrenOf (s : Emitter) (n : Nat) : List Nat := (s.node n).children

/-- Read `this._treeNodes[k]`, for a key that is no property name of
`Object.prototype`: the own binding of the key. -/
def lookup (s : Emitter) (k : String) : Option Nat := tableGet s._treeNodes k

/-- Allocate a fresh node object `{ doclet, children: [] }`; its reference is the
old size of the store. -/
def alloc (s : Emitter) (d : DocRef) : Emitter :=
  { s with nodes := s.nodes ++ [{ doclet := d }] }

/-- The assignment `this._treeNodes[k] = n`. -/
def register (s : Emitter) (k : String) (n : Nat) : Emitter :=
  { s with _treeNodes := (k, n) :: s._treeNodes }

/-- The call `p.children.push(c)`. -/
def pushChild (s : Emitter) (p c : Nat) : Emitter :=
  { s with nodes := s.nodes.set p { s.node p with children := (s.node p).children ++ [c] } }

/-- The call `this._treeRoots.push(c)`. -/
def pushRoot (s : Emitter) (c : Nat) : Emitter :=
  { s with _treeRoots := s._treeRoots ++ [c] }

/-- The call `logger.warn(...)`. -/
def warn (s : Emitter) (w : Warning) : Emitter :=
  { s with warnings := s.warnings ++ [w] }

/-- The assignment `n.isNested = true`. -/
def setNested (s : Emitter) (n : Nat) : Emitter :=
  { s with nodes := s.nodes.set n { s.node n with isNested := true } }

/-- The assignment `n.doclet.memberof = m`. -/
def setMemberof (s : Emitter) (n : Nat) (m : Option String) : Emitter :=
  match (s.node n).doclet with
  | DocRef.src i => { s with docs := s.docs.set i { s.doc i with memberof := m } }
  | DocRef.syn d =>
    { s with nodes := s.nodes.set n { s.node n with doclet := DocRef.syn { d with memberof := m } } }

/-- Push to `this._treeRoots` (container `none`) or to the children of a node. -/
def pushTo (s : Emitter) (container : Option Nat) (c : Nat) : Emitter :=
  match container with
  | none => s.pushRoot c
  | some p => s.pushChild p c

/-- The statement `if (merge) container.push(merge)`. -/
def pushOpt (s : Emitter) (container : Option Nat) (merge : Option Nat) : Emitter :=
  match merge with
  | none => s
  | some c => s.pushTo container c

/-- The three pushes that place a doclet: interface merge, namespace merge, own node. -/
def place (s : Emitter) (container : Option Nat) (interfaceMerge namespaceMerge : Option Nat)
    (obj : Nat) : Emitter :=
  ((s.pushOpt container interfaceMerge).pushOpt container namespaceMerge).pushTo container obj

/-- The doclet literal of a companion namespace (lines 232-237). -/
def companionDoclet (d : Doclet) : Doclet :=
  { kind := "namespace", name := d.name, scope := some "static",
    longname := _getNamespaceKey d.longname }

/-- Lines 231-239 of `_getOrCreateClassNamespace`: the namespace node of `obj` is
created and written to the memo table under the namespace key; its reference is the
old size of the store. -/
def withNamespace (s : Emitter) (obj : Nat) : Emitter :=
  (s.alloc (DocRef.syn (companionDoclet (s.docOf obj)))).register
    (_getNamespaceKey (s.docOf obj).longname) s.nodes.length

/-- Source: `Emitter._getOrCreateClassNamespace`, with the recursion depth bounded by
`fuel` (`none` only when the fuel is exhausted). -/
def _getOrCreateClassNamespaceFuel : Nat → Emitter → Nat → Option (Emitter × Nat)
  | 0, _, _ => none
  | fuel + 1, s, obj =>
    if (s.docOf obj).kind = "namespace" then some (s, obj)
    else
      match s.lookup (_getNamespaceKey (s.docOf obj).longname) with
      | some mod => some (s, mod)
      | none =>
        let mod := s.nodes.length
        let s1 := s.withNamespace obj
        if truthy (s1.docOf obj).memberof then
          match s1.lookup ((s1.docOf obj).memberof.getD "") with
          | none =>
            some (s1.warn (Warning.missingParent (s1.docOf obj).longname
              ((s1.docOf obj).memberof.getD "")), mod)
          | some parent =>
            match _getOrCreateClassNamespaceFuel fuel s1 parent with
            | none => none
            | some (s2, parentMod) =>
              some (((s2.setMemberof mod (some (s2.docOf parentMod).longname)).pushChild
                parentMod mod), mod)
        else some (s1.pushRoot mod, mod)

/-- Source: `Emitter._getOrCreateClassNamespace`.  Every call that does not return at
once adds a binding to `this._treeNodes`, so the depth never exceeds the size of the
table by more than one (`getOrCreateClassNamespace_terminates`). -/
def _getOrCreateClassNamespace (s : Emitter) (obj : Nat) : Option (Emitter × Nat) :=
  _getOrCreateClassNamespaceFuel (s._treeNodes.length + 2) s obj

/-- The body of the loop of `Emitter._createTreeNodes` for `docs[i]`. -/
def createTreeNodesStep (s : Emitter) (i : Nat) : Emitter :=
  let doclet := s.doc i
  if doclet.kind = "package" ∨ _ignoreDoclet s.options doclet = true then s
  else
    match s.lookup doclet.longname with
    | some _ => s
    | none => (s.alloc (DocRef.src i)).register doclet.longname s.nodes.length

/-- Source: `Emitter._createTreeNodes`. -/
def _createTreeNodes (s : Emitter) : Emitter :=
  (List.range s.docs.length).foldl createTreeNodesStep s

/-- The doclet literal of the interface merge node (lines 80-87). -/
def interfaceMergeDoclet (doclet : Doclet) : Doclet :=
  { kind := "interface", name := doclet.name, scope := doclet.scope,
    longname := _getInterfaceKey doclet.longname,
    augments := some (doclet.implements.getD [] ++ doclet.mixes.getD []),
    memberof := doclet.memberof }

/-- Lines 72-91 of `_buildTree`: the interface merge of a class doclet. -/
def interfaceMergeStep (s : Emitter) (doclet : Doclet) : Emitter × Option Nat :=
  if doclet.kind = "class" then
    let extras := doclet.implements.getD [] ++ doclet.mixes.getD []
    if extras ≠ [] then
      ((s.alloc (DocRef.syn (interfaceMergeDoclet doclet))).register
        (_getInterfaceKey doclet.longname) s.nodes.length, some s.nodes.length)
    else (s, none)
  else (s, none)

/-- The predicate of `docs.filter` at line 94. -/
def isStaticChildOf (longname : String) (d : Doclet) : Bool :=
  decide (d.memberof = some longname ∧ d.scope = some "static")

/-- The doclet literal of the namespace merge node (lines 98-104). -/
def namespaceMergeDoclet (doclet : Doclet) : Doclet :=
  { kind := "namespace", name := doclet.name, scope := doclet.scope,
    longname := _getNamespaceKey doclet.longname, memberof := doclet.memberof }

/-- Line 107: `staticChildren.forEach(c => c.memberof = longname)`. -/
def reassignStatic (s : Emitter) (parentLongname : String) : Emitter :=
  { s with docs := s.docs.map (fun c =>
      if isStaticChildOf parentLongname c then
        { c with memberof := some (_getNamespaceKey parentLongname) } else c) }

/-- Lines 92-109 of `_buildTree`: the namespace merge of an interface or mixin doclet. -/
def namespaceMergeStep (s : Emitter) (doclet : Doclet) : Emitter × Option Nat :=
  if doclet.kind = "interface" ∨ doclet.kind = "mixin" then
    let staticChildren := s.docs.filter (isStaticChildOf doclet.longname)
    if staticChildren ≠ [] then
      ((((s.alloc (DocRef.syn (namespaceMergeDoclet doclet))).register
          (_getNamespaceKey doclet.longname) s.nodes.length).reassignStatic doclet.longname),
        some s.nodes.length)
    else (s, none)
  else (s, none)

/-- Lines 126-129 of `_buildTree`: `if (isObjModuleLike && isParentModuleLike)
obj.isNested = true`. -/
def markNested (s : Emitter) (i : Nat) (obj parent : Nat) : Emitter :=
  if isModuleLike (s.doc i) ∧ isModuleLike (s.docOf parent) then s.setNested obj else s

/-- Lines 110-146 of `_buildTree`: the placement of `obj` and of its merge nodes. -/
def placementStep (s : Emitter) (i : Nat) (obj : Nat) (interfaceMerge namespaceMerge : Option Nat) :
    Option Emitter :=
  let doclet := s.doc i
  if truthy doclet.memberof then
    match s.lookup (doclet.memberof.getD "") with
    | none => some (s.warn (Warning.missingParent doclet.longname (doclet.memberof.getD "")))
    | some parent =>
      if isClassLike (s.docOf parent) ∧ shouldMoveOutOfClass doclet then
        match s._getOrCreateClassNamespace parent with
        | none => none
        | some (s1, mod) => some (s1.place (some mod) interfaceMerge namespaceMerge obj)
      else
        let s1 := s.markNested i obj parent
        if isEnum (s1.docOf parent) = false then
          some (s1.place (some parent) interfaceMerge namespaceMerge obj)
        else some s1
  else some (s.place none interfaceMerge namespaceMerge obj)

/-- The body of the loop of `Emitter._buildTree` for `docs[i]`. -/
def buildTreeStep (s : Emitter) (i : Nat) : Option Emitter :=
  let doclet := s.doc i
  if doclet.kind = "package" ∨ _ignoreDoclet s.options doclet = true then some s
  else
    match s.lookup doclet.longname with
    | none => some (s.warn (Warning.missingNode doclet.longname))
    | some obj =>
      let r1 := interfaceMergeStep s doclet
      let r2 := namespaceMergeStep r1.1 doclet
      placementStep r2.1 i obj r1.2 r2.2

/-- The loop of `Emitter._buildTree` over the indices `is`. -/
def buildTreeLoop : Emitter → List Nat → Option Emitter
  | s, [] => some s
  | s, i :: is =>
    match buildTreeStep s i with
    | none => none
    | some s1 => buildTreeLoop s1 is

/-- Source: `Emitter._buildTree`. -/
def _buildTree (s : Emitter) : Option Emitter :=
  buildTreeLoop s (List.range s.docs.length)

/-- The state in which `parse(docs)` starts its passes. -/
def start (options : Options) (docs : List Doclet) : Emitter :=
  { options := options, docs := docs }

/-- The first two passes of `Emitter.parse`: `_createTreeNodes` then `_buildTree`. -/
def build (options : Options) (docs : List Doclet) : Option Emitter :=
  _buildTree (_createTreeNodes (start options docs))

end Emitter

/-! ## The declaration helpers of `dist/create_helpers.js`

The constructs of the `typescript` factory are records of their syntax kind, their
modifiers, their name, their members and their leading comment.  What the external
type resolver (`type_resolve_helpers`, `PropTree`) computes from a doclet is not
modelled: a construct keeps the doclet it was made from in `source` and the two
resolver results that decide a name or a member list are fields of `Resolver`. -/

/-- The syntax kinds the helpers create. -/
inductive SyntaxKind where
  | ClassDeclaration | InterfaceDeclaration | FunctionDeclaration | MethodDeclaration
  | MethodSignature | EnumDeclaration | EnumMember | PropertyDeclaration | PropertySignature
  | VariableStatement | ModuleDeclaration | TypeAliasDeclaration | Constructor
  deriving DecidableEq, Repr, Inhabited

/-- The modifier keywords the helpers create. -/
inductive Modifier where
  | DeclareKeyword | ConstKeyword | ReadonlyKeyword | PrivateKeyword | ProtectedKeyword
  | PublicKeyword | StaticKeyword
  deriving DecidableEq, Repr, Inhabited

/-- A synthesized declaration construct. -/
inductive TsNode where
  | mk (kind : SyntaxKind) (modifiers : List Modifier) (name : String) (members : List TsNode)
      (initializer : Option String) (nested : Bool) (comment : Option String)
      (source : Option Doclet)
  deriving Inhabited

namespace TsNode

/-- The syntax kind of a construct. -/
def kind : TsNode → SyntaxKind
  | mk k _ _ _ _ _ _ _ => k

/-- The modifiers of a construct. -/
def modifiers : TsNode → List Modifier
  | mk _ m _ _ _ _ _ _ => m

/-- The declared name of a construct. -/
def name : TsNode → String
  | mk _ _ n _ _ _ _ _ => n

/-- The members (class or interface members, module body, enum members). -/
def members : TsNode → List TsNode
  | mk _ _ _ ms _ _ _ _ => ms

/-- The literal initializer of an enum member or of a constant. -/
def initializer : TsNode → Option String
  | mk _ _ _ _ i _ _ _ => i

/-- The synthetic leading comment. -/
def comment : TsNode → Option String
  | mk _ _ _ _ _ _ c _ => c

/-- `ts.addSyntheticLeadingComment`. -/
def withComment : TsNode → String → TsNode
  | mk k m n ms i ne _ src, c => mk k m n ms i ne (some c) src

end TsNode

/-- The results of the external resolver that decide names and member lists. -/
structure Resolver where
  resolveOptionalFromName : Doclet → String := fun d => d.name
  propTreeRoots : List PropDoc → List PropDoc := fun ps => ps

/-- `ts.isClassElement` on the constructs the helpers create. -/
def isClassElement (n : TsNode) : Bool :=
  decide (n.kind = SyntaxKind.Constructor ∨ n.kind = SyntaxKind.PropertyDeclaration
    ∨ n.kind = SyntaxKind.MethodDeclaration)

/-- `ts.isTypeElement` on the constructs the helpers create. -/
def isTypeElement (n : TsNode) : Bool :=
  decide (n.kind = SyntaxKind.PropertySignature ∨ n.kind = SyntaxKind.MethodSignature)

/-- The test of `validateModuleChildren`. -/
def isModuleChild (n : TsNode) : Bool :=
  decide (n.kind = SyntaxKind.ClassDeclaration ∨ n.kind = SyntaxKind.InterfaceDeclaration
    ∨ n.kind = SyntaxKind.FunctionDeclaration ∨ n.kind = SyntaxKind.EnumDeclaration
    ∨ n.kind = SyntaxKind.ModuleDeclaration ∨ n.kind = SyntaxKind.TypeAliasDeclaration
    ∨ n.kind = SyntaxKind.VariableStatement)

/-- Source: `validateClassLikeChildren`.  The loop runs from the last child to the
first, so the warnings come in reverse order of the children. -/
def validateClassLikeChildren (validate : TsNode → Bool) (msg : String) :
    List TsNode → List TsNode × List Warning
  | [] => ([], [])
  | child :: rest =>
    let r := validateClassLikeChildren validate msg rest
    if validate child then (child :: r.1, r.2) else (r.1, r.2 ++ [Warning.badChild msg])

/-- Source: `validateClassChildren`. -/
def validateClassChildren (children : List TsNode) : List TsNode × List Warning :=
  validateClassLikeChildren isClassElement "ClassElement" children

/-- Source: `validateInterfaceChildren`. -/
def validateInterfaceChildren (children : List TsNode) : List TsNode × List Warning :=
  validateClassLikeChildren isTypeElement "TypeElement" children

/-- Source: `validateModuleChildren`. -/
def validateModuleChildren : List TsNode → List TsNode × List Warning
  | [] => ([], [])
  | child :: rest =>
    let r := validateModuleChildren rest
    if isModuleChild child then (child :: r.1, r.2)
    else (r.1, r.2 ++ [Warning.badChild "supported declaration"])

/-- Source: `formatMultilineComment`: splitting at the line feeds and joining with a
line feed, a blank, a star and a blank replaces every line feed by these four. -/
def formatMultilineComment (comment : String) : String :=
  String.mk (comment.data.flatMap (fun c => if c = '\n' then ['\n', ' ', '*', ' '] else [c]))

/-- The body of the `map` in `handlePropsComment`. -/
def propComment (jsdocTagName : String) (prop : PropDoc) : String :=
  match prop.description with
  | none => ""
  | some description =>
    if description = "" then ""
    else
      let name :=
        if prop.optional then
          match prop.defaultvalue with
          | some v => "[" ++ prop.name ++ " = " ++ v ++ "]"
          | none => "[" ++ prop.name ++ "]"
        else prop.name
      "\n * @" ++ jsdocTagName ++ " " ++ name ++ " - " ++ formatMultilineComment description

/-- Source: `handlePropsComment`. -/
def handlePropsComment (props : List PropDoc) (jsdocTagName : String) : String :=
  String.join ((props.map (propComment jsdocTagName)).filter (fun v => v ≠ ""))

/-- Source: `handleReturnsComment`. -/
def handleReturnsComment (doclet : Doclet) : String :=
  match doclet.returns with
  | none => ""
  | some rets =>
    String.join ((rets.map (fun ret =>
      match ret.description with
      | none => ""
      | some description =>
        if description = "" then "" else "\n * @returns " ++ formatMultilineComment description)).filter
      (fun v => v ≠ ""))

/-- Source: `handleExamplesComment`. -/
def handleExamplesComment (doclet : Doclet) : String :=
  match doclet.examples with
  | none => ""
  | some examples =>
    String.join (examples.map (fun example_ => "\n * @example\n * " ++ formatMultilineComment example_))

/-- Source: `handleParamsComment`. -/
def handleParamsComment (doclet : Doclet) : String :=
  match doclet.params with
  | none => ""
  | some params => handlePropsComment params "param"

/-- Source: `handlePropertiesComment`. -/
def handlePropertiesComment (doclet : Doclet) : String :=
  match doclet.properties with
  | none => ""
  | some properties =>
    if doclet.isEnum = none ∨ doclet.isEnum = some false then
      handlePropsComment properties "property"
    else ""

/-- `String.prototype.length`: the number of UTF-16 code units of a string, two for
every character above `U+FFFF`. -/
def utf16Length (s : String) : Nat :=
  (s.data.map (fun c => if c.toNat < 65536 then 1 else 2)).sum

/-- Source: `handleComment`. -/
def handleComment (doclet : Doclet) (node : TsNode) : TsNode :=
  if truthy doclet.comment ∧ 4 < utf16Length (doclet.comment.getD "") then
    let description :=
      if truthy doclet.description then
        "\n * " ++ formatMultilineComment (doclet.description.getD "")
      else
        match doclet.classdesc with
        | some classdesc => "\n * " ++ formatMultilineComment classdesc
        | none => ""
    let examples := handleExamplesComment doclet
    let properties := handlePropertiesComment doclet
    let params := handleParamsComment doclet
    let returns := handleReturnsComment doclet
    if description ≠ "" ∨ examples ≠ "" ∨ properties ≠ "" ∨ params ≠ "" ∨ returns ≠ "" then
      node.withComment ("*" ++ description ++ examples ++ properties ++ params ++ returns ++ "\n ")
    else node
  else node

/-- The statement `if (doclet.name.startsWith('exports.')) doclet.name =
doclet.name.replace('exports.', '')`, as the new value of `doclet.name`. -/
def stripExports (name : String) : String :=
  if "exports.".data.isPrefixOf name.data then String.mk (name.data.drop "exports.".data.length)
  else name

/-- The doclet after the name normalisation of a helper. -/
def normalizeName (doclet : Doclet) : Doclet :=
  { doclet with name := stripExports doclet.name }

/-- `doclet.memberof ? undefined : [declareModifier]`. -/
def declareMods (doclet : Doclet) : List Modifier :=
  if truthy doclet.memberof then [] else [Modifier.DeclareKeyword]

/-- The access modifier pushed by `createClassMethod` and `createClassMember`. -/
def accessMods (doclet : Doclet) : List Modifier :=
  if doclet.access = some "private" then [Modifier.PrivateKeyword]
  else if doclet.access = some "protected" then [Modifier.ProtectedKeyword]
  else if doclet.access = some "public" then [Modifier.PublicKeyword]
  else []

/-- `if (doclet.scope === 'static') mods.push(static)`. -/
def staticMods (doclet : Doclet) : List Modifier :=
  if doclet.scope = some "static" then [Modifier.StaticKeyword] else []

/-- The characters the class `\s` of a JavaScript regular expression matches. -/
def isJsWhitespace (c : Char) : Bool :=
  decide (c.toNat = 9 ∨ c.toNat = 10 ∨ c.toNat = 11 ∨ c.toNat = 12 ∨ c.toNat = 13
    ∨ c.toNat = 32 ∨ c.toNat = 160 ∨ c.toNat = 5760 ∨ (8192 ≤ c.toNat ∧ c.toNat ≤ 8202)
    ∨ c.toNat = 8232 ∨ c.toNat = 8233 ∨ c.toNat = 8239 ∨ c.toNat = 8287
    ∨ c.toNat = 12288 ∨ c.toNat = 65279)

/-- The pieces of `description.split(/\r\s*/)`: a separator is a carriage return
together with the whole run of white space after it.  `inSeparator` tells that the
characters read last are a separator, which a white space character continues. -/
def splitCarriageReturnFrom : Bool → List Char → List (List Char)
  | _, [] => [[]]
  | inSeparator, c :: cs =>
    if inSeparator = true ∧ isJsWhitespace c = true then splitCarriageReturnFrom true cs
    else if c = '\r' then [] :: splitCarriageReturnFrom true cs
    else
      match splitCarriageReturnFrom false cs with
      | [] => [[c]]
      | piece :: rest => (c :: piece) :: rest

/-- The pieces of `description.split(/\r\s*/)`. -/
def splitCarriageReturn (cs : List Char) : List (List Char) :=
  splitCarriageReturnFrom false cs

/-- The property members `createClass` makes from `doclet.properties` (lines 134-147);
the split of the description is on a carriage return followed by white space. -/
def classPropertyMembers (r : Resolver) (doclet : Doclet) : List TsNode :=
  match doclet.properties with
  | none => []
  | some properties =>
    (r.propTreeRoots properties).map (fun p =>
      TsNode.mk SyntaxKind.PropertyDeclaration [] p.name [] none false
        (match p.description with
          | none => none
          | some description =>
            if description = "" then none
            else some ("*\n * " ++ String.intercalate "\n * "
              ((splitCarriageReturn description.data).map String.mk) ++ "\n"))
        none)

/-- Source: `createClass`.  Returns the doclet after the helper (its name may have been
normalised), the warnings and the construct. -/
def createClass (r : Resolver) (doclet : Doclet) (children : List TsNode) :
    Doclet × List Warning × TsNode :=
  let v := validateClassChildren children
  let mods := declareMods doclet
  let d := normalizeName doclet
  let ctor := if d.params.isSome then
      [TsNode.mk SyntaxKind.Constructor [] "constructor" [] none false none (some d)] else []
  let members := ctor ++ v.1 ++ classPropertyMembers r d
  (d, v.2, handleComment d (TsNode.mk SyntaxKind.ClassDeclaration mods d.name members none false
    none (some d)))

/-- Source: `createInterface`. -/
def createInterface (doclet : Doclet) (children : List TsNode) : Doclet × List Warning × TsNode :=
  let v := validateInterfaceChildren children
  let mods := declareMods doclet
  let d := normalizeName doclet
  (d, v.2, handleComment d (TsNode.mk SyntaxKind.InterfaceDeclaration mods d.name v.1 none false
    none (some d)))

/-- Source: `createFunction`. -/
def createFunction (doclet : Doclet) : Doclet × List Warning × TsNode :=
  let mods := declareMods doclet
  let d := normalizeName doclet
  (d, [], handleComment d (TsNode.mk SyntaxKind.FunctionDeclaration mods d.name [] none false
    none (some d)))

/-- Source: `createClassMethod`. -/
def createClassMethod (r : Resolver) (doclet : Doclet) : Doclet × List Warning × TsNode :=
  let mods := declareMods doclet ++ accessMods doclet ++ staticMods doclet
  let d := normalizeName doclet
  (d, [], handleComment d (TsNode.mk SyntaxKind.MethodDeclaration mods
    (r.resolveOptionalFromName d) [] none false none (some d)))

/-- Source: `createInterfaceMethod`. -/
def createInterfaceMethod (r : Resolver) (doclet : Doclet) : Doclet × List Warning × TsNode :=
  let d := normalizeName doclet
  (d, [], handleComment d (TsNode.mk SyntaxKind.MethodSignature []
    (r.resolveOptionalFromName d) [] none false none (some d)))

/-- Source: `createEnum`. -/
def createEnum (doclet : Doclet) : Doclet × List Warning × TsNode :=
  let mods := declareMods doclet ++ (if doclet.kind = "constant" then [Modifier.ConstKeyword] else [])
  let props := (doclet.properties.getD []).map (fun p =>
    TsNode.mk SyntaxKind.EnumMember [] p.name [] p.defaultvalue false none none)
  (doclet, [], handleComment doclet (TsNode.mk SyntaxKind.EnumDeclaration mods doclet.name props
    none false none (some doclet)))

/-- Source: `createClassMember`. -/
def createClassMember (r : Resolver) (doclet : Doclet) : Doclet × List Warning × TsNode :=
  let mods := accessMods doclet ++ staticMods doclet
    ++ (if doclet.kind = "constant" ∨ doclet.readonly = true then [Modifier.ReadonlyKeyword] else [])
  (doclet, [], handleComment doclet (TsNode.mk SyntaxKind.PropertyDeclaration mods
    (r.resolveOptionalFromName doclet) [] none false none (some doclet)))

/-- Source: `createInterfaceMember`. -/
def createInterfaceMember (r : Resolver) (doclet : Doclet) : Doclet × List Warning × TsNode :=
  let mods := (if doclet.kind = "constant" then [Modifier.ReadonlyKeyword] else []) ++ staticMods doclet
  (doclet, [], handleComment doclet (TsNode.mk SyntaxKind.PropertySignature mods
    (r.resolveOptionalFromName doclet) [] none false none (some doclet)))

/-- Source: `createNamespaceMember`.  The literal of `doclet.meta.code` is part of
what the resolver reads and is not modelled. -/
def createNamespaceMember (doclet : Doclet) : Doclet × List Warning × TsNode :=
  let mods := declareMods doclet
  let isConst := decide (doclet.kind = "constant" ∨ doclet.readonly = true)
  let initializer := if isConst then doclet.defaultvalue else none
  let d := normalizeName doclet
  (d, [], handleComment d (TsNode.mk SyntaxKind.VariableStatement
    (mods ++ (if isConst then [Modifier.ConstKeyword] else [])) d.name [] initializer false none (some d)))

/-- Source: `createModule`. -/
def createModule (doclet : Doclet) (nested : Bool) (children : List TsNode) :
    Doclet × List Warning × TsNode :=
  let v := validateModuleChildren children
  let mods := declareMods doclet
  let d := normalizeName doclet
  (d, v.2, handleComment d (TsNode.mk SyntaxKind.ModuleDeclaration mods d.name v.1 none nested
    none (some d)))

/-- Source: `createNamespace`. -/
def createNamespace (doclet : Doclet) (nested : Bool) (children : List TsNode) :
    Doclet × List Warning × TsNode :=
  let v := validateModuleChildren children
  let mods := declareMods doclet
  let d := normalizeName doclet
  (d, v.2, handleComment d (TsNode.mk SyntaxKind.ModuleDeclaration mods d.name v.1 none nested
    none (some d)))

/-- Source: `createTypedef`. -/
def createTypedef (doclet : Doclet) : Doclet × List Warning × TsNode :=
  let mods := declareMods doclet
  let d := normalizeName doclet
  (d, [], handleComment d (TsNode.mk SyntaxKind.TypeAliasDeclaration mods d.name [] none false
    none (some d)))

namespace Emitter

/-- What a call of `_parseTreeNode` or `_parseTree` ends in: a value, or the
exception thrown by `assertNever` on a doclet kind outside the switch. -/
inductive Outcome (α : Type) where
  | value (a : α)
  | assertNever (kind : String)

/-- Overwrite the doclet object of a node with its contents after a helper ran. -/
def setDoclet (s : Emitter) (n : Nat) (d : Doclet) : Emitter :=
  match (s.node n).doclet with
  | DocRef.src i => { s with docs := s.docs.set i d }
  | DocRef.syn _ => { s with nodes := s.nodes.set n { s.node n with doclet := DocRef.syn d } }

/-- Record the effects of a helper on the state: the doclet it may have renamed and
the warnings it logged. -/
def afterHelper (s : Emitter) (n : Nat) (r : Doclet × List Warning × TsNode) :
    Emitter × Option TsNode :=
  ({ (s.setDoclet n r.1) with warnings := (s.setDoclet n r.1).warnings ++ r.2.1 }, some r.2.2)

/-- The `switch` of `_parseTreeNode` (lines 165-204), for the node `n`, the `parent`
argument and the synthesized `children`. -/
def dispatch (r : Resolver) (s : Emitter) (n : Nat) (parent : Option Nat)
    (children : List TsNode) : Outcome (Emitter × Option TsNode) :=
  let doclet := s.docOf n
  if doclet.kind = "class" then Outcome.value (s.afterHelper n (createClass r doclet children))
  else if doclet.kind = "constant" ∨ doclet.kind = "member" then
    if doclet.isEnum = some true then Outcome.value (s.afterHelper n (createEnum doclet))
    else if (parent.map (fun p => (s.docOf p).kind)) = some "class" then
      Outcome.value (s.afterHelper n (createClassMember r doclet))
    else if (parent.map (fun p => (s.docOf p).kind)) = some "interface" then
      Outcome.value (s.afterHelper n (createInterfaceMember r doclet))
    else Outcome.value (s.afterHelper n (createNamespaceMember doclet))
  else if doclet.kind = "callback" ∨ doclet.kind = "function" then
    let parentKind :=
      if truthy doclet.memberof then
        (s.lookup (doclet.memberof.getD "")).map (fun p => (s.docOf p).kind)
      else none
    if parentKind = some "class" then Outcome.value (s.afterHelper n (createClassMethod r doclet))
    else if parentKind = some "interface" then
      Outcome.value (s.afterHelper n (createInterfaceMethod r doclet))
    else Outcome.value (s.afterHelper n (createFunction doclet))
  else if doclet.kind = "interface" then
    Outcome.value (s.afterHelper n (createInterface doclet children))
  else if doclet.kind = "mixin" then
    Outcome.value (s.afterHelper n (createInterface doclet children))
  else if doclet.kind = "module" then
    Outcome.value (s.afterHelper n (createModule doclet (s.node n).isNested children))
  else if doclet.kind = "namespace" then
    Outcome.value (s.afterHelper n (createNamespace doclet (s.node n).isNested children))
  else if doclet.kind = "typedef" then Outcome.value (s.afterHelper n (createTypedef doclet))
  else if doclet.kind = "file" then Outcome.value (s, none)
  else if doclet.kind = "event" then Outcome.value (s, none)
  else Outcome.assertNever doclet.kind

/-- The loop of lines 159-163 over the children of a node, `visit` being the
recursive call `this._parseTreeNode(child, node)`. -/
def parseChildren (visit : Emitter → Nat → Option (Outcome (Emitter × Option TsNode))) :
    Emitter → List Nat → List TsNode → Option (Outcome (Emitter × List TsNode))
  | s, [], acc => some (Outcome.value (s, acc))
  | s, c :: cs, acc =>
    match visit s c with
    | none => none
    | some (Outcome.assertNever k) => some (Outcome.assertNever k)
    | some (Outcome.value (s1, childNode)) =>
      parseChildren visit s1 cs (match childNode with
        | some t => acc ++ [t]
        | none => acc)

/-- Source: `Emitter._parseTreeNode`, the recursion depth bounded by `fuel` (`none`
only when the fuel is exhausted). -/
def _parseTreeNode (r : Resolver) : Nat → Emitter → Nat → Option Nat →
    Option (Outcome (Emitter × Option TsNode))
  | 0, _, _, _ => none
  | fuel + 1, s, n, parent =>
    match parseChildren (fun s1 c => _parseTreeNode r fuel s1 c (some n)) s (s.childrenOf n) [] with
    | none => none
    | some (Outcome.assertNever k) => some (Outcome.assertNever k)
    | some (Outcome.value (s1, children)) => some (dispatch r s1 n parent children)

/-- Source: `Emitter._parseTree`: the loop over `this._treeRoots`, `results` being the
value of `this.results` so far. -/
def _parseTree (r : Resolver) (fuel : Nat) (s : Emitter) :
    Option (Outcome (Emitter × List TsNode)) :=
  parseChildren (fun s1 c => _parseTreeNode r fuel s1 c none) s s._treeRoots []

/-- Source: `Emitter.parse`: the three passes; the value is the final state and
`this.results`. -/
def parse (r : Resolver) (fuel : Nat) (options : Options) (docs : List Doclet) :
    Option (Outcome (Emitter × List TsNode)) :=
  match build options docs with
  | none => none
  | some s => _parseTree r fuel s

end Emitter

/-! ## Notions used in the statements -/

/-- The position of an access level in `private < package < protected < public`
(`-1` for any other string). -/
def accessPosition (a : String) : Int :=
  if a = "private" then 0 else if a = "package" then 1
  else if a = "protected" then 2 else if a = "public" then 3 else -1

/-- The configured minimum level: `options.access || "package"`. -/
def minimumAccess (options : Options) : String :=
  if truthy options.access then options.access.getD "" else "package"

namespace Emitter

/-- A node on which `_getOrCreateClassNamespace` does not return at once: it is not
a namespace and its namespace key is not yet in the table. -/
def pendingNode (s : Emitter) (n : Nat) : Bool :=
  decide ((s.docOf n).kind ≠ "namespace")
    && (s.lookup (_getNamespaceKey (s.docOf n).longname)).isNone

/-- The number of table bindings whose node is pending. -/
def pendingCount (s : Emitter) : Nat :=
  s._treeNodes.countP (fun e => s.pendingNode e.2)

end Emitter

/-! ## Notions used in the invariants of the tree builder -/

/-- A doclet with its `memberof` blanked: the part of a doclet the builder never
assigns to. -/
def Doclet.unmember (d : Doclet) : Doclet := { d with memberof := none }

/-- The `i`-th doclet of an input list. -/
def docAt (docs : List Doclet) (i : Nat) : Doclet := (docs[i]?).getD {}

/-- A doclet survives the filter of both passes: `doclet.kind === 'package' ||
this._ignoreDoclet(doclet)` is false. -/
def survives (options : Options) (d : Doclet) : Bool :=
  !(decide (d.kind = "package") || _ignoreDoclet options d)

/-- The surviving doclets of the list have pairwise distinct longnames. -/
def DistinctLongnames (options : Options) (docs : List Doclet) : Prop :=
  ∀ i, i < docs.length → ∀ j, j < docs.length → survives options (docAt docs i) = true →
    survives options (docAt docs j) = true →
    (docAt docs i).longname = (docAt docs j).longname → i = j

/-- A string is a derived merge key: a value of `_getNamespaceKey` or of
`_getInterfaceKey`. -/
def IsDerivedKey (k : String) : Prop :=
  ∃ x, k = _getNamespaceKey x ∨ k = _getInterfaceKey x

/-- No surviving doclet of the list has a derived merge key as its longname. -/
def NoDerivedLongnames (options : Options) (docs : List Doclet) : Prop :=
  ∀ i, i < docs.length → survives options (docAt docs i) = true →
    ¬ IsDerivedKey (docAt docs i).longname

/-- The property names of `Object.prototype`: the keys at which a read of the plain
object `this._treeNodes` returns an inherited value. -/
def objectPrototypeKeys : List String :=
  ["constructor", "hasOwnProperty", "isPrototypeOf", "propertyIsEnumerable", "toLocaleString",
    "toString", "valueOf", "__proto__", "__defineGetter__", "__defineSetter__",
    "__lookupGetter__", "__lookupSetter__"]

/-- No surviving doclet of the list has a property name of `Object.prototype` as its
longname or as its `memberof`: the runs of the passes read the lookup table at own
bindings only. -/
def NoInheritedKeys (options : Options) (docs : List Doclet) : Prop :=
  ∀ d ∈ docs, survives options d = true →
    d.longname ∉ objectPrototypeKeys ∧ d.memberof.getD "" ∉ objectPrototypeKeys

/-- The index of the input doclet behind a doclet reference (`none` for a synthetic
doclet). -/
def DocRef.index : DocRef → Option Nat
  | DocRef.src i => some i
  | DocRef.syn _ => none

namespace Emitter

/-- The index of the input doclet a node wraps (`none` for a synthetic node). -/
def srcIndex (s : Emitter) (n : Nat) : Option Nat := (s.node n).doclet.index

/-- Validity of a container reference: the forest roots, or an allocated node. -/
def validContainer (s : Emitter) (c : Option Nat) : Bool :=
  match c with
  | none => true
  | some p => decide (p < s.nodes.length)

/-- The contents of a container: `this._treeRoots` (`none`) or the children of a node. -/
def container (s : Emitter) (c : Option Nat) : List Nat :=
  match c with
  | none => s._treeRoots
  | some p => s.childrenOf p

/-- The node `n` is in no container: neither a forest root nor a child of a node. -/
def Unplaced (s : Emitter) (n : Nat) : Prop := ∀ c, n ∉ s.container c

/-- The state `s'` is reached from `s` by appending: doclets and nodes keep
everything but `memberof` and `isNested`, the store, the containers and the
warnings only grow at their end. -/
structure Grows (s s' : Emitter) : Prop where
  options : s'.options = s.options
  docs_length : s'.docs.length = s.docs.length
  doc_frame : ∀ i, (s'.doc i).unmember = (s.doc i).unmember
  nodes_length : s.nodes.length ≤ s'.nodes.length
  srcIndex_eq : ∀ n, n < s.nodes.length → s'.srcIndex n = s.srcIndex n
  docOf_frame : ∀ n, n < s.nodes.length → (s'.docOf n).unmember = (s.docOf n).unmember
  container_prefix : ∀ c, s.container c <+: s'.container c
  warnings_prefix : s.warnings <+: s'.warnings

/-- Well-formedness of a state of the builder on the input `docs`: the doclet objects
are those of the input up to `memberof`, every reference is to an allocated node,
every table key is the longname of its node, and a node wraps a surviving doclet or a
synthetic one. -/
structure WF (options : Options) (docs : List Doclet) (s : Emitter) : Prop where
  options_eq : s.options = options
  docs_length : s.docs.length = docs.length
  doc_frame : ∀ i, (s.doc i).unmember = (docAt docs i).unmember
  table_valid : ∀ k n, s.lookup k = some n → n < s.nodes.length
  container_valid : ∀ c n, n ∈ s.container c → n < s.nodes.length
  key_longname : ∀ k n, s.lookup k = some n → (s.docOf n).longname = k
  src_survives : ∀ n i, s.srcIndex n = some i →
    i < docs.length ∧ survives options (docAt docs i) = true

/-- Every source node in a container wraps a doclet of index below `j`, and the
source nodes of a container come in the order of their doclets. -/
structure Ordered (s : Emitter) (j : Nat) : Prop where
  bound : ∀ c n i, n ∈ s.container c → s.srcIndex n = some i → i < j
  sorted : ∀ c, ((s.container c).filterMap s.srcIndex).Pairwise (fun a b => a < b)

/-- Every node occurs at most once in total among the forest roots and all children
lists. -/
structure Forest (s : Emitter) : Prop where
  nodup : ∀ c, (s.container c).Nodup
  unique : ∀ c c' n, n ∈ s.container c → n ∈ s.container c' → c = c'

/-- What a run of `_getOrCreateClassNamespace` from `s` to `s'` does, `L` being a size
of the node store not above that of `s`: the doclet array is untouched, the nodes
allocated in between are synthetic namespaces, whatever is pushed is a node of index
at least `L`, the table keeps its bindings and gains bindings of namespace keys that
were absent, and the doclets of the nodes below `L` are untouched. -/
structure GocPost (L : Nat) (s s' : Emitter) : Prop where
  grows : Grows s s'
  docs_eq : s'.docs = s.docs
  fresh_syn : ∀ n, s.nodes.length ≤ n → n < s'.nodes.length →
    s'.srcIndex n = none ∧ (s'.docOf n).kind = "namespace"
  pushes_fresh : ∀ c, ∃ t, s'.container c = s.container c ++ t ∧ ∀ n ∈ t, L ≤ n
  lookup_old : ∀ k n, s.lookup k = some n → s'.lookup k = some n
  lookup_new : ∀ k n, s'.lookup k = some n →
    s.lookup k = some n ∨ (s.lookup k = none ∧ L ≤ n ∧ ∃ x, k = _getNamespaceKey x)
  old_docOf : ∀ n, n < L → s'.docOf n = s.docOf n

/-- Every node the table holds under a namespace key is a namespace. -/
def NsKeysOk (s : Emitter) : Prop :=
  ∀ x n, s.lookup (_getNamespaceKey x) = some n → (s.docOf n).kind = "namespace"

/-- The table holds, under the longname of every surviving doclet, the node that
wraps this doclet. -/
def SrcTable (options : Options) (docs : List Doclet) (s : Emitter) : Prop :=
  ∀ i, i < docs.length → survives options (docAt docs i) = true →
    ∃ n, s.lookup (docAt docs i).longname = some n ∧ s.srcIndex n = some i

/-- The state after the first `j` iterations of `_createTreeNodes`. -/
def createPrefix (options : Options) (docs : List Doclet) (j : Nat) : Emitter :=
  (List.range j).foldl createTreeNodesStep (start options docs)

/-- What holds during the first pass: the doclets are untouched, nothing is placed,
and the table holds exactly the first surviving doclet of every longname seen so far. -/
structure CreateInv (o : Options) (D : List Doclet) (j : Nat) (s : Emitter) : Prop where
  wf : WF o D s
  docs_eq : s.docs = D
  empty : ∀ c, s.container c = []
  table_src : ∀ k n, s.lookup k = some n →
    ∃ i, i < j ∧ s.srcIndex n = some i ∧ (docAt D i).longname = k
  src_table : ∀ i, i < j → i < D.length → survives o (docAt D i) = true →
    ∃ n, s.lookup (docAt D i).longname = some n

/-- The state after `_createTreeNodes` and the first `j` iterations of `_buildTree`. -/
def buildPrefix (options : Options) (docs : List Doclet) (j : Nat) : Option Emitter :=
  buildTreeLoop (_createTreeNodes (start options docs)) (List.range j)

end Emitter

/-- In every container left by the builder, the nodes of input doclets come in the
order of the doclets in the input list: a node further to the right never wraps an
earlier doclet (and never the same one). -/
def OrderKept (options : Options) (docs : List Doclet) : Prop :=
  ∀ s : Emitter, Emitter.build options docs = some s →
    ∀ (c : Option Nat) (p q n m i j : Nat), p < q →
      (s.container c)[p]? = some n → (s.container c)[q]? = some m →
      s.srcIndex n = some i → s.srcIndex m = some j → i < j

namespace Emitter

/-- The run of the loop of `_parseTree` over the roots `l` from the state `s` to the
state `s'`: `visit` is called on one root after the other, each call in the state the
call before has left, and the results are the constructs the calls return, in the order
of the roots, a root without a construct leaving no result. -/
inductive RootsRun (visit : Emitter → Nat → Option (Outcome (Emitter × Option TsNode))) :
    Emitter → List Nat → Emitter → List TsNode → Prop where
  | nil (s : Emitter) : RootsRun visit s [] s []
  | cons {s s1 s' : Emitter} {c : Nat} {cs : List Nat} {out : Option TsNode}
      {res : List TsNode} :
      visit s c = some (Outcome.value (s1, out)) → RootsRun visit s1 cs s' res →
      RootsRun visit s (c :: cs) s' (out.toList ++ res)

end Emitter

/-- The results of `_parseTree` from the state `s` keep the order of the forest roots:
the run returns the results `results` in the state `s'` exactly when they are the
constructs of the calls of `_parseTreeNode` on the roots, one root after the other, each
call made in the state the call before has left. -/
def ResultsFollowRoots (r : Resolver) (fuel : Nat) (s : Emitter) : Prop :=
  ∀ (s' : Emitter) (results : List TsNode),
    Emitter._parseTree r fuel s = some (Emitter.Outcome.value (s', results))
      ↔ Emitter.RootsRun (fun s1 c => Emitter._parseTreeNode r fuel s1 c none)
          s s._treeRoots s' results

/-- Three top-level functions and a namespace between them, whose two functions are
listed in the order `z`, `a`. -/
def orderDocs : List Doclet :=
  [{ kind := "function", name := "b", longname := "b" },
   { kind := "namespace", name := "N", longname := "N" },
   { kind := "function", name := "z", longname := "N.z", memberof := some "N" },
   { kind := "function", name := "c", longname := "c" },
   { kind := "function", name := "a", longname := "N.a", memberof := some "N" },
   { kind := "function", name := "a", longname := "a" }]

/-- A list with a duplicated longname whose first doclet is an orphan: the node of the
first doclet is pushed to the roots by the third iteration, after the node of the second. -/
def duplicateOrphanDocs : List Doclet :=
  [{ kind := "function", name := "x", longname := "X", memberof := some "Nope" },
   { kind := "function", name := "y", longname := "Y" },
   { kind := "function", name := "x", longname := "X" }]

/-- A class and one of its methods. -/
def fooBarDocs : List Doclet :=
  [{ kind := "class", name := "Foo", longname := "Foo" },
   { kind := "function", name := "bar", longname := "Foo#bar", memberof := some "Foo",
     scope := some "instance" }]

namespace Emitter

/-- The node `d` is a proper descendant of the node `p`: a child, or a descendant of
a child. -/
inductive Descendant (s : Emitter) : Nat → Nat → Prop where
  | child {p c : Nat} : c ∈ s.childrenOf p → Descendant s p c
  | step {p c d : Nat} : c ∈ s.childrenOf p → Descendant s c d → Descendant s p d

/-- The node `n` is reachable from the forest roots: a root, or a descendant of a root. -/
def Reachable (s : Emitter) (n : Nat) : Prop :=
  n ∈ s._treeRoots ∨ ∃ r, r ∈ s._treeRoots ∧ Descendant s r n

/-- A path from a forest root down the children lists, written from its last node
back to the root. -/
inductive RootPath (roots : List Nat) (ch : Nat → List Nat) : List Nat → Prop where
  | root {r : Nat} : r ∈ roots → RootPath roots ch [r]
  | cons {c p : Nat} {l : List Nat} :
      RootPath roots ch (p :: l) → c ∈ ch p → RootPath roots ch (c :: p :: l)

/-- The outcome of a walk leaves the children lists as they were. -/
def ShapeKept {α : Type} (ch : Nat → List Nat) : Outcome (Emitter × α) → Prop
  | Outcome.value v => ∀ m, v.1.childrenOf m = ch m
  | Outcome.assertNever _ => True

/-- The structure left by the builder is a proper forest: every node occurs at most
once among the forest roots and all children lists, and no node reachable from a root
is its own descendant. -/
def ProperForest (s : Emitter) : Prop :=
  Forest s ∧ ∀ n, Reachable s n → ¬ Descendant s n n

end Emitter

/-- Two classes that are members of each other. -/
def cyclicDocs : List Doclet :=
  [{ kind := "class", name := "A", longname := "A", memberof := some "B" },
   { kind := "class", name := "B", longname := "B", memberof := some "A" }]

/-- A namespace `N` with a function and a nested namespace that has a class, next to two
classes that are members of each other. -/
def cycleBesideTreeDocs : List Doclet :=
  [{ kind := "namespace", name := "N", longname := "N" },
   { kind := "function", name := "f", longname := "N.f", memberof := some "N" },
   { kind := "namespace", name := "M", longname := "N.M", memberof := some "N" },
   { kind := "class", name := "K", longname := "N.M.K", memberof := some "N.M" },
   { kind := "class", name := "A", longname := "A", memberof := some "B" },
   { kind := "class", name := "B", longname := "B", memberof := some "A" },
   { kind := "function", name := "g", longname := "g" }]

namespace Emitter

/-- Every source node in a container wraps a doclet whose index satisfies `P`. -/
def PlacedIn (P : Nat → Prop) (s : Emitter) : Prop :=
  ∀ c n i, n ∈ s.container c → s.srcIndex n = some i → P i

/-- The state in which the placement of `docs[i]` starts: after the first `i`
iterations and the two merge steps of iteration `i`. -/
def beforePlacement (s : Emitter) (i : Nat) : Emitter :=
  (namespaceMergeStep (interfaceMergeStep s (s.doc i)).1 (s.doc i)).1

/-- The doclet `docs[i]` survives, has a node, and its `memberof` matches no node of
the lookup table when it is placed (line 111 reads `undefined`). -/
def OrphanAt (options : Options) (docs : List Doclet) (i : Nat) : Prop :=
  ∃ s obj, buildPrefix options docs i = some s
    ∧ survives s.options (s.doc i) = true
    ∧ s.lookup (s.doc i).longname = some obj
    ∧ truthy ((s.beforePlacement i).doc i).memberof = true
    ∧ (s.beforePlacement i).lookup (((s.beforePlacement i).doc i).memberof.getD "") = none

end Emitter

/-- C7 as stated: when a surviving doclet is an orphan, its node is not reachable from
the forest roots, the builder reports exactly one warning, and the node of every other
surviving doclet is reachable from the forest roots. -/
def OrphanLosesOnlyItself (options : Options) (docs : List Doclet) : Prop :=
  ∀ i, i < docs.length → Emitter.OrphanAt options docs i →
    ∀ s : Emitter, Emitter.build options docs = some s →
      (∀ n, s.srcIndex n = some i → ¬ s.Reachable n)
      ∧ s.warnings.length = 1
      ∧ ∀ j, j < docs.length → j ≠ i → survives options (docAt docs j) = true →
          ∃ n, s.srcIndex n = some j ∧ s.Reachable n

/-- An orphan, a member of the orphan, and a second orphan. -/
def orphanWithChildDocs : List Doclet :=
  [{ kind := "function", name := "x", longname := "X", memberof := some "Nope" },
   { kind := "function", name := "y", longname := "Y", memberof := some "X" },
   { kind := "function", name := "z", longname := "Z", memberof := some "Gone" }]

/-- An orphan between two top-level functions. -/
def orphanDocs : List Doclet :=
  [{ kind := "function", name := "a", longname := "A" },
   { kind := "function", name := "x", longname := "X", memberof := some "Nope" },
   { kind := "function", name := "b", longname := "B" }]

namespace Emitter

/-- No node whose doclet is class-like has a direct child whose doclet is to be moved
out of classes (class-like, module-like, an enum-tagged member or constant, a typedef). -/
def ClassChildren (s : Emitter) : Prop :=
  ∀ p c, c ∈ s.childrenOf p → isClassLike (s.docOf p) = true →
    shouldMoveOutOfClass (s.docOf c) = false

/-- When `docs[i]` is placed, its `memberof` resolves to the node `p` (line 111 reads
`p` from the lookup table), and the doclet of `p` is class-like. -/
def ResolvesToClass (options : Options) (docs : List Doclet) (i p : Nat) : Prop :=
  ∃ s, buildPrefix options docs i = some s
    ∧ truthy ((s.beforePlacement i).doc i).memberof = true
    ∧ (s.beforePlacement i).lookup (((s.beforePlacement i).doc i).memberof.getD "") = some p
    ∧ isClassLike ((s.beforePlacement i).docOf p) = true

/-- The two parts of C1 in the state `s` left by the builder: no class-like node has a
child that is to be moved out of classes, and the node of every surviving doclet that
is to be moved out and whose `memberof` resolves to a class-like node `p` is a child of
a namespace-kind node named by the longname of `p` followed by the namespace suffix. -/
def MovedOutOfClasses (options : Options) (docs : List Doclet) (s : Emitter) : Prop :=
  ClassChildren s
  ∧ ∀ i p, i < docs.length → survives options (docAt docs i) = true →
      shouldMoveOutOfClass (docAt docs i) = true → ResolvesToClass options docs i p →
      ∃ n g, s.srcIndex n = some i ∧ n ∈ s.childrenOf g ∧ (s.docOf g).kind = "namespace"
        ∧ (s.docOf g).longname = (s.docOf p).longname ++ "$$namespace$helper"

end Emitter

/-- A class `P`, a class whose longname is the namespace key of `P`, and a class that
is a member of `P`. -/
def namespaceKeyClashDocs : List Doclet :=
  [{ kind := "class", name := "P", longname := "P" },
   { kind := "class", name := "Q", longname := "P$$namespace$helper" },
   { kind := "class", name := "C", longname := "P.C", memberof := some "P" }]

/-- A class with a typedef and a method as members. -/
def classWithTypedefDocs : List Doclet :=
  [{ kind := "class", name := "P", longname := "P" },
   { kind := "typedef", name := "T", longname := "P.T", memberof := some "P" },
   { kind := "function", name := "m", longname := "P#m", memberof := some "P",
     scope := some "instance" }]

namespace Emitter

/-- The doclet `docs[i]` is placed: when its placement starts it has no truthy
`memberof`, or its `memberof` resolves to a node whose doclet is not enum-tagged. -/
def PlacedAt (options : Options) (docs : List Doclet) (i : Nat) : Prop :=
  ∃ s, buildPrefix options docs i = some s
    ∧ (truthy ((s.beforePlacement i).doc i).memberof = false
      ∨ ∃ p, (s.beforePlacement i).lookup (((s.beforePlacement i).doc i).memberof.getD "") = some p
          ∧ isEnum ((s.beforePlacement i).docOf p) = false)

/-- Every interface-kind node of the store wraps an input doclet or is the interface
merge of a surviving class with a non-empty `implements ++ mixes`. -/
def IfaceNodes (options : Options) (docs : List Doclet) (s : Emitter) : Prop :=
  ∀ m, m < s.nodes.length → (s.docOf m).kind = "interface" →
    (∃ i, s.srcIndex m = some i)
    ∨ ∃ k, k < docs.length ∧ survives options (docAt docs k) = true
        ∧ (docAt docs k).kind = "class"
        ∧ (docAt docs k).implements.getD [] ++ (docAt docs k).mixes.getD [] ≠ []
        ∧ (s.docOf m).longname = _getInterfaceKey (docAt docs k).longname

/-- C2 in the state `s` left by the builder, `same` being the sense in which the class
doclet is unchanged.  For a surviving placed class with a non-empty
`implements ++ mixes`: a synthetic interface-kind node named by the class longname
followed by the interface suffix, with `augments` equal to `implements ++ mixes`, sits
immediately before the node of the class in one container, and the class doclet is the
same as in the input.  For a surviving class with an empty `implements ++ mixes`: no
interface-kind node of the store has that name. -/
def InterfaceMergeClaim (same : Doclet → Doclet → Prop) (options : Options) (docs : List Doclet)
    (s : Emitter) : Prop :=
  (∀ i, i < docs.length → survives options (docAt docs i) = true →
      (docAt docs i).kind = "class" →
      (docAt docs i).implements.getD [] ++ (docAt docs i).mixes.getD [] ≠ [] →
      PlacedAt options docs i →
      (∃ m n c pre post, s.srcIndex m = none ∧ (s.docOf m).kind = "interface"
        ∧ (s.docOf m).longname = (docAt docs i).longname ++ "$$interface$helper"
        ∧ (s.docOf m).augments
            = some ((docAt docs i).implements.getD [] ++ (docAt docs i).mixes.getD [])
        ∧ s.srcIndex n = some i
        ∧ s.container c = pre ++ m :: n :: post)
      ∧ same (s.doc i) (docAt docs i))
  ∧ ∀ i, i < docs.length → survives options (docAt docs i) = true →
      (docAt docs i).kind = "class" →
      (docAt docs i).implements.getD [] ++ (docAt docs i).mixes.getD [] = [] →
      ∀ m, m < s.nodes.length → (s.docOf m).kind = "interface" →
        (s.docOf m).longname ≠ (docAt docs i).longname ++ "$$interface$helper"

end Emitter

/-- Two classes of the same longname, each with an `implements` list. -/
def duplicateClassDocs : List Doclet :=
  [{ kind := "class", name := "K", longname := "K", implements := some ["A"] },
   { kind := "class", name := "K", longname := "K", implements := some ["B"] }]

/-- A class with an `implements` list and a class whose longname is the interface key
of the first. -/
def interfaceKeyClashDocs : List Doclet :=
  [{ kind := "class", name := "K", longname := "K", implements := some ["A"] },
   { kind := "class", name := "L", longname := "K$$interface$helper", implements := some ["B"] }]

/-- An interface and a class with an `implements` list that is a static member of it. -/
def staticClassDocs : List Doclet :=
  [{ kind := "interface", name := "I", longname := "I" },
   { kind := "class", name := "K", longname := "I.K", memberof := some "I",
     scope := some "static", implements := some ["A"] }]

/-- A class with `implements` and `mixes`, a member of a namespace, and a class
without either. -/
def implementsDocs : List Doclet :=
  [{ kind := "namespace", name := "N", longname := "N" },
   { kind := "class", name := "K", longname := "N.K", memberof := some "N",
     implements := some ["A", "B"], mixes := some ["M"] },
   { kind := "class", name := "L", longname := "L" }]

namespace Emitter

/-- How the `memberof` of the doclets has changed after the first `t` iterations of
`_buildTree`: a `memberof` that differs from the input is the namespace key of an
earlier surviving doclet that the input `memberof` names, and every static child of an
earlier surviving interface or mixin has the namespace key of it as `memberof`. -/
structure Track (options : Options) (docs : List Doclet) (t : Nat) (s : Emitter) : Prop where
  changed : ∀ j, (s.doc j).memberof = (docAt docs j).memberof
    ∨ ∃ q, q < t ∧ q < docs.length ∧ survives options (docAt docs q) = true
        ∧ (docAt docs j).memberof = some (docAt docs q).longname
        ∧ (s.doc j).memberof = some (_getNamespaceKey (docAt docs q).longname)
  moved : ∀ q j, q < t → q < docs.length → j < docs.length →
    survives options (docAt docs q) = true →
    ((docAt docs q).kind = "interface" ∨ (docAt docs q).kind = "mixin") →
    isStaticChildOf (docAt docs q).longname (docAt docs j) = true →
    (s.doc j).memberof = some (_getNamespaceKey (docAt docs q).longname)

/-- The doclet `docs[k]` is a surviving interface or mixin with a surviving static
child: a surviving doclet whose `memberof` is the longname of `docs[k]` and whose
scope is static. -/
def HasStaticChildren (options : Options) (docs : List Doclet) (k : Nat) : Prop :=
  k < docs.length ∧ survives options (docAt docs k) = true
  ∧ ((docAt docs k).kind = "interface" ∨ (docAt docs k).kind = "mixin")
  ∧ ∃ j, j < docs.length ∧ survives options (docAt docs j) = true
      ∧ isStaticChildOf (docAt docs k).longname (docAt docs j) = true

/-- Every surviving static child of `docs[k]` comes after `docs[k]` in the list. -/
def StaticChildrenFollow (options : Options) (docs : List Doclet) (k : Nat) : Prop :=
  ∀ j, j < docs.length → survives options (docAt docs j) = true →
    isStaticChildOf (docAt docs k).longname (docAt docs j) = true → k < j

/-- The conclusion of C3 for the interface or mixin `docs[k]` in the state `s` left by
the builder: the node of `docs[k]` has no child of static scope; the table holds a
namespace-kind node under the longname of `docs[k]` followed by the namespace suffix;
the node of every surviving static child of `docs[k]` is a child of that node, and
(when `exactly` is set) every child of that node is the node of a surviving static
child of `docs[k]`; and that node sits immediately before the node of `docs[k]` in one
container. -/
def StaticMembersMoved (exactly : Bool) (options : Options) (docs : List Doclet)
    (s : Emitter) (k : Nat) : Prop :=
  ∃ iNode M c pre post, s.srcIndex iNode = some k
    ∧ s.lookup ((docAt docs k).longname ++ "$$namespace$helper") = some M
    ∧ (s.docOf M).kind = "namespace"
    ∧ (∀ ch, ch ∈ s.childrenOf iNode → (s.docOf ch).scope ≠ some "static")
    ∧ (∀ j, j < docs.length → survives options (docAt docs j) = true →
        isStaticChildOf (docAt docs k).longname (docAt docs j) = true →
        ∃ n, s.srcIndex n = some j ∧ n ∈ s.childrenOf M)
    ∧ (exactly = true → ∀ n, n ∈ s.childrenOf M →
        ∃ j, j < docs.length ∧ survives options (docAt docs j) = true
          ∧ isStaticChildOf (docAt docs k).longname (docAt docs j) = true
          ∧ s.srcIndex n = some j)
    ∧ s.container c = pre ++ M :: iNode :: post

end Emitter

/-- A static function listed before the interface it is a member of. -/
def staticBeforeInterfaceDocs : List Doclet :=
  [{ kind := "function", name := "f", longname := "I.f", memberof := some "I",
     scope := some "static" },
   { kind := "interface", name := "I", longname := "I" }]

/-- An interface with a static function and a typedef that is not static. -/
def interfaceWithTypedefDocs : List Doclet :=
  [{ kind := "interface", name := "I", longname := "I" },
   { kind := "function", name := "f", longname := "I.f", memberof := some "I",
     scope := some "static" },
   { kind := "typedef", name := "T", longname := "I.T", memberof := some "I" }]

/-- An interface whose `memberof` matches no node, with a static function. -/
def orphanInterfaceDocs : List Doclet :=
  [{ kind := "interface", name := "I", longname := "I", memberof := some "Nope" },
   { kind := "function", name := "f", longname := "I.f", memberof := some "I",
     scope := some "static" }]

/-- An interface, a class with an `implements` list, and a static function of the
interface whose longname is the interface key of the class. -/
def staticKeyClashDocs : List Doclet :=
  [{ kind := "interface", name := "I", longname := "I" },
   { kind := "class", name := "X", longname := "X", implements := some ["A"] },
   { kind := "function", name := "f", longname := "X$$interface$helper", memberof := some "I",
     scope := some "static" }]

/-- An interface with a static function and an instance function. -/
def interfaceWithStaticDocs : List Doclet :=
  [{ kind := "interface", name := "I", longname := "I" },
   { kind := "function", name := "f", longname := "I.f", memberof := some "I",
     scope := some "static" },
   { kind := "function", name := "g", longname := "I#g", memberof := some "I",
     scope := some "instance" }]

/-- The two option sets differ only in the minimum access level, that of the first
being at most that of the second in `private < package < protected < public`. -/
def SameButAccess (a b : Options) : Prop :=
  a.private_ = b.private_
  ∧ accessPosition (minimumAccess a) ≤ accessPosition (minimumAccess b)

namespace Emitter

/-- A tree node of the source doclet `docs[i]` is reachable from the forest roots. -/
def ReachableDoclet (s : Emitter) (i : Nat) : Prop :=
  ∃ n, s.srcIndex n = some i ∧ s.Reachable n

/-- C6 as stated, for the option sets `a` and `b` and the list `docs`: every source
doclet that is reachable from the forest roots under `b` is reachable under `a`. -/
def FilterMonotone (a b : Options) (docs : List Doclet) : Prop :=
  ∀ sa sb, build a docs = some sa → build b docs = some sb →
    ∀ i, ReachableDoclet sb i → ReachableDoclet sa i

end Emitter

/-- A class with an `implements` list and access `package`, and a top-level function
whose longname is the interface key of the class. -/
def packageClassKeyDocs : List Doclet :=
  [{ kind := "class", name := "K", longname := "K", implements := some ["A"],
     access := some "package" },
   { kind := "function", name := "k", longname := "K$$interface$helper" }]

/-- A class `N` whose `memberof` is the namespace key of the later class `Z`, with the
members `Y` (access `package`) and `X`. -/
def earlyCompanionDocs : List Doclet :=
  [{ kind := "class", name := "N", longname := "N", memberof := some "Z$$namespace$helper" },
   { kind := "class", name := "Y", longname := "Y", memberof := some "N",
     access := some "package" },
   { kind := "class", name := "Z", longname := "Z" },
   { kind := "class", name := "W", longname := "W", memberof := some "Z" },
   { kind := "class", name := "X", longname := "X", memberof := some "N" }]

/-- A list without derived keys: the interface `R` is a member of the enum `E`, the
module `Q` of `R`, the interface `J` of `Q`, the class `P` of `J`, and `P` has the
typedef members `Y` (access `package`, listed before `J`) and `X` (listed after `J`). -/
def enumParentDocs : List Doclet :=
  [{ kind := "member", name := "E", longname := "E", isEnum := some true },
   { kind := "module", name := "Q", longname := "Q", memberof := some "R" },
   { kind := "interface", name := "R", longname := "R", memberof := some "E" },
   { kind := "function", name := "f", longname := "R.f", memberof := some "R",
     scope := some "static" },
   { kind := "class", name := "P", longname := "P", memberof := some "J" },
   { kind := "typedef", name := "Y", longname := "Y", memberof := some "P",
     access := some "package" },
   { kind := "interface", name := "J", longname := "J", memberof := some "Q" },
   { kind := "function", name := "g", longname := "J.g", memberof := some "J",
     scope := some "static" },
   { kind := "typedef", name := "X", longname := "X", memberof := some "P" }]

/-- Two top-level functions, one with access `package`, and a class with a method. -/
def accessDocs : List Doclet :=
  [{ kind := "function", name := "a", longname := "a", access := some "package" },
   { kind := "function", name := "b", longname := "b" },
   { kind := "class", name := "C", longname := "C", access := some "public" },
   { kind := "function", name := "m", longname := "C#m", memberof := some "C",
     scope := some "instance", access := some "protected" }]

/-! ## Notions used in the statements about the synthesis walk -/

/-- The syntax kind, the modifiers, the name and the initializer of a construct. -/
structure Outline where
  kind : SyntaxKind
  modifiers : List Modifier
  name : String
  initializer : Option String
  deriving DecidableEq, Repr

/-- The outline of a construct together with the outlines of its members. -/
structure Outline2 where
  top : Outline
  members : List Outline
  deriving DecidableEq, Repr

/-- The outline of a construct. -/
def TsNode.outline (n : TsNode) : Outline :=
  { kind := n.kind, modifiers := n.modifiers, name := n.name, initializer := n.initializer }

/-- The outline of a construct and of its members. -/
def TsNode.outline2 (n : TsNode) : Outline2 :=
  { top := n.outline, members := n.members.map TsNode.outline }

namespace Emitter

/-- The value of `this.results` after `parse(docs)`, when the run returns. -/
def parseResults (r : Resolver) (fuel : Nat) (options : Options) (docs : List Doclet) :
    Option (List TsNode) :=
  match parse r fuel options docs with
  | some (Outcome.value v) => some v.2
  | _ => none

/-- The doclet objects of the input array after `parse(docs)`, when the run returns. -/
def parseDocs (r : Resolver) (fuel : Nat) (options : Options) (docs : List Doclet) :
    Option (List Doclet) :=
  match parse r fuel options docs with
  | some (Outcome.value v) => some v.1.docs
  | _ => none

end Emitter

/-- The enum-tagged constant doclet `Color` with the properties `RED` and `BLUE`. -/
def colorDoclet : Doclet :=
  { kind := "constant", name := "Color", longname := "Color", isEnum := some true,
    properties := some [{ name := "RED", defaultvalue := some "red" },
      { name := "BLUE", defaultvalue := some "blue" }] }

/-- A member doclet of an interface that is marked read-only. -/
def readonlyMemberDoclet : Doclet :=
  { kind := "member", name := "x", longname := "I#x", memberof := some "I",
    scope := some "instance", readonly := true }

/-- An enum-tagged constant doclet whose name carries the `exports.` prefix. -/
def exportsEnumDoclet : Doclet :=
  { kind := "constant", name := "exports.Color", longname := "module.exports.Color",
    isEnum := some true, properties := some [{ name := "RED", defaultvalue := some "red" }] }

namespace Emitter

/-- What a returning call of `_getOrCreateClassNamespace` from `s` to `s'` pushes, seen
from its result `g`: `g` is appended at most once, to at most one container. -/
def PushedOnce (s s' : Emitter) (g : Nat) : Prop :=
  ∃ c0 : Option Nat, ∀ c, ∃ t, s'.container c = s.container c ++ t
    ∧ (c ≠ c0 → g ∉ t) ∧ t.count g ≤ 1

end Emitter

namespace Emitter

/-- The doclet `docs[i]` survives, has a node, and when it is placed its `memberof`
resolves to a node whose doclet is an enum-tagged member or constant. -/
def EnumParentAt (options : Options) (docs : List Doclet) (i : Nat) : Prop :=
  ∃ s obj p, buildPrefix options docs i = some s
    ∧ survives s.options (s.doc i) = true
    ∧ s.lookup (s.doc i).longname = some obj
    ∧ truthy ((s.beforePlacement i).doc i).memberof = true
    ∧ (s.beforePlacement i).lookup (((s.beforePlacement i).doc i).memberof.getD "") = some p
    ∧ isEnum ((s.beforePlacement i).docOf p) = true

end Emitter

/-- An enum-tagged member `E` with two members that have merge nodes: the class `E.K`
with an `implements` list and the interface `E.I` with a static function. -/
def enumMergeDocs : List Doclet :=
  [{ kind := "member", name := "E", longname := "E", isEnum := some true },
   { kind := "class", name := "K", longname := "E.K", memberof := some "E",
     implements := some ["A"] },
   { kind := "interface", name := "I", longname := "E.I", memberof := some "E" },
   { kind := "function", name := "f", longname := "E.I.f", memberof := some "E.I",
     scope := some "static" }]

/-- An interface with one static function. -/
def staticMemberDocs : List Doclet :=
  [{ kind := "interface", name := "I", longname := "I" },
   { kind := "function", name := "f", longname := "I.f", memberof := some "I",
     scope := some "static" }]

/-- A top-level function whose name carries the `exports.` prefix. -/
def exportsFunctionDocs : List Doclet :=
  [{ kind := "function", name := "exports.foo", longname := "module.exports.foo" }]

namespace Emitter

/-- The outlines of the results of `parse(docs)`, when the run returns. -/
def parseOutlines (r : Resolver) (fuel : Nat) (options : Options) (docs : List Doclet) :
    Option (List Outline2) :=
  (parseResults r fuel options docs).map (List.map TsNode.outline2)

/-- The outlines of the results of a second run of `parse` on the doclet objects the
first run leaves. -/
def reparseOutlines (r : Resolver) (fuel : Nat) (options : Options) (docs : List Doclet) :
    Option (List Outline2) :=
  (parseDocs r fuel options docs).bind (fun docs1 => parseOutlines r fuel options docs1)

end Emitter

namespace Emitter

/-- The kind of the doclet of the `parent` argument of `_parseTreeNode` (lines 172 and
174: `parent && parent.doclet.kind`). -/
def treeParentKind (s : Emitter) (parent : Option Nat) : Option String :=
  parent.map (fun p => (s.docOf p).kind)

/-- The kind of the doclet of the node the lookup table holds under the `memberof` of
the node `n` (lines 180-181: `this._treeNodes[node.doclet.memberof]`). -/
def tableParentKind (s : Emitter) (n : Nat) : Option String :=
  if truthy (s.docOf n).memberof then
    (s.lookup ((s.docOf n).memberof.getD "")).map (fun p => (s.docOf p).kind)
  else none

/-- The node `n` wraps a function or callback doclet. -/
def IsFunctionNode (s : Emitter) (n : Nat) : Prop :=
  (s.docOf n).kind = "function" ∨ (s.docOf n).kind = "callback"

/-- The node `n` wraps a member or constant doclet that is not enum-tagged. -/
def IsFieldNode (s : Emitter) (n : Nat) : Prop :=
  ((s.docOf n).kind = "member" ∨ (s.docOf n).kind = "constant") ∧ (s.docOf n).isEnum ≠ some true

/-- The syntax kind C13 (amended) expects for a function or field node: by the kind of
the table entry of `memberof` for a function, by the kind of the tree parent for a
field. -/
def expectedKind (s : Emitter) (n : Nat) (parent : Option Nat) : SyntaxKind :=
  if (s.docOf n).kind = "function" ∨ (s.docOf n).kind = "callback" then
    if s.tableParentKind n = some "class" then SyntaxKind.MethodDeclaration
    else if s.tableParentKind n = some "interface" then SyntaxKind.MethodSignature
    else SyntaxKind.FunctionDeclaration
  else
    if s.treeParentKind parent = some "class" then SyntaxKind.PropertyDeclaration
    else if s.treeParentKind parent = some "interface" then SyntaxKind.PropertySignature
    else SyntaxKind.VariableStatement

/-- The outline of the construct `_parseTreeNode(node, parent)` returns (`none` when it
returns no construct, throws, or runs out of fuel). -/
def nodeOutline (r : Resolver) (fuel : Nat) (s : Emitter) (n : Nat) (parent : Option Nat) :
    Option Outline :=
  match _parseTreeNode r fuel s n parent with
  | some (Outcome.value v) => v.2.map TsNode.outline
  | _ => none

/-- The warnings logged up to the end of `parse(docs)`, when the run returns. -/
def parseWarnings (r : Resolver) (fuel : Nat) (options : Options) (docs : List Doclet) :
    Option (List Warning) :=
  match parse r fuel options docs with
  | some (Outcome.value v) => some v.1.warnings
  | _ => none

end Emitter

/-! ## The comment rule in the words of the specification -/

/-- The description section: the description of the doclet, else its class-level
description. -/
def descriptionSection (doclet : Doclet) : String :=
  if truthy doclet.description then
    "\n * " ++ formatMultilineComment (doclet.description.getD "")
  else
    match doclet.classdesc with
    | some classdesc => "\n * " ++ formatMultilineComment classdesc
    | none => ""

/-- The five sections of a comment in their order: description, examples, properties,
params, returns. -/
def commentSections (doclet : Doclet) : List String :=
  [descriptionSection doclet, handleExamplesComment doclet, handlePropertiesComment doclet,
    handleParamsComment doclet, handleReturnsComment doclet]

/-- The name of a property or param entry as it is rendered in a comment. -/
def renderedName (prop : PropDoc) : String :=
  if prop.optional then
    match prop.defaultvalue with
    | some v => "[" ++ prop.name ++ " = " ++ v ++ "]"
    | none => "[" ++ prop.name ++ "]"
  else prop.name

/-- The line of a property or param entry that has a description. -/
def renderedEntry (jsdocTagName : String) (prop : PropDoc) : String :=
  "\n * @" ++ jsdocTagName ++ " " ++ renderedName prop ++ " - "
    ++ formatMultilineComment (prop.description.getD "")

/-- A doclet whose comment has a description and one described param. -/
def commentedDoclet : Doclet :=
  { kind := "function", name := "f", longname := "f", comment := some "/** d */",
    description := some "d",
    params := some
      [{ name := "a", description := some "first", optional := true, defaultvalue := some "1" },
       { name := "b" }] }

/-- A doclet with a description whose comment text is three characters outside the
Basic Multilingual Plane: three characters, six UTF-16 code units. -/
def astralCommentDoclet : Doclet :=
  { kind := "function", name := "f", longname := "f",
    comment := some (String.mk (List.replicate 3 (Char.ofNat 128512))),
    description := some "d" }

/-! ## Notions used in the invariants of the synthesis walk -/

/-- A doclet with its `name` blanked: the part of a doclet the helpers never assign to. -/
def Doclet.unname (d : Doclet) : Doclet := { d with name := "" }

/-- The kinds with a case in the `switch` of `_parseTreeNode`. -/
def switchKinds : List String :=
  ["class", "constant", "member", "callback", "function", "interface", "mixin", "module",
    "namespace", "typedef", "file", "event"]

/-- The closed set of doclet kinds: `package` and the kinds of the `switch`. -/
def closedKinds : List String := "package" :: switchKinds

namespace Emitter

/-- The state `s'` is reached from `s` by the synthesis walk: the table, the forest
and the nodes are the same, and the doclets are the same up to their names. -/
structure WalkFrame (s s' : Emitter) : Prop where
  options : s'.options = s.options
  table : s'._treeNodes = s._treeNodes
  roots : s'._treeRoots = s._treeRoots
  nodes_length : s'.nodes.length = s.nodes.length
  children : ∀ n, s'.childrenOf n = s.childrenOf n
  nested : ∀ n, (s'.node n).isNested = (s.node n).isNested
  docOf_frame : ∀ n, (s'.docOf n).unname = (s.docOf n).unname

/-- Every synthetic node of the store is of kind interface or namespace. -/
def SynKinds (s : Emitter) : Prop :=
  ∀ m, m < s.nodes.length → s.srcIndex m = none →
    (s.docOf m).kind = "interface" ∨ (s.docOf m).kind = "namespace"

/-- The node `n` or one of its descendants. -/
def InSubtree (s : Emitter) (n c : Nat) : Prop := c = n ∨ Descendant s n c

end Emitter

namespace Emitter

/-- What an outcome of the walk over the nodes `P` tells about the state `s` it started
in: a value leaves the state as it was up to names and warnings, and every visited
node has a kind with a case in the `switch`; `assertNever` is thrown with the kind of
a visited node, a kind without a case. -/
def WalkSpec {α : Type} (s : Emitter) (P : Nat → Prop) : Outcome (Emitter × α) → Prop
  | Outcome.value v => WalkFrame s v.1 ∧ ∀ c, P c → (s.docOf c).kind ∈ switchKinds
  | Outcome.assertNever k => k ∉ switchKinds ∧ ∃ c, P c ∧ (s.docOf c).kind = k

end Emitter

/-- The second half of C12 as stated, for the list `docs`: when the doclet of a node
reachable from a forest root has a kind outside the closed set, the run of `parse`
ends in `assertNever`. -/
def UnknownKindAborts (r : Resolver) (options : Options) (docs : List Doclet) : Prop :=
  ∀ s : Emitter, Emitter.build options docs = some s →
    ∀ n, s.Reachable n → (s.docOf n).kind ∉ closedKinds →
      ∃ fuel k, Emitter.parse r fuel options docs = some (Emitter.Outcome.assertNever k)

/-- Two namespaces `A` and `B`, a second doclet of longname `A` that is a member of
`B`, and a doclet of an unknown kind. -/
def cycleUnknownDocs : List Doclet :=
  [{ kind := "namespace", name := "A", longname := "A" },
   { kind := "namespace", name := "B", longname := "B", memberof := some "A" },
   { kind := "namespace", name := "A", longname := "A", memberof := some "B" },
   { kind := "widget", name := "Z", longname := "Z" }]

/-- A function and a doclet of an unknown kind. -/
def unknownKindDocs : List Doclet :=
  [{ kind := "function", name := "a", longname := "a" },
   { kind := "widget", name := "Z", longname := "Z" }]

namespace Emitter

/-- How the input doclet `docs[i]` names the mixin node `p` it is a child of: its
`memberof` is the longname of `p`, under which the table holds `p` and which is no
derived key; or its `memberof` is a namespace key. -/
def NamesParent (s : Emitter) (p i : Nat) : Prop :=
  ((s.doc i).memberof = some (s.docOf p).longname ∧ s.lookup (s.docOf p).longname = some p
    ∧ ¬ IsDerivedKey (s.docOf p).longname)
  ∨ ∃ x, (s.doc i).memberof = some (_getNamespaceKey x)

/-- Every input doclet whose node is a child of a mixin node names that node. -/
def MixinChildren (s : Emitter) : Prop :=
  ∀ p n i, n ∈ s.childrenOf p → s.srcIndex n = some i → (s.docOf p).kind = "mixin" →
    NamesParent s p i

end Emitter

namespace Emitter

/-- C24 for the mixin node `p` of the state `s` left by the builder, in every state
`s1` the walk can be in (the same as `s` up to names and warnings): a function or
callback child is synthesized as a function declaration and a member or constant child
that is not enum-tagged as a variable statement, neither being a type element; and the
construct of `p` is an interface declaration without members, its helper logging one
warning for each construct of a child. -/
def MixinClaim (r : Resolver) (s : Emitter) (p : Nat) : Prop :=
  (∀ c ∈ s.childrenOf p, ∀ s1, WalkFrame s s1 → ∀ children : List TsNode,
      (IsFunctionNode s c →
        ∃ x, dispatch r s1 c (some p) children = Outcome.value (s1.afterHelper c x)
          ∧ x.2.2.kind = SyntaxKind.FunctionDeclaration ∧ isTypeElement x.2.2 = false)
      ∧ (IsFieldNode s c →
        ∃ x, dispatch r s1 c (some p) children = Outcome.value (s1.afterHelper c x)
          ∧ x.2.2.kind = SyntaxKind.VariableStatement ∧ isTypeElement x.2.2 = false))
  ∧ ∀ (fuel : Nat) (s1 : Emitter) (parent : Option Nat) (s2 : Emitter) (t : TsNode),
      WalkFrame s s1 →
      _parseTreeNode r (fuel + 1) s1 p parent = some (Outcome.value (s2, some t)) →
      t.kind = SyntaxKind.InterfaceDeclaration ∧ t.members = []
      ∧ ∃ sc children,
          parseChildren (fun s3 c => _parseTreeNode r fuel s3 c (some p)) s1 (s1.childrenOf p) []
            = some (Outcome.value (sc, children))
          ∧ s2.warnings
            = sc.warnings ++ List.replicate children.length (Warning.badChild "TypeElement")

end Emitter

/-- A mixin `M`, an interface `J`, and two function doclets of the same longname, the
first a member of `J`, the second a member of `M`. -/
def mixinDuplicateDocs : List Doclet :=
  [{ kind := "mixin", name := "M", longname := "M" },
   { kind := "interface", name := "J", longname := "J" },
   { kind := "function", name := "f", longname := "F", memberof := some "J",
     scope := some "instance" },
   { kind := "function", name := "f", longname := "F", memberof := some "M",
     scope := some "instance" }]

/-- A mixin whose longname is the interface key of the class `K`, a function that is a
member of it, and the class `K` with an `implements` list. -/
def mixinKeyClashDocs : List Doclet :=
  [{ kind := "mixin", name := "M", longname := "K$$interface$helper" },
   { kind := "function", name := "f", longname := "M#f",
     memberof := some "K$$interface$helper", scope := some "instance" },
   { kind := "class", name := "K", longname := "K", implements := some ["A"] }]

/-- A mixin with an instance function, a member and a static function. -/
def mixinDocs : List Doclet :=
  [{ kind := "mixin", name := "M", longname := "M" },
   { kind := "function", name := "f", longname := "M#f", memberof := some "M",
     scope := some "instance" },
   { kind := "member", name := "x", longname := "M#x", memberof := some "M",
     scope := some "instance" },
   { kind := "function", name := "g", longname := "M.g", memberof := some "M",
     scope := some "static" }]

/-- Two function doclets of the same longname. -/
def duplicateFunctionDocs : List Doclet :=
  [{ kind := "function", name := "a", longname := "a" },
   { kind := "function", name := "a", longname := "a" }]

namespace Emitter

/-- C16 as stated, in the state `s` left by the builder: two synthetic nodes of the
forest of the same kind and the same longname (their derived key) are one node. -/
def MergeNodesUnique (s : Emitter) : Prop :=
  ∀ m m', Reachable s m → Reachable s m' → s.srcIndex m = none → s.srcIndex m' = none →
    (s.docOf m).kind = (s.docOf m').kind → (s.docOf m).longname = (s.docOf m').longname →
    m = m'

/-- After `j` iterations of `_buildTree`: a synthetic interface node is the interface
merge of an earlier surviving doclet, and two synthetic interface nodes of the same
longname are one node. -/
structure IfaceUnique (o : Options) (D : List Doclet) (j : Nat) (s : Emitter) : Prop where
  origin : ∀ m, m < s.nodes.length → s.srcIndex m = none → (s.docOf m).kind = "interface" →
    ∃ k, k < j ∧ k < D.length ∧ survives o (docAt D k) = true
      ∧ (s.docOf m).longname = _getInterfaceKey (docAt D k).longname
  unique : ∀ m m', m < s.nodes.length → m' < s.nodes.length → s.srcIndex m = none →
    s.srcIndex m' = none → (s.docOf m).kind = "interface" → (s.docOf m').kind = "interface" →
    (s.docOf m).longname = (s.docOf m').longname → m = m'

end Emitter

/-- A typedef that is a member of an interface and is listed before it, and a static
function of the interface. -/
def typedefBeforeInterfaceDocs : List Doclet :=
  [{ kind := "typedef", name := "T", longname := "I.T", memberof := some "I" },
   { kind := "interface", name := "I", longname := "I" },
   { kind := "function", name := "f", longname := "I.f", memberof := some "I",
     scope := some "static" }]

namespace Emitter

/-- The doclet of a forest root has no truthy `memberof`, the doclet of a child of a
node has one. -/
def Attached (s : Emitter) : Prop :=
  ∀ c n, n ∈ s.container c → truthy (s.docOf n).memberof = c.isSome

end Emitter

/-- The syntax kinds of the declarations of C14: class, interface, function, enum,
variable, module or namespace, and type alias. -/
def declarationKinds : List SyntaxKind :=
  [SyntaxKind.ClassDeclaration, SyntaxKind.InterfaceDeclaration, SyntaxKind.FunctionDeclaration,
    SyntaxKind.EnumDeclaration, SyntaxKind.VariableStatement, SyntaxKind.ModuleDeclaration,
    SyntaxKind.TypeAliasDeclaration]

namespace Emitter

/-- C14 in the state `s` left by the builder: the doclet of every forest root has no
`memberof`, the doclet of every child has a non-empty one, and in every state `s1` the
walk can be in, a declaration synthesized for a node reachable from the forest roots
carries the declare modifier exactly when the node is a forest root. -/
def DeclareAtRoots (r : Resolver) (s : Emitter) : Prop :=
  (∀ n, n ∈ s._treeRoots → truthy (s.docOf n).memberof = false)
  ∧ (∀ p n, n ∈ s.childrenOf p → truthy (s.docOf n).memberof = true)
  ∧ ∀ n, Reachable s n → ∀ (s1 : Emitter) (parent : Option Nat) (children : List TsNode)
      (s2 : Emitter) (t : TsNode), WalkFrame s s1 →
      dispatch r s1 n parent children = Outcome.value (s2, some t) →
      t.kind ∈ declarationKinds →
      (Modifier.DeclareKeyword ∈ t.modifiers ↔ n ∈ s._treeRoots)

end Emitter

/-- A namespace `N`, a class `K` in it with an `implements` list, and a top-level
function whose longname is the interface key of `K`. -/
def rootWithMemberofDocs : List Doclet :=
  [{ kind := "namespace", name := "N", longname := "N" },
   { kind := "class", name := "K", longname := "K", memberof := some "N",
     implements := some ["A"] },
   { kind := "function", name := "k", longname := "K$$interface$helper" }]

/-- A namespace `N` with a class `N.K` and a function `N.K#m` of the class, and a
top-level function `f`. -/
def nestedClassDocs : List Doclet :=
  [{ kind := "namespace", name := "N", longname := "N" },
   { kind := "class", name := "K", longname := "N.K", memberof := some "N" },
   { kind := "function", name := "m", longname := "N.K#m", memberof := some "N.K",
     scope := some "instance" },
   { kind := "function", name := "f", longname := "f" }]

namespace Emitter

/-- The node `m` is a merge node made by the iteration of `docs[i]` that starts in the
state `si`: its interface merge or its namespace merge. -/
def IsMergeAt (si : Emitter) (i m : Nat) : Prop :=
  (interfaceMergeStep si (si.doc i)).2 = some m
  ∨ (namespaceMergeStep (interfaceMergeStep si (si.doc i)).1 (si.doc i)).2 = some m

end Emitter

/-- C17 as stated, for the list `docs`: when the `memberof` of a surviving doclet
resolves to an enum-tagged node, its own node is in no container after the run, and
every merge node made by its iteration is among the forest roots. -/
def EnumMemberClaim (options : Options) (docs : List Doclet) : Prop :=
  ∀ i, Emitter.EnumParentAt options docs i →
    ∀ si s, Emitter.buildPrefix options docs i = some si → Emitter.build options docs = some s →
      (∀ n, s.srcIndex n = some i → s.Unplaced n)
      ∧ ∀ m, Emitter.IsMergeAt si i m → m ∈ s._treeRoots

namespace Emitter

/-- When `docs[i]` is placed, its `memberof` resolves to the node `p` (line 111 reads
`p` from the lookup table), and the doclet of `p` is not enum-tagged. -/
def ResolvesTo (options : Options) (docs : List Doclet) (i p : Nat) : Prop :=
  ∃ s, buildPrefix options docs i = some s
    ∧ truthy ((s.beforePlacement i).doc i).memberof = true
    ∧ (s.beforePlacement i).lookup (((s.beforePlacement i).doc i).memberof.getD "") = some p
    ∧ isEnum ((s.beforePlacement i).docOf p) = false

/-- The node `n` hangs where the placement puts a doclet whose `memberof` resolves to
the node `p`: it is a child of `p`, or of a namespace-kind node named by the longname of
`p` followed by the namespace suffix; and it is reachable from the forest roots exactly
when the node that holds it is. -/
def AttachedUnder (s : Emitter) (n p : Nat) : Prop :=
  ∃ c, n ∈ s.childrenOf c
    ∧ (c = p ∨ ((s.docOf c).kind = "namespace"
        ∧ (s.docOf c).longname = (s.docOf p).longname ++ "$$namespace$helper"))
    ∧ (Reachable s n ↔ Reachable s c)

/-- Every surviving doclet other than `docs[i]` is attached in the state `s` left by the
builder: when it has no `memberof` its node is a forest root, and when its `memberof`
resolves to a node that is not enum-tagged its node hangs under that node. -/
def OthersAttached (options : Options) (docs : List Doclet) (s : Emitter) (i : Nat) : Prop :=
  ∀ j, j < docs.length → j ≠ i → survives options (docAt docs j) = true →
    (truthy (docAt docs j).memberof = false →
      ∃ n, s.srcIndex n = some j ∧ n ∈ s._treeRoots ∧ Reachable s n)
    ∧ ∀ p, ResolvesTo options docs j p → ∃ n, s.srcIndex n = some j ∧ AttachedUnder s n p

end Emitter

/-- A namespace `A` with a function and a class that has a typedef, an orphan `X` with
a member `Y`, and a top-level function. -/
def orphanAmongMembersDocs : List Doclet :=
  [{ kind := "namespace", name := "A", longname := "A" },
   { kind := "function", name := "f", longname := "A.f", memberof := some "A" },
   { kind := "function", name := "x", longname := "X", memberof := some "Nope" },
   { kind := "function", name := "y", longname := "X.y", memberof := some "X" },
   { kind := "class", name := "K", longname := "A.K", memberof := some "A" },
   { kind := "typedef", name := "T", longname := "A.K.T", memberof := some "A.K" },
   { kind := "function", name := "b", longname := "b" }]

/-- No doclet of the list has a name that starts with `exports.`: no helper assigns to
the `name` of a doclet of the list. -/
def PlainNames (docs : List Doclet) : Prop :=
  ∀ d ∈ docs, stripExports d.name = d.name

/-- No doclet of the list is a static member of an interface or mixin of the list
(`memberof` equal to its longname, scope static): line 107 assigns to no `memberof`. -/
def NoStaticMembers (docs : List Doclet) : Prop :=
  ∀ e ∈ docs, (e.kind = "interface" ∨ e.kind = "mixin") →
    ∀ d ∈ docs, Emitter.isStaticChildOf e.longname d = false

/-! # Theorems -/

namespace Emitter

/-! ## Views of the primitive updates -/

theorem node_of_length_le (s : Emitter) (n : Nat) (h : s.nodes.length ≤ n) : s.node n = {} := by
  unfold node; rw [List.getElem?_eq_none h]; rfl

theorem node_alloc (s : Emitter) (d : DocRef) (n : Nat) :
    (s.alloc d).node n = if n = s.nodes.length then { doclet := d } else s.node n := by
  unfold node alloc
  simp only
  rcases Nat.lt_trichotomy n s.nodes.length with h | h | h
  · rw [List.getElem?_append_left h, if_neg (Nat.ne_of_lt h)]
  · subst h; simp
  · rw [if_neg (Nat.ne_of_gt h)]
    rw [List.getElem?_eq_none (by simp; omega), List.getElem?_eq_none (by omega)]

@[simp] theorem node_register (s : Emitter) (k : String) (m n : Nat) :
    (s.register k m).node n = s.node n := rfl

@[simp] theorem node_pushRoot (s : Emitter) (c n : Nat) : (s.pushRoot c).node n = s.node n := rfl

@[simp] theorem node_warn (s : Emitter) (w : Warning) (n : Nat) : (s.warn w).node n = s.node n := rfl

theorem node_set (s : Emitter) (p : Nat) (x : TreeNode) (n : Nat) (nodes : List TreeNode)
    (h : nodes = s.nodes.set p x) :
    ({ s with nodes := nodes } : Emitter).node n
      = if n = p ∧ p < s.nodes.length then x else s.node n := by
  subst h
  unfold node
  simp only [List.getElem?_set]
  by_cases hnp : p = n
  · subst hnp
    by_cases hlt : p < s.nodes.length
    · simp [hlt]
    · simp [hlt, List.getElem?_eq_none (Nat.le_of_not_lt hlt)]
  · have : ¬ (n = p ∧ p < s.nodes.length) := fun h => hnp h.1.symm
    simp [hnp, this]

theorem node_pushChild (s : Emitter) (p c n : Nat) :
    (s.pushChild p c).node n
      = if n = p ∧ p < s.nodes.length
        then { s.node p with children := (s.node p).children ++ [c] } else s.node n :=
  node_set s p _ n _ rfl

theorem node_setNested (s : Emitter) (p n : Nat) :
    (s.setNested p).node n
      = if n = p ∧ p < s.nodes.length then { s.node p with isNested := true } else s.node n :=
  node_set s p _ n _ rfl

@[simp] theorem lookup_alloc (s : Emitter) (d : DocRef) (k : String) :
    (s.alloc d).lookup k = s.lookup k := rfl

theorem lookup_register (s : Emitter) (k k' : String) (n : Nat) :
    (s.register k n).lookup k' = if k = k' then some n else s.lookup k' := by
  simp [lookup, register, tableGet]

@[simp] theorem lookup_pushChild (s : Emitter) (p c : Nat) (k : String) :
    (s.pushChild p c).lookup k = s.lookup k := rfl

@[simp] theorem lookup_pushRoot (s : Emitter) (c : Nat) (k : String) :
    (s.pushRoot c).lookup k = s.lookup k := rfl

@[simp] theorem lookup_warn (s : Emitter) (w : Warning) (k : String) :
    (s.warn w).lookup k = s.lookup k := rfl

@[simp] theorem lookup_setNested (s : Emitter) (n : Nat) (k : String) :
    (s.setNested n).lookup k = s.lookup k := rfl

@[simp] theorem lookup_setMemberof (s : Emitter) (n : Nat) (m : Option String) (k : String) :
    (s.setMemberof n m).lookup k = s.lookup k := by
  unfold setMemberof; split <;> rfl

@[simp] theorem lookup_reassignStatic (s : Emitter) (l k : String) :
    (s.reassignStatic l).lookup k = s.lookup k := rfl

@[simp] theorem doc_alloc (s : Emitter) (d : DocRef) (i : Nat) : (s.alloc d).doc i = s.doc i := rfl

@[simp] theorem doc_register (s : Emitter) (k : String) (n i : Nat) :
    (s.register k n).doc i = s.doc i := rfl

@[simp] theorem doc_pushChild (s : Emitter) (p c i : Nat) : (s.pushChild p c).doc i = s.doc i := rfl

@[simp] theorem doc_pushRoot (s : Emitter) (c i : Nat) : (s.pushRoot c).doc i = s.doc i := rfl

@[simp] theorem doc_warn (s : Emitter) (w : Warning) (i : Nat) : (s.warn w).doc i = s.doc i := rfl

@[simp] theorem doc_setNested (s : Emitter) (n i : Nat) : (s.setNested n).doc i = s.doc i := rfl

theorem mem_of_tableGet {t : List (String × Nat)} {k : String} {n : Nat}
    (h : tableGet t k = some n) : (k, n) ∈ t := by
  induction t with
  | nil => simp [tableGet] at h
  | cons e t ih =>
    obtain ⟨k', v⟩ := e
    unfold tableGet at h
    split at h
    · rename_i hk
      simp only [Option.some.injEq] at h
      subst hk; subst h
      exact List.mem_cons_self _ _
    · exact List.mem_cons_of_mem _ (ih h)

end Emitter

/-! ## Filtering (`_ignoreDoclet`) -/

theorem indexOf_accessLevels (a : String) : indexOf accessLevels a = accessPosition a := by
  unfold indexOf accessPosition accessLevels
  by_cases h0 : a = "private"
  · subst h0; decide
  by_cases h1 : a = "package"
  · subst h1; decide
  by_cases h2 : a = "protected"
  · subst h2; decide
  by_cases h3 : a = "public"
  · subst h3; decide
  have hn : a ∉ ["private", "package", "protected", "public"] := by simp [h0, h1, h2, h3]
  rw [if_neg hn]
  simp [h0, h1, h2, h3]

/-- C4: a doclet of kind `package` or marked ignored is always excluded; any other
doclet is kept when it declares no access level, and when it declares `package`,
`protected` or `public` it is kept exactly when the position of its level in
`private < package < protected < public` is at or above the position of the
configured minimum (`options.access`, `package` when unset). -/
theorem ignoreDoclet_access_rule (options : Options) (doclet : Doclet) :
    ((doclet.kind = "package" ∨ doclet.ignore = true) → _ignoreDoclet options doclet = true) ∧
    (doclet.kind ≠ "package" → doclet.ignore = false →
      (doclet.access = none → _ignoreDoclet options doclet = false) ∧
      (∀ a, a = "package" ∨ a = "protected" ∨ a = "public" → doclet.access = some a →
        (_ignoreDoclet options doclet = false
          ↔ accessPosition (minimumAccess options) ≤ accessPosition a))) := by
  refine ⟨?_, ?_⟩
  · intro h
    unfold _ignoreDoclet
    rcases h with h | h
    · simp [h]
    · simp [h]
  · intro hk hi
    refine ⟨?_, ?_⟩
    · intro ha
      unfold _ignoreDoclet
      simp [hk, hi, ha]
    · intro a ha hacc
      have hne : a ≠ "private" := by
        rcases ha with h | h | h <;> subst h <;> decide
      unfold _ignoreDoclet
      simp only [hk, hi, hacc, false_or, Bool.false_eq_true, Option.some.injEq, hne, and_false,
        if_false]
      rw [indexOf_accessLevels, indexOf_accessLevels]
      simp only [decide_eq_false_iff_not, not_lt]
      rfl

/-- C4, at a concrete input: with the default minimum a `protected` class is kept, and
with minimum `public` it is dropped. -/
theorem ignoreDoclet_access_rule_witness :
    _ignoreDoclet {} { kind := "class", longname := "Foo", access := some "protected" } = false
    ∧ _ignoreDoclet { access := some "public" }
        { kind := "class", longname := "Foo", access := some "protected" } = true := by
  have h1 := (ignoreDoclet_access_rule {}
    { kind := "class", longname := "Foo", access := some "protected" }).2 (by decide) rfl
  have h2 := (ignoreDoclet_access_rule { access := some "public" }
    { kind := "class", longname := "Foo", access := some "protected" }).2 (by decide) rfl
  refine ⟨(h1.2 "protected" (by decide) rfl).2 (by decide), ?_⟩
  have h3 := (h2.2 "protected" (by decide) rfl).not.2 (by decide)
  simpa using h3

/-- C5, the code at the failing input: with the private-inclusion option set and the
minimum level `public`, `_ignoreDoclet` drops a doclet with access `private`; it
also drops it under the default minimum level. -/
theorem ignoreDoclet_private_inclusion_dropped :
    _ignoreDoclet { private_ := true, access := some "public" }
        { kind := "class", longname := "Foo", access := some "private" } = true
    ∧ _ignoreDoclet { private_ := true }
        { kind := "class", longname := "Foo", access := some "private" } = true := by
  decide

namespace Emitter

/-! ## Termination of the companion-namespace construction -/

theorem docOf_withNamespace (s : Emitter) (obj n : Nat) :
    (s.withNamespace obj).docOf n
      = if n = s.nodes.length then companionDoclet (s.docOf obj) else s.docOf n := by
  unfold docOf withNamespace
  rw [node_register, node_alloc]
  split <;> rfl

theorem lookup_withNamespace (s : Emitter) (obj : Nat) (k : String) :
    (s.withNamespace obj).lookup k
      = if _getNamespaceKey (s.docOf obj).longname = k then some s.nodes.length
        else s.lookup k := by
  unfold withNamespace
  rw [lookup_register]; rfl

theorem pendingNode_withNamespace (s : Emitter) (obj n : Nat)
    (h : (s.withNamespace obj).pendingNode n = true) : s.pendingNode n = true := by
  unfold pendingNode at h ⊢
  rw [docOf_withNamespace, lookup_withNamespace] at h
  by_cases hn : n = s.nodes.length
  · simp [hn, companionDoclet] at h
  · simp only [hn, if_false] at h
    split at h
    · simp at h
    · exact h

theorem not_pendingNode_withNamespace (s : Emitter) (obj : Nat) :
    (s.withNamespace obj).pendingNode obj = false := by
  unfold pendingNode
  rw [docOf_withNamespace, lookup_withNamespace]
  by_cases hn : obj = s.nodes.length
  · simp [hn, companionDoclet]
  · simp [hn]

theorem countP_lt_of_imp {α : Type} (p q : α → Bool) (l : List α) (a : α) (ha : a ∈ l)
    (hq : q a = true) (hp : p a = false) (himp : ∀ x ∈ l, p x = true → q x = true) :
    l.countP p < l.countP q := by
  induction l with
  | nil => simp at ha
  | cons x l ih =>
    rw [List.countP_cons, List.countP_cons]
    rcases List.mem_cons.1 ha with hax | hal
    · subst hax
      have hle : l.countP p ≤ l.countP q :=
        List.countP_mono_left (fun y hy => himp y (List.mem_cons_of_mem _ hy))
      simp [hq, hp]
      omega
    · have := ih hal (fun y hy => himp y (List.mem_cons_of_mem _ hy))
      have hx : p x = true → q x = true := himp x (List.mem_cons_self _ _)
      by_cases hpx : p x = true
      · simp [hpx, hx hpx]; omega
      · simp [hpx]; omega

theorem pendingCount_withNamespace_le (s : Emitter) (obj : Nat) :
    (s.withNamespace obj).pendingCount ≤ s.pendingCount := by
  unfold pendingCount
  have : (s.withNamespace obj)._treeNodes
      = (_getNamespaceKey (s.docOf obj).longname, s.nodes.length) :: s._treeNodes := rfl
  rw [this, List.countP_cons]
  have hfresh : (s.withNamespace obj).pendingNode s.nodes.length = false := by
    unfold pendingNode; rw [docOf_withNamespace]; simp [companionDoclet]
  simp only [hfresh, Bool.false_eq_true, if_false, Nat.add_zero]
  exact List.countP_mono_left (fun e _ h => pendingNode_withNamespace s obj e.2 h)

theorem pendingCount_withNamespace_lt (s : Emitter) (obj : Nat) (k : String)
    (hk : s.lookup k = some obj) (hp : s.pendingNode obj = true) :
    (s.withNamespace obj).pendingCount < s.pendingCount := by
  unfold pendingCount
  have : (s.withNamespace obj)._treeNodes
      = (_getNamespaceKey (s.docOf obj).longname, s.nodes.length) :: s._treeNodes := rfl
  rw [this, List.countP_cons]
  have hfresh : (s.withNamespace obj).pendingNode s.nodes.length = false := by
    unfold pendingNode; rw [docOf_withNamespace]; simp [companionDoclet]
  simp only [hfresh, Bool.false_eq_true, if_false, Nat.add_zero]
  exact countP_lt_of_imp _ _ _ (k, obj) (mem_of_tableGet hk) hp
    (not_pendingNode_withNamespace s obj) (fun e _ h => pendingNode_withNamespace s obj e.2 h)

theorem pendingCount_le_length (s : Emitter) : s.pendingCount ≤ s._treeNodes.length :=
  List.countP_le_length _

/-- One unfolding of the construction on a pending node. -/
theorem getOrCreate_succ_pending (fuel : Nat) (s : Emitter) (obj : Nat)
    (hp : s.pendingNode obj = true) :
    _getOrCreateClassNamespaceFuel (fuel + 1) s obj
      = if truthy ((s.withNamespace obj).docOf obj).memberof then
          match (s.withNamespace obj).lookup
            (((s.withNamespace obj).docOf obj).memberof.getD "") with
          | none =>
            some ((s.withNamespace obj).warn (Warning.missingParent
              ((s.withNamespace obj).docOf obj).longname
              (((s.withNamespace obj).docOf obj).memberof.getD "")), s.nodes.length)
          | some parent =>
            match _getOrCreateClassNamespaceFuel fuel (s.withNamespace obj) parent with
            | none => none
            | some (s2, parentMod) =>
              some (((s2.setMemberof s.nodes.length (some (s2.docOf parentMod).longname)).pushChild
                parentMod s.nodes.length), s.nodes.length)
        else some ((s.withNamespace obj).pushRoot s.nodes.length, s.nodes.length) := by
  unfold pendingNode at hp
  simp only [Bool.and_eq_true, decide_eq_true_eq, Option.isNone_iff_eq_none] at hp
  rw [_getOrCreateClassNamespaceFuel]
  rw [if_neg hp.1]
  simp only [hp.2]

/-- One unfolding of the construction on a node that is not pending: it returns at
once, in the same state. -/
theorem getOrCreate_succ_not_pending (s : Emitter) (obj : Nat)
    (hp : s.pendingNode obj = false) :
    ∃ g, ∀ fuel, _getOrCreateClassNamespaceFuel (fuel + 1) s obj = some (s, g) := by
  unfold pendingNode at hp
  by_cases hk : (s.docOf obj).kind = "namespace"
  · exact ⟨obj, fun fuel => by rw [_getOrCreateClassNamespaceFuel, if_pos hk]⟩
  · simp only [hk, ne_eq, not_false_eq_true, decide_True, Bool.true_and] at hp
    cases hl : s.lookup (_getNamespaceKey (s.docOf obj).longname) with
    | none => simp [hl] at hp
    | some m =>
      exact ⟨m, fun fuel => by rw [_getOrCreateClassNamespaceFuel, if_neg hk]; simp only [hl]⟩

/-- With more fuel than pending bindings, a call on a node read from the table returns. -/
theorem getOrCreate_terminates_of_lookup (fuel : Nat) :
    ∀ (s : Emitter) (k : String) (obj : Nat), s.lookup k = some obj → s.pendingCount < fuel →
      (_getOrCreateClassNamespaceFuel fuel s obj).isSome = true := by
  induction fuel with
  | zero => intro s k obj _ h; omega
  | succ fuel ih =>
    intro s k obj hk hc
    cases hp : s.pendingNode obj with
    | false =>
      obtain ⟨g, hg⟩ := getOrCreate_succ_not_pending s obj hp
      rw [hg]; rfl
    | true =>
      rw [getOrCreate_succ_pending fuel s obj hp]
      split
      · split
        · rfl
        · rename_i parent hpar
          have hlt := pendingCount_withNamespace_lt s obj k hk hp
          have := ih (s.withNamespace obj) _ parent hpar (by omega)
          cases hr : _getOrCreateClassNamespaceFuel fuel (s.withNamespace obj) parent with
          | none => rw [hr] at this; simp at this
          | some r => rfl
      · rfl

/-- A call that returns keeps its result when it is given more fuel. -/
theorem getOrCreate_fuel_mono (fuel : Nat) :
    ∀ (s : Emitter) (obj : Nat) (r : Emitter × Nat) (fuel' : Nat), fuel ≤ fuel' →
      _getOrCreateClassNamespaceFuel fuel s obj = some r →
      _getOrCreateClassNamespaceFuel fuel' s obj = some r := by
  induction fuel with
  | zero => intro s obj r fuel' _ h; simp [_getOrCreateClassNamespaceFuel] at h
  | succ fuel ih =>
    intro s obj r fuel' hle h
    obtain ⟨f, rfl⟩ : ∃ f, fuel' = f + 1 := ⟨fuel' - 1, by omega⟩
    cases hp : s.pendingNode obj with
    | false =>
      obtain ⟨g, hg⟩ := getOrCreate_succ_not_pending s obj hp
      rw [hg] at h
      rw [hg]; exact h
    | true =>
      rw [getOrCreate_succ_pending fuel s obj hp] at h
      rw [getOrCreate_succ_pending f s obj hp]
      by_cases hm : truthy ((s.withNamespace obj).docOf obj).memberof = true
      · rw [if_pos hm] at h ⊢
        cases hl : (s.withNamespace obj).lookup
            (((s.withNamespace obj).docOf obj).memberof.getD "") with
        | none => simp only [hl] at h ⊢; exact h
        | some parent =>
          simp only [hl] at h ⊢
          cases hr : _getOrCreateClassNamespaceFuel fuel (s.withNamespace obj) parent with
          | none => rw [hr] at h; simp at h
          | some r' =>
            rw [hr] at h
            rw [ih _ _ r' f (by omega) hr]
            exact h
      · rw [if_neg hm] at h ⊢; exact h

/-- The construction with fuel `size of the table + 2` returns, and more fuel gives
the same result. -/
theorem getOrCreate_returns (s : Emitter) (obj : Nat) :
    (s._getOrCreateClassNamespace obj).isSome = true
    ∧ ∀ fuel, s._treeNodes.length + 2 ≤ fuel →
        _getOrCreateClassNamespaceFuel fuel s obj = s._getOrCreateClassNamespace obj := by
  have hsome : (s._getOrCreateClassNamespace obj).isSome = true := by
    unfold _getOrCreateClassNamespace
    cases hp : s.pendingNode obj with
    | false =>
      obtain ⟨g, hg⟩ := getOrCreate_succ_not_pending s obj hp
      rw [hg]; rfl
    | true =>
      rw [getOrCreate_succ_pending _ s obj hp]
      split
      · split
        · rfl
        · rename_i parent hpar
          have h1 := pendingCount_withNamespace_le s obj
          have h2 := pendingCount_le_length s
          have := getOrCreate_terminates_of_lookup (s._treeNodes.length + 1)
            (s.withNamespace obj) _ parent hpar (by omega)
          cases hr : _getOrCreateClassNamespaceFuel (s._treeNodes.length + 1)
              (s.withNamespace obj) parent with
          | none => rw [hr] at this; simp at this
          | some r => rfl
      · rfl
  refine ⟨hsome, ?_⟩
  intro fuel hle
  cases hr : s._getOrCreateClassNamespace obj with
  | none => rw [hr] at hsome; simp at hsome
  | some r => exact getOrCreate_fuel_mono _ s obj r fuel hle hr

/-- C9: `_getOrCreateClassNamespace` returns on every state and every starting node
(whatever the `memberof` references in the table look like, cycles included): a call
on a node that is not pending returns at once, a call on a pending node first writes
the memo entry, after which the node is no longer pending; so the construction with
fuel `size of the table + 2` yields a result, and any larger amount of fuel yields the
same result. -/
theorem getOrCreateClassNamespace_terminates (s : Emitter) (obj : Nat) :
    (s._getOrCreateClassNamespace obj).isSome = true
    ∧ (∀ fuel, s._treeNodes.length + 2 ≤ fuel →
        _getOrCreateClassNamespaceFuel fuel s obj = s._getOrCreateClassNamespace obj)
    ∧ (s.pendingNode obj = false →
        ∃ g, ∀ fuel, _getOrCreateClassNamespaceFuel (fuel + 1) s obj = some (s, g))
    ∧ (s.withNamespace obj).pendingNode obj = false :=
  ⟨(getOrCreate_returns s obj).1, (getOrCreate_returns s obj).2,
    getOrCreate_succ_not_pending s obj, not_pendingNode_withNamespace s obj⟩

end Emitter

namespace Emitter
/-! ## Views of the derived readers -/

@[simp] theorem unmember_unmember (d : Doclet) : d.unmember.unmember = d.unmember := rfl
@[simp] theorem unmember_kind (d : Doclet) : d.unmember.kind = d.kind := rfl
@[simp] theorem unmember_longname (d : Doclet) : d.unmember.longname = d.longname := rfl

theorem unmember_with_memberof (d : Doclet) (m : Option String) :
    ({ d with memberof := m } : Doclet).unmember = d.unmember := rfl

theorem kind_eq_of_unmember {d d' : Doclet} (h : d.unmember = d'.unmember) : d.kind = d'.kind := by
  have := congrArg Doclet.kind h; exact this

theorem longname_eq_of_unmember {d d' : Doclet} (h : d.unmember = d'.unmember) :
    d.longname = d'.longname := by
  have := congrArg Doclet.longname h; exact this

theorem survives_eq_of_unmember (o : Options) {d d' : Doclet} (h : d.unmember = d'.unmember) :
    survives o d = survives o d' := by
  have hk : d.kind = d'.kind := kind_eq_of_unmember h
  have hi : d.ignore = d'.ignore := by have := congrArg Doclet.ignore h; exact this
  have ha : d.access = d'.access := by have := congrArg Doclet.access h; exact this
  unfold survives _ignoreDoclet
  rw [hk, hi, ha]

theorem isClassLike_eq_of_unmember {d d' : Doclet} (h : d.unmember = d'.unmember) :
    isClassLike d = isClassLike d' := by
  unfold isClassLike; rw [kind_eq_of_unmember h]

theorem isModuleLike_eq_of_unmember {d d' : Doclet} (h : d.unmember = d'.unmember) :
    isModuleLike d = isModuleLike d' := by
  unfold isModuleLike; rw [kind_eq_of_unmember h]

theorem isEnum_eq_of_unmember {d d' : Doclet} (h : d.unmember = d'.unmember) :
    isEnum d = isEnum d' := by
  have hi : d.isEnum = d'.isEnum := by have := congrArg Doclet.isEnum h; exact this
  unfold isEnum; rw [kind_eq_of_unmember h, hi]

theorem shouldMoveOutOfClass_eq_of_unmember {d d' : Doclet} (h : d.unmember = d'.unmember) :
    shouldMoveOutOfClass d = shouldMoveOutOfClass d' := by
  unfold shouldMoveOutOfClass
  rw [isClassLike_eq_of_unmember h, isModuleLike_eq_of_unmember h, isEnum_eq_of_unmember h,
    kind_eq_of_unmember h]

theorem doclet_pushChild (s : Emitter) (p c n : Nat) :
    ((s.pushChild p c).node n).doclet = (s.node n).doclet := by
  rw [node_pushChild]
  by_cases h : n = p ∧ p < s.nodes.length
  · rw [if_pos h, h.1]
  · rw [if_neg h]

theorem children_pushChild (s : Emitter) (p c n : Nat) :
    (s.pushChild p c).childrenOf n
      = if n = p ∧ p < s.nodes.length then s.childrenOf p ++ [c] else s.childrenOf n := by
  unfold childrenOf
  rw [node_pushChild]
  by_cases h : n = p ∧ p < s.nodes.length
  · rw [if_pos h, if_pos h]
  · rw [if_neg h, if_neg h]

theorem doclet_setNested (s : Emitter) (p n : Nat) :
    ((s.setNested p).node n).doclet = (s.node n).doclet := by
  rw [node_setNested]
  by_cases h : n = p ∧ p < s.nodes.length
  · rw [if_pos h, h.1]
  · rw [if_neg h]

theorem children_setNested (s : Emitter) (p n : Nat) :
    (s.setNested p).childrenOf n = s.childrenOf n := by
  unfold childrenOf
  rw [node_setNested]
  by_cases h : n = p ∧ p < s.nodes.length
  · rw [if_pos h, h.1]
  · rw [if_neg h]

theorem doclet_alloc (s : Emitter) (d : DocRef) (n : Nat) :
    ((s.alloc d).node n).doclet = if n = s.nodes.length then d else (s.node n).doclet := by
  rw [node_alloc]
  by_cases h : n = s.nodes.length
  · rw [if_pos h, if_pos h]
  · rw [if_neg h, if_neg h]

theorem container_pushTo (s : Emitter) (c c' : Option Nat) (n : Nat) :
    (s.pushTo c n).container c'
      = if c' = c ∧ validContainer s c = true then s.container c ++ [n] else s.container c' := by
  cases c with
  | none =>
    cases c' with
    | none => simp [pushTo, container, pushRoot, validContainer]
    | some p' => simp [pushTo, container, pushRoot, childrenOf, node]
  | some p =>
    cases c' with
    | none => simp [pushTo, container, pushChild]
    | some p' =>
      simp only [pushTo, container, children_pushChild, validContainer, Option.some.injEq,
        decide_eq_true_eq]

theorem srcIndex_pushTo (s : Emitter) (c : Option Nat) (n m : Nat) :
    (s.pushTo c n).srcIndex m = s.srcIndex m := by
  cases c with
  | none => rfl
  | some p => simp only [pushTo, srcIndex, doclet_pushChild]

theorem doc_pushTo (s : Emitter) (c : Option Nat) (n i : Nat) :
    (s.pushTo c n).doc i = s.doc i := by
  cases c <;> rfl

theorem docOf_pushTo (s : Emitter) (c : Option Nat) (n m : Nat) :
    (s.pushTo c n).docOf m = s.docOf m := by
  cases c with
  | none => rfl
  | some p =>
    simp only [pushTo, docOf, doclet_pushChild]
    rfl

theorem lookup_pushTo (s : Emitter) (c : Option Nat) (n : Nat) (k : String) :
    (s.pushTo c n).lookup k = s.lookup k := by
  cases c <;> rfl

theorem nodes_length_pushTo (s : Emitter) (c : Option Nat) (n : Nat) :
    (s.pushTo c n).nodes.length = s.nodes.length := by
  cases c with
  | none => rfl
  | some p => simp [pushTo, pushChild]

theorem docs_pushTo (s : Emitter) (c : Option Nat) (n : Nat) : (s.pushTo c n).docs = s.docs := by
  cases c <;> rfl

theorem options_pushTo (s : Emitter) (c : Option Nat) (n : Nat) :
    (s.pushTo c n).options = s.options := by
  cases c <;> rfl

theorem warnings_pushTo (s : Emitter) (c : Option Nat) (n : Nat) :
    (s.pushTo c n).warnings = s.warnings := by
  cases c <;> rfl

theorem container_alloc (s : Emitter) (d : DocRef) (c : Option Nat) :
    (s.alloc d).container c = s.container c := by
  cases c with
  | none => rfl
  | some p =>
    simp only [container, childrenOf, node_alloc]
    by_cases h : p = s.nodes.length
    · rw [if_pos h, node_of_length_le s p (by omega)]
    · rw [if_neg h]

theorem srcIndex_alloc (s : Emitter) (d : DocRef) (n : Nat) :
    (s.alloc d).srcIndex n = if n = s.nodes.length then d.index else s.srcIndex n := by
  simp only [srcIndex, doclet_alloc]
  by_cases h : n = s.nodes.length
  · rw [if_pos h, if_pos h]
  · rw [if_neg h, if_neg h]

theorem docOf_alloc (s : Emitter) (d : DocRef) (n : Nat) :
    (s.alloc d).docOf n = if n = s.nodes.length then s.deref d else s.docOf n := by
  simp only [docOf, doclet_alloc]
  by_cases h : n = s.nodes.length
  · rw [if_pos h, if_pos h]; cases d <;> rfl
  · rw [if_neg h, if_neg h]; rfl

@[simp] theorem nodes_length_alloc (s : Emitter) (d : DocRef) :
    (s.alloc d).nodes.length = s.nodes.length + 1 := by
  simp [alloc]

@[simp] theorem container_register (s : Emitter) (k : String) (n : Nat) (c : Option Nat) :
    (s.register k n).container c = s.container c := by cases c <;> rfl

@[simp] theorem srcIndex_register (s : Emitter) (k : String) (n m : Nat) :
    (s.register k n).srcIndex m = s.srcIndex m := rfl

@[simp] theorem docOf_register (s : Emitter) (k : String) (n m : Nat) :
    (s.register k n).docOf m = s.docOf m := rfl

@[simp] theorem container_warn (s : Emitter) (w : Warning) (c : Option Nat) :
    (s.warn w).container c = s.container c := by cases c <;> rfl

@[simp] theorem srcIndex_warn (s : Emitter) (w : Warning) (m : Nat) :
    (s.warn w).srcIndex m = s.srcIndex m := rfl

@[simp] theorem docOf_warn (s : Emitter) (w : Warning) (m : Nat) :
    (s.warn w).docOf m = s.docOf m := rfl

theorem container_setNested (s : Emitter) (n : Nat) (c : Option Nat) :
    (s.setNested n).container c = s.container c := by
  cases c with
  | none => rfl
  | some p => exact children_setNested s n p

theorem srcIndex_setNested (s : Emitter) (n m : Nat) :
    (s.setNested n).srcIndex m = s.srcIndex m := by
  simp only [srcIndex, doclet_setNested]

theorem docOf_setNested (s : Emitter) (n m : Nat) :
    (s.setNested n).docOf m = s.docOf m := by
  simp only [docOf, doclet_setNested]
  rfl

@[simp] theorem nodes_length_setNested (s : Emitter) (n : Nat) :
    (s.setNested n).nodes.length = s.nodes.length := by
  simp [setNested]

/-! ### `setMemberof` and `reassignStatic` -/

@[simp] theorem nodes_length_setMemberof (s : Emitter) (n : Nat) (m : Option String) :
    (s.setMemberof n m).nodes.length = s.nodes.length := by
  unfold setMemberof; split <;> simp

@[simp] theorem docs_length_setMemberof (s : Emitter) (n : Nat) (m : Option String) :
    (s.setMemberof n m).docs.length = s.docs.length := by
  unfold setMemberof; split <;> simp

@[simp] theorem options_setMemberof (s : Emitter) (n : Nat) (m : Option String) :
    (s.setMemberof n m).options = s.options := by
  unfold setMemberof; split <;> rfl

@[simp] theorem warnings_setMemberof (s : Emitter) (n : Nat) (m : Option String) :
    (s.setMemberof n m).warnings = s.warnings := by
  unfold setMemberof; split <;> rfl

@[simp] theorem roots_setMemberof (s : Emitter) (n : Nat) (m : Option String) :
    (s.setMemberof n m)._treeRoots = s._treeRoots := by
  unfold setMemberof; split <;> rfl

theorem node_setMemberof_syn (s : Emitter) (n : Nat) (m : Option String) (d : Doclet)
    (h : (s.node n).doclet = DocRef.syn d) (k : Nat) :
    (s.setMemberof n m).node k
      = if k = n ∧ n < s.nodes.length
        then { s.node n with doclet := DocRef.syn { d with memberof := m } } else s.node k := by
  unfold setMemberof
  simp only [h]
  exact node_set s n _ k _ rfl

theorem docs_setMemberof_syn (s : Emitter) (n : Nat) (m : Option String) (d : Doclet)
    (h : (s.node n).doclet = DocRef.syn d) : (s.setMemberof n m).docs = s.docs := by
  unfold setMemberof
  simp only [h]

theorem children_setMemberof (s : Emitter) (n : Nat) (m : Option String) (k : Nat) :
    (s.setMemberof n m).childrenOf k = s.childrenOf k := by
  cases hd : (s.node n).doclet with
  | src i => unfold setMemberof; simp only [hd]; rfl
  | syn d =>
    unfold childrenOf
    rw [node_setMemberof_syn s n m d hd]
    by_cases h : k = n ∧ n < s.nodes.length
    · rw [if_pos h, h.1]
    · rw [if_neg h]

theorem container_setMemberof (s : Emitter) (n : Nat) (m : Option String) (c : Option Nat) :
    (s.setMemberof n m).container c = s.container c := by
  cases c with
  | none => exact roots_setMemberof s n m
  | some p => exact children_setMemberof s n m p

theorem srcIndex_setMemberof (s : Emitter) (n : Nat) (m : Option String) (k : Nat) :
    (s.setMemberof n m).srcIndex k = s.srcIndex k := by
  cases hd : (s.node n).doclet with
  | src i => unfold setMemberof; simp only [hd]; rfl
  | syn d =>
    unfold srcIndex
    rw [node_setMemberof_syn s n m d hd]
    by_cases h : k = n ∧ n < s.nodes.length
    · rw [if_pos h, h.1, hd]; rfl
    · rw [if_neg h]

theorem doc_set_unmember (docs : List Doclet) (i j : Nat) (m : Option String) :
    (((docs.set i { (docs[i]?).getD {} with memberof := m })[j]?).getD {}).unmember
      = ((docs[j]?).getD {}).unmember := by
  simp only [List.getElem?_set]
  by_cases hij : i = j
  · subst hij
    by_cases hlt : i < docs.length
    · simp [hlt]; rfl
    · simp [hlt, List.getElem?_eq_none (Nat.le_of_not_lt hlt)]
  · simp [hij]

theorem doc_setMemberof_unmember (s : Emitter) (n : Nat) (m : Option String) (i : Nat) :
    ((s.setMemberof n m).doc i).unmember = (s.doc i).unmember := by
  cases hd : (s.node n).doclet with
  | src j =>
    unfold setMemberof; simp only [hd]
    exact doc_set_unmember s.docs j i m
  | syn d => unfold doc; rw [docs_setMemberof_syn s n m d hd]

theorem docOf_setMemberof_unmember (s : Emitter) (n : Nat) (m : Option String) (k : Nat) :
    ((s.setMemberof n m).docOf k).unmember = (s.docOf k).unmember := by
  cases hd : (s.node n).doclet with
  | src j =>
    have hnode : ∀ k, (s.setMemberof n m).node k = s.node k := by
      intro k; unfold setMemberof; simp only [hd]; rfl
    unfold docOf
    rw [hnode]
    cases hk : (s.node k).doclet with
    | src i => exact doc_setMemberof_unmember s n m i
    | syn d => rfl
  | syn d =>
    unfold docOf
    rw [node_setMemberof_syn s n m d hd]
    by_cases h : k = n ∧ n < s.nodes.length
    · rw [if_pos h, h.1, hd]; rfl
    · rw [if_neg h]
      cases hk : (s.node k).doclet with
      | src i => simp only [deref]; unfold doc; rw [docs_setMemberof_syn s n m d hd]
      | syn d' => rfl

theorem docOf_setMemberof_self (s : Emitter) (n : Nat) (m : Option String) (d : Doclet)
    (h : (s.node n).doclet = DocRef.syn d) (hn : n < s.nodes.length) :
    (s.setMemberof n m).docOf n = { d with memberof := m } := by
  unfold docOf
  rw [node_setMemberof_syn s n m d h, if_pos ⟨rfl, hn⟩]
  rfl

theorem docOf_setMemberof_ne (s : Emitter) (n : Nat) (m : Option String) (d : Doclet)
    (h : (s.node n).doclet = DocRef.syn d) (k : Nat) (hk : k ≠ n) :
    (s.setMemberof n m).docOf k = s.docOf k := by
  unfold docOf
  rw [node_setMemberof_syn s n m d h, if_neg (fun hh => hk hh.1)]
  cases hd : (s.node k).doclet with
  | src i => simp only [deref]; unfold doc; rw [docs_setMemberof_syn s n m d h]
  | syn d' => rfl

/-- The assignment of line 107 on one doclet. -/
theorem doc_reassignStatic (s : Emitter) (l : String) (i : Nat) :
    (s.reassignStatic l).doc i
      = if isStaticChildOf l (s.doc i) then
          { s.doc i with memberof := some (_getNamespaceKey l) } else s.doc i := by
  unfold doc reassignStatic
  simp only [List.getElem?_map]
  cases h : s.docs[i]? with
  | none => simp [isStaticChildOf]
  | some d => simp

theorem doc_reassignStatic_unmember (s : Emitter) (l : String) (i : Nat) :
    ((s.reassignStatic l).doc i).unmember = (s.doc i).unmember := by
  rw [doc_reassignStatic]
  split <;> rfl

@[simp] theorem node_reassignStatic (s : Emitter) (l : String) (n : Nat) :
    (s.reassignStatic l).node n = s.node n := rfl

@[simp] theorem container_reassignStatic (s : Emitter) (l : String) (c : Option Nat) :
    (s.reassignStatic l).container c = s.container c := by cases c <;> rfl

@[simp] theorem srcIndex_reassignStatic (s : Emitter) (l : String) (n : Nat) :
    (s.reassignStatic l).srcIndex n = s.srcIndex n := rfl

theorem docOf_reassignStatic_unmember (s : Emitter) (l : String) (n : Nat) :
    ((s.reassignStatic l).docOf n).unmember = (s.docOf n).unmember := by
  unfold docOf
  rw [node_reassignStatic]
  cases (s.node n).doclet with
  | src i => exact doc_reassignStatic_unmember s l i
  | syn d => rfl

theorem docOf_reassignStatic_syn (s : Emitter) (l : String) (n : Nat)
    (h : s.srcIndex n = none) : (s.reassignStatic l).docOf n = s.docOf n := by
  unfold docOf
  rw [node_reassignStatic]
  unfold srcIndex at h
  cases hd : (s.node n).doclet with
  | src i => rw [hd] at h; simp [DocRef.index] at h
  | syn d => rfl

@[simp] theorem docs_length_reassignStatic (s : Emitter) (l : String) :
    (s.reassignStatic l).docs.length = s.docs.length := by
  simp [reassignStatic]

end Emitter

namespace Emitter

/-! ## Growth of the state under the primitive updates -/

theorem Grows.refl (s : Emitter) : Grows s s :=
  ⟨rfl, rfl, fun _ => rfl, Nat.le_refl _, fun _ _ => rfl, fun _ _ => rfl,
    fun _ => List.prefix_refl _, List.prefix_refl _⟩

theorem Grows.trans {s s' s'' : Emitter} (h : Grows s s') (h' : Grows s' s'') : Grows s s'' where
  options := h'.options.trans h.options
  docs_length := h'.docs_length.trans h.docs_length
  doc_frame := fun i => (h'.doc_frame i).trans (h.doc_frame i)
  nodes_length := Nat.le_trans h.nodes_length h'.nodes_length
  srcIndex_eq := fun n hn =>
    (h'.srcIndex_eq n (Nat.lt_of_lt_of_le hn h.nodes_length)).trans (h.srcIndex_eq n hn)
  docOf_frame := fun n hn =>
    (h'.docOf_frame n (Nat.lt_of_lt_of_le hn h.nodes_length)).trans (h.docOf_frame n hn)
  container_prefix := fun c => (h.container_prefix c).trans (h'.container_prefix c)
  warnings_prefix := h.warnings_prefix.trans h'.warnings_prefix

theorem grows_alloc (s : Emitter) (d : DocRef) : Grows s (s.alloc d) where
  options := rfl
  docs_length := rfl
  doc_frame := fun _ => rfl
  nodes_length := by simp
  srcIndex_eq := fun n hn => by rw [srcIndex_alloc, if_neg (Nat.ne_of_lt hn)]
  docOf_frame := fun n hn => by rw [docOf_alloc, if_neg (Nat.ne_of_lt hn)]
  container_prefix := fun c => by rw [container_alloc]
  warnings_prefix := List.prefix_refl _

theorem grows_register (s : Emitter) (k : String) (n : Nat) : Grows s (s.register k n) where
  options := rfl
  docs_length := rfl
  doc_frame := fun _ => rfl
  nodes_length := Nat.le_refl _
  srcIndex_eq := fun _ _ => rfl
  docOf_frame := fun _ _ => rfl
  container_prefix := fun c => by rw [container_register]
  warnings_prefix := List.prefix_refl _

theorem grows_pushTo (s : Emitter) (c : Option Nat) (n : Nat) : Grows s (s.pushTo c n) where
  options := options_pushTo s c n
  docs_length := by rw [docs_pushTo]
  doc_frame := fun i => by rw [doc_pushTo]
  nodes_length := by rw [nodes_length_pushTo]
  srcIndex_eq := fun m _ => srcIndex_pushTo s c n m
  docOf_frame := fun m _ => by rw [docOf_pushTo]
  container_prefix := fun c' => by
    rw [container_pushTo]
    split
    · rename_i h; rw [h.1]; exact List.prefix_append _ _
    · exact List.prefix_refl _
  warnings_prefix := by rw [warnings_pushTo]

theorem grows_warn (s : Emitter) (w : Warning) : Grows s (s.warn w) where
  options := rfl
  docs_length := rfl
  doc_frame := fun _ => rfl
  nodes_length := Nat.le_refl _
  srcIndex_eq := fun _ _ => rfl
  docOf_frame := fun _ _ => rfl
  container_prefix := fun c => by rw [container_warn]
  warnings_prefix := List.prefix_append _ _

theorem grows_setNested (s : Emitter) (n : Nat) : Grows s (s.setNested n) where
  options := rfl
  docs_length := rfl
  doc_frame := fun _ => rfl
  nodes_length := by simp
  srcIndex_eq := fun m _ => srcIndex_setNested s n m
  docOf_frame := fun m _ => by rw [docOf_setNested]
  container_prefix := fun c => by rw [container_setNested]
  warnings_prefix := List.prefix_refl _

theorem grows_setMemberof (s : Emitter) (n : Nat) (m : Option String) :
    Grows s (s.setMemberof n m) where
  options := by simp
  docs_length := by simp
  doc_frame := fun i => doc_setMemberof_unmember s n m i
  nodes_length := by simp
  srcIndex_eq := fun k _ => srcIndex_setMemberof s n m k
  docOf_frame := fun k _ => docOf_setMemberof_unmember s n m k
  container_prefix := fun c => by rw [container_setMemberof]
  warnings_prefix := by simp

theorem grows_reassignStatic (s : Emitter) (l : String) : Grows s (s.reassignStatic l) where
  options := rfl
  docs_length := by simp
  doc_frame := fun i => doc_reassignStatic_unmember s l i
  nodes_length := Nat.le_refl _
  srcIndex_eq := fun _ _ => rfl
  docOf_frame := fun n _ => docOf_reassignStatic_unmember s l n
  container_prefix := fun c => by rw [container_reassignStatic]
  warnings_prefix := List.prefix_refl _

theorem Grows.mem_container {s s' : Emitter} (h : Grows s s') {c : Option Nat} {n : Nat}
    (hn : n ∈ s.container c) : n ∈ s'.container c :=
  (h.container_prefix c).subset hn

theorem Grows.kind_eq {s s' : Emitter} (h : Grows s s') {n : Nat} (hn : n < s.nodes.length) :
    (s'.docOf n).kind = (s.docOf n).kind :=
  kind_eq_of_unmember (h.docOf_frame n hn)

theorem Grows.longname_eq {s s' : Emitter} (h : Grows s s') {n : Nat} (hn : n < s.nodes.length) :
    (s'.docOf n).longname = (s.docOf n).longname :=
  longname_eq_of_unmember (h.docOf_frame n hn)

/-! ## Well-formedness under the primitive updates -/

theorem srcIndex_of_length_le (s : Emitter) (n : Nat) (h : s.nodes.length ≤ n) :
    s.srcIndex n = none := by
  unfold srcIndex; rw [node_of_length_le s n h]; rfl

theorem WF.srcIndex_lt {o : Options} {D : List Doclet} {s : Emitter} (_ : WF o D s) {n i : Nat}
    (h : s.srcIndex n = some i) : n < s.nodes.length := by
  by_contra hlt
  rw [srcIndex_of_length_le s n (Nat.le_of_not_lt hlt)] at h
  simp at h

theorem wf_alloc {o : Options} {D : List Doclet} {s : Emitter} (h : WF o D s) (d : DocRef)
    (hd : ∀ i, d.index = some i → i < D.length ∧ survives o (docAt D i) = true) :
    WF o D (s.alloc d) where
  options_eq := h.options_eq
  docs_length := h.docs_length
  doc_frame := h.doc_frame
  table_valid := fun k n hk => by
    have := h.table_valid k n hk
    simp; omega
  container_valid := fun c n hn => by
    rw [container_alloc] at hn
    have := h.container_valid c n hn
    simp; omega
  key_longname := fun k n hk => by
    have hlt := h.table_valid k n hk
    rw [docOf_alloc, if_neg (Nat.ne_of_lt hlt)]
    exact h.key_longname k n hk
  src_survives := fun n i hn => by
    rw [srcIndex_alloc] at hn
    split at hn
    · exact hd i hn
    · exact h.src_survives n i hn

theorem wf_register {o : Options} {D : List Doclet} {s : Emitter} (h : WF o D s) (k : String)
    (n : Nat) (hn : n < s.nodes.length) (hk : (s.docOf n).longname = k) :
    WF o D (s.register k n) where
  options_eq := h.options_eq
  docs_length := h.docs_length
  doc_frame := h.doc_frame
  table_valid := fun k' n' hk' => by
    rw [lookup_register] at hk'
    split at hk'
    · simp only [Option.some.injEq] at hk'; subst hk'; exact hn
    · exact h.table_valid k' n' hk'
  container_valid := fun c n' hn' => by
    rw [container_register] at hn'
    exact h.container_valid c n' hn'
  key_longname := fun k' n' hk' => by
    rw [lookup_register] at hk'
    rw [docOf_register]
    split at hk'
    · rename_i hkk
      simp only [Option.some.injEq] at hk'; subst hk'; rw [hk, hkk]
    · exact h.key_longname k' n' hk'
  src_survives := h.src_survives

theorem wf_pushTo {o : Options} {D : List Doclet} {s : Emitter} (h : WF o D s) (c : Option Nat)
    (n : Nat) (hn : n < s.nodes.length) : WF o D (s.pushTo c n) where
  options_eq := by rw [options_pushTo]; exact h.options_eq
  docs_length := by rw [docs_pushTo]; exact h.docs_length
  doc_frame := fun i => by rw [doc_pushTo]; exact h.doc_frame i
  table_valid := fun k n' hk => by
    rw [lookup_pushTo] at hk; rw [nodes_length_pushTo]; exact h.table_valid k n' hk
  container_valid := fun c' n' hn' => by
    rw [nodes_length_pushTo]
    rw [container_pushTo] at hn'
    split at hn'
    · rcases List.mem_append.1 hn' with hm | hm
      · exact h.container_valid c n' hm
      · simp only [List.mem_singleton] at hm; subst hm; exact hn
    · exact h.container_valid c' n' hn'
  key_longname := fun k n' hk => by
    rw [lookup_pushTo] at hk; rw [docOf_pushTo]; exact h.key_longname k n' hk
  src_survives := fun n' i hn' => by
    rw [srcIndex_pushTo] at hn'; exact h.src_survives n' i hn'

theorem wf_warn {o : Options} {D : List Doclet} {s : Emitter} (h : WF o D s) (w : Warning) :
    WF o D (s.warn w) where
  options_eq := h.options_eq
  docs_length := h.docs_length
  doc_frame := h.doc_frame
  table_valid := h.table_valid
  container_valid := fun c n hn => by
    rw [container_warn] at hn; exact h.container_valid c n hn
  key_longname := h.key_longname
  src_survives := h.src_survives

theorem wf_setNested {o : Options} {D : List Doclet} {s : Emitter} (h : WF o D s) (n : Nat) :
    WF o D (s.setNested n) where
  options_eq := h.options_eq
  docs_length := h.docs_length
  doc_frame := h.doc_frame
  table_valid := fun k n' hk => by
    rw [nodes_length_setNested]; exact h.table_valid k n' hk
  container_valid := fun c n' hn' => by
    rw [container_setNested] at hn'; rw [nodes_length_setNested]
    exact h.container_valid c n' hn'
  key_longname := fun k n' hk => by
    rw [docOf_setNested]; exact h.key_longname k n' hk
  src_survives := fun n' i hn' => by
    rw [srcIndex_setNested] at hn'; exact h.src_survives n' i hn'

theorem wf_setMemberof {o : Options} {D : List Doclet} {s : Emitter} (h : WF o D s) (n : Nat)
    (m : Option String) : WF o D (s.setMemberof n m) where
  options_eq := by rw [options_setMemberof]; exact h.options_eq
  docs_length := by rw [docs_length_setMemberof]; exact h.docs_length
  doc_frame := fun i => (doc_setMemberof_unmember s n m i).trans (h.doc_frame i)
  table_valid := fun k n' hk => by
    rw [lookup_setMemberof] at hk; rw [nodes_length_setMemberof]; exact h.table_valid k n' hk
  container_valid := fun c n' hn' => by
    rw [container_setMemberof] at hn'; rw [nodes_length_setMemberof]
    exact h.container_valid c n' hn'
  key_longname := fun k n' hk => by
    rw [lookup_setMemberof] at hk
    rw [longname_eq_of_unmember (docOf_setMemberof_unmember s n m n')]
    exact h.key_longname k n' hk
  src_survives := fun n' i hn' => by
    rw [srcIndex_setMemberof] at hn'; exact h.src_survives n' i hn'

theorem wf_reassignStatic {o : Options} {D : List Doclet} {s : Emitter} (h : WF o D s)
    (l : String) : WF o D (s.reassignStatic l) where
  options_eq := h.options_eq
  docs_length := by rw [docs_length_reassignStatic]; exact h.docs_length
  doc_frame := fun i => (doc_reassignStatic_unmember s l i).trans (h.doc_frame i)
  table_valid := h.table_valid
  container_valid := fun c n hn => by
    rw [container_reassignStatic] at hn; exact h.container_valid c n hn
  key_longname := fun k n hk => by
    rw [lookup_reassignStatic] at hk
    rw [longname_eq_of_unmember (docOf_reassignStatic_unmember s l n)]
    exact h.key_longname k n hk
  src_survives := h.src_survives

end Emitter

namespace Emitter

/-! ## An induction principle for the companion-namespace construction -/

/-- Every property of a returning call of `_getOrCreateClassNamespace` can be shown
along its four ways to return. -/
theorem getOrCreate_induct (P : Emitter → Nat → Emitter → Nat → Prop)
    (h_namespace : ∀ s obj, (s.docOf obj).kind = "namespace" → P s obj s obj)
    (h_memo : ∀ s obj g, (s.docOf obj).kind ≠ "namespace" →
      s.lookup (_getNamespaceKey (s.docOf obj).longname) = some g → P s obj s g)
    (h_root : ∀ s obj, s.pendingNode obj = true →
      truthy ((s.withNamespace obj).docOf obj).memberof = false →
      P s obj ((s.withNamespace obj).pushTo none s.nodes.length) s.nodes.length)
    (h_warn : ∀ s obj, s.pendingNode obj = true →
      truthy ((s.withNamespace obj).docOf obj).memberof = true →
      (s.withNamespace obj).lookup (((s.withNamespace obj).docOf obj).memberof.getD "") = none →
      P s obj ((s.withNamespace obj).warn (Warning.missingParent
        ((s.withNamespace obj).docOf obj).longname
        (((s.withNamespace obj).docOf obj).memberof.getD ""))) s.nodes.length)
    (h_rec : ∀ s obj parent s2 parentMod, s.pendingNode obj = true →
      truthy ((s.withNamespace obj).docOf obj).memberof = true →
      (s.withNamespace obj).lookup (((s.withNamespace obj).docOf obj).memberof.getD "")
        = some parent →
      (∃ fuel, _getOrCreateClassNamespaceFuel fuel (s.withNamespace obj) parent
        = some (s2, parentMod)) →
      P (s.withNamespace obj) parent s2 parentMod →
      P s obj ((s2.setMemberof s.nodes.length (some (s2.docOf parentMod).longname)).pushTo
        (some parentMod) s.nodes.length) s.nodes.length) :
    ∀ (fuel : Nat) (s : Emitter) (obj : Nat) (s' : Emitter) (g : Nat),
      _getOrCreateClassNamespaceFuel fuel s obj = some (s', g) → P s obj s' g := by
  intro fuel
  induction fuel with
  | zero => intro s obj s' g h; simp [_getOrCreateClassNamespaceFuel] at h
  | succ fuel ih =>
    intro s obj s' g h
    cases hp : s.pendingNode obj with
    | false =>
      unfold pendingNode at hp
      rw [_getOrCreateClassNamespaceFuel] at h
      by_cases hk : (s.docOf obj).kind = "namespace"
      · rw [if_pos hk] at h
        simp only [Option.some.injEq, Prod.mk.injEq] at h
        obtain ⟨rfl, rfl⟩ := h
        exact h_namespace s obj hk
      · rw [if_neg hk] at h
        simp only [hk, ne_eq, not_false_eq_true, decide_True, Bool.true_and] at hp
        cases hl : s.lookup (_getNamespaceKey (s.docOf obj).longname) with
        | none => simp [hl] at hp
        | some m =>
          simp only [hl, Option.some.injEq, Prod.mk.injEq] at h
          obtain ⟨rfl, rfl⟩ := h
          exact h_memo s obj m hk hl
    | true =>
      rw [getOrCreate_succ_pending fuel s obj hp] at h
      by_cases hm : truthy ((s.withNamespace obj).docOf obj).memberof = true
      · rw [if_pos hm] at h
        cases hl : (s.withNamespace obj).lookup
            (((s.withNamespace obj).docOf obj).memberof.getD "") with
        | none =>
          simp only [hl, Option.some.injEq, Prod.mk.injEq] at h
          obtain ⟨rfl, rfl⟩ := h
          exact h_warn s obj hp hm hl
        | some parent =>
          simp only [hl] at h
          cases hr : _getOrCreateClassNamespaceFuel fuel (s.withNamespace obj) parent with
          | none => rw [hr] at h; simp at h
          | some r' =>
            obtain ⟨s2, parentMod⟩ := r'
            rw [hr] at h
            simp only [Option.some.injEq, Prod.mk.injEq] at h
            obtain ⟨rfl, rfl⟩ := h
            exact h_rec s obj parent s2 parentMod hp hm hl ⟨fuel, hr⟩ (ih _ _ _ _ hr)
      · rw [if_neg hm] at h
        simp only [Option.some.injEq, Prod.mk.injEq] at h
        obtain ⟨rfl, rfl⟩ := h
        exact h_root s obj hp (by simpa using hm)

end Emitter

namespace Emitter

/-! ## The effect of the companion-namespace construction -/

theorem GocPost.same (L : Nat) (s : Emitter) : GocPost L s s where
  grows := Grows.refl s
  docs_eq := rfl
  fresh_syn := fun n h1 h2 => absurd h2 (Nat.not_lt.2 h1)
  pushes_fresh := fun c => ⟨[], by simp, by simp⟩
  lookup_old := fun _ _ h => h
  lookup_new := fun _ _ h => Or.inl h
  old_docOf := fun _ _ => rfl

theorem GocPost.andThen {L : Nat} {s s1 s2 : Emitter} (h : GocPost L s s1) (h' : GocPost L s1 s2) :
    GocPost L s s2 where
  grows := h.grows.trans h'.grows
  docs_eq := h'.docs_eq.trans h.docs_eq
  fresh_syn := fun n h1 h2 => by
    by_cases hn : n < s1.nodes.length
    · obtain ⟨ha, hb⟩ := h.fresh_syn n h1 hn
      exact ⟨(h'.grows.srcIndex_eq n hn).trans ha, (h'.grows.kind_eq hn).trans hb⟩
    · exact h'.fresh_syn n (Nat.le_of_not_lt hn) h2
  pushes_fresh := fun c => by
    obtain ⟨t, ht, hfr⟩ := h.pushes_fresh c
    obtain ⟨t', ht', hfr'⟩ := h'.pushes_fresh c
    refine ⟨t ++ t', by rw [ht', ht, List.append_assoc], ?_⟩
    intro n hn
    rcases List.mem_append.1 hn with hm | hm
    · exact hfr n hm
    · exact hfr' n hm
  lookup_old := fun k n hk => h'.lookup_old k n (h.lookup_old k n hk)
  lookup_new := fun k n hk => by
    rcases h'.lookup_new k n hk with h1 | ⟨h1, h2, h3⟩
    · exact h.lookup_new k n h1
    · refine Or.inr ⟨?_, h2, h3⟩
      cases hs : s.lookup k with
      | none => rfl
      | some m => rw [h.lookup_old k m hs] at h1; simp at h1
  old_docOf := fun n hn => (h'.old_docOf n hn).trans (h.old_docOf n hn)

theorem GocPost.weaken {L L' : Nat} {s s' : Emitter} (h : GocPost L' s s') (hle : L ≤ L') :
    GocPost L s s' where
  grows := h.grows
  docs_eq := h.docs_eq
  fresh_syn := h.fresh_syn
  pushes_fresh := fun c => by
    obtain ⟨t, ht, hfr⟩ := h.pushes_fresh c
    exact ⟨t, ht, fun n hn => Nat.le_trans hle (hfr n hn)⟩
  lookup_old := h.lookup_old
  lookup_new := fun k n hk => by
    rcases h.lookup_new k n hk with h1 | ⟨h1, h2, h3⟩
    · exact Or.inl h1
    · exact Or.inr ⟨h1, Nat.le_trans hle h2, h3⟩
  old_docOf := fun n hn => h.old_docOf n (Nat.lt_of_lt_of_le hn hle)

@[simp] theorem nodes_length_withNamespace (s : Emitter) (obj : Nat) :
    (s.withNamespace obj).nodes.length = s.nodes.length + 1 := by
  simp [withNamespace, register]

theorem srcIndex_withNamespace (s : Emitter) (obj n : Nat) :
    (s.withNamespace obj).srcIndex n = if n = s.nodes.length then none else s.srcIndex n := by
  unfold withNamespace
  rw [srcIndex_register, srcIndex_alloc]
  rfl

theorem container_withNamespace (s : Emitter) (obj : Nat) (c : Option Nat) :
    (s.withNamespace obj).container c = s.container c := by
  unfold withNamespace
  rw [container_register, container_alloc]

theorem grows_withNamespace (s : Emitter) (obj : Nat) : Grows s (s.withNamespace obj) :=
  (grows_alloc s _).trans (grows_register _ _ _)

theorem gocPost_withNamespace (s : Emitter) (obj : Nat)
    (hk : s.lookup (_getNamespaceKey (s.docOf obj).longname) = none) :
    GocPost s.nodes.length s (s.withNamespace obj) where
  grows := grows_withNamespace s obj
  docs_eq := rfl
  fresh_syn := fun n h1 h2 => by
    have : n = s.nodes.length := by simp at h2; omega
    rw [srcIndex_withNamespace, docOf_withNamespace, if_pos this, if_pos this]
    exact ⟨rfl, rfl⟩
  pushes_fresh := fun c => ⟨[], by rw [container_withNamespace]; simp, by simp⟩
  lookup_old := fun k n h => by
    rw [lookup_withNamespace]
    split
    · rename_i hkk; rw [hkk] at hk; rw [hk] at h; simp at h
    · exact h
  lookup_new := fun k n h => by
    rw [lookup_withNamespace] at h
    split at h
    · rename_i hkk
      simp only [Option.some.injEq] at h
      exact Or.inr ⟨by rw [← hkk]; exact hk, by omega, ⟨_, hkk.symm⟩⟩
    · exact Or.inl h
  old_docOf := fun n hn => by rw [docOf_withNamespace, if_neg (Nat.ne_of_lt hn)]

theorem wf_withNamespace {o : Options} {D : List Doclet} {s : Emitter} (h : WF o D s)
    (obj : Nat) : WF o D (s.withNamespace obj) := by
  unfold withNamespace
  refine wf_register (wf_alloc h _ (fun i hi => by simp [DocRef.index] at hi)) _ _ (by simp) ?_
  rw [docOf_alloc, if_pos rfl]
  rfl

theorem gocPost_warn (L : Nat) (s : Emitter) (w : Warning) : GocPost L s (s.warn w) where
  grows := grows_warn s w
  docs_eq := rfl
  fresh_syn := fun n h1 h2 => absurd h2 (Nat.not_lt.2 h1)
  pushes_fresh := fun c => ⟨[], by rw [container_warn]; simp, by simp⟩
  lookup_old := fun _ _ h => h
  lookup_new := fun _ _ h => Or.inl h
  old_docOf := fun _ _ => rfl

theorem gocPost_pushTo (L : Nat) (s : Emitter) (c : Option Nat) (n : Nat) (hn : L ≤ n) :
    GocPost L s (s.pushTo c n) where
  grows := grows_pushTo s c n
  docs_eq := docs_pushTo s c n
  fresh_syn := fun m h1 h2 => by
    rw [nodes_length_pushTo] at h2; exact absurd h2 (Nat.not_lt.2 h1)
  pushes_fresh := fun c' => by
    rw [container_pushTo]
    split
    · rename_i h
      refine ⟨[n], by rw [h.1], ?_⟩
      intro m hm; simp only [List.mem_singleton] at hm; subst hm; exact hn
    · exact ⟨[], by simp, by simp⟩
  lookup_old := fun k m h => by rw [lookup_pushTo]; exact h
  lookup_new := fun k m h => by rw [lookup_pushTo] at h; exact Or.inl h
  old_docOf := fun m _ => docOf_pushTo s c n m

theorem doclet_of_srcIndex_none {s : Emitter} {n : Nat} (h : s.srcIndex n = none) :
    ∃ d, (s.node n).doclet = DocRef.syn d := by
  unfold srcIndex at h
  cases hd : (s.node n).doclet with
  | src i => rw [hd] at h; simp [DocRef.index] at h
  | syn d => exact ⟨d, rfl⟩

theorem gocPost_setMemberof (L : Nat) (s : Emitter) (n : Nat) (m : Option String)
    (hn : L ≤ n) (hsyn : s.srcIndex n = none) : GocPost L s (s.setMemberof n m) := by
  obtain ⟨d, hd⟩ := doclet_of_srcIndex_none hsyn
  exact {
    grows := grows_setMemberof s n m
    docs_eq := docs_setMemberof_syn s n m d hd
    fresh_syn := fun k h1 h2 => by
      rw [nodes_length_setMemberof] at h2; exact absurd h2 (Nat.not_lt.2 h1)
    pushes_fresh := fun c => ⟨[], by rw [container_setMemberof]; simp, by simp⟩
    lookup_old := fun k x h => by rw [lookup_setMemberof]; exact h
    lookup_new := fun k x h => by rw [lookup_setMemberof] at h; exact Or.inl h
    old_docOf := fun k hk => docOf_setMemberof_ne s n m d hd k (by omega) }

theorem pendingNode_iff (s : Emitter) (obj : Nat) :
    s.pendingNode obj = true
      ↔ (s.docOf obj).kind ≠ "namespace"
        ∧ s.lookup (_getNamespaceKey (s.docOf obj).longname) = none := by
  unfold pendingNode
  simp only [Bool.and_eq_true, decide_eq_true_eq, Option.isNone_iff_eq_none]

/-- The construction keeps the state well formed and only appends fresh synthetic
namespace nodes; its result is an allocated node. -/
theorem getOrCreate_post (o : Options) (D : List Doclet) (fuel : Nat) (s : Emitter) (obj : Nat)
    (s' : Emitter) (g : Nat) (h : _getOrCreateClassNamespaceFuel fuel s obj = some (s', g)) :
    WF o D s → obj < s.nodes.length →
      WF o D s' ∧ GocPost s.nodes.length s s' ∧ g < s'.nodes.length := by
  refine getOrCreate_induct
    (fun s obj s' g => WF o D s → obj < s.nodes.length →
      WF o D s' ∧ GocPost s.nodes.length s s' ∧ g < s'.nodes.length)
    ?_ ?_ ?_ ?_ ?_ fuel s obj s' g h
  · intro s obj _ hwf hobj
    exact ⟨hwf, GocPost.same _ _, hobj⟩
  · intro s obj g _ hl hwf _
    exact ⟨hwf, GocPost.same _ _, hwf.table_valid _ _ hl⟩
  · intro s obj hp _ hwf _
    have hk := ((pendingNode_iff s obj).1 hp).2
    have hwf1 := wf_withNamespace hwf obj
    refine ⟨wf_pushTo hwf1 none _ (by simp), ?_, by rw [nodes_length_pushTo]; simp⟩
    exact (gocPost_withNamespace s obj hk).andThen (gocPost_pushTo _ _ _ _ (Nat.le_refl _))
  · intro s obj hp _ _ hwf _
    have hk := ((pendingNode_iff s obj).1 hp).2
    have hwf1 := wf_withNamespace hwf obj
    refine ⟨wf_warn hwf1 _, ?_, by simp [warn]⟩
    exact (gocPost_withNamespace s obj hk).andThen (gocPost_warn _ _ _)
  · intro s obj parent s2 parentMod hp _ hl _ ih hwf _
    have hk := ((pendingNode_iff s obj).1 hp).2
    have hwf1 := wf_withNamespace hwf obj
    obtain ⟨hwf2, hpost2, _⟩ := ih hwf1 (hwf1.table_valid _ _ hl)
    have hlen : s.nodes.length < s2.nodes.length := by
      have := hpost2.grows.nodes_length; simp at this; omega
    have hsyn1 : (s.withNamespace obj).srcIndex s.nodes.length = none := by
      rw [srcIndex_withNamespace, if_pos rfl]
    have hsyn2 : s2.srcIndex s.nodes.length = none := by
      rw [hpost2.grows.srcIndex_eq _ (by simp)]; exact hsyn1
    have hwf3 := wf_setMemberof hwf2 s.nodes.length (some (s2.docOf parentMod).longname)
    refine ⟨wf_pushTo hwf3 _ _ (by simpa using hlen), ?_, ?_⟩
    · exact ((gocPost_withNamespace s obj hk).andThen (hpost2.weaken (by simp))).andThen
        ((gocPost_setMemberof _ _ _ _ (Nat.le_refl _) hsyn2).andThen
          (gocPost_pushTo _ _ _ _ (Nat.le_refl _)))
    · rw [nodes_length_pushTo]; simpa using hlen

end Emitter

namespace Emitter

/-! ## Placement: unplaced nodes, the forest and the order of source nodes -/

theorem unplaced_of_ge {o : Options} {D : List Doclet} {s : Emitter} (h : WF o D s) {n : Nat}
    (hn : s.nodes.length ≤ n) : Unplaced s n := by
  intro c hc
  have := h.container_valid c n hc
  omega

theorem GocPost.unplaced {L : Nat} {s s' : Emitter} (h : GocPost L s s') {n : Nat}
    (hu : Unplaced s n) (hn : n < L) : Unplaced s' n := by
  intro c hc
  obtain ⟨t, ht, hfr⟩ := h.pushes_fresh c
  rw [ht] at hc
  rcases List.mem_append.1 hc with hm | hm
  · exact hu c hm
  · have := hfr n hm; omega

theorem unplaced_of_container_eq {s s' : Emitter} (h : ∀ c, s'.container c = s.container c)
    {n : Nat} (hu : Unplaced s n) : Unplaced s' n := by
  intro c hc; rw [h c] at hc; exact hu c hc

theorem unplaced_pushTo {s : Emitter} {n : Nat} (hu : Unplaced s n) (c : Option Nat) (m : Nat)
    (hne : m ≠ n) : Unplaced (s.pushTo c m) n := by
  intro c' hc
  rw [container_pushTo] at hc
  split at hc
  · rcases List.mem_append.1 hc with hm | hm
    · exact hu c hm
    · simp only [List.mem_singleton] at hm; exact hne hm.symm
  · exact hu c' hc

theorem forest_of_container_eq {s s' : Emitter} (h : ∀ c, s'.container c = s.container c)
    (hf : Forest s) : Forest s' where
  nodup := fun c => by rw [h c]; exact hf.nodup c
  unique := fun c c' n hc hc' => by
    rw [h c] at hc; rw [h c'] at hc'; exact hf.unique c c' n hc hc'

theorem forest_pushTo {s : Emitter} (hf : Forest s) (c : Option Nat) (n : Nat)
    (hu : Unplaced s n) : Forest (s.pushTo c n) where
  nodup := fun c' => by
    rw [container_pushTo]
    split
    · exact List.Nodup.append (hf.nodup c) (List.nodup_singleton n)
        (by
          intro a ha hb
          simp only [List.mem_singleton] at hb; subst hb; exact hu c ha)
    · exact hf.nodup c'
  unique := fun c1 c2 m h1 h2 => by
    rw [container_pushTo] at h1 h2
    by_cases hmn : m = n
    · subst hmn
      have e1 : c1 = c := by
        split at h1
        · rename_i h; exact h.1
        · exact absurd h1 (hu c1)
      have e2 : c2 = c := by
        split at h2
        · rename_i h; exact h.1
        · exact absurd h2 (hu c2)
      rw [e1, e2]
    · have m1 : m ∈ s.container c1 := by
        split at h1
        · rename_i h
          rcases List.mem_append.1 h1 with hm | hm
          · rw [h.1]; exact hm
          · simp only [List.mem_singleton] at hm; exact absurd hm hmn
        · exact h1
      have m2 : m ∈ s.container c2 := by
        split at h2
        · rename_i h
          rcases List.mem_append.1 h2 with hm | hm
          · rw [h.1]; exact hm
          · simp only [List.mem_singleton] at hm; exact absurd hm hmn
        · exact h2
      exact hf.unique c1 c2 m m1 m2

/-- The companion-namespace construction keeps the forest: every node it pushes is a
node it has just allocated, pushed once. -/
theorem getOrCreate_forest (o : Options) (D : List Doclet) (fuel : Nat) (s : Emitter) (obj : Nat)
    (s' : Emitter) (g : Nat) (h : _getOrCreateClassNamespaceFuel fuel s obj = some (s', g)) :
    WF o D s → obj < s.nodes.length → Forest s → Forest s' := by
  refine getOrCreate_induct
    (fun s obj s' _ => WF o D s → obj < s.nodes.length → Forest s → Forest s')
    ?_ ?_ ?_ ?_ ?_ fuel s obj s' g h
  · intro s obj _ _ _ hf; exact hf
  · intro s obj g _ _ _ _ hf; exact hf
  · intro s obj _ _ hwf _ hf
    have hwf1 := wf_withNamespace hwf obj
    have hf1 : Forest (s.withNamespace obj) :=
      forest_of_container_eq (container_withNamespace s obj) hf
    exact forest_pushTo hf1 none _
      (unplaced_of_container_eq (container_withNamespace s obj) (unplaced_of_ge hwf (Nat.le_refl _)))
  · intro s obj _ _ _ _ _ hf
    exact forest_of_container_eq (fun c => by rw [container_warn, container_withNamespace]) hf
  · intro s obj parent s2 parentMod _ _ hl hex ih hwf _ hf
    have hwf1 := wf_withNamespace hwf obj
    have hf1 : Forest (s.withNamespace obj) :=
      forest_of_container_eq (container_withNamespace s obj) hf
    have hpar := hwf1.table_valid _ _ hl
    have hf2 := ih hwf1 hpar hf1
    obtain ⟨fuel', hex⟩ := hex
    obtain ⟨_, hpost2, _⟩ := getOrCreate_post o D fuel' _ _ _ _ hex hwf1 hpar
    have hu1 : Unplaced (s.withNamespace obj) s.nodes.length :=
      unplaced_of_container_eq (container_withNamespace s obj) (unplaced_of_ge hwf (Nat.le_refl _))
    have hu2 : Unplaced s2 s.nodes.length := hpost2.unplaced hu1 (by simp)
    have hf3 : Forest (s2.setMemberof s.nodes.length (some (s2.docOf parentMod).longname)) :=
      forest_of_container_eq (container_setMemberof _ _ _) hf2
    exact forest_pushTo hf3 _ _ (unplaced_of_container_eq (container_setMemberof _ _ _) hu2)

theorem Ordered.mono {s : Emitter} {j j' : Nat} (h : Ordered s j) (hle : j ≤ j') :
    Ordered s j' where
  bound := fun c n i hn hi => Nat.lt_of_lt_of_le (h.bound c n i hn hi) hle
  sorted := h.sorted

theorem filterMap_congr_mem {α β : Type} (f g : α → Option β) (l : List α)
    (h : ∀ a ∈ l, f a = g a) : l.filterMap f = l.filterMap g := by
  induction l with
  | nil => rfl
  | cons a l ih =>
    rw [List.filterMap_cons, List.filterMap_cons, h a (List.mem_cons_self _ _),
      ih (fun b hb => h b (List.mem_cons_of_mem _ hb))]

/-- Appending nodes that are not source nodes keeps the order of the source nodes. -/
theorem ordered_of_append {o : Options} {D : List Doclet} {s s' : Emitter} {j : Nat}
    (hwf : WF o D s) (hsrc : ∀ n, n < s.nodes.length → s'.srcIndex n = s.srcIndex n)
    (hc : ∀ c, ∃ t, s'.container c = s.container c ++ t ∧ ∀ n ∈ t, s'.srcIndex n = none)
    (h : Ordered s j) : Ordered s' j where
  bound := fun c n i hn hi => by
    obtain ⟨t, ht, hnone⟩ := hc c
    rw [ht] at hn
    rcases List.mem_append.1 hn with hm | hm
    · rw [hsrc n (hwf.container_valid c n hm)] at hi
      exact h.bound c n i hm hi
    · rw [hnone n hm] at hi; simp at hi
  sorted := fun c => by
    obtain ⟨t, ht, hnone⟩ := hc c
    rw [ht, List.filterMap_append]
    have h1 : (s.container c).filterMap s'.srcIndex = (s.container c).filterMap s.srcIndex :=
      filterMap_congr_mem _ _ _ (fun n hn => hsrc n (hwf.container_valid c n hn))
    have h2 : t.filterMap s'.srcIndex = [] := by
      rw [List.filterMap_eq_nil_iff]; exact hnone
    rw [h1, h2, List.append_nil]
    exact h.sorted c

theorem ordered_of_gocPost {o : Options} {D : List Doclet} {s s' : Emitter} {j : Nat}
    (hwf : WF o D s) (hwf' : WF o D s') (hp : GocPost s.nodes.length s s') (h : Ordered s j) :
    Ordered s' j := by
  refine ordered_of_append hwf hp.grows.srcIndex_eq ?_ h
  intro c
  obtain ⟨t, ht, hfr⟩ := hp.pushes_fresh c
  refine ⟨t, ht, fun n hn => ?_⟩
  have hlt : n < s'.nodes.length :=
    hwf'.container_valid c n (by rw [ht]; exact List.mem_append_right _ hn)
  exact (hp.fresh_syn n (hfr n hn) hlt).1

/-- Pushing the source node of the doclet being processed keeps the order. -/
theorem ordered_pushTo_src {s : Emitter} {j : Nat} (h : Ordered s j) (c : Option Nat) (n : Nat)
    (hn : s.srcIndex n = some j) : Ordered (s.pushTo c n) (j + 1) where
  bound := fun c' m i hm hi => by
    rw [srcIndex_pushTo] at hi
    rw [container_pushTo] at hm
    split at hm
    · rcases List.mem_append.1 hm with hm' | hm'
      · exact Nat.lt_succ_of_lt (h.bound c m i hm' hi)
      · simp only [List.mem_singleton] at hm'; subst hm'
        rw [hn] at hi; simp only [Option.some.injEq] at hi; omega
    · exact Nat.lt_succ_of_lt (h.bound c' m i hm hi)
  sorted := fun c' => by
    have hfun : (s.pushTo c n).srcIndex = s.srcIndex := funext (srcIndex_pushTo s c n)
    rw [hfun, container_pushTo]
    split
    · rw [List.filterMap_append]
      have : [n].filterMap s.srcIndex = [j] := by simp [List.filterMap_cons, hn]
      rw [this, List.pairwise_append]
      refine ⟨h.sorted c, List.pairwise_singleton _ _, ?_⟩
      intro a ha b hb
      simp only [List.mem_singleton] at hb; subst hb
      obtain ⟨m, hm, hma⟩ := List.mem_filterMap.1 ha
      exact h.bound c m a hm hma
    · exact h.sorted c'

theorem ordered_pushTo_syn {s : Emitter} {j : Nat} (h : Ordered s j) (c : Option Nat) (n : Nat)
    (hn : s.srcIndex n = none) : Ordered (s.pushTo c n) j where
  bound := fun c' m i hm hi => by
    rw [srcIndex_pushTo] at hi
    rw [container_pushTo] at hm
    split at hm
    · rcases List.mem_append.1 hm with hm' | hm'
      · exact h.bound c m i hm' hi
      · simp only [List.mem_singleton] at hm'; subst hm'
        rw [hn] at hi; simp at hi
    · exact h.bound c' m i hm hi
  sorted := fun c' => by
    have hfun : (s.pushTo c n).srcIndex = s.srcIndex := funext (srcIndex_pushTo s c n)
    rw [hfun, container_pushTo]
    split
    · rw [List.filterMap_append]
      have : [n].filterMap s.srcIndex = [] := by simp [List.filterMap_cons, hn]
      rw [this, List.append_nil]
      exact h.sorted c
    · exact h.sorted c'

theorem ordered_of_eq {s s' : Emitter} {j : Nat} (hc : ∀ c, s'.container c = s.container c)
    (hsrc : ∀ n, s'.srcIndex n = s.srcIndex n) (h : Ordered s j) : Ordered s' j where
  bound := fun c n i hn hi => by
    rw [hc c] at hn; rw [hsrc n] at hi; exact h.bound c n i hn hi
  sorted := fun c => by
    have hfun : s'.srcIndex = s.srcIndex := funext hsrc
    rw [hfun, hc c]; exact h.sorted c

end Emitter

namespace Emitter

/-! ## The three parts of an iteration of `_buildTree` -/

/-- The two ways `interfaceMergeStep` ends. -/
theorem interfaceMergeStep_cases (s : Emitter) (d : Doclet) :
    (interfaceMergeStep s d = (s, none)
      ∧ (d.kind ≠ "class" ∨ d.implements.getD [] ++ d.mixes.getD [] = []))
    ∨ (d.kind = "class" ∧ d.implements.getD [] ++ d.mixes.getD [] ≠ []
      ∧ interfaceMergeStep s d
        = ((s.alloc (DocRef.syn (interfaceMergeDoclet d))).register
            (_getInterfaceKey d.longname) s.nodes.length, some s.nodes.length)) := by
  unfold interfaceMergeStep
  by_cases hk : d.kind = "class"
  · by_cases he : d.implements.getD [] ++ d.mixes.getD [] = []
    · left; simp [hk, he]
    · right; simp [hk, he]
  · left; simp [hk]

/-- The two ways `namespaceMergeStep` ends. -/
theorem namespaceMergeStep_cases (s : Emitter) (d : Doclet) :
    (namespaceMergeStep s d = (s, none)
      ∧ ((d.kind ≠ "interface" ∧ d.kind ≠ "mixin")
        ∨ s.docs.filter (isStaticChildOf d.longname) = []))
    ∨ ((d.kind = "interface" ∨ d.kind = "mixin")
      ∧ s.docs.filter (isStaticChildOf d.longname) ≠ []
      ∧ namespaceMergeStep s d
        = (((s.alloc (DocRef.syn (namespaceMergeDoclet d))).register
            (_getNamespaceKey d.longname) s.nodes.length).reassignStatic d.longname,
          some s.nodes.length)) := by
  unfold namespaceMergeStep
  by_cases hk : d.kind = "interface" ∨ d.kind = "mixin"
  · by_cases he : s.docs.filter (isStaticChildOf d.longname) = []
    · left; simp [hk, he]
    · right; simp [hk, he]
  · left
    have : d.kind ≠ "interface" ∧ d.kind ≠ "mixin" := by
      constructor
      · intro h; exact hk (Or.inl h)
      · intro h; exact hk (Or.inr h)
    simp [hk, this]

/-- A synthetic node is allocated and written to the table under its longname. -/
theorem wf_allocRegister {o : Options} {D : List Doclet} {s : Emitter} (h : WF o D s)
    (d : Doclet) : WF o D ((s.alloc (DocRef.syn d)).register d.longname s.nodes.length) := by
  refine wf_register (wf_alloc h _ (fun i hi => by simp [DocRef.index] at hi)) _ _ (by simp) ?_
  rw [docOf_alloc, if_pos rfl]
  rfl

theorem grows_allocRegister (s : Emitter) (d : DocRef) (k : String) (n : Nat) :
    Grows s ((s.alloc d).register k n) :=
  (grows_alloc s d).trans (grows_register _ _ _)

theorem container_allocRegister (s : Emitter) (d : DocRef) (k : String) (n : Nat)
    (c : Option Nat) : ((s.alloc d).register k n).container c = s.container c := by
  rw [container_register, container_alloc]

theorem wf_interfaceMergeStep {o : Options} {D : List Doclet} {s : Emitter} (h : WF o D s)
    (d : Doclet) : WF o D (interfaceMergeStep s d).1 := by
  rcases interfaceMergeStep_cases s d with ⟨he, _⟩ | ⟨_, _, he⟩
  · rw [he]; exact h
  · rw [he]; exact wf_allocRegister h (interfaceMergeDoclet d)

theorem wf_namespaceMergeStep {o : Options} {D : List Doclet} {s : Emitter} (h : WF o D s)
    (d : Doclet) : WF o D (namespaceMergeStep s d).1 := by
  rcases namespaceMergeStep_cases s d with ⟨he, _⟩ | ⟨_, _, he⟩
  · rw [he]; exact h
  · rw [he]; exact wf_reassignStatic (wf_allocRegister h (namespaceMergeDoclet d)) _

theorem grows_interfaceMergeStep (s : Emitter) (d : Doclet) :
    Grows s (interfaceMergeStep s d).1 := by
  rcases interfaceMergeStep_cases s d with ⟨he, _⟩ | ⟨_, _, he⟩
  · rw [he]; exact Grows.refl s
  · rw [he]; exact grows_allocRegister _ _ _ _

theorem grows_namespaceMergeStep (s : Emitter) (d : Doclet) :
    Grows s (namespaceMergeStep s d).1 := by
  rcases namespaceMergeStep_cases s d with ⟨he, _⟩ | ⟨_, _, he⟩
  · rw [he]; exact Grows.refl s
  · rw [he]; exact (grows_allocRegister _ _ _ _).trans (grows_reassignStatic _ _)

theorem container_interfaceMergeStep (s : Emitter) (d : Doclet) (c : Option Nat) :
    (interfaceMergeStep s d).1.container c = s.container c := by
  rcases interfaceMergeStep_cases s d with ⟨he, _⟩ | ⟨_, _, he⟩
  · rw [he]
  · rw [he]; exact container_allocRegister _ _ _ _ _

theorem container_namespaceMergeStep (s : Emitter) (d : Doclet) (c : Option Nat) :
    (namespaceMergeStep s d).1.container c = s.container c := by
  rcases namespaceMergeStep_cases s d with ⟨he, _⟩ | ⟨_, _, he⟩
  · rw [he]
  · rw [he]; simp only [container_reassignStatic]; exact container_allocRegister _ _ _ _ _

/-- A merge node, when there is one, is the node just allocated: a synthetic node. -/
theorem interfaceMergeStep_merge (s : Emitter) (d : Doclet) (m : Nat)
    (h : (interfaceMergeStep s d).2 = some m) :
    m = s.nodes.length ∧ (interfaceMergeStep s d).1.nodes.length = s.nodes.length + 1
      ∧ (interfaceMergeStep s d).1.srcIndex m = none
      ∧ (interfaceMergeStep s d).1.docOf m = interfaceMergeDoclet d
      ∧ (interfaceMergeStep s d).1.lookup (_getInterfaceKey d.longname) = some m
      ∧ d.kind = "class" := by
  rcases interfaceMergeStep_cases s d with ⟨he, _⟩ | ⟨hk, _, he⟩
  · rw [he] at h; simp at h
  · rw [he] at h ⊢
    simp only [Option.some.injEq] at h
    subst h
    refine ⟨rfl, by simp [register], ?_, ?_, ?_, hk⟩
    · rw [srcIndex_register, srcIndex_alloc, if_pos rfl]; rfl
    · rw [docOf_register, docOf_alloc, if_pos rfl]; rfl
    · rw [lookup_register, if_pos rfl]

theorem interfaceMergeStep_none (s : Emitter) (d : Doclet)
    (h : (interfaceMergeStep s d).2 = none) : (interfaceMergeStep s d).1 = s := by
  rcases interfaceMergeStep_cases s d with ⟨he, _⟩ | ⟨_, _, he⟩
  · rw [he]
  · rw [he] at h; simp at h

theorem namespaceMergeStep_merge (s : Emitter) (d : Doclet) (m : Nat)
    (h : (namespaceMergeStep s d).2 = some m) :
    m = s.nodes.length ∧ (namespaceMergeStep s d).1.nodes.length = s.nodes.length + 1
      ∧ (namespaceMergeStep s d).1.srcIndex m = none
      ∧ (namespaceMergeStep s d).1.docOf m = namespaceMergeDoclet d
      ∧ (namespaceMergeStep s d).1.lookup (_getNamespaceKey d.longname) = some m
      ∧ (d.kind = "interface" ∨ d.kind = "mixin") := by
  rcases namespaceMergeStep_cases s d with ⟨he, _⟩ | ⟨hk, _, he⟩
  · rw [he] at h; simp at h
  · rw [he] at h ⊢
    simp only [Option.some.injEq] at h
    subst h
    have hsrc : ((s.alloc (DocRef.syn (namespaceMergeDoclet d))).register
        (_getNamespaceKey d.longname) s.nodes.length).srcIndex s.nodes.length = none := by
      rw [srcIndex_register, srcIndex_alloc, if_pos rfl]; rfl
    refine ⟨rfl, by simp [register, reassignStatic], ?_, ?_, ?_, hk⟩
    · rw [srcIndex_reassignStatic]; exact hsrc
    · rw [docOf_reassignStatic_syn _ _ _ hsrc, docOf_register, docOf_alloc, if_pos rfl]; rfl
    · rw [lookup_reassignStatic, lookup_register, if_pos rfl]

theorem namespaceMergeStep_none (s : Emitter) (d : Doclet)
    (h : (namespaceMergeStep s d).2 = none) : (namespaceMergeStep s d).1 = s := by
  rcases namespaceMergeStep_cases s d with ⟨he, _⟩ | ⟨_, _, he⟩
  · rw [he]
  · rw [he] at h; simp at h

/-! ### The three pushes of `place` -/

theorem grows_pushOpt (s : Emitter) (c : Option Nat) (m : Option Nat) : Grows s (s.pushOpt c m) := by
  cases m with
  | none => exact Grows.refl s
  | some n => exact grows_pushTo s c n

theorem grows_place (s : Emitter) (c : Option Nat) (im nm : Option Nat) (obj : Nat) :
    Grows s (s.place c im nm obj) :=
  ((grows_pushOpt s c im).trans (grows_pushOpt _ c nm)).trans (grows_pushTo _ c obj)

theorem wf_pushOpt {o : Options} {D : List Doclet} {s : Emitter} (h : WF o D s) (c : Option Nat)
    (m : Option Nat) (hm : ∀ n, m = some n → n < s.nodes.length) : WF o D (s.pushOpt c m) := by
  cases m with
  | none => exact h
  | some n => exact wf_pushTo h c n (hm n rfl)

theorem nodes_length_pushOpt (s : Emitter) (c : Option Nat) (m : Option Nat) :
    (s.pushOpt c m).nodes.length = s.nodes.length := by
  cases m with
  | none => rfl
  | some n => exact nodes_length_pushTo s c n

theorem wf_place {o : Options} {D : List Doclet} {s : Emitter} (h : WF o D s) (c : Option Nat)
    (im nm : Option Nat) (obj : Nat) (him : ∀ n, im = some n → n < s.nodes.length)
    (hnm : ∀ n, nm = some n → n < s.nodes.length) (hobj : obj < s.nodes.length) :
    WF o D (s.place c im nm obj) := by
  unfold place
  refine wf_pushTo (wf_pushOpt (wf_pushOpt h c im him) c nm ?_) c obj ?_
  · intro n hn; rw [nodes_length_pushOpt]; exact hnm n hn
  · rw [nodes_length_pushOpt, nodes_length_pushOpt]; exact hobj

end Emitter

namespace Emitter

/-- The five ways `placementStep` ends. -/
theorem placementStep_cases (s : Emitter) (i obj : Nat) (im nm : Option Nat) (s' : Emitter)
    (h : placementStep s i obj im nm = some s') :
    (truthy (s.doc i).memberof = false ∧ s' = s.place none im nm obj)
    ∨ (truthy (s.doc i).memberof = true ∧ s.lookup ((s.doc i).memberof.getD "") = none
        ∧ s' = s.warn (Warning.missingParent (s.doc i).longname ((s.doc i).memberof.getD "")))
    ∨ (∃ parent s1 mod, truthy (s.doc i).memberof = true
        ∧ s.lookup ((s.doc i).memberof.getD "") = some parent
        ∧ isClassLike (s.docOf parent) = true ∧ shouldMoveOutOfClass (s.doc i) = true
        ∧ s._getOrCreateClassNamespace parent = some (s1, mod)
        ∧ s' = s1.place (some mod) im nm obj)
    ∨ (∃ parent, truthy (s.doc i).memberof = true
        ∧ s.lookup ((s.doc i).memberof.getD "") = some parent
        ∧ ¬ (isClassLike (s.docOf parent) = true ∧ shouldMoveOutOfClass (s.doc i) = true)
        ∧ isEnum ((s.markNested i obj parent).docOf parent) = true
        ∧ s' = s.markNested i obj parent)
    ∨ (∃ parent, truthy (s.doc i).memberof = true
        ∧ s.lookup ((s.doc i).memberof.getD "") = some parent
        ∧ ¬ (isClassLike (s.docOf parent) = true ∧ shouldMoveOutOfClass (s.doc i) = true)
        ∧ isEnum ((s.markNested i obj parent).docOf parent) = false
        ∧ s' = (s.markNested i obj parent).place (some parent) im nm obj) := by
  unfold placementStep at h
  simp only at h
  by_cases hm : truthy (s.doc i).memberof = true
  · rw [if_pos hm] at h
    cases hl : s.lookup ((s.doc i).memberof.getD "") with
    | none =>
      simp only [hl, Option.some.injEq] at h
      exact Or.inr (Or.inl ⟨hm, rfl, h.symm⟩)
    | some parent =>
      simp only [hl] at h
      by_cases hc : isClassLike (s.docOf parent) = true ∧ shouldMoveOutOfClass (s.doc i) = true
      · rw [if_pos hc] at h
        cases hg : s._getOrCreateClassNamespace parent with
        | none => rw [hg] at h; simp at h
        | some r =>
          obtain ⟨s1, mod⟩ := r
          rw [hg] at h
          simp only [Option.some.injEq] at h
          exact Or.inr (Or.inr (Or.inl ⟨parent, s1, mod, hm, rfl, hc.1, hc.2, hg, h.symm⟩))
      · rw [if_neg hc] at h
        by_cases he : isEnum ((s.markNested i obj parent).docOf parent) = false
        · rw [if_pos he] at h
          simp only [Option.some.injEq] at h
          exact Or.inr (Or.inr (Or.inr (Or.inr ⟨parent, hm, rfl, hc, he, h.symm⟩)))
        · rw [if_neg he] at h
          simp only [Option.some.injEq] at h
          exact Or.inr (Or.inr (Or.inr (Or.inl ⟨parent, hm, rfl, hc, by simpa using he, h.symm⟩)))
  · rw [if_neg hm] at h
    simp only [Option.some.injEq] at h
    exact Or.inl ⟨by simpa using hm, h.symm⟩

/-- The ways an iteration of `_buildTree` ends: the doclet is filtered out, has no
node, or is placed. -/
theorem buildTreeStep_cases (s : Emitter) (i : Nat) (s' : Emitter)
    (h : buildTreeStep s i = some s') :
    (survives s.options (s.doc i) = false ∧ s' = s)
    ∨ (survives s.options (s.doc i) = true ∧ s.lookup (s.doc i).longname = none
        ∧ s' = s.warn (Warning.missingNode (s.doc i).longname))
    ∨ (∃ obj, survives s.options (s.doc i) = true ∧ s.lookup (s.doc i).longname = some obj
        ∧ placementStep (namespaceMergeStep (interfaceMergeStep s (s.doc i)).1 (s.doc i)).1 i obj
            (interfaceMergeStep s (s.doc i)).2
            (namespaceMergeStep (interfaceMergeStep s (s.doc i)).1 (s.doc i)).2 = some s') := by
  unfold buildTreeStep at h
  simp only at h
  by_cases hs : (s.doc i).kind = "package" ∨ _ignoreDoclet s.options (s.doc i) = true
  · rw [if_pos hs] at h
    simp only [Option.some.injEq] at h
    left
    refine ⟨?_, h.symm⟩
    unfold survives
    rcases hs with hs | hs <;> simp [hs]
  · rw [if_neg hs] at h
    have hsurv : survives s.options (s.doc i) = true := by
      unfold survives
      simp only [not_or] at hs
      simp [hs.1, hs.2]
    cases hl : s.lookup (s.doc i).longname with
    | none =>
      simp only [hl, Option.some.injEq] at h
      exact Or.inr (Or.inl ⟨hsurv, rfl, h.symm⟩)
    | some obj =>
      simp only [hl] at h
      exact Or.inr (Or.inr ⟨obj, hsurv, rfl, h⟩)

theorem grows_markNested (s : Emitter) (i obj parent : Nat) :
    Grows s (s.markNested i obj parent) := by
  unfold markNested
  split
  · exact grows_setNested s obj
  · exact Grows.refl s

theorem wf_markNested {o : Options} {D : List Doclet} {s : Emitter} (h : WF o D s)
    (i obj parent : Nat) : WF o D (s.markNested i obj parent) := by
  unfold markNested
  split
  · exact wf_setNested h obj
  · exact h

theorem container_markNested (s : Emitter) (i obj parent : Nat) (c : Option Nat) :
    (s.markNested i obj parent).container c = s.container c := by
  unfold markNested
  split
  · exact container_setNested s obj c
  · rfl

theorem srcIndex_markNested (s : Emitter) (i obj parent n : Nat) :
    (s.markNested i obj parent).srcIndex n = s.srcIndex n := by
  unfold markNested
  split
  · exact srcIndex_setNested s obj n
  · rfl

theorem docOf_markNested (s : Emitter) (i obj parent n : Nat) :
    (s.markNested i obj parent).docOf n = s.docOf n := by
  unfold markNested
  split
  · exact docOf_setNested s obj n
  · rfl

theorem lookup_markNested (s : Emitter) (i obj parent : Nat) (k : String) :
    (s.markNested i obj parent).lookup k = s.lookup k := by
  unfold markNested
  split <;> rfl

theorem nodes_length_markNested (s : Emitter) (i obj parent : Nat) :
    (s.markNested i obj parent).nodes.length = s.nodes.length := by
  unfold markNested
  split
  · exact nodes_length_setNested s obj
  · rfl

theorem doc_markNested (s : Emitter) (i obj parent k : Nat) :
    (s.markNested i obj parent).doc k = s.doc k := by
  unfold markNested
  split <;> rfl

/-- The placement keeps the state well formed and only appends. -/
theorem placementStep_wf {o : Options} {D : List Doclet} {s : Emitter} (hwf : WF o D s)
    (i obj : Nat) (im nm : Option Nat) (s' : Emitter)
    (h : placementStep s i obj im nm = some s')
    (him : ∀ n, im = some n → n < s.nodes.length)
    (hnm : ∀ n, nm = some n → n < s.nodes.length) (hobj : obj < s.nodes.length) :
    WF o D s' ∧ Grows s s' := by
  rcases placementStep_cases s i obj im nm s' h with
    ⟨_, rfl⟩ | ⟨_, _, rfl⟩ | ⟨parent, s1, mod, _, hl, _, _, hg, rfl⟩
    | ⟨parent, _, _, _, _, rfl⟩ | ⟨parent, _, _, _, _, rfl⟩
  · exact ⟨wf_place hwf _ _ _ _ him hnm hobj, grows_place _ _ _ _ _⟩
  · exact ⟨wf_warn hwf _, grows_warn _ _⟩
  · obtain ⟨hwf1, hpost, _⟩ := getOrCreate_post o D _ _ _ _ _ hg hwf (hwf.table_valid _ _ hl)
    have hlen := hpost.grows.nodes_length
    refine ⟨wf_place hwf1 _ _ _ _ (fun n hn => ?_) (fun n hn => ?_) (by omega),
      hpost.grows.trans (grows_place _ _ _ _ _)⟩
    · have := him n hn; omega
    · have := hnm n hn; omega
  · exact ⟨wf_markNested hwf _ _ _, grows_markNested _ _ _ _⟩
  · refine ⟨wf_place (wf_markNested hwf _ _ _) _ _ _ _ ?_ ?_ ?_,
      (grows_markNested _ _ _ _).trans (grows_place _ _ _ _ _)⟩
    · intro n hn; rw [nodes_length_markNested]; exact him n hn
    · intro n hn; rw [nodes_length_markNested]; exact hnm n hn
    · rw [nodes_length_markNested]; exact hobj

/-- An iteration of `_buildTree` keeps the state well formed and only appends. -/
theorem buildTreeStep_wf {o : Options} {D : List Doclet} {s : Emitter} (hwf : WF o D s)
    (i : Nat) (s' : Emitter) (h : buildTreeStep s i = some s') : WF o D s' ∧ Grows s s' := by
  rcases buildTreeStep_cases s i s' h with ⟨_, he⟩ | ⟨_, _, rfl⟩ | ⟨obj, _, hl, hp⟩
  · subst s'; exact ⟨hwf, Grows.refl s⟩
  · exact ⟨wf_warn hwf _, grows_warn _ _⟩
  · have hwf1 := wf_interfaceMergeStep hwf (s.doc i)
    have hwf2 := wf_namespaceMergeStep hwf1 (s.doc i)
    have hg1 := grows_interfaceMergeStep s (s.doc i)
    have hg2 := grows_namespaceMergeStep (interfaceMergeStep s (s.doc i)).1 (s.doc i)
    have hobj := hwf.table_valid _ _ hl
    have hl1 := hg1.nodes_length
    have hl2 := hg2.nodes_length
    obtain ⟨hwf', hg'⟩ := placementStep_wf hwf2 i obj _ _ s' hp
      (fun n hn => by
        obtain ⟨h1, h2, _⟩ := interfaceMergeStep_merge s (s.doc i) n hn
        omega)
      (fun n hn => by
        obtain ⟨h1, h2, _⟩ := namespaceMergeStep_merge _ (s.doc i) n hn
        omega)
      (by omega)
    exact ⟨hwf', (hg1.trans hg2).trans hg'⟩

end Emitter

namespace Emitter

/-! ## The first pass -/

theorem createPrefix_succ (o : Options) (D : List Doclet) (j : Nat) :
    createPrefix o D (j + 1) = createTreeNodesStep (createPrefix o D j) j := by
  unfold createPrefix
  rw [List.range_succ, List.foldl_append]
  rfl

theorem createTreeNodes_eq (o : Options) (D : List Doclet) :
    _createTreeNodes (start o D) = createPrefix o D D.length := rfl

theorem doc_start (o : Options) (D : List Doclet) (i : Nat) : (start o D).doc i = docAt D i := rfl

theorem wf_start (o : Options) (D : List Doclet) : WF o D (start o D) where
  options_eq := rfl
  docs_length := rfl
  doc_frame := fun _ => rfl
  table_valid := fun k n h => by simp [lookup, start, tableGet] at h
  container_valid := fun c n h => by
    cases c with
    | none => simp [container, start] at h
    | some p => simp [container, childrenOf, node, start] at h
  key_longname := fun k n h => by simp [lookup, start, tableGet] at h
  src_survives := fun n i h => by simp [srcIndex, node, start, DocRef.index] at h

/-- The two ways an iteration of `_createTreeNodes` ends. -/
theorem createTreeNodesStep_cases (s : Emitter) (i : Nat) :
    (createTreeNodesStep s i = s
      ∧ (survives s.options (s.doc i) = false ∨ ∃ n, s.lookup (s.doc i).longname = some n))
    ∨ (survives s.options (s.doc i) = true ∧ s.lookup (s.doc i).longname = none
      ∧ createTreeNodesStep s i
        = (s.alloc (DocRef.src i)).register (s.doc i).longname s.nodes.length) := by
  unfold createTreeNodesStep
  simp only
  by_cases hs : (s.doc i).kind = "package" ∨ _ignoreDoclet s.options (s.doc i) = true
  · rw [if_pos hs]
    refine Or.inl ⟨rfl, Or.inl ?_⟩
    unfold survives
    rcases hs with hs | hs <;> simp [hs]
  · rw [if_neg hs]
    have hsurv : survives s.options (s.doc i) = true := by
      unfold survives
      simp only [not_or] at hs
      simp [hs.1, hs.2]
    cases hl : s.lookup (s.doc i).longname with
    | none => exact Or.inr ⟨hsurv, rfl, rfl⟩
    | some n => exact Or.inl ⟨rfl, Or.inr ⟨n, rfl⟩⟩

theorem createInv_start (o : Options) (D : List Doclet) : CreateInv o D 0 (start o D) where
  wf := wf_start o D
  docs_eq := rfl
  empty := fun c => by
    cases c with
    | none => rfl
    | some p => simp [container, childrenOf, node, start]
  table_src := fun k n h => by simp [lookup, start, tableGet] at h
  src_table := fun i h => by omega

theorem createInv_step {o : Options} {D : List Doclet} {j : Nat} {s : Emitter}
    (h : CreateInv o D j s) (hj : j < D.length) :
    CreateInv o D (j + 1) (createTreeNodesStep s j) := by
  have hdoc : s.doc j = docAt D j := by unfold doc docAt; rw [h.docs_eq]
  have hopt : s.options = o := h.wf.options_eq
  rcases createTreeNodesStep_cases s j with ⟨he, hcase⟩ | ⟨hsurv, hl, he⟩
  · rw [he]
    refine ⟨h.wf, h.docs_eq, h.empty, ?_, ?_⟩
    · intro k n hk
      obtain ⟨i, hi, hrest⟩ := h.table_src k n hk
      exact ⟨i, by omega, hrest⟩
    · intro i hi hiD hs
      by_cases hij : i = j
      · subst hij
        rcases hcase with hc | hc
        · rw [hopt, hdoc] at hc; rw [hc] at hs; simp at hs
        · rw [hdoc] at hc; exact hc
      · exact h.src_table i (by omega) hiD hs
  · rw [he]
    rw [hopt, hdoc] at hsurv
    have hwf1 : WF o D (s.alloc (DocRef.src j)) :=
      wf_alloc h.wf _ (fun i hi => by
        simp only [DocRef.index, Option.some.injEq] at hi
        subst hi; exact ⟨hj, hsurv⟩)
    have hwf2 : WF o D ((s.alloc (DocRef.src j)).register (s.doc j).longname s.nodes.length) := by
      refine wf_register hwf1 _ _ (by simp) ?_
      rw [docOf_alloc, if_pos rfl]; rfl
    refine ⟨hwf2, h.docs_eq, ?_, ?_, ?_⟩
    · intro c; rw [container_allocRegister]; exact h.empty c
    · intro k n hk
      rw [lookup_register] at hk
      split at hk
      · rename_i hkk
        simp only [Option.some.injEq] at hk
        subst hk
        refine ⟨j, by omega, ?_, by rw [← hkk, hdoc]⟩
        rw [srcIndex_register, srcIndex_alloc, if_pos rfl]; rfl
      · obtain ⟨i, hi, hsrc, hln⟩ := h.table_src k n hk
        refine ⟨i, by omega, ?_, hln⟩
        rw [srcIndex_register, srcIndex_alloc, if_neg (Nat.ne_of_lt (h.wf.table_valid k n hk))]
        exact hsrc
    · intro i hi hiD hs
      rw [lookup_register]
      split
      · exact ⟨_, rfl⟩
      · exact h.src_table i (by
          rcases Nat.lt_or_ge i j with hlt | hge
          · exact hlt
          · have : i = j := by omega
            subst this
            rename_i hne
            exact absurd (by rw [hdoc]) hne) hiD hs

theorem createInv_prefix (o : Options) (D : List Doclet) (j : Nat) (hj : j ≤ D.length) :
    CreateInv o D j (createPrefix o D j) := by
  induction j with
  | zero => exact createInv_start o D
  | succ j ih =>
    rw [createPrefix_succ]
    exact createInv_step (ih (by omega)) (by omega)

theorem createInv_createTreeNodes (o : Options) (D : List Doclet) :
    CreateInv o D D.length (_createTreeNodes (start o D)) :=
  createInv_prefix o D D.length (Nat.le_refl _)

/-- With pairwise distinct surviving longnames, the table of the first pass holds the
node of every surviving doclet under its longname. -/
theorem srcTable_createTreeNodes {o : Options} {D : List Doclet} (hd : DistinctLongnames o D) :
    SrcTable o D (_createTreeNodes (start o D)) := by
  intro i hi hs
  have hinv := createInv_createTreeNodes o D
  obtain ⟨n, hn⟩ := hinv.src_table i hi hi hs
  obtain ⟨i', hi', hsrc, hln⟩ := hinv.table_src _ n hn
  have hs' := (hinv.wf.src_survives n i' hsrc).2
  have : i' = i := hd i' hi' i hi hs' hs hln
  subst this
  exact ⟨n, hn, hsrc⟩

theorem ordered_of_empty {s : Emitter} (h : ∀ c, s.container c = []) (j : Nat) : Ordered s j where
  bound := fun c n i hn _ => by rw [h c] at hn; simp at hn
  sorted := fun c => by rw [h c]; simp

theorem forest_of_empty {s : Emitter} (h : ∀ c, s.container c = []) : Forest s where
  nodup := fun c => by rw [h c]; exact List.nodup_nil
  unique := fun c _ n hn _ => by rw [h c] at hn; simp at hn

/-! ## The loop of the second pass -/

theorem buildTreeLoop_append (s : Emitter) (l : List Nat) (i : Nat) :
    buildTreeLoop s (l ++ [i]) = (buildTreeLoop s l).bind (fun s1 => buildTreeStep s1 i) := by
  induction l generalizing s with
  | nil =>
    simp only [List.nil_append, buildTreeLoop, Option.bind]
    cases buildTreeStep s i <;> rfl
  | cons a l ih =>
    simp only [List.cons_append, buildTreeLoop]
    cases buildTreeStep s a with
    | none => rfl
    | some s1 => exact ih s1

theorem buildPrefix_zero (o : Options) (D : List Doclet) :
    buildPrefix o D 0 = some (_createTreeNodes (start o D)) := rfl

theorem buildPrefix_succ (o : Options) (D : List Doclet) (j : Nat) :
    buildPrefix o D (j + 1) = (buildPrefix o D j).bind (fun s => buildTreeStep s j) := by
  unfold buildPrefix
  rw [List.range_succ, buildTreeLoop_append]

theorem docs_length_createTreeNodes (o : Options) (D : List Doclet) :
    (_createTreeNodes (start o D)).docs.length = D.length := by
  rw [(createInv_createTreeNodes o D).docs_eq]

theorem build_eq_buildPrefix (o : Options) (D : List Doclet) :
    build o D = buildPrefix o D D.length := by
  unfold build _buildTree buildPrefix
  rw [docs_length_createTreeNodes]

/-- Every prefix of the second pass is well formed. -/
theorem wf_buildPrefix (o : Options) (D : List Doclet) (j : Nat) (s : Emitter)
    (h : buildPrefix o D j = some s) : WF o D s := by
  induction j generalizing s with
  | zero =>
    rw [buildPrefix_zero] at h
    simp only [Option.some.injEq] at h
    subst h
    exact (createInv_createTreeNodes o D).wf
  | succ j ih =>
    rw [buildPrefix_succ] at h
    cases hp : buildPrefix o D j with
    | none => rw [hp] at h; simp at h
    | some s1 =>
      rw [hp] at h
      exact (buildTreeStep_wf (ih s1 hp) j s h).1

end Emitter

namespace Emitter

/-! ## The order of source nodes through an iteration -/

theorem ordered_pushOpt_syn {s : Emitter} {j : Nat} (h : Ordered s j) (c : Option Nat)
    (m : Option Nat) (hm : ∀ n, m = some n → s.srcIndex n = none) : Ordered (s.pushOpt c m) j := by
  cases m with
  | none => exact h
  | some n => exact ordered_pushTo_syn h c n (hm n rfl)

theorem srcIndex_pushOpt (s : Emitter) (c : Option Nat) (m : Option Nat) (n : Nat) :
    (s.pushOpt c m).srcIndex n = s.srcIndex n := by
  cases m with
  | none => rfl
  | some k => exact srcIndex_pushTo s c k n

theorem ordered_place {s : Emitter} {j : Nat} (h : Ordered s j) (c : Option Nat)
    (im nm : Option Nat) (obj : Nat) (him : ∀ n, im = some n → s.srcIndex n = none)
    (hnm : ∀ n, nm = some n → s.srcIndex n = none)
    (hobj : s.srcIndex obj = none ∨ s.srcIndex obj = some j) :
    Ordered (s.place c im nm obj) (j + 1) := by
  unfold place
  have h1 := ordered_pushOpt_syn h c im him
  have h2 := ordered_pushOpt_syn h1 c nm (fun n hn => by rw [srcIndex_pushOpt]; exact hnm n hn)
  have hsrc : ((s.pushOpt c im).pushOpt c nm).srcIndex obj = s.srcIndex obj := by
    rw [srcIndex_pushOpt, srcIndex_pushOpt]
  rcases hobj with ho | ho
  · exact (ordered_pushTo_syn h2 c obj (hsrc.trans ho)).mono (Nat.le_succ j)
  · exact ordered_pushTo_src h2 c obj (hsrc.trans ho)

/-- The node the table holds under the longname of the doclet being processed wraps
this very doclet, or is synthetic, when the surviving longnames are pairwise distinct. -/
theorem srcIndex_of_lookup {o : Options} {D : List Doclet} {s : Emitter} (hwf : WF o D s)
    (hd : DistinctLongnames o D) {j obj : Nat} (hj : j < D.length)
    (hs : survives s.options (s.doc j) = true) (hl : s.lookup (s.doc j).longname = some obj) :
    s.srcIndex obj = none ∨ s.srcIndex obj = some j := by
  cases hsrc : s.srcIndex obj with
  | none => exact Or.inl rfl
  | some i =>
    right
    obtain ⟨hi, hsi⟩ := hwf.src_survives obj i hsrc
    have hkey := hwf.key_longname _ _ hl
    have hdoc : s.docOf obj = s.doc i := by
      unfold docOf; unfold srcIndex at hsrc
      cases hd' : (s.node obj).doclet with
      | src i' => rw [hd'] at hsrc; simp only [DocRef.index, Option.some.injEq] at hsrc; subst hsrc; rfl
      | syn d => rw [hd'] at hsrc; simp [DocRef.index] at hsrc
    rw [hdoc] at hkey
    have h1 := longname_eq_of_unmember (hwf.doc_frame i)
    have h2 := longname_eq_of_unmember (hwf.doc_frame j)
    have hsj : survives o (docAt D j) = true := by
      rw [← survives_eq_of_unmember o (hwf.doc_frame j), ← hwf.options_eq]; exact hs
    have := hd i hi j hj hsi hsj (by rw [← h1, ← h2]; exact hkey)
    rw [this]

theorem placementStep_ordered {o : Options} {D : List Doclet} {s : Emitter} (hwf : WF o D s)
    {j : Nat} (i obj : Nat) (im nm : Option Nat) (s' : Emitter)
    (h : placementStep s i obj im nm = some s')
    (him : ∀ n, im = some n → s.srcIndex n = none ∧ n < s.nodes.length)
    (hnm : ∀ n, nm = some n → s.srcIndex n = none ∧ n < s.nodes.length)
    (hobj : obj < s.nodes.length)
    (hsrc : s.srcIndex obj = none ∨ s.srcIndex obj = some j) (ho : Ordered s j) :
    Ordered s' (j + 1) := by
  rcases placementStep_cases s i obj im nm s' h with
    ⟨_, rfl⟩ | ⟨_, _, rfl⟩ | ⟨parent, s1, mod, _, hl, _, _, hg, rfl⟩
    | ⟨parent, _, _, _, _, rfl⟩ | ⟨parent, _, _, _, _, rfl⟩
  · exact ordered_place ho _ _ _ _ (fun n hn => (him n hn).1) (fun n hn => (hnm n hn).1) hsrc
  · exact (ordered_of_eq (fun c => container_warn _ _ c) (fun n => rfl) ho).mono (Nat.le_succ j)
  · obtain ⟨hwf1, hpost, _⟩ := getOrCreate_post o D _ _ _ _ _ hg hwf (hwf.table_valid _ _ hl)
    have ho1 := ordered_of_gocPost hwf hwf1 hpost ho
    refine ordered_place ho1 _ _ _ _ (fun n hn => ?_) (fun n hn => ?_) ?_
    · rw [hpost.grows.srcIndex_eq n (him n hn).2]; exact (him n hn).1
    · rw [hpost.grows.srcIndex_eq n (hnm n hn).2]; exact (hnm n hn).1
    · rw [hpost.grows.srcIndex_eq obj hobj]; exact hsrc
  · exact (ordered_of_eq (container_markNested s i obj parent)
      (srcIndex_markNested s i obj parent) ho).mono (Nat.le_succ j)
  · have ho1 := ordered_of_eq (container_markNested s i obj parent)
      (srcIndex_markNested s i obj parent) ho
    refine ordered_place ho1 _ _ _ _ (fun n hn => ?_) (fun n hn => ?_) ?_
    · rw [srcIndex_markNested]; exact (him n hn).1
    · rw [srcIndex_markNested]; exact (hnm n hn).1
    · rw [srcIndex_markNested]; exact hsrc

/-- What an iteration knows of its merge nodes when the placement starts: they are
allocated synthetic nodes, different from each other and from `obj`, and in no
container. -/
theorem mergeSteps_facts {o : Options} {D : List Doclet} {s : Emitter} (hwf : WF o D s)
    (d : Doclet) (obj : Nat) (hobj : obj < s.nodes.length) :
    (∀ n, (interfaceMergeStep s d).2 = some n →
        (namespaceMergeStep (interfaceMergeStep s d).1 d).1.srcIndex n = none
        ∧ n < (namespaceMergeStep (interfaceMergeStep s d).1 d).1.nodes.length ∧ n ≠ obj
        ∧ Unplaced (namespaceMergeStep (interfaceMergeStep s d).1 d).1 n
        ∧ s.nodes.length ≤ n)
    ∧ (∀ n, (namespaceMergeStep (interfaceMergeStep s d).1 d).2 = some n →
        (namespaceMergeStep (interfaceMergeStep s d).1 d).1.srcIndex n = none
        ∧ n < (namespaceMergeStep (interfaceMergeStep s d).1 d).1.nodes.length ∧ n ≠ obj
        ∧ Unplaced (namespaceMergeStep (interfaceMergeStep s d).1 d).1 n
        ∧ (interfaceMergeStep s d).2 ≠ some n ∧ s.nodes.length ≤ n)
    ∧ obj < (namespaceMergeStep (interfaceMergeStep s d).1 d).1.nodes.length
    ∧ (∀ k, k < s.nodes.length →
        (namespaceMergeStep (interfaceMergeStep s d).1 d).1.srcIndex k = s.srcIndex k)
    ∧ (∀ c, (namespaceMergeStep (interfaceMergeStep s d).1 d).1.container c = s.container c) := by
  have hwf1 : WF o D (interfaceMergeStep s d).1 := wf_interfaceMergeStep hwf d
  have hg1 : Grows s (interfaceMergeStep s d).1 := grows_interfaceMergeStep s d
  have hg2 : Grows (interfaceMergeStep s d).1 (namespaceMergeStep (interfaceMergeStep s d).1 d).1 :=
    grows_namespaceMergeStep _ d
  have hc1 : ∀ c, (interfaceMergeStep s d).1.container c = s.container c :=
    container_interfaceMergeStep s d
  have hc2 : ∀ c, (namespaceMergeStep (interfaceMergeStep s d).1 d).1.container c
      = (interfaceMergeStep s d).1.container c := container_namespaceMergeStep _ d
  have hl1 := hg1.nodes_length
  have hl2 := hg2.nodes_length
  refine ⟨?_, ?_, by omega, ?_, fun c => (hc2 c).trans (hc1 c)⟩
  · intro n hn
    obtain ⟨h1, h2, h3, _⟩ := interfaceMergeStep_merge s d n hn
    have hn1 : n < (interfaceMergeStep s d).1.nodes.length := by omega
    refine ⟨(hg2.srcIndex_eq n hn1).trans h3, by omega, by omega, ?_, by omega⟩
    exact unplaced_of_container_eq (fun c => (hc2 c).trans (hc1 c)) (unplaced_of_ge hwf (by omega))
  · intro n hn
    obtain ⟨h1, h2, h3, _⟩ := namespaceMergeStep_merge (interfaceMergeStep s d).1 d n hn
    refine ⟨h3, by omega, by omega, ?_, ?_, by omega⟩
    · exact unplaced_of_container_eq hc2 (unplaced_of_ge hwf1 (by omega))
    · intro him
      obtain ⟨h1', h2', _⟩ := interfaceMergeStep_merge s d n him
      omega
  · intro k hk
    exact (hg2.srcIndex_eq k (by omega)).trans (hg1.srcIndex_eq k hk)

theorem buildTreeStep_ordered {o : Options} {D : List Doclet} {s : Emitter} (hwf : WF o D s)
    (hd : DistinctLongnames o D) {j : Nat} (hj : j < D.length) (s' : Emitter)
    (h : buildTreeStep s j = some s') (ho : Ordered s j) : Ordered s' (j + 1) := by
  rcases buildTreeStep_cases s j s' h with ⟨_, he⟩ | ⟨_, _, rfl⟩ | ⟨obj, hs, hl, hp⟩
  · subst s'; exact ho.mono (Nat.le_succ j)
  · exact (ordered_of_eq (fun c => container_warn _ _ c) (fun n => rfl) ho).mono (Nat.le_succ j)
  · have hobj := hwf.table_valid _ _ hl
    obtain ⟨him, hnm, hobj2, hsrc, hcont⟩ := mergeSteps_facts hwf (s.doc j) obj hobj
    have hwf1 := wf_interfaceMergeStep hwf (s.doc j)
    have hwf2 := wf_namespaceMergeStep hwf1 (s.doc j)
    have ho2 : Ordered (namespaceMergeStep (interfaceMergeStep s (s.doc j)).1 (s.doc j)).1 j :=
      ordered_of_append hwf hsrc (fun c => ⟨[], by rw [hcont c]; simp, by simp⟩) ho
    refine placementStep_ordered hwf2 j obj _ _ s' hp
      (fun n hn => ⟨(him n hn).1, (him n hn).2.1⟩)
      (fun n hn => ⟨(hnm n hn).1, (hnm n hn).2.1⟩) hobj2 ?_ ho2
    rw [hsrc obj hobj]
    exact srcIndex_of_lookup hwf hd hj hs hl

/-- After the first `j` iterations, the source nodes of every container wrap doclets
of index below `j`, in the order of the input list. -/
theorem ordered_buildPrefix {o : Options} {D : List Doclet} (hd : DistinctLongnames o D)
    (j : Nat) (hj : j ≤ D.length) (s : Emitter) (h : buildPrefix o D j = some s) :
    Ordered s j := by
  induction j generalizing s with
  | zero =>
    rw [buildPrefix_zero] at h
    simp only [Option.some.injEq] at h
    subst h
    exact ordered_of_empty (createInv_createTreeNodes o D).empty 0
  | succ j ih =>
    rw [buildPrefix_succ] at h
    cases hp : buildPrefix o D j with
    | none => rw [hp] at h; simp at h
    | some s1 =>
      rw [hp] at h
      exact buildTreeStep_ordered (wf_buildPrefix o D j s1 hp) hd (by omega) s h
        (ih (by omega) s1 hp)

theorem pairwise_filterMap_getElem {α β : Type} (R : β → β → Prop) (f : α → Option β) :
    ∀ (l : List α), (l.filterMap f).Pairwise R → ∀ (p q : Nat) (a b : α) (x y : β), p < q →
      l[p]? = some a → l[q]? = some b → f a = some x → f b = some y → R x y := by
  intro l
  induction l with
  | nil => intro _ p q a b x y _ ha; simp at ha
  | cons c l ih =>
    intro hpw p q a b x y hpq ha hb hx hy
    cases q with
    | zero => omega
    | succ q =>
      simp only [List.getElem?_cons_succ] at hb
      cases p with
      | zero =>
        simp only [List.getElem?_cons_zero, Option.some.injEq] at ha
        subst ha
        rw [List.filterMap_cons, hx, List.pairwise_cons] at hpw
        exact hpw.1 y (List.mem_filterMap.2 ⟨b, List.getElem?_mem hb, hy⟩)
      | succ p =>
        simp only [List.getElem?_cons_succ] at ha
        have hpw' : (l.filterMap f).Pairwise R := by
          rw [List.filterMap_cons] at hpw
          split at hpw
          · exact hpw
          · exact (List.pairwise_cons.1 hpw).2
        exact ih hpw' p q a b x y (by omega) ha hb hx hy

/-- With pairwise distinct surviving longnames, every container keeps the order of
the input list. -/
theorem orderKept_of_distinct {o : Options} {D : List Doclet} (hd : DistinctLongnames o D) :
    OrderKept o D := by
  intro s hs c p q n m i j hpq hn hm hi hj
  rw [build_eq_buildPrefix] at hs
  have ho := ordered_buildPrefix hd D.length (Nat.le_refl _) s hs
  exact pairwise_filterMap_getElem _ _ _ (ho.sorted c) p q n m i j hpq hn hm hi hj

end Emitter

namespace Emitter

/-! ## Totality of the builder -/

theorem placementStep_isSome (s : Emitter) (i obj : Nat) (im nm : Option Nat) :
    (placementStep s i obj im nm).isSome = true := by
  unfold placementStep
  simp only
  split
  · split
    · rfl
    · split
      · rename_i parent _ _
        have := (getOrCreate_returns s parent).1
        cases hg : s._getOrCreateClassNamespace parent with
        | none => rw [hg] at this; simp at this
        | some r => rfl
      · split <;> rfl
  · rfl

theorem buildTreeStep_isSome (s : Emitter) (i : Nat) : (buildTreeStep s i).isSome = true := by
  unfold buildTreeStep
  simp only
  split
  · rfl
  · split
    · rfl
    · exact placementStep_isSome _ _ _ _ _

theorem buildTreeLoop_isSome (l : List Nat) : ∀ s, (buildTreeLoop s l).isSome = true := by
  induction l with
  | nil => intro s; rfl
  | cons i l ih =>
    intro s
    unfold buildTreeLoop
    have := buildTreeStep_isSome s i
    cases hb : buildTreeStep s i with
    | none => rw [hb] at this; simp at this
    | some s1 => exact ih s1

/-- The first two passes always produce a state. -/
theorem build_isSome (o : Options) (D : List Doclet) : (build o D).isSome = true :=
  buildTreeLoop_isSome _ _

/-! ## The results follow the roots -/

theorem parseChildren_outs (visit : Emitter → Nat → Option (Outcome (Emitter × Option TsNode))) :
    ∀ (l : List Nat) (s : Emitter) (acc : List TsNode) (s' : Emitter) (res : List TsNode),
      parseChildren visit s l acc = some (Outcome.value (s', res)) →
      ∃ outs : List (Option TsNode),
        List.Forall₂ (fun c out => ∃ s1 s2 : Emitter,
          visit s1 c = some (Outcome.value (s2, out))) l outs
        ∧ res = acc ++ outs.reduceOption := by
  intro l
  induction l with
  | nil =>
    intro s acc s' res h
    simp only [parseChildren, Option.some.injEq, Outcome.value.injEq, Prod.mk.injEq] at h
    exact ⟨[], List.Forall₂.nil, by simp [h.2]⟩
  | cons c l ih =>
    intro s acc s' res h
    unfold parseChildren at h
    cases hv : visit s c with
    | none => rw [hv] at h; simp at h
    | some out =>
      cases out with
      | assertNever k => rw [hv] at h; simp at h
      | value v =>
        obtain ⟨s1, childNode⟩ := v
        rw [hv] at h
        simp only at h
        obtain ⟨outs, hf, hres⟩ := ih s1 _ s' res h
        refine ⟨childNode :: outs, List.Forall₂.cons ⟨s, s1, hv⟩ hf, ?_⟩
        rw [hres]
        cases childNode with
        | none => simp [List.reduceOption_cons_of_none]
        | some t => simp [List.reduceOption_cons_of_some]

/-- C10 as stated fails when two surviving doclets share a longname: on
`duplicateOrphanDocs` the node of the first doclet comes after the node of the second
in the forest roots. -/
theorem orderKept_fails_with_duplicate_longnames : ¬ OrderKept {} duplicateOrphanDocs := by
  intro h
  have key : ∃ s : Emitter, build {} duplicateOrphanDocs = some s
      ∧ (s.container none)[0]? = some 1 ∧ (s.container none)[1]? = some 0
      ∧ s.srcIndex 1 = some 1 ∧ s.srcIndex 0 = some 0 :=
    ⟨(build {} duplicateOrphanDocs).get (by decide), by simp, by decide, by decide, by decide,
      by decide⟩
  obtain ⟨s, hb, h0, h1, hs1, hs0⟩ := key
  have := h s hb none 0 1 1 0 1 0 (by decide) h0 h1 hs1 hs0
  omega

end Emitter

namespace Emitter

/-! ## The table on plain keys, and the forest, through an iteration -/

theorem isDerivedKey_interfaceKey (x : String) : IsDerivedKey (_getInterfaceKey x) :=
  ⟨x, Or.inr rfl⟩

theorem isDerivedKey_namespaceKey (x : String) : IsDerivedKey (_getNamespaceKey x) :=
  ⟨x, Or.inl rfl⟩

theorem lookup_place (s : Emitter) (c : Option Nat) (im nm : Option Nat) (obj : Nat)
    (k : String) : (s.place c im nm obj).lookup k = s.lookup k := by
  unfold place pushOpt
  rw [lookup_pushTo]
  cases im <;> cases nm <;> simp only [lookup_pushTo]

theorem lookup_interfaceMergeStep_plain (s : Emitter) (d : Doclet) (k : String)
    (hk : ¬ IsDerivedKey k) : (interfaceMergeStep s d).1.lookup k = s.lookup k := by
  rcases interfaceMergeStep_cases s d with ⟨he, _⟩ | ⟨_, _, he⟩
  · rw [he]
  · rw [he, lookup_register, if_neg, lookup_alloc]
    intro h; exact hk (h ▸ isDerivedKey_interfaceKey _)

theorem lookup_namespaceMergeStep_plain (s : Emitter) (d : Doclet) (k : String)
    (hk : ¬ IsDerivedKey k) : (namespaceMergeStep s d).1.lookup k = s.lookup k := by
  rcases namespaceMergeStep_cases s d with ⟨he, _⟩ | ⟨_, _, he⟩
  · rw [he]
  · rw [he, lookup_reassignStatic, lookup_register, if_neg, lookup_alloc]
    intro h; exact hk (h ▸ isDerivedKey_namespaceKey _)

theorem placementStep_lookup_old {o : Options} {D : List Doclet} {s : Emitter} (hwf : WF o D s)
    (i obj : Nat) (im nm : Option Nat) (s' : Emitter)
    (h : placementStep s i obj im nm = some s') (k : String) (n : Nat)
    (hk : s.lookup k = some n) : s'.lookup k = some n := by
  rcases placementStep_cases s i obj im nm s' h with
    ⟨_, rfl⟩ | ⟨_, _, rfl⟩ | ⟨parent, s1, mod, _, hl, _, _, hg, rfl⟩
    | ⟨parent, _, _, _, _, rfl⟩ | ⟨parent, _, _, _, _, rfl⟩
  · rw [lookup_place]; exact hk
  · exact hk
  · obtain ⟨_, hpost, _⟩ := getOrCreate_post o D _ _ _ _ _ hg hwf (hwf.table_valid _ _ hl)
    rw [lookup_place]; exact hpost.lookup_old k n hk
  · rw [lookup_markNested]; exact hk
  · rw [lookup_place, lookup_markNested]; exact hk

/-- An iteration keeps the bindings of the keys that are not derived keys. -/
theorem buildTreeStep_lookup_plain {o : Options} {D : List Doclet} {s : Emitter} (hwf : WF o D s)
    (j : Nat) (s' : Emitter) (h : buildTreeStep s j = some s') (k : String) (n : Nat)
    (hk : s.lookup k = some n) (hplain : ¬ IsDerivedKey k) : s'.lookup k = some n := by
  rcases buildTreeStep_cases s j s' h with ⟨_, he⟩ | ⟨_, _, rfl⟩ | ⟨obj, _, _, hp⟩
  · subst s'; exact hk
  · exact hk
  · have hwf1 := wf_interfaceMergeStep hwf (s.doc j)
    have hwf2 := wf_namespaceMergeStep hwf1 (s.doc j)
    refine placementStep_lookup_old hwf2 j obj _ _ s' hp k n ?_
    rw [lookup_namespaceMergeStep_plain _ _ _ hplain, lookup_interfaceMergeStep_plain _ _ _ hplain]
    exact hk

theorem buildTreeStep_srcTable {o : Options} {D : List Doclet} {s : Emitter} (hwf : WF o D s)
    (hn : NoDerivedLongnames o D) (j : Nat) (s' : Emitter) (h : buildTreeStep s j = some s')
    (ht : SrcTable o D s) : SrcTable o D s' := by
  intro i hi hs
  obtain ⟨n, hl, hsrc⟩ := ht i hi hs
  refine ⟨n, buildTreeStep_lookup_plain hwf j s' h _ n hl (hn i hi hs), ?_⟩
  rw [(buildTreeStep_wf hwf j s' h).2.srcIndex_eq n (hwf.table_valid _ _ hl)]
  exact hsrc

theorem forest_pushOpt {s : Emitter} (hf : Forest s) (c : Option Nat) (m : Option Nat)
    (hm : ∀ n, m = some n → Unplaced s n) : Forest (s.pushOpt c m) := by
  cases m with
  | none => exact hf
  | some n => exact forest_pushTo hf c n (hm n rfl)

theorem unplaced_pushOpt {s : Emitter} {n : Nat} (hu : Unplaced s n) (c : Option Nat)
    (m : Option Nat) (hne : m ≠ some n) : Unplaced (s.pushOpt c m) n := by
  cases m with
  | none => exact hu
  | some k => exact unplaced_pushTo hu c k (fun h => hne (h ▸ rfl))

theorem forest_place {s : Emitter} (hf : Forest s) (c : Option Nat) (im nm : Option Nat)
    (obj : Nat) (him : ∀ n, im = some n → Unplaced s n)
    (hnm : ∀ n, nm = some n → Unplaced s n ∧ im ≠ some n) (hobj : Unplaced s obj)
    (hne1 : im ≠ some obj) (hne2 : nm ≠ some obj) : Forest (s.place c im nm obj) := by
  unfold place
  have h1 := forest_pushOpt hf c im him
  have h2 := forest_pushOpt h1 c nm (fun n hn => unplaced_pushOpt (hnm n hn).1 c im (hnm n hn).2)
  exact forest_pushTo h2 c obj (unplaced_pushOpt (unplaced_pushOpt hobj c im hne1) c nm hne2)

theorem placementStep_forest {o : Options} {D : List Doclet} {s : Emitter} (hwf : WF o D s)
    (i obj : Nat) (im nm : Option Nat) (s' : Emitter)
    (h : placementStep s i obj im nm = some s')
    (him : ∀ n, im = some n → Unplaced s n ∧ n < s.nodes.length ∧ n ≠ obj)
    (hnm : ∀ n, nm = some n → Unplaced s n ∧ n < s.nodes.length ∧ n ≠ obj ∧ im ≠ some n)
    (hobj : Unplaced s obj) (hlt : obj < s.nodes.length) (hf : Forest s) : Forest s' := by
  have hne1 : im ≠ some obj := fun e => (him obj e).2.2 rfl
  have hne2 : nm ≠ some obj := fun e => (hnm obj e).2.2.1 rfl
  rcases placementStep_cases s i obj im nm s' h with
    ⟨_, rfl⟩ | ⟨_, _, rfl⟩ | ⟨parent, s1, mod, _, hl, _, _, hg, rfl⟩
    | ⟨parent, _, _, _, _, rfl⟩ | ⟨parent, _, _, _, _, rfl⟩
  · exact forest_place hf _ _ _ _ (fun n hn => (him n hn).1)
      (fun n hn => ⟨(hnm n hn).1, (hnm n hn).2.2.2⟩) hobj hne1 hne2
  · exact forest_of_container_eq (fun c => container_warn _ _ c) hf
  · have hpar := hwf.table_valid _ _ hl
    obtain ⟨_, hpost, _⟩ := getOrCreate_post o D _ _ _ _ _ hg hwf hpar
    have hf1 := getOrCreate_forest o D _ _ _ _ _ hg hwf hpar hf
    exact forest_place hf1 _ _ _ _
      (fun n hn => hpost.unplaced (him n hn).1 (him n hn).2.1)
      (fun n hn => ⟨hpost.unplaced (hnm n hn).1 (hnm n hn).2.1, (hnm n hn).2.2.2⟩)
      (hpost.unplaced hobj hlt) hne1 hne2
  · exact forest_of_container_eq (container_markNested s i obj parent) hf
  · have hc := container_markNested s i obj parent
    exact forest_place (forest_of_container_eq hc hf) _ _ _ _
      (fun n hn => unplaced_of_container_eq hc (him n hn).1)
      (fun n hn => ⟨unplaced_of_container_eq hc (hnm n hn).1, (hnm n hn).2.2.2⟩)
      (unplaced_of_container_eq hc hobj) hne1 hne2

/-- The node of the doclet being processed, read from the table. -/
theorem srcIndex_of_srcTable {o : Options} {D : List Doclet} {s : Emitter} (hwf : WF o D s)
    (ht : SrcTable o D s) {j obj : Nat} (hj : j < D.length)
    (hs : survives s.options (s.doc j) = true) (hl : s.lookup (s.doc j).longname = some obj) :
    s.srcIndex obj = some j := by
  have hsj : survives o (docAt D j) = true := by
    rw [← survives_eq_of_unmember o (hwf.doc_frame j), ← hwf.options_eq]; exact hs
  obtain ⟨n, hn, hsrc⟩ := ht j hj hsj
  rw [← longname_eq_of_unmember (hwf.doc_frame j), hl] at hn
  simp only [Option.some.injEq] at hn
  subst hn; exact hsrc

theorem buildTreeStep_forest {o : Options} {D : List Doclet} {s : Emitter} (hwf : WF o D s)
    (ht : SrcTable o D s) {j : Nat} (hj : j < D.length) (s' : Emitter)
    (h : buildTreeStep s j = some s') (ho : Ordered s j) (hf : Forest s) : Forest s' := by
  rcases buildTreeStep_cases s j s' h with ⟨_, he⟩ | ⟨_, _, rfl⟩ | ⟨obj, hs, hl, hp⟩
  · subst s'; exact hf
  · exact forest_of_container_eq (fun c => container_warn _ _ c) hf
  · have hobj := hwf.table_valid _ _ hl
    obtain ⟨him, hnm, hobj2, _, hcont⟩ := mergeSteps_facts hwf (s.doc j) obj hobj
    have hwf1 := wf_interfaceMergeStep hwf (s.doc j)
    have hwf2 := wf_namespaceMergeStep hwf1 (s.doc j)
    have hsrc := srcIndex_of_srcTable hwf ht hj hs hl
    have hu : Unplaced s obj := fun c hc => Nat.lt_irrefl j (ho.bound c obj j hc hsrc)
    refine placementStep_forest hwf2 j obj _ _ s' hp
      (fun n hn => ⟨(him n hn).2.2.2.1, (him n hn).2.1, (him n hn).2.2.1⟩)
      (fun n hn => ⟨(hnm n hn).2.2.2.1, (hnm n hn).2.1, (hnm n hn).2.2.1, (hnm n hn).2.2.2.2.1⟩)
      (unplaced_of_container_eq hcont hu) hobj2 (forest_of_container_eq hcont hf)

/-- With pairwise distinct surviving longnames, none of them a derived key, every
prefix of the second pass leaves a forest and keeps every surviving doclet's node in
the table. -/
theorem forest_buildPrefix {o : Options} {D : List Doclet} (hd : DistinctLongnames o D)
    (hn : NoDerivedLongnames o D) (j : Nat) (hj : j ≤ D.length) (s : Emitter)
    (h : buildPrefix o D j = some s) : Forest s ∧ SrcTable o D s := by
  induction j generalizing s with
  | zero =>
    rw [buildPrefix_zero] at h
    simp only [Option.some.injEq] at h
    subst h
    exact ⟨forest_of_empty (createInv_createTreeNodes o D).empty, srcTable_createTreeNodes hd⟩
  | succ j ih =>
    rw [buildPrefix_succ] at h
    cases hp : buildPrefix o D j with
    | none => rw [hp] at h; simp at h
    | some s1 =>
      rw [hp] at h
      obtain ⟨hf, ht⟩ := ih (by omega) s1 hp
      have hwf := wf_buildPrefix o D j s1 hp
      exact ⟨buildTreeStep_forest hwf ht (by omega) s h
          (ordered_buildPrefix hd j (by omega) s1 hp) hf,
        buildTreeStep_srcTable hwf hn j s h ht⟩

end Emitter

namespace Emitter

/-! ## Root paths in a forest -/

section RootPaths

variable {roots : List Nat} {ch : Nat → List Nat}

theorem rootPath_singleton {x : Nat} (h : RootPath roots ch [x]) : x ∈ roots := by
  cases h with
  | root hr => exact hr

theorem rootPath_cons_cons {c p : Nat} {l : List Nat} (h : RootPath roots ch (c :: p :: l)) :
    RootPath roots ch (p :: l) ∧ c ∈ ch p := by
  cases h with
  | cons hp hc => exact ⟨hp, hc⟩

theorem rootPath_ne_nil {l : List Nat} (h : RootPath roots ch l) : l ≠ [] := by
  cases h <;> simp

theorem rootPath_suffix (l1 : List Nat) {x : Nat} {l2 : List Nat}
    (h : RootPath roots ch (l1 ++ x :: l2)) : RootPath roots ch (x :: l2) := by
  induction l1 with
  | nil => exact h
  | cons a l1 ih =>
    cases hrest : l1 ++ x :: l2 with
    | nil => simp at hrest
    | cons p l =>
      rw [List.cons_append, hrest] at h
      exact ih (hrest ▸ (rootPath_cons_cons h).1)

theorem rootPath_unique (hu : ∀ p p' c, c ∈ ch p → c ∈ ch p' → p = p')
    (hr : ∀ r p, r ∈ roots → r ∉ ch p) :
    ∀ (l1 l2 : List Nat) (x : Nat), RootPath roots ch (x :: l1) → RootPath roots ch (x :: l2) →
      l1 = l2 := by
  intro l1
  induction l1 with
  | nil =>
    intro l2 x h1 h2
    cases l2 with
    | nil => rfl
    | cons p l => exact absurd (rootPath_cons_cons h2).2 (hr x p (rootPath_singleton h1))
  | cons p l ih =>
    intro l2 x h1 h2
    obtain ⟨hp, hx⟩ := rootPath_cons_cons h1
    cases l2 with
    | nil => exact absurd hx (hr x p (rootPath_singleton h2))
    | cons p' l' =>
      obtain ⟨hp', hx'⟩ := rootPath_cons_cons h2
      have : p = p' := hu p p' x hx hx'
      subst this
      rw [ih l' p hp hp']

theorem rootPath_nodup (hu : ∀ p p' c, c ∈ ch p → c ∈ ch p' → p = p')
    (hr : ∀ r p, r ∈ roots → r ∉ ch p) :
    ∀ (l : List Nat), RootPath roots ch l → l.Nodup := by
  intro l
  induction l with
  | nil => intro _; exact List.nodup_nil
  | cons x l ih =>
    intro h
    rw [List.nodup_cons]
    constructor
    · intro hx
      obtain ⟨l1, l2, hl⟩ := List.append_of_mem hx
      have hl' : RootPath roots ch l := by
        cases l with
        | nil => simp at hx
        | cons p l' => exact (rootPath_cons_cons h).1
      rw [hl] at hl'
      have hsuf := rootPath_suffix l1 hl'
      have := rootPath_unique hu hr l l2 x h hsuf
      have hlen := congrArg List.length hl
      rw [this] at hlen
      simp at hlen
      omega
    · cases l with
      | nil => exact List.nodup_nil
      | cons p l' => exact ih (rootPath_cons_cons h).1

theorem rootPath_lt {N : Nat} (hroots : ∀ r ∈ roots, r < N) (hch : ∀ p, ∀ c ∈ ch p, c < N) :
    ∀ (l : List Nat), RootPath roots ch l → ∀ x ∈ l, x < N := by
  intro l h
  induction h with
  | root hr => intro x hx; simp only [List.mem_singleton] at hx; subst hx; exact hroots _ hr
  | cons _ hc ih =>
    intro x hx
    rcases List.mem_cons.1 hx with rfl | hx'
    · exact hch _ _ hc
    · exact ih x hx'

theorem length_le_of_nodup_lt {N : Nat} (l : List Nat) (hn : l.Nodup) (hlt : ∀ x ∈ l, x < N) :
    l.length ≤ N := by
  have h1 : l.toFinset ⊆ Finset.range N := by
    intro x hx
    rw [List.mem_toFinset] at hx
    exact Finset.mem_range.2 (hlt x hx)
  have h2 := Finset.card_le_card h1
  rw [List.toFinset_card_of_nodup hn, Finset.card_range] at h2
  exact h2

end RootPaths

theorem forest_child_unique {s : Emitter} (hf : Forest s) :
    ∀ p p' c, c ∈ s.childrenOf p → c ∈ s.childrenOf p' → p = p' := by
  intro p p' c h1 h2
  have := hf.unique (some p) (some p') c h1 h2
  simpa using this

theorem forest_root_not_child {s : Emitter} (hf : Forest s) :
    ∀ r p, r ∈ s._treeRoots → r ∉ s.childrenOf p := by
  intro r p h1 h2
  have := hf.unique none (some p) r h1 h2
  simp at this

/-- In a well-formed forest a root path visits at most as many nodes as there are. -/
theorem rootPath_length_le {o : Options} {D : List Doclet} {s : Emitter} (hwf : WF o D s)
    (hf : Forest s) (l : List Nat) (h : RootPath s._treeRoots s.childrenOf l) :
    l.length ≤ s.nodes.length :=
  length_le_of_nodup_lt l
    (rootPath_nodup (forest_child_unique hf) (forest_root_not_child hf) l h)
    (rootPath_lt (fun r hr => hwf.container_valid none r hr)
      (fun p c hc => hwf.container_valid (some p) c hc) l h)

theorem rootPath_of_descendant {s : Emitter} {a b : Nat} (h : Descendant s a b) :
    ∀ rl, RootPath s._treeRoots s.childrenOf (a :: rl) →
      ∃ mid, RootPath s._treeRoots s.childrenOf (b :: (mid ++ a :: rl)) := by
  induction h with
  | child hc => intro rl hp; exact ⟨[], RootPath.cons hp hc⟩
  | step hc _ ih =>
    intro rl hp
    obtain ⟨mid, hmid⟩ := ih _ (RootPath.cons hp hc)
    exact ⟨mid ++ [_], by simpa using hmid⟩

theorem rootPath_of_reachable {s : Emitter} {n : Nat} (h : Reachable s n) :
    ∃ rl, RootPath s._treeRoots s.childrenOf (n :: rl) := by
  rcases h with hr | ⟨r, hr, hd⟩
  · exact ⟨[], RootPath.root hr⟩
  · obtain ⟨mid, hmid⟩ := rootPath_of_descendant hd [] (RootPath.root hr)
    exact ⟨_, hmid⟩

/-- In a forest no node reachable from a root is its own descendant. -/
theorem properForest_of_forest {s : Emitter} (hf : Forest s) : ProperForest s := by
  refine ⟨hf, ?_⟩
  intro n hr hd
  obtain ⟨rl, hrl⟩ := rootPath_of_reachable hr
  obtain ⟨mid, hmid⟩ := rootPath_of_descendant hd rl hrl
  have := rootPath_nodup (forest_child_unique hf) (forest_root_not_child hf) _ hmid
  rw [List.nodup_cons] at this
  exact this.1 (by simp)

end Emitter

namespace Emitter

/-! ## Termination of the synthesis walk on a forest -/

theorem childrenOf_setDoclet (s : Emitter) (n : Nat) (d : Doclet) (m : Nat) :
    (s.setDoclet n d).childrenOf m = s.childrenOf m := by
  unfold setDoclet
  cases hd : (s.node n).doclet with
  | src i => rfl
  | syn d' =>
    simp only
    unfold childrenOf
    rw [node_set s n _ m _ rfl]
    by_cases h : m = n ∧ n < s.nodes.length
    · rw [if_pos h, h.1]
    · rw [if_neg h]

theorem childrenOf_afterHelper (s : Emitter) (n : Nat) (r : Doclet × List Warning × TsNode)
    (m : Nat) : (s.afterHelper n r).1.childrenOf m = s.childrenOf m :=
  childrenOf_setDoclet s n r.1 m

theorem shapeKept_afterHelper (s : Emitter) (n : Nat) (r : Doclet × List Warning × TsNode) :
    ShapeKept s.childrenOf (Outcome.value (s.afterHelper n r)) :=
  fun m => childrenOf_afterHelper s n r m

theorem shapeKept_same (s : Emitter) (t : Option TsNode) :
    ShapeKept s.childrenOf (Outcome.value (s, t)) :=
  fun _ => rfl

/-- The three shapes of the value of `dispatch`. -/
theorem dispatch_cases (r : Resolver) (s : Emitter) (n : Nat) (parent : Option Nat)
    (children : List TsNode) :
    (∃ x, dispatch r s n parent children = Outcome.value (s.afterHelper n x))
    ∨ dispatch r s n parent children = Outcome.value (s, none)
    ∨ ∃ k, dispatch r s n parent children = Outcome.assertNever k := by
  unfold dispatch
  by_cases h1 : (s.docOf n).kind = "class"
  · left; exact ⟨_, if_pos h1⟩
  rw [if_neg h1]
  by_cases h2 : (s.docOf n).kind = "constant" ∨ (s.docOf n).kind = "member"
  · rw [if_pos h2]
    by_cases h3 : (s.docOf n).isEnum = some true
    · left; exact ⟨_, if_pos h3⟩
    rw [if_neg h3]
    by_cases h4 : (parent.map (fun p => (s.docOf p).kind)) = some "class"
    · left; exact ⟨_, if_pos h4⟩
    rw [if_neg h4]
    by_cases h5 : (parent.map (fun p => (s.docOf p).kind)) = some "interface"
    · left; exact ⟨_, if_pos h5⟩
    · left; exact ⟨_, if_neg h5⟩
  rw [if_neg h2]
  by_cases h6 : (s.docOf n).kind = "callback" ∨ (s.docOf n).kind = "function"
  · rw [if_pos h6]
    simp only
    split_ifs <;> exact Or.inl ⟨_, rfl⟩
  rw [if_neg h6]
  by_cases h7 : (s.docOf n).kind = "interface"
  · left; exact ⟨_, if_pos h7⟩
  rw [if_neg h7]
  by_cases h8 : (s.docOf n).kind = "mixin"
  · left; exact ⟨_, if_pos h8⟩
  rw [if_neg h8]
  by_cases h9 : (s.docOf n).kind = "module"
  · left; exact ⟨_, if_pos h9⟩
  rw [if_neg h9]
  by_cases h10 : (s.docOf n).kind = "namespace"
  · left; exact ⟨_, if_pos h10⟩
  rw [if_neg h10]
  by_cases h11 : (s.docOf n).kind = "typedef"
  · left; exact ⟨_, if_pos h11⟩
  rw [if_neg h11]
  by_cases h12 : (s.docOf n).kind = "file"
  · right; left; exact if_pos h12
  rw [if_neg h12]
  by_cases h13 : (s.docOf n).kind = "event"
  · right; left; exact if_pos h13
  rw [if_neg h13]
  right; right; exact ⟨_, rfl⟩

theorem dispatch_shapeKept (r : Resolver) (s : Emitter) (n : Nat) (parent : Option Nat)
    (children : List TsNode) : ShapeKept s.childrenOf (dispatch r s n parent children) := by
  rcases dispatch_cases r s n parent children with ⟨x, hx⟩ | hx | ⟨k, hx⟩
  · rw [hx]; exact shapeKept_afterHelper s n x
  · rw [hx]; exact shapeKept_same s none
  · rw [hx]; exact True.intro

theorem parseChildren_shape (visit : Emitter → Nat → Option (Outcome (Emitter × Option TsNode)))
    (ch : Nat → List Nat) :
    ∀ (l : List Nat),
      (∀ c ∈ l, ∀ s : Emitter, (∀ m, s.childrenOf m = ch m) →
        ∃ out, visit s c = some out ∧ ShapeKept ch out) →
      ∀ (s : Emitter) (acc : List TsNode), (∀ m, s.childrenOf m = ch m) →
        ∃ out, parseChildren visit s l acc = some out ∧ ShapeKept ch out := by
  intro l
  induction l with
  | nil => intro _ s acc hs; exact ⟨_, rfl, hs⟩
  | cons c l ih =>
    intro hvisit s acc hs
    obtain ⟨out, hout, hshape⟩ := hvisit c (List.mem_cons_self _ _) s hs
    unfold parseChildren
    rw [hout]
    cases out with
    | assertNever k => exact ⟨_, rfl, trivial⟩
    | value v =>
      obtain ⟨s1, childNode⟩ := v
      exact ih (fun c' hc' => hvisit c' (List.mem_cons_of_mem _ hc')) s1 _ hshape

/-- When no root path is longer than `N`, the walk from a node at the end of a root
path returns, given fuel for what is left of `N`, and leaves the children lists as
they were. -/
theorem parseTreeNode_terminates (r : Resolver) (roots : List Nat) (ch : Nat → List Nat)
    (N : Nat) (hbound : ∀ l, RootPath roots ch l → l.length ≤ N) :
    ∀ (fuel : Nat) (s : Emitter) (n : Nat) (parent : Option Nat) (rl : List Nat),
      (∀ m, s.childrenOf m = ch m) → RootPath roots ch (n :: rl) → N ≤ rl.length + fuel →
      ∃ out, _parseTreeNode r fuel s n parent = some out ∧ ShapeKept ch out := by
  intro fuel
  induction fuel with
  | zero =>
    intro s n parent rl _ hp hN
    have := hbound _ hp
    simp at this
    omega
  | succ fuel ih =>
    intro s n parent rl hs hp hN
    have hchildren := parseChildren_shape
      (fun s1 c => _parseTreeNode r fuel s1 c (some n)) ch (s.childrenOf n)
      (fun c hc s1 hs1 => ih s1 c (some n) (n :: rl) hs1
        (RootPath.cons hp (by rw [← hs n]; exact hc)) (by simp; omega))
      s [] hs
    obtain ⟨out, hout, hshape⟩ := hchildren
    unfold _parseTreeNode
    rw [hout]
    cases out with
    | assertNever k => exact ⟨_, rfl, trivial⟩
    | value v =>
      obtain ⟨s1, children⟩ := v
      refine ⟨_, rfl, ?_⟩
      have := dispatch_shapeKept r s1 n parent children
      have hfun : s1.childrenOf = ch := funext hshape
      rw [hfun] at this
      exact this

/-- On a well-formed forest, `_parseTree` returns with fuel for as many levels as
there are nodes. -/
theorem parseTree_terminates {o : Options} {D : List Doclet} {s : Emitter} (hwf : WF o D s)
    (hf : Forest s) (r : Resolver) (fuel : Nat) (hfuel : s.nodes.length ≤ fuel) :
    (_parseTree r fuel s).isSome = true
    ∧ ∀ root ∈ s._treeRoots, (_parseTreeNode r fuel s root none).isSome = true := by
  have hbound := rootPath_length_le hwf hf
  constructor
  · unfold _parseTree
    obtain ⟨out, hout, _⟩ := parseChildren_shape
      (fun s1 c => _parseTreeNode r fuel s1 c none) s.childrenOf s._treeRoots
      (fun c hc s1 hs1 => parseTreeNode_terminates r s._treeRoots s.childrenOf s.nodes.length
        hbound fuel s1 c none [] hs1 (RootPath.root hc) (by simpa using hfuel))
      s [] (fun _ => rfl)
    rw [hout]; rfl
  · intro root hroot
    obtain ⟨out, hout, _⟩ := parseTreeNode_terminates r s._treeRoots s.childrenOf s.nodes.length
      hbound fuel s root none [] (fun _ => rfl) (RootPath.root hroot) (by simpa using hfuel)
    rw [hout]; rfl

/-- C8: when the surviving doclets have pairwise distinct longnames, none of them a
derived merge key, the structure left by `_buildTree` is a proper forest (each node
occurs at most once among the forest roots and all children lists, no node reachable
from a root is its own descendant), and `_parseTree` and the call of `_parseTreeNode`
on every root return, with fuel for as many levels as there are nodes. -/
theorem buildTree_proper_forest (r : Resolver) (o : Options) (D : List Doclet)
    (hd : DistinctLongnames o D) (hn : NoDerivedLongnames o D) :
    ∃ s, build o D = some s ∧ ProperForest s
      ∧ ∀ fuel, s.nodes.length ≤ fuel →
        (_parseTree r fuel s).isSome = true
        ∧ ∀ root ∈ s._treeRoots, (_parseTreeNode r fuel s root none).isSome = true := by
  have hsome := build_isSome o D
  cases hb : build o D with
  | none => rw [hb] at hsome; simp at hsome
  | some s =>
    refine ⟨s, rfl, ?_⟩
    rw [build_eq_buildPrefix] at hb
    have hwf := wf_buildPrefix o D D.length s hb
    have hf := (forest_buildPrefix hd hn D.length (Nat.le_refl _) s hb).1
    exact ⟨properForest_of_forest hf, fun fuel hfuel => parseTree_terminates hwf hf r fuel hfuel⟩

end Emitter

namespace Emitter

/-! ## Derived keys -/

theorem namespaceKey_of_ne {x : String} (h : x ≠ "") :
    _getNamespaceKey x = x ++ "$$namespace$helper" := by
  unfold _getNamespaceKey; rw [if_pos h]

theorem interfaceKey_of_ne {x : String} (h : x ≠ "") :
    _getInterfaceKey x = x ++ "$$interface$helper" := by
  unfold _getInterfaceKey; rw [if_pos h]

/-- A non-empty string shorter than the suffixes is not a derived key. -/
theorem not_isDerivedKey_of_short (k : String) (h1 : k ≠ "") (h2 : k.length < 18) :
    ¬ IsDerivedKey k := by
  rintro ⟨x, hx | hx⟩
  · by_cases hxe : x = ""
    · subst hxe; exact h1 hx
    · rw [namespaceKey_of_ne hxe] at hx
      have := congrArg String.length hx
      rw [String.length_append] at this
      have h18 : "$$namespace$helper".length = 18 := by decide
      omega
  · by_cases hxe : x = ""
    · subst hxe; exact h1 hx
    · rw [interfaceKey_of_ne hxe] at hx
      have := congrArg String.length hx
      rw [String.length_append] at this
      have h18 : "$$interface$helper".length = 18 := by decide
      omega

theorem distinctLongnames_cyclicDocs : DistinctLongnames {} cyclicDocs := by
  unfold DistinctLongnames; decide

theorem noDerivedLongnames_cyclicDocs : NoDerivedLongnames {} cyclicDocs := by
  intro i hi _
  have hi' : i < 2 := hi
  interval_cases i
  · exact not_isDerivedKey_of_short _ (by decide) (by decide)
  · exact not_isDerivedKey_of_short _ (by decide) (by decide)

theorem distinctLongnames_cycleBesideTreeDocs : DistinctLongnames {} cycleBesideTreeDocs := by
  unfold DistinctLongnames; decide

theorem noDerivedLongnames_cycleBesideTreeDocs : NoDerivedLongnames {} cycleBesideTreeDocs := by
  intro i hi _
  have hi' : i < 7 := hi
  interval_cases i <;> exact not_isDerivedKey_of_short _ (by decide) (by decide)

/-- C8 at a concrete input: the namespace `N` with a function and a nested namespace
that has a class, a top-level function, and the classes `A` and `B` with a `memberof`
cycle (`A` in `B`, `B` in `A`).  The forest has the two roots `N` and `g`; the nodes of
`A` and `B` hang below their companion namespaces, which are children of each other and
are reached from no root; the walk returns the declarations of `N` and `g`. -/
theorem buildTree_proper_forest_witness :
    DistinctLongnames {} cycleBesideTreeDocs ∧ NoDerivedLongnames {} cycleBesideTreeDocs
    ∧ (∃ s, build {} cycleBesideTreeDocs = some s ∧ ProperForest s
      ∧ ∀ fuel, s.nodes.length ≤ fuel →
        (_parseTree {} fuel s).isSome = true
        ∧ ∀ root ∈ s._treeRoots, (_parseTreeNode {} fuel s root none).isSome = true)
    ∧ (∃ s, build {} cycleBesideTreeDocs = some s ∧ s.nodes.length = 9
      ∧ s._treeRoots = [0, 6] ∧ s.childrenOf 0 = [1, 2] ∧ s.childrenOf 2 = [3]
      ∧ s.childrenOf 7 = [8, 4] ∧ s.childrenOf 8 = [7, 5])
    ∧ parseOutlines {} 9 {} cycleBesideTreeDocs
        = some [⟨⟨SyntaxKind.ModuleDeclaration, [Modifier.DeclareKeyword], "N", none⟩,
              [⟨SyntaxKind.FunctionDeclaration, [], "f", none⟩,
                ⟨SyntaxKind.ModuleDeclaration, [], "M", none⟩]⟩,
            ⟨⟨SyntaxKind.FunctionDeclaration, [Modifier.DeclareKeyword], "g", none⟩, []⟩] :=
  ⟨distinctLongnames_cycleBesideTreeDocs, noDerivedLongnames_cycleBesideTreeDocs,
    buildTree_proper_forest {} {} cycleBesideTreeDocs distinctLongnames_cycleBesideTreeDocs
      noDerivedLongnames_cycleBesideTreeDocs,
    ⟨(build {} cycleBesideTreeDocs).get (by decide), by simp, by decide, by decide, by decide,
      by decide, by decide, by decide⟩,
    by decide⟩

end Emitter

namespace Emitter

/-! ## Which source nodes are placed -/

theorem placedIn_of_append {o : Options} {D : List Doclet} {s s' : Emitter} {P : Nat → Prop}
    (hwf : WF o D s) (hsrc : ∀ n, n < s.nodes.length → s'.srcIndex n = s.srcIndex n)
    (hc : ∀ c, ∃ t, s'.container c = s.container c ++ t ∧ ∀ n ∈ t, s'.srcIndex n = none)
    (h : PlacedIn P s) : PlacedIn P s' := by
  intro c n i hn hi
  obtain ⟨t, ht, hnone⟩ := hc c
  rw [ht] at hn
  rcases List.mem_append.1 hn with hm | hm
  · rw [hsrc n (hwf.container_valid c n hm)] at hi
    exact h c n i hm hi
  · rw [hnone n hm] at hi; simp at hi

theorem placedIn_of_eq {s s' : Emitter} {P : Nat → Prop}
    (hc : ∀ c, s'.container c = s.container c) (hsrc : ∀ n, s'.srcIndex n = s.srcIndex n)
    (h : PlacedIn P s) : PlacedIn P s' := by
  intro c n i hn hi
  rw [hc c] at hn; rw [hsrc n] at hi
  exact h c n i hn hi

theorem placedIn_pushTo {s : Emitter} {P : Nat → Prop} (h : PlacedIn P s) (c : Option Nat)
    (n : Nat) (hn : ∀ i, s.srcIndex n = some i → P i) : PlacedIn P (s.pushTo c n) := by
  intro c' m i hm hi
  rw [srcIndex_pushTo] at hi
  rw [container_pushTo] at hm
  split at hm
  · rcases List.mem_append.1 hm with hm' | hm'
    · exact h c m i hm' hi
    · simp only [List.mem_singleton] at hm'; subst hm'; exact hn i hi
  · exact h c' m i hm hi

theorem placedIn_pushOpt {s : Emitter} {P : Nat → Prop} (h : PlacedIn P s) (c : Option Nat)
    (m : Option Nat) (hm : ∀ n, m = some n → s.srcIndex n = none) : PlacedIn P (s.pushOpt c m) := by
  cases m with
  | none => exact h
  | some n => exact placedIn_pushTo h c n (fun i hi => by rw [hm n rfl] at hi; simp at hi)

theorem placedIn_place {s : Emitter} {P : Nat → Prop} (h : PlacedIn P s) (c : Option Nat)
    (im nm : Option Nat) (obj : Nat) (him : ∀ n, im = some n → s.srcIndex n = none)
    (hnm : ∀ n, nm = some n → s.srcIndex n = none)
    (hobj : ∀ i, s.srcIndex obj = some i → P i) : PlacedIn P (s.place c im nm obj) := by
  unfold place
  have h1 := placedIn_pushOpt h c im him
  have h2 := placedIn_pushOpt h1 c nm (fun n hn => by rw [srcIndex_pushOpt]; exact hnm n hn)
  exact placedIn_pushTo h2 c obj (fun i hi => by
    rw [srcIndex_pushOpt, srcIndex_pushOpt] at hi; exact hobj i hi)

theorem placedIn_of_gocPost {o : Options} {D : List Doclet} {s s' : Emitter} {P : Nat → Prop}
    (hwf : WF o D s) (hwf' : WF o D s') (hp : GocPost s.nodes.length s s') (h : PlacedIn P s) :
    PlacedIn P s' := by
  refine placedIn_of_append hwf hp.grows.srcIndex_eq ?_ h
  intro c
  obtain ⟨t, ht, hfr⟩ := hp.pushes_fresh c
  refine ⟨t, ht, fun n hn => ?_⟩
  have hlt : n < s'.nodes.length :=
    hwf'.container_valid c n (by rw [ht]; exact List.mem_append_right _ hn)
  exact (hp.fresh_syn n (hfr n hn) hlt).1

theorem placementStep_placedIn {o : Options} {D : List Doclet} {s : Emitter} (hwf : WF o D s)
    {P : Nat → Prop} (i obj : Nat) (im nm : Option Nat) (s' : Emitter)
    (h : placementStep s i obj im nm = some s')
    (him : ∀ n, im = some n → s.srcIndex n = none ∧ n < s.nodes.length)
    (hnm : ∀ n, nm = some n → s.srcIndex n = none ∧ n < s.nodes.length)
    (hobj : obj < s.nodes.length) (hsrc : ∀ k, s.srcIndex obj = some k → P k)
    (hp : PlacedIn P s) : PlacedIn P s' := by
  rcases placementStep_cases s i obj im nm s' h with
    ⟨_, rfl⟩ | ⟨_, _, rfl⟩ | ⟨parent, s1, mod, _, hl, _, _, hg, rfl⟩
    | ⟨parent, _, _, _, _, rfl⟩ | ⟨parent, _, _, _, _, rfl⟩
  · exact placedIn_place hp _ _ _ _ (fun n hn => (him n hn).1) (fun n hn => (hnm n hn).1) hsrc
  · exact placedIn_of_eq (fun c => container_warn _ _ c) (fun n => rfl) hp
  · obtain ⟨hwf1, hpost, _⟩ := getOrCreate_post o D _ _ _ _ _ hg hwf (hwf.table_valid _ _ hl)
    have hp1 := placedIn_of_gocPost hwf hwf1 hpost hp
    refine placedIn_place hp1 _ _ _ _ (fun n hn => ?_) (fun n hn => ?_) ?_
    · rw [hpost.grows.srcIndex_eq n (him n hn).2]; exact (him n hn).1
    · rw [hpost.grows.srcIndex_eq n (hnm n hn).2]; exact (hnm n hn).1
    · rw [hpost.grows.srcIndex_eq obj hobj]; exact hsrc
  · exact placedIn_of_eq (container_markNested s i obj parent)
      (srcIndex_markNested s i obj parent) hp
  · have hp1 := placedIn_of_eq (container_markNested s i obj parent)
      (srcIndex_markNested s i obj parent) hp
    refine placedIn_place hp1 _ _ _ _ (fun n hn => ?_) (fun n hn => ?_) ?_
    · rw [srcIndex_markNested]; exact (him n hn).1
    · rw [srcIndex_markNested]; exact (hnm n hn).1
    · rw [srcIndex_markNested]; exact hsrc

/-- An iteration places, of the source nodes, at most the node of its own doclet. -/
theorem buildTreeStep_placedIn {o : Options} {D : List Doclet} {s : Emitter} (hwf : WF o D s)
    (hd : DistinctLongnames o D) {P : Nat → Prop} {j : Nat} (hj : j < D.length) (s' : Emitter)
    (h : buildTreeStep s j = some s') (hPj : P j) (hp : PlacedIn P s) : PlacedIn P s' := by
  rcases buildTreeStep_cases s j s' h with ⟨_, he⟩ | ⟨_, _, rfl⟩ | ⟨obj, hs, hl, hpl⟩
  · subst s'; exact hp
  · exact placedIn_of_eq (fun c => container_warn _ _ c) (fun n => rfl) hp
  · have hobj := hwf.table_valid _ _ hl
    obtain ⟨him, hnm, hobj2, hsrc, hcont⟩ := mergeSteps_facts hwf (s.doc j) obj hobj
    have hwf1 := wf_interfaceMergeStep hwf (s.doc j)
    have hwf2 := wf_namespaceMergeStep hwf1 (s.doc j)
    have hp2 : PlacedIn P (namespaceMergeStep (interfaceMergeStep s (s.doc j)).1 (s.doc j)).1 :=
      placedIn_of_append hwf hsrc (fun c => ⟨[], by rw [hcont c]; simp, by simp⟩) hp
    refine placementStep_placedIn hwf2 j obj _ _ s' hpl
      (fun n hn => ⟨(him n hn).1, (him n hn).2.1⟩)
      (fun n hn => ⟨(hnm n hn).1, (hnm n hn).2.1⟩) hobj2 ?_ hp2
    intro k hk
    rw [hsrc obj hobj] at hk
    rcases srcIndex_of_lookup hwf hd hj hs hl with h0 | h0
    · rw [h0] at hk; simp at hk
    · rw [h0] at hk; simp only [Option.some.injEq] at hk; subst hk; exact hPj

end Emitter

namespace Emitter

/-! ## Doclets and keys through an iteration -/

theorem docs_pushOpt (s : Emitter) (c : Option Nat) (m : Option Nat) :
    (s.pushOpt c m).docs = s.docs := by
  cases m with
  | none => rfl
  | some n => exact docs_pushTo s c n

theorem docs_place (s : Emitter) (c : Option Nat) (im nm : Option Nat) (obj : Nat) :
    (s.place c im nm obj).docs = s.docs := by
  unfold place
  rw [docs_pushTo, docs_pushOpt, docs_pushOpt]

theorem docs_markNested (s : Emitter) (i obj parent : Nat) :
    (s.markNested i obj parent).docs = s.docs := by
  unfold markNested
  split <;> rfl

theorem placementStep_docs {o : Options} {D : List Doclet} {s : Emitter} (hwf : WF o D s)
    (i obj : Nat) (im nm : Option Nat) (s' : Emitter)
    (h : placementStep s i obj im nm = some s') : s'.docs = s.docs := by
  rcases placementStep_cases s i obj im nm s' h with
    ⟨_, rfl⟩ | ⟨_, _, rfl⟩ | ⟨parent, s1, mod, _, hl, _, _, hg, rfl⟩
    | ⟨parent, _, _, _, _, rfl⟩ | ⟨parent, _, _, _, _, rfl⟩
  · exact docs_place _ _ _ _ _
  · rfl
  · obtain ⟨_, hpost, _⟩ := getOrCreate_post o D _ _ _ _ _ hg hwf (hwf.table_valid _ _ hl)
    rw [docs_place]; exact hpost.docs_eq
  · exact docs_markNested _ _ _ _
  · rw [docs_place]; exact docs_markNested _ _ _ _

theorem docs_interfaceMergeStep (s : Emitter) (d : Doclet) :
    (interfaceMergeStep s d).1.docs = s.docs := by
  rcases interfaceMergeStep_cases s d with ⟨he, _⟩ | ⟨_, _, he⟩
  · rw [he]
  · rw [he]; rfl

theorem docs_namespaceMergeStep (s : Emitter) (d : Doclet) :
    (namespaceMergeStep s d).1.docs = s.docs
    ∨ ((d.kind = "interface" ∨ d.kind = "mixin")
      ∧ (namespaceMergeStep s d).2 = some s.nodes.length
      ∧ (namespaceMergeStep s d).1.docs = (s.reassignStatic d.longname).docs) := by
  rcases namespaceMergeStep_cases s d with ⟨he, _⟩ | ⟨hk, _, he⟩
  · left; rw [he]
  · right; rw [he]; exact ⟨hk, rfl, rfl⟩

/-- An iteration leaves the doclet array as it is, or runs line 107 on it. -/
theorem buildTreeStep_docs {o : Options} {D : List Doclet} {s : Emitter} (hwf : WF o D s)
    (j : Nat) (s' : Emitter) (h : buildTreeStep s j = some s') :
    s'.docs = s.docs
    ∨ (((s.doc j).kind = "interface" ∨ (s.doc j).kind = "mixin")
      ∧ survives s.options (s.doc j) = true
      ∧ s'.docs = (s.reassignStatic (s.doc j).longname).docs) := by
  rcases buildTreeStep_cases s j s' h with ⟨_, he⟩ | ⟨_, _, rfl⟩ | ⟨obj, hs, _, hp⟩
  · subst s'; exact Or.inl rfl
  · exact Or.inl rfl
  · have hwf1 := wf_interfaceMergeStep hwf (s.doc j)
    have hwf2 := wf_namespaceMergeStep hwf1 (s.doc j)
    have h3 := placementStep_docs hwf2 j obj _ _ s' hp
    have h1 := docs_interfaceMergeStep s (s.doc j)
    rcases docs_namespaceMergeStep (interfaceMergeStep s (s.doc j)).1 (s.doc j) with h2 | ⟨hk, _, h2⟩
    · left; rw [h3, h2, h1]
    · right
      refine ⟨hk, hs, ?_⟩
      rw [h3, h2]
      unfold reassignStatic
      simp only [h1]

theorem doc_eq_of_docs_eq {s s' : Emitter} (h : s'.docs = s.docs) (k : Nat) :
    s'.doc k = s.doc k := by
  unfold doc; rw [h]

theorem truthy_memberof_reassignStatic (s : Emitter) (l : String) (k : Nat)
    (h : truthy (s.doc k).memberof = false) :
    truthy ((s.reassignStatic l).doc k).memberof = false := by
  rw [doc_reassignStatic]
  split
  · rename_i hst
    unfold isStaticChildOf at hst
    simp only [decide_eq_true_eq] at hst
    rw [hst.1] at h
    have hl : l = "" := by
      unfold truthy at h
      simpa using h
    subst hl
    show truthy (some (_getNamespaceKey "")) = false
    decide
  · exact h

theorem buildTreeStep_falsy {o : Options} {D : List Doclet} {s : Emitter} (hwf : WF o D s)
    (j : Nat) (s' : Emitter) (h : buildTreeStep s j = some s') (k : Nat)
    (hk : truthy (s.doc k).memberof = false) : truthy (s'.doc k).memberof = false := by
  rcases buildTreeStep_docs hwf j s' h with he | ⟨_, _, he⟩
  · rw [doc_eq_of_docs_eq he]; exact hk
  · rw [doc_eq_of_docs_eq he]; exact truthy_memberof_reassignStatic s _ k hk

theorem lookup_isSome_interfaceMergeStep (s : Emitter) (d : Doclet) (k : String)
    (h : (s.lookup k).isSome = true) : ((interfaceMergeStep s d).1.lookup k).isSome = true := by
  rcases interfaceMergeStep_cases s d with ⟨he, _⟩ | ⟨_, _, he⟩
  · rw [he]; exact h
  · rw [he, lookup_register]
    split
    · rfl
    · exact h

theorem lookup_isSome_namespaceMergeStep (s : Emitter) (d : Doclet) (k : String)
    (h : (s.lookup k).isSome = true) : ((namespaceMergeStep s d).1.lookup k).isSome = true := by
  rcases namespaceMergeStep_cases s d with ⟨he, _⟩ | ⟨_, _, he⟩
  · rw [he]; exact h
  · rw [he, lookup_reassignStatic, lookup_register]
    split
    · rfl
    · exact h

/-- An iteration removes no key from the table. -/
theorem buildTreeStep_keys {o : Options} {D : List Doclet} {s : Emitter} (hwf : WF o D s)
    (j : Nat) (s' : Emitter) (h : buildTreeStep s j = some s') (k : String)
    (hk : (s.lookup k).isSome = true) : (s'.lookup k).isSome = true := by
  rcases buildTreeStep_cases s j s' h with ⟨_, he⟩ | ⟨_, _, rfl⟩ | ⟨obj, _, _, hp⟩
  · subst s'; exact hk
  · exact hk
  · have hwf1 := wf_interfaceMergeStep hwf (s.doc j)
    have hwf2 := wf_namespaceMergeStep hwf1 (s.doc j)
    have h2 := lookup_isSome_namespaceMergeStep _ (s.doc j) k
      (lookup_isSome_interfaceMergeStep s (s.doc j) k hk)
    cases hl : (namespaceMergeStep (interfaceMergeStep s (s.doc j)).1 (s.doc j)).1.lookup k with
    | none => rw [hl] at h2; simp at h2
    | some n => rw [placementStep_lookup_old hwf2 j obj _ _ s' hp k n hl]; rfl

/-- During the second pass the table has a node under the longname of every surviving
doclet, and a doclet that came without a truthy `memberof` still has none. -/
theorem keys_buildPrefix (o : Options) (D : List Doclet) (j : Nat) (s : Emitter)
    (h : buildPrefix o D j = some s) :
    (∀ k, k < D.length → survives o (docAt D k) = true →
        (s.lookup (docAt D k).longname).isSome = true)
    ∧ ∀ k, truthy (docAt D k).memberof = false → truthy (s.doc k).memberof = false := by
  induction j generalizing s with
  | zero =>
    rw [buildPrefix_zero] at h
    simp only [Option.some.injEq] at h
    subst h
    have hinv := createInv_createTreeNodes o D
    refine ⟨fun k hk hs => ?_, fun k hk => ?_⟩
    · obtain ⟨n, hn⟩ := hinv.src_table k hk hk hs
      rw [hn]; rfl
    · unfold doc; rw [hinv.docs_eq]; exact hk
  | succ j ih =>
    rw [buildPrefix_succ] at h
    cases hp : buildPrefix o D j with
    | none => rw [hp] at h; simp at h
    | some s1 =>
      rw [hp] at h
      obtain ⟨h1, h2⟩ := ih s1 hp
      have hwf := wf_buildPrefix o D j s1 hp
      exact ⟨fun k hk hs => buildTreeStep_keys hwf j s h _ (h1 k hk hs),
        fun k hk => buildTreeStep_falsy hwf j s h k (h2 k hk)⟩

end Emitter

namespace Emitter

/-! ## Orphans -/

theorem docOf_pushOpt (s : Emitter) (c : Option Nat) (m : Option Nat) (n : Nat) :
    (s.pushOpt c m).docOf n = s.docOf n := by
  cases m with
  | none => rfl
  | some k => exact docOf_pushTo s c k n

theorem docOf_place (s : Emitter) (c : Option Nat) (im nm : Option Nat) (obj n : Nat) :
    (s.place c im nm obj).docOf n = s.docOf n := by
  unfold place
  rw [docOf_pushTo, docOf_pushOpt, docOf_pushOpt]

theorem validContainer_pushOpt (s : Emitter) (c : Option Nat) (m : Option Nat) (c' : Option Nat) :
    (s.pushOpt c m).validContainer c' = s.validContainer c' := by
  cases c' with
  | none => rfl
  | some p => simp only [validContainer, nodes_length_pushOpt]

/-- After `place`, `obj` is the last element of the container. -/
theorem mem_container_place (s : Emitter) (c : Option Nat) (im nm : Option Nat) (obj : Nat)
    (hc : s.validContainer c = true) : obj ∈ (s.place c im nm obj).container c := by
  unfold place
  rw [container_pushTo, if_pos ⟨rfl, by rw [validContainer_pushOpt, validContainer_pushOpt]; exact hc⟩]
  exact List.mem_append_right _ (List.mem_singleton_self _)

theorem descendant_is_child {s : Emitter} {a b : Nat} (h : Descendant s a b) :
    ∃ p, b ∈ s.childrenOf p := by
  induction h with
  | child hc => exact ⟨_, hc⟩
  | step _ _ ih => exact ih

theorem not_reachable_of_unplaced {s : Emitter} {n : Nat} (h : Unplaced s n) :
    ¬ Reachable s n := by
  rintro (hr | ⟨r, _, hd⟩)
  · exact h none hr
  · obtain ⟨p, hp⟩ := descendant_is_child hd
    exact h (some p) hp

/-- The iteration of an orphan: one warning, nothing else. -/
theorem buildTreeStep_orphan (s : Emitter) (i obj : Nat)
    (hs : survives s.options (s.doc i) = true) (hl : s.lookup (s.doc i).longname = some obj)
    (hm : truthy ((s.beforePlacement i).doc i).memberof = true)
    (hn : (s.beforePlacement i).lookup (((s.beforePlacement i).doc i).memberof.getD "") = none) :
    buildTreeStep s i = some ((s.beforePlacement i).warn (Warning.missingParent
      ((s.beforePlacement i).doc i).longname (((s.beforePlacement i).doc i).memberof.getD ""))) := by
  have hsome := buildTreeStep_isSome s i
  cases hb : buildTreeStep s i with
  | none => rw [hb] at hsome; simp at hsome
  | some s' =>
    rcases buildTreeStep_cases s i s' hb with ⟨hs', _⟩ | ⟨_, hl', _⟩ | ⟨obj', _, _, hp⟩
    · rw [hs] at hs'; simp at hs'
    · rw [hl] at hl'; simp at hl'
    · rcases placementStep_cases _ i obj' _ _ s' hp with
        ⟨hm', _⟩ | ⟨_, _, he⟩ | ⟨parent, _, _, _, hl', _⟩
        | ⟨parent, _, hl', _⟩ | ⟨parent, _, hl', _⟩
      · have hm2 : truthy ((s.beforePlacement i).doc i).memberof = false := hm'
        rw [hm] at hm2; simp at hm2
      · rw [he]; rfl
      · have : (s.beforePlacement i).lookup
            (((s.beforePlacement i).doc i).memberof.getD "") = some parent := hl'
        rw [hn] at this; simp at this
      · have : (s.beforePlacement i).lookup
            (((s.beforePlacement i).doc i).memberof.getD "") = some parent := hl'
        rw [hn] at this; simp at this
      · have : (s.beforePlacement i).lookup
            (((s.beforePlacement i).doc i).memberof.getD "") = some parent := hl'
        rw [hn] at this; simp at this

theorem container_beforePlacement (s : Emitter) (i : Nat) (c : Option Nat) :
    (s.beforePlacement i).container c = s.container c := by
  unfold beforePlacement
  rw [container_namespaceMergeStep, container_interfaceMergeStep]

theorem warnings_interfaceMergeStep (s : Emitter) (d : Doclet) :
    (interfaceMergeStep s d).1.warnings = s.warnings := by
  rcases interfaceMergeStep_cases s d with ⟨he, _⟩ | ⟨_, _, he⟩
  · rw [he]
  · rw [he]; rfl

theorem warnings_namespaceMergeStep (s : Emitter) (d : Doclet) :
    (namespaceMergeStep s d).1.warnings = s.warnings := by
  rcases namespaceMergeStep_cases s d with ⟨he, _⟩ | ⟨_, _, he⟩
  · rw [he]
  · rw [he]; rfl

theorem warnings_beforePlacement (s : Emitter) (i : Nat) :
    (s.beforePlacement i).warnings = s.warnings := by
  unfold beforePlacement
  rw [warnings_namespaceMergeStep, warnings_interfaceMergeStep]

/-- A surviving doclet without a truthy `memberof` gets the node under its longname
pushed to the forest roots. -/
theorem buildTreeStep_root {o : Options} {D : List Doclet} {s : Emitter} (hwf : WF o D s)
    (j : Nat) (s' : Emitter) (h : buildTreeStep s j = some s')
    (hs : survives s.options (s.doc j) = true) (hk : (s.lookup (s.doc j).longname).isSome = true)
    (hm : truthy (s.doc j).memberof = false) :
    ∃ n, n ∈ s'._treeRoots ∧ (s'.docOf n).longname = (s.doc j).longname := by
  rcases buildTreeStep_cases s j s' h with ⟨hs', _⟩ | ⟨_, hl', _⟩ | ⟨obj, _, hl, hp⟩
  · rw [hs] at hs'; simp at hs'
  · rw [hl'] at hk; simp at hk
  · have hwf1 := wf_interfaceMergeStep hwf (s.doc j)
    have hg1 := grows_interfaceMergeStep s (s.doc j)
    have hg2 := grows_namespaceMergeStep (interfaceMergeStep s (s.doc j)).1 (s.doc j)
    have hobj := hwf.table_valid _ _ hl
    have hm2 : truthy ((namespaceMergeStep (interfaceMergeStep s (s.doc j)).1 (s.doc j)).1.doc
        j).memberof = false := by
      have h1 := docs_interfaceMergeStep s (s.doc j)
      rcases docs_namespaceMergeStep (interfaceMergeStep s (s.doc j)).1 (s.doc j) with
        h2 | ⟨_, _, h2⟩
      · rw [doc_eq_of_docs_eq (h2.trans h1)]; exact hm
      · rw [doc_eq_of_docs_eq h2]
        exact truthy_memberof_reassignStatic _ _ j (by rw [doc_eq_of_docs_eq h1]; exact hm)
    rcases placementStep_cases _ j obj _ _ s' hp with
      ⟨_, he⟩ | ⟨hm', _⟩ | ⟨_, _, _, hm', _⟩ | ⟨_, hm', _⟩ | ⟨_, hm', _⟩
    · refine ⟨obj, ?_, ?_⟩
      · rw [he]; exact mem_container_place _ none _ _ obj rfl
      · rw [he, docOf_place, (hg1.trans hg2).longname_eq hobj]
        exact hwf.key_longname _ _ hl
    · rw [hm2] at hm'; simp at hm'
    · rw [hm2] at hm'; simp at hm'
    · rw [hm2] at hm'; simp at hm'
    · rw [hm2] at hm'; simp at hm'

/-- After `j` iterations every surviving doclet of index below `j` that came without a
truthy `memberof` has a node of its longname among the forest roots. -/
theorem roots_buildPrefix (o : Options) (D : List Doclet) (j : Nat) (hj : j ≤ D.length)
    (s : Emitter) (h : buildPrefix o D j = some s) :
    ∀ k, k < j → survives o (docAt D k) = true → truthy (docAt D k).memberof = false →
      ∃ n, n ∈ s._treeRoots ∧ (s.docOf n).longname = (docAt D k).longname := by
  induction j generalizing s with
  | zero => intro k hk; omega
  | succ j ih =>
    rw [buildPrefix_succ] at h
    cases hp : buildPrefix o D j with
    | none => rw [hp] at h; simp at h
    | some s1 =>
      rw [hp] at h
      have hwf := wf_buildPrefix o D j s1 hp
      obtain ⟨_, hg⟩ := buildTreeStep_wf hwf j s h
      intro k hk hs hm
      by_cases hkj : k = j
      · subst hkj
        obtain ⟨hkeys, hfalsy⟩ := keys_buildPrefix o D k s1 hp
        have hln := longname_eq_of_unmember (hwf.doc_frame k)
        have hs1 : survives s1.options (s1.doc k) = true := by
          rw [hwf.options_eq, survives_eq_of_unmember o (hwf.doc_frame k)]; exact hs
        obtain ⟨n, hn, hl⟩ := buildTreeStep_root hwf k s h hs1
          (by rw [hln]; exact hkeys k (by omega) hs) (hfalsy k hm)
        exact ⟨n, hn, hl.trans hln⟩
      · obtain ⟨n, hn, hl⟩ := ih (by omega) s1 hp k (by omega) hs hm
        refine ⟨n, (hg.container_prefix none).subset hn, ?_⟩
        rw [hg.longname_eq (hwf.container_valid none n hn)]; exact hl

/-- After the iteration of an orphan, and from then on, its node is in no container. -/
theorem orphan_unplaced {o : Options} {D : List Doclet} (hd : DistinctLongnames o D) {i : Nat}
    (hi : i < D.length) (horph : OrphanAt o D i) :
    ∀ j, i < j → j ≤ D.length → ∀ s, buildPrefix o D j = some s →
      PlacedIn (fun k => k ≠ i) s := by
  obtain ⟨si, obj, hsi, hs, hl, hm, hn⟩ := horph
  intro j hij
  induction j with
  | zero => omega
  | succ j ih =>
    intro hj s h
    rw [buildPrefix_succ] at h
    cases hp : buildPrefix o D j with
    | none => rw [hp] at h; simp at h
    | some s1 =>
      rw [hp] at h
      have hwf := wf_buildPrefix o D j s1 hp
      by_cases hji : j = i
      · subst hji
        rw [hsi] at hp
        simp only [Option.some.injEq] at hp
        subst hp
        have h' : buildTreeStep si j = some s := h
        rw [buildTreeStep_orphan si j obj hs hl hm hn] at h'
        simp only [Option.some.injEq] at h'
        subst h'
        have ho := ordered_buildPrefix hd j (by omega) si hsi
        intro c n k hn' hk
        rw [container_warn, container_beforePlacement] at hn'
        have hlt := hwf.container_valid c n hn'
        have hg : Grows si (si.beforePlacement j) :=
          (grows_interfaceMergeStep _ _).trans (grows_namespaceMergeStep _ _)
        have hk' : si.srcIndex n = some k := by
          rw [← hg.srcIndex_eq n hlt]; exact hk
        have := ho.bound c n k hn' hk'
        omega
      · exact buildTreeStep_placedIn hwf hd (by omega) s h hji (ih (by omega) (by omega) s1 hp)

end Emitter

namespace Emitter

theorem orphanAt_orphanWithChildDocs : OrphanAt {} orphanWithChildDocs 0 :=
  ⟨(buildPrefix {} orphanWithChildDocs 0).get (by decide), 0, by simp, by decide, by decide,
    by decide, by decide⟩

/-- C7 as stated fails: on `orphanWithChildDocs` the doclet `X` is an orphan, yet the
member `Y` of `X` is a surviving doclet other than `X` whose node is not reachable from
the forest roots (the forest is empty), and the run reports two warnings, one for each
of the orphans `X` and `Z`. -/
theorem orphan_loses_its_members :
    ¬ OrphanLosesOnlyItself {} orphanWithChildDocs
    ∧ ∃ s : Emitter, build {} orphanWithChildDocs = some s ∧ s._treeRoots = []
        ∧ s.warnings = [Warning.missingParent "X" "Nope", Warning.missingParent "Z" "Gone"] := by
  have key : ∃ s : Emitter, build {} orphanWithChildDocs = some s ∧ s._treeRoots = []
      ∧ s.warnings = [Warning.missingParent "X" "Nope", Warning.missingParent "Z" "Gone"] :=
    ⟨(build {} orphanWithChildDocs).get (by decide), by simp, by decide, by decide⟩
  refine ⟨?_, key⟩
  intro h
  obtain ⟨s, hb, hroots, _⟩ := key
  obtain ⟨_, _, h3⟩ := h 0 (by decide) orphanAt_orphanWithChildDocs s hb
  obtain ⟨n, _, hr⟩ := h3 1 (by decide) (by decide) (by decide)
  rcases hr with hr | ⟨r, hr, _⟩
  · rw [hroots] at hr; simp at hr
  · rw [hroots] at hr; simp at hr

end Emitter

namespace Emitter

/-! ## Class-like nodes and their companion namespaces -/

/-- An interface key of a non-empty longname is never a namespace key. -/
theorem interfaceKey_ne_namespaceKey {l : String} (hl : l ≠ "") (x : String) :
    _getInterfaceKey l ≠ _getNamespaceKey x := by
  rw [interfaceKey_of_ne hl]
  intro h
  by_cases hx : x = ""
  · subst hx
    have := congrArg String.length h
    rw [String.length_append] at this
    have h18 : "$$interface$helper".length = 18 := by decide
    have h0 : (_getNamespaceKey "").length = 0 := by decide
    omega
  · rw [namespaceKey_of_ne hx] at h
    have h' := congrArg String.data h
    rw [String.data_append, String.data_append] at h'
    have := List.append_inj_right' h' (by decide)
    exact absurd this (by decide)

theorem childrenOf_lt {s : Emitter} {p c : Nat} (h : c ∈ s.childrenOf p) : p < s.nodes.length := by
  by_contra hp
  unfold childrenOf at h
  rw [node_of_length_le s p (by omega)] at h
  simp at h

/-- A step that keeps the children lists keeps `ClassChildren`. -/
theorem classChildren_of_same {o : Options} {D : List Doclet} {s s' : Emitter} (hwf : WF o D s)
    (hg : Grows s s') (hsame : ∀ p, s'.childrenOf p = s.childrenOf p) (hc : ClassChildren s) :
    ClassChildren s' := by
  intro p c hcp hcl
  rw [hsame] at hcp
  have hp := childrenOf_lt hcp
  have hcv := hwf.container_valid (some p) c hcp
  rw [shouldMoveOutOfClass_eq_of_unmember (hg.docOf_frame c hcv)]
  rw [isClassLike_eq_of_unmember (hg.docOf_frame p hp)] at hcl
  exact hc p c hcp hcl

theorem classChildren_pushTo {s : Emitter} (hc : ClassChildren s) (c : Option Nat) (n : Nat)
    (hn : ∀ p, c = some p → isClassLike (s.docOf p) = false
      ∨ shouldMoveOutOfClass (s.docOf n) = false) :
    ClassChildren (s.pushTo c n) := by
  intro p k hk hcl
  rw [docOf_pushTo] at hcl ⊢
  have hk' : k ∈ (s.pushTo c n).container (some p) := hk
  rw [container_pushTo] at hk'
  split at hk'
  · rename_i h
    obtain ⟨h0, _⟩ := h
    subst h0
    rcases List.mem_append.1 hk' with h1 | h1
    · exact hc p k h1 hcl
    · simp only [List.mem_singleton] at h1
      subst h1
      rcases hn p rfl with h2 | h2
      · rw [h2] at hcl; exact absurd hcl (by decide)
      · exact h2
  · exact hc p k hk' hcl

theorem classChildren_pushOpt {s : Emitter} (hc : ClassChildren s) (c : Option Nat)
    (m : Option Nat)
    (hn : ∀ p n, c = some p → m = some n → isClassLike (s.docOf p) = false
      ∨ shouldMoveOutOfClass (s.docOf n) = false) :
    ClassChildren (s.pushOpt c m) := by
  cases m with
  | none => exact hc
  | some n => exact classChildren_pushTo hc c n (fun p hp => hn p n hp rfl)

/-- The three pushes of `place` into a node that is not class-like, or of a node that
is not to be moved out of classes and has no merge nodes. -/
theorem classChildren_place {s : Emitter} (hc : ClassChildren s) (c : Option Nat)
    (im nm : Option Nat) (obj : Nat)
    (hn : ∀ p, c = some p → isClassLike (s.docOf p) = false
      ∨ (im = none ∧ nm = none ∧ shouldMoveOutOfClass (s.docOf obj) = false)) :
    ClassChildren (s.place c im nm obj) := by
  unfold place
  have h1 : ClassChildren (s.pushOpt c im) := classChildren_pushOpt hc c im (fun p n hp hm => by
    rcases hn p hp with h | ⟨h, _, _⟩
    · exact Or.inl h
    · rw [h] at hm; simp at hm)
  have h2 : ClassChildren ((s.pushOpt c im).pushOpt c nm) :=
    classChildren_pushOpt h1 c nm (fun p n hp hm => by
      rcases hn p hp with h | ⟨_, h, _⟩
      · left; rw [docOf_pushOpt]; exact h
      · rw [h] at hm; simp at hm)
  refine classChildren_pushTo h2 c obj (fun p hp => ?_)
  rw [docOf_pushOpt, docOf_pushOpt, docOf_pushOpt, docOf_pushOpt]
  rcases hn p hp with h | ⟨_, _, h⟩
  · exact Or.inl h
  · exact Or.inr h

/-- A step that keeps the table keeps `NsKeysOk`. -/
theorem nsKeysOk_of_same {o : Options} {D : List Doclet} {s s' : Emitter} (hwf : WF o D s)
    (hg : Grows s s') (hsame : ∀ k, s'.lookup k = s.lookup k) (hk : NsKeysOk s) :
    NsKeysOk s' := by
  intro x n hl
  rw [hsame] at hl
  rw [hg.kind_eq (hwf.table_valid _ _ hl)]
  exact hk x n hl

/-- A node is allocated and written to the table under a key that is no namespace key,
or as a namespace. -/
theorem nsKeysOk_allocRegister {o : Options} {D : List Doclet} {s : Emitter} (hwf : WF o D s)
    (hk : NsKeysOk s) (d : Doclet) (k : String)
    (h : d.kind = "namespace" ∨ ∀ x, k ≠ _getNamespaceKey x) :
    NsKeysOk ((s.alloc (DocRef.syn d)).register k s.nodes.length) := by
  intro x n hl
  rw [lookup_register] at hl
  rw [docOf_register, docOf_alloc]
  split at hl
  · rename_i hkx
    simp only [Option.some.injEq] at hl
    subst hl
    rw [if_pos rfl]
    rcases h with h | h
    · exact h
    · exact absurd hkx (h x)
  · rw [lookup_alloc] at hl
    rw [if_neg (Nat.ne_of_lt (hwf.table_valid _ _ hl))]
    exact hk x n hl

theorem nsKeysOk_withNamespace {o : Options} {D : List Doclet} {s : Emitter} (hwf : WF o D s)
    (hk : NsKeysOk s) (obj : Nat) : NsKeysOk (s.withNamespace obj) :=
  nsKeysOk_allocRegister hwf hk _ _ (Or.inl rfl)

/-- The companion-namespace construction keeps `NsKeysOk`. -/
theorem nsKeysOk_of_gocPost {o : Options} {D : List Doclet} {s s' : Emitter} (hwf : WF o D s)
    (hwf' : WF o D s') (hp : GocPost s.nodes.length s s') (hk : NsKeysOk s) : NsKeysOk s' := by
  intro x n hl
  rcases hp.lookup_new _ _ hl with h | ⟨_, hle, _⟩
  · rw [hp.grows.kind_eq (hwf.table_valid _ _ h)]
    exact hk x n h
  · exact (hp.fresh_syn n hle (hwf'.table_valid _ _ hl)).2

/-- A step that keeps the children lists and every doclet up to `memberof` keeps
`ClassChildren`. -/
theorem classChildren_of_frame {s s' : Emitter} (hsame : ∀ p, s'.childrenOf p = s.childrenOf p)
    (hframe : ∀ k, (s'.docOf k).unmember = (s.docOf k).unmember) (hc : ClassChildren s) :
    ClassChildren s' := by
  intro p c hcp hcl
  rw [hsame] at hcp
  rw [shouldMoveOutOfClass_eq_of_unmember (hframe c)]
  rw [isClassLike_eq_of_unmember (hframe p)] at hcl
  exact hc p c hcp hcl

theorem classChildren_withNamespace {o : Options} {D : List Doclet} {s : Emitter}
    (hwf : WF o D s) (hc : ClassChildren s) (obj : Nat) : ClassChildren (s.withNamespace obj) :=
  classChildren_of_same hwf (grows_withNamespace s obj)
    (fun p => container_withNamespace s obj (some p)) hc

theorem isClassLike_of_namespace {d : Doclet} (h : d.kind = "namespace") :
    isClassLike d = false := by
  unfold isClassLike; rw [h]; decide

/-- What `_getOrCreateClassNamespace` returns when every namespace key of the table is
bound to a namespace: a namespace, named by the namespace key of the starting node
unless that node is a namespace itself; and nothing is pushed into a class-like node. -/
theorem getOrCreate_result (o : Options) (D : List Doclet) (fuel : Nat) (s : Emitter) (obj : Nat)
    (s' : Emitter) (g : Nat) (h : _getOrCreateClassNamespaceFuel fuel s obj = some (s', g)) :
    WF o D s → obj < s.nodes.length → NsKeysOk s →
      (s'.docOf g).kind = "namespace"
      ∧ ((s.docOf obj).kind ≠ "namespace" →
          (s'.docOf g).longname = _getNamespaceKey (s.docOf obj).longname)
      ∧ (ClassChildren s → ClassChildren s') := by
  refine getOrCreate_induct
    (fun s obj s' g => WF o D s → obj < s.nodes.length → NsKeysOk s →
      (s'.docOf g).kind = "namespace"
      ∧ ((s.docOf obj).kind ≠ "namespace" →
          (s'.docOf g).longname = _getNamespaceKey (s.docOf obj).longname)
      ∧ (ClassChildren s → ClassChildren s'))
    ?_ ?_ ?_ ?_ ?_ fuel s obj s' g h
  · intro s obj hk _ _ _
    exact ⟨hk, fun hne => absurd hk hne, id⟩
  · intro s obj g _ hl hwf _ hns
    exact ⟨hns _ _ hl, fun _ => hwf.key_longname _ _ hl, id⟩
  · intro s obj _ _ hwf _ _
    refine ⟨?_, fun _ => ?_, fun hc => ?_⟩
    · rw [docOf_pushTo, docOf_withNamespace, if_pos rfl]; rfl
    · rw [docOf_pushTo, docOf_withNamespace, if_pos rfl]; rfl
    · exact classChildren_pushTo (classChildren_withNamespace hwf hc obj) none _
        (fun p hp => by simp at hp)
  · intro s obj _ _ _ hwf _ _
    refine ⟨?_, fun _ => ?_, fun hc => ?_⟩
    · rw [docOf_warn, docOf_withNamespace, if_pos rfl]; rfl
    · rw [docOf_warn, docOf_withNamespace, if_pos rfl]; rfl
    · exact classChildren_of_frame (fun p => rfl) (fun k => rfl)
        (classChildren_withNamespace hwf hc obj)
  · intro s obj parent s2 parentMod _ _ hl hex ih hwf _ hns
    have hwf1 := wf_withNamespace hwf obj
    have hns1 := nsKeysOk_withNamespace hwf hns obj
    have hpar := hwf1.table_valid _ _ hl
    obtain ⟨hkind, _, hcc⟩ := ih hwf1 hpar hns1
    obtain ⟨fuel', hf⟩ := hex
    obtain ⟨hwf2, hpost2, hpm⟩ := getOrCreate_post o D _ _ _ _ _ hf hwf1 hpar
    have hn0 : s.nodes.length < (s.withNamespace obj).nodes.length := by simp
    have hframe : ∀ k, (((s2.setMemberof s.nodes.length
        (some (s2.docOf parentMod).longname)).pushTo (some parentMod) s.nodes.length).docOf
          k).unmember = (s2.docOf k).unmember := by
      intro k; rw [docOf_pushTo]; exact docOf_setMemberof_unmember _ _ _ _
    have h0 : (s2.docOf s.nodes.length).unmember
        = (companionDoclet (s.docOf obj)).unmember := by
      rw [hpost2.grows.docOf_frame _ hn0, docOf_withNamespace, if_pos rfl]
    refine ⟨?_, fun _ => ?_, fun hc => ?_⟩
    · rw [kind_eq_of_unmember (hframe _), kind_eq_of_unmember h0]; rfl
    · rw [longname_eq_of_unmember (hframe _), longname_eq_of_unmember h0]; rfl
    · have hc2 := hcc (classChildren_withNamespace hwf hc obj)
      have hc3 : ClassChildren (s2.setMemberof s.nodes.length
          (some (s2.docOf parentMod).longname)) :=
        classChildren_of_frame (fun p => children_setMemberof _ _ _ _)
          (fun k => docOf_setMemberof_unmember _ _ _ _) hc2
      refine classChildren_pushTo hc3 _ _ (fun p hp => Or.inl ?_)
      simp only [Option.some.injEq] at hp
      subst hp
      rw [isClassLike_eq_of_unmember (docOf_setMemberof_unmember _ _ _ _)]
      exact isClassLike_of_namespace hkind

end Emitter

namespace Emitter

theorem classInv_interfaceMergeStep {o : Options} {D : List Doclet} {s : Emitter}
    (hwf : WF o D s) (d : Doclet) (hd : d.longname ≠ "") (hns : NsKeysOk s)
    (hc : ClassChildren s) :
    NsKeysOk (interfaceMergeStep s d).1 ∧ ClassChildren (interfaceMergeStep s d).1 := by
  refine ⟨?_, classChildren_of_same hwf (grows_interfaceMergeStep s d)
    (fun p => container_interfaceMergeStep s d (some p)) hc⟩
  rcases interfaceMergeStep_cases s d with ⟨he, _⟩ | ⟨_, _, he⟩
  · rw [he]; exact hns
  · rw [he]
    exact nsKeysOk_allocRegister hwf hns _ _ (Or.inr (interfaceKey_ne_namespaceKey hd))

theorem classInv_namespaceMergeStep {o : Options} {D : List Doclet} {s : Emitter}
    (hwf : WF o D s) (d : Doclet) (hns : NsKeysOk s) (hc : ClassChildren s) :
    NsKeysOk (namespaceMergeStep s d).1 ∧ ClassChildren (namespaceMergeStep s d).1 := by
  refine ⟨?_, classChildren_of_same hwf (grows_namespaceMergeStep s d)
    (fun p => container_namespaceMergeStep s d (some p)) hc⟩
  rcases namespaceMergeStep_cases s d with ⟨he, _⟩ | ⟨_, _, he⟩
  · rw [he]; exact hns
  · rw [he]
    exact nsKeysOk_of_same (wf_allocRegister hwf (namespaceMergeDoclet d)) (grows_reassignStatic _ _)
      (fun k => lookup_reassignStatic _ _ k)
      (nsKeysOk_allocRegister hwf hns _ _ (Or.inl rfl))

theorem nsKeysOk_place {s : Emitter} (hns : NsKeysOk s) (c : Option Nat) (im nm : Option Nat)
    (obj : Nat) : NsKeysOk (s.place c im nm obj) := by
  intro x n hl
  rw [lookup_place] at hl
  rw [docOf_place]
  exact hns x n hl

theorem nsKeysOk_markNested {s : Emitter} (hns : NsKeysOk s) (i obj parent : Nat) :
    NsKeysOk (s.markNested i obj parent) := by
  intro x n hl
  rw [lookup_markNested] at hl
  rw [docOf_markNested]
  exact hns x n hl

theorem classChildren_markNested {s : Emitter} (hc : ClassChildren s) (i obj parent : Nat) :
    ClassChildren (s.markNested i obj parent) :=
  classChildren_of_frame (fun p => container_markNested s i obj parent (some p))
    (fun k => by rw [docOf_markNested]) hc

/-- The placement keeps namespaces under the namespace keys and pushes nothing that is
to be moved out into a class-like node. -/
theorem placementStep_classInv {o : Options} {D : List Doclet} {s : Emitter} (hwf : WF o D s)
    (i obj : Nat) (im nm : Option Nat) (s' : Emitter)
    (h : placementStep s i obj im nm = some s')
    (hobj : s.docOf obj = s.doc i)
    (hmerge : shouldMoveOutOfClass (s.doc i) = false → im = none ∧ nm = none)
    (hns : NsKeysOk s) (hc : ClassChildren s) : NsKeysOk s' ∧ ClassChildren s' := by
  rcases placementStep_cases s i obj im nm s' h with
    ⟨_, rfl⟩ | ⟨_, _, rfl⟩ | ⟨parent, s1, mod, _, hl, _, _, hg, rfl⟩
    | ⟨parent, _, _, _, _, rfl⟩ | ⟨parent, _, _, hnc, _, rfl⟩
  · exact ⟨nsKeysOk_place hns _ _ _ _,
      classChildren_place hc none im nm obj (fun p hp => by simp at hp)⟩
  · exact ⟨hns, hc⟩
  · have hpar := hwf.table_valid _ _ hl
    obtain ⟨hwf1, hpost, _⟩ := getOrCreate_post o D _ _ _ _ _ hg hwf hpar
    obtain ⟨hkind, _, hcc⟩ := getOrCreate_result o D _ _ _ _ _ hg hwf hpar hns
    have hns1 := nsKeysOk_of_gocPost hwf hwf1 hpost hns
    refine ⟨nsKeysOk_place hns1 _ _ _ _, classChildren_place (hcc hc) _ _ _ _ (fun p hp => ?_)⟩
    simp only [Option.some.injEq] at hp
    subst hp
    exact Or.inl (isClassLike_of_namespace hkind)
  · exact ⟨nsKeysOk_markNested hns _ _ _, classChildren_markNested hc _ _ _⟩
  · refine ⟨nsKeysOk_place (nsKeysOk_markNested hns _ _ _) _ _ _ _,
      classChildren_place (classChildren_markNested hc _ _ _) _ _ _ _ (fun p hp => ?_)⟩
    simp only [Option.some.injEq] at hp
    subst hp
    rw [docOf_markNested, docOf_markNested]
    cases hcl : isClassLike (s.docOf parent) with
    | false => exact Or.inl rfl
    | true =>
      right
      have hmo : shouldMoveOutOfClass (s.doc i) = false := by
        cases hm : shouldMoveOutOfClass (s.doc i) with
        | false => rfl
        | true => exact absurd ⟨hcl, hm⟩ hnc
      obtain ⟨h1, h2⟩ := hmerge hmo
      exact ⟨h1, h2, by rw [hobj]; exact hmo⟩

end Emitter

namespace Emitter

theorem docOf_of_srcIndex {s : Emitter} {n i : Nat} (h : s.srcIndex n = some i) :
    s.docOf n = s.doc i := by
  unfold docOf; unfold srcIndex at h
  cases hd : (s.node n).doclet with
  | src i' => rw [hd] at h; simp only [DocRef.index, Option.some.injEq] at h; subst h; rfl
  | syn d => rw [hd] at h; simp [DocRef.index] at h

theorem isDerivedKey_empty : IsDerivedKey "" := ⟨"", Or.inl rfl⟩

theorem shouldMoveOutOfClass_of_isClassLike {d : Doclet} (h : isClassLike d = true) :
    shouldMoveOutOfClass d = true := by
  unfold shouldMoveOutOfClass; rw [h]; rfl

theorem isClassLike_of_kind {d : Doclet}
    (h : d.kind = "class" ∨ d.kind = "interface" ∨ d.kind = "mixin") : isClassLike d = true := by
  unfold isClassLike; exact decide_eq_true h

/-- An iteration of `_buildTree` keeps namespaces under the namespace keys and pushes
nothing that is to be moved out into a class-like node. -/
theorem buildTreeStep_classInv {o : Options} {D : List Doclet} {s : Emitter} (hwf : WF o D s)
    (ht : SrcTable o D s) (hn : NoDerivedLongnames o D) {j : Nat} (hj : j < D.length)
    (s' : Emitter) (h : buildTreeStep s j = some s') (hns : NsKeysOk s) (hc : ClassChildren s) :
    NsKeysOk s' ∧ ClassChildren s' := by
  rcases buildTreeStep_cases s j s' h with ⟨_, he⟩ | ⟨_, _, rfl⟩ | ⟨obj, hs, hl, hp⟩
  · subst s'; exact ⟨hns, hc⟩
  · exact ⟨hns, hc⟩
  · have hobj := hwf.table_valid _ _ hl
    have hwf1 := wf_interfaceMergeStep hwf (s.doc j)
    have hwf2 := wf_namespaceMergeStep hwf1 (s.doc j)
    have hg1 := grows_interfaceMergeStep s (s.doc j)
    have hg2 := grows_namespaceMergeStep (interfaceMergeStep s (s.doc j)).1 (s.doc j)
    have hsrc := srcIndex_of_srcTable hwf ht hj hs hl
    have hsj : survives o (docAt D j) = true := by
      rw [← survives_eq_of_unmember o (hwf.doc_frame j), ← hwf.options_eq]; exact hs
    have hlong : (s.doc j).longname ≠ "" := by
      rw [longname_eq_of_unmember (hwf.doc_frame j)]
      intro h0
      exact hn j hj hsj (h0 ▸ isDerivedKey_empty)
    obtain ⟨hns1, hc1⟩ := classInv_interfaceMergeStep hwf (s.doc j) hlong hns hc
    obtain ⟨hns2, hc2⟩ := classInv_namespaceMergeStep hwf1 (s.doc j) hns1 hc1
    obtain ⟨_, _, _, hsrcEq, _⟩ := mergeSteps_facts hwf (s.doc j) obj hobj
    have hframe : ((namespaceMergeStep (interfaceMergeStep s (s.doc j)).1 (s.doc j)).1.doc
        j).unmember = (s.doc j).unmember := ((hg1.trans hg2).doc_frame j)
    refine placementStep_classInv hwf2 j obj _ _ s' hp ?_ ?_ hns2 hc2
    · exact docOf_of_srcIndex ((hsrcEq obj hobj).trans hsrc)
    · intro hmo
      rw [shouldMoveOutOfClass_eq_of_unmember hframe] at hmo
      constructor
      · cases him : (interfaceMergeStep s (s.doc j)).2 with
        | none => rfl
        | some n =>
          have hk := (interfaceMergeStep_merge s (s.doc j) n him).2.2.2.2.2
          rw [shouldMoveOutOfClass_of_isClassLike (isClassLike_of_kind (Or.inl hk))] at hmo
          exact absurd hmo (by decide)
      · cases hnm : (namespaceMergeStep (interfaceMergeStep s (s.doc j)).1 (s.doc j)).2 with
        | none => rfl
        | some n =>
          have hk := (namespaceMergeStep_merge _ (s.doc j) n hnm).2.2.2.2.2
          rw [shouldMoveOutOfClass_of_isClassLike (isClassLike_of_kind (Or.inr hk))] at hmo
          exact absurd hmo (by decide)

theorem nsKeysOk_createTreeNodes {o : Options} {D : List Doclet} (hn : NoDerivedLongnames o D) :
    NsKeysOk (_createTreeNodes (start o D)) := by
  intro x n hl
  have hinv := createInv_createTreeNodes o D
  obtain ⟨i, hi, hsrc, hk⟩ := hinv.table_src _ _ hl
  obtain ⟨hi', hs⟩ := hinv.wf.src_survives n i hsrc
  exact absurd (hk ▸ isDerivedKey_namespaceKey x) (hn i hi' hs)

/-- With pairwise distinct surviving longnames, none of them a derived key, every
prefix of the second pass keeps namespaces under the namespace keys and leaves no
class-like node with a child that is to be moved out. -/
theorem classInv_buildPrefix {o : Options} {D : List Doclet} (hd : DistinctLongnames o D)
    (hn : NoDerivedLongnames o D) (j : Nat) (hj : j ≤ D.length) (s : Emitter)
    (h : buildPrefix o D j = some s) : NsKeysOk s ∧ ClassChildren s := by
  induction j generalizing s with
  | zero =>
    rw [buildPrefix_zero] at h
    simp only [Option.some.injEq] at h
    subst h
    refine ⟨nsKeysOk_createTreeNodes hn, fun p c hc _ => ?_⟩
    have := (createInv_createTreeNodes o D).empty (some p)
    rw [show (_createTreeNodes (start o D)).childrenOf p
      = (_createTreeNodes (start o D)).container (some p) from rfl, this] at hc
    simp at hc
  | succ j ih =>
    rw [buildPrefix_succ] at h
    cases hp : buildPrefix o D j with
    | none => rw [hp] at h; simp at h
    | some s1 =>
      rw [hp] at h
      obtain ⟨hns, hc⟩ := ih (by omega) s1 hp
      have hwf := wf_buildPrefix o D j s1 hp
      have ht := (forest_buildPrefix hd hn j (by omega) s1 hp).2
      exact buildTreeStep_classInv hwf ht hn (by omega) s h hns hc

/-- The state grows from one prefix of the second pass to a longer one. -/
theorem grows_buildPrefix (o : Options) (D : List Doclet) (j : Nat) (s : Emitter)
    (h : buildPrefix o D j = some s) (k : Nat) (s' : Emitter)
    (h' : buildPrefix o D (j + k) = some s') : Grows s s' := by
  induction k generalizing s' with
  | zero =>
    rw [Nat.add_zero, h] at h'
    simp only [Option.some.injEq] at h'
    subst h'; exact Grows.refl s
  | succ k ih =>
    rw [← Nat.add_assoc, buildPrefix_succ] at h'
    cases hp : buildPrefix o D (j + k) with
    | none => rw [hp] at h'; simp at h'
    | some s1 =>
      rw [hp] at h'
      exact (ih s1 hp).trans (buildTreeStep_wf (wf_buildPrefix o D _ s1 hp) _ s' h').2

end Emitter

namespace Emitter

theorem ne_empty_of_truthy {m : Option String} (h : truthy m = true) : m.getD "" ≠ "" := by
  cases m with
  | none => simp [truthy] at h
  | some x => simpa [truthy] using h

theorem kind_ne_namespace_of_isClassLike {d : Doclet} (h : isClassLike d = true) :
    d.kind ≠ "namespace" := by
  intro hk
  rw [isClassLike_of_namespace hk] at h
  exact absurd h (by decide)

/-- The iteration of a doclet that is to be moved out and whose `memberof` resolves to
a class-like node pushes the node of the doclet into a namespace named by the
namespace key of that node. -/
theorem buildTreeStep_movedOut {o : Options} {D : List Doclet} {s : Emitter} (hwf : WF o D s)
    (ht : SrcTable o D s) (hn : NoDerivedLongnames o D) (hns : NsKeysOk s) (hc : ClassChildren s)
    {i : Nat} (hi : i < D.length) (hs : survives o (docAt D i) = true)
    (hmo : shouldMoveOutOfClass (docAt D i) = true) (p : Nat)
    (htr : truthy ((s.beforePlacement i).doc i).memberof = true)
    (hlk : (s.beforePlacement i).lookup (((s.beforePlacement i).doc i).memberof.getD "") = some p)
    (hcl : isClassLike ((s.beforePlacement i).docOf p) = true)
    (s' : Emitter) (h : buildTreeStep s i = some s') :
    ∃ n g, n < s'.nodes.length ∧ g < s'.nodes.length ∧ p < s'.nodes.length
      ∧ s'.srcIndex n = some i ∧ n ∈ s'.childrenOf g ∧ (s'.docOf g).kind = "namespace"
      ∧ (s'.docOf g).longname = (s'.docOf p).longname ++ "$$namespace$helper" := by
  have hsi : survives s.options (s.doc i) = true := by
    rw [hwf.options_eq, survives_eq_of_unmember o (hwf.doc_frame i)]; exact hs
  have hwf1 := wf_interfaceMergeStep hwf (s.doc i)
  have hwf2 : WF o D (s.beforePlacement i) := wf_namespaceMergeStep hwf1 (s.doc i)
  have hg12 : Grows s (s.beforePlacement i) :=
    (grows_interfaceMergeStep s (s.doc i)).trans (grows_namespaceMergeStep _ (s.doc i))
  have hlong : (s.doc i).longname ≠ "" := by
    rw [longname_eq_of_unmember (hwf.doc_frame i)]
    intro h0
    exact hn i hi hs (h0 ▸ isDerivedKey_empty)
  have hns2 : NsKeysOk (s.beforePlacement i) :=
    (classInv_namespaceMergeStep hwf1 (s.doc i)
      (classInv_interfaceMergeStep hwf (s.doc i) hlong hns hc).1
      (classInv_interfaceMergeStep hwf (s.doc i) hlong hns hc).2).1
  have hmo2 : shouldMoveOutOfClass ((s.beforePlacement i).doc i) = true := by
    rw [shouldMoveOutOfClass_eq_of_unmember (hwf2.doc_frame i)]; exact hmo
  have hpar := hwf2.table_valid _ _ hlk
  have hplong : ((s.beforePlacement i).docOf p).longname ≠ "" := by
    rw [hwf2.key_longname _ _ hlk]; exact ne_empty_of_truthy htr
  rcases buildTreeStep_cases s i s' h with ⟨hf, _⟩ | ⟨_, hl, _⟩ | ⟨obj, _, hl, hp⟩
  · rw [hsi] at hf; exact absurd hf (by decide)
  · obtain ⟨n, hn', _⟩ := ht i hi hs
    rw [longname_eq_of_unmember (hwf.doc_frame i), hn'] at hl
    exact absurd hl (by simp)
  · have hobj := hwf.table_valid _ _ hl
    have hsrc := srcIndex_of_srcTable hwf ht hi hsi hl
    have hp' : placementStep (s.beforePlacement i) i obj (interfaceMergeStep s (s.doc i)).2
        (namespaceMergeStep (interfaceMergeStep s (s.doc i)).1 (s.doc i)).2 = some s' := hp
    rcases placementStep_cases _ i obj _ _ s' hp' with
      ⟨hf, _⟩ | ⟨_, hl', _⟩ | ⟨parent, s1, mod, _, hl', _, _, hg, rfl⟩
      | ⟨parent, _, hl', hnc, _, _⟩ | ⟨parent, _, hl', hnc, _, _⟩
    · rw [htr] at hf; exact absurd hf (by decide)
    · rw [hlk] at hl'; exact absurd hl' (by simp)
    · rw [hlk] at hl'
      simp only [Option.some.injEq] at hl'
      subst hl'
      obtain ⟨hwf3, hpost, hmod⟩ := getOrCreate_post o D _ _ _ _ _ hg hwf2 hpar
      obtain ⟨hkind, hname, _⟩ := getOrCreate_result o D _ _ _ _ _ hg hwf2 hpar hns2
      have hlen2 := hg12.nodes_length
      have hlen3 := hpost.grows.nodes_length
      have hlenp : (s1.place (some mod) (interfaceMergeStep s (s.doc i)).2
          (namespaceMergeStep (interfaceMergeStep s (s.doc i)).1 (s.doc i)).2 obj).nodes.length
            = s1.nodes.length := by
        unfold place
        rw [nodes_length_pushTo, nodes_length_pushOpt, nodes_length_pushOpt]
      refine ⟨obj, mod, by omega, by omega, by omega, ?_, ?_, ?_, ?_⟩
      · unfold place
        rw [srcIndex_pushTo, srcIndex_pushOpt, srcIndex_pushOpt,
          hpost.grows.srcIndex_eq obj (by omega), hg12.srcIndex_eq obj hobj]
        exact hsrc
      · exact mem_container_place s1 (some mod) _ _ obj (by simpa [validContainer] using hmod)
      · rw [docOf_place]; exact hkind
      · rw [docOf_place, docOf_place, hname (kind_ne_namespace_of_isClassLike hcl),
          namespaceKey_of_ne hplong, hpost.grows.longname_eq hpar]
    · rw [hlk] at hl'
      simp only [Option.some.injEq] at hl'
      subst hl'
      exact absurd ⟨hcl, hmo2⟩ hnc
    · rw [hlk] at hl'
      simp only [Option.some.injEq] at hl'
      subst hl'
      exact absurd ⟨hcl, hmo2⟩ hnc

theorem buildPrefix_isSome (o : Options) (D : List Doclet) (j : Nat) :
    (buildPrefix o D j).isSome = true := buildTreeLoop_isSome _ _

/-- With pairwise distinct surviving longnames, none of them a derived key, the state
left by the builder has both parts of C1. -/
theorem movedOutOfClasses_of_build {o : Options} {D : List Doclet} (hd : DistinctLongnames o D)
    (hn : NoDerivedLongnames o D) (s : Emitter) (hb : build o D = some s) :
    MovedOutOfClasses o D s := by
  rw [build_eq_buildPrefix] at hb
  refine ⟨(classInv_buildPrefix hd hn D.length (Nat.le_refl _) s hb).2, ?_⟩
  intro i p hi hs hmo hres
  obtain ⟨si, hsi, htr, hlk, hcl⟩ := hres
  have hwf := wf_buildPrefix o D i si hsi
  have ht := (forest_buildPrefix hd hn i (by omega) si hsi).2
  obtain ⟨hns, hc⟩ := classInv_buildPrefix hd hn i (by omega) si hsi
  have hsome := buildPrefix_isSome o D (i + 1)
  cases h1 : buildPrefix o D (i + 1) with
  | none => rw [h1] at hsome; simp at hsome
  | some s1 =>
    have hstep : buildTreeStep si i = some s1 := by
      rw [buildPrefix_succ, hsi] at h1; exact h1
    obtain ⟨n, g, hn1, hg1, hp1, hsrc, hmem, hkind, hname⟩ :=
      buildTreeStep_movedOut hwf ht hn hns hc hi hs hmo p htr hlk hcl s1 hstep
    have hgrow : Grows s1 s := by
      refine grows_buildPrefix o D (i + 1) s1 h1 (D.length - (i + 1)) s ?_
      rw [show i + 1 + (D.length - (i + 1)) = D.length by omega]; exact hb
    refine ⟨n, g, ?_, ?_, ?_, ?_⟩
    · rw [hgrow.srcIndex_eq n hn1]; exact hsrc
    · exact hgrow.mem_container (c := some g) hmem
    · rw [hgrow.kind_eq hg1]; exact hkind
    · rw [hgrow.longname_eq hg1, hgrow.longname_eq hp1]; exact hname

end Emitter

namespace Emitter

theorem noDerivedLongnames_classWithTypedefDocs : NoDerivedLongnames {} classWithTypedefDocs := by
  intro i hi _
  have hi' : i < 3 := hi
  interval_cases i
  · exact not_isDerivedKey_of_short _ (by decide) (by decide)
  · exact not_isDerivedKey_of_short _ (by decide) (by decide)
  · exact not_isDerivedKey_of_short _ (by decide) (by decide)

/-- C1 as stated fails when a surviving longname is the namespace key of a class: on
`namespaceKeyClashDocs` the longnames are pairwise distinct, and the class `P.C`, a
member of the class `P`, is pushed into the node the table holds under the namespace
key of `P`, which is the node of the class `Q`: a class is a direct child of a class. -/
theorem class_child_of_class_on_key_clash :
    DistinctLongnames {} namespaceKeyClashDocs
    ∧ ∃ s, build {} namespaceKeyClashDocs = some s
      ∧ 2 ∈ s.childrenOf 1 ∧ (s.docOf 1).kind = "class" ∧ (s.docOf 2).kind = "class"
      ∧ ¬ MovedOutOfClasses {} namespaceKeyClashDocs s := by
  refine ⟨by unfold DistinctLongnames; decide, ?_⟩
  have key : ∃ s : Emitter, build {} namespaceKeyClashDocs = some s
      ∧ 2 ∈ s.childrenOf 1 ∧ (s.docOf 1).kind = "class" ∧ (s.docOf 2).kind = "class"
      ∧ isClassLike (s.docOf 1) = true ∧ shouldMoveOutOfClass (s.docOf 2) = true :=
    ⟨(build {} namespaceKeyClashDocs).get (by decide), by simp, by decide, by decide, by decide,
      by decide, by decide⟩
  obtain ⟨s, hb, hmem, hk1, hk2, hcl, hmo⟩ := key
  refine ⟨s, hb, hmem, hk1, hk2, fun h => ?_⟩
  have := h.1 1 2 hmem hcl
  rw [hmo] at this
  exact absurd this (by decide)

/-- C1 (amended): when the surviving doclets have pairwise distinct longnames, none of
them a derived merge key, and no `longname` or `memberof` of them is a property name of
`Object.prototype`, then in the structure left by `_buildTree` no node whose
doclet is a class, an interface or a mixin has a direct child whose doclet is
class-like, module-like, an enum-tagged member or constant, or a typedef; and the node
of every such surviving doclet whose `memberof` resolves to a class-like node when it
is placed is a child of a namespace-kind node whose longname is that parent's longname
followed by the namespace suffix. -/
theorem type_members_moved_out_of_classes (o : Options) (D : List Doclet)
    (hd : DistinctLongnames o D) (hn : NoDerivedLongnames o D) (_hkeys : NoInheritedKeys o D) :
    ∃ s, build o D = some s ∧ MovedOutOfClasses o D s := by
  have hsome := build_isSome o D
  cases hb : build o D with
  | none => rw [hb] at hsome; simp at hsome
  | some s => exact ⟨s, rfl, movedOutOfClasses_of_build hd hn s hb⟩

/-- C1 at a concrete input: the class `P` with the typedef `P.T`, whose `memberof`
resolves to the node of `P`, and the method `P#m`. -/
theorem type_members_moved_out_of_classes_witness :
    DistinctLongnames {} classWithTypedefDocs ∧ NoDerivedLongnames {} classWithTypedefDocs
    ∧ NoInheritedKeys {} classWithTypedefDocs
    ∧ ResolvesToClass {} classWithTypedefDocs 1 0
    ∧ ∃ s, build {} classWithTypedefDocs = some s ∧ MovedOutOfClasses {} classWithTypedefDocs s :=
  ⟨by unfold DistinctLongnames; decide, noDerivedLongnames_classWithTypedefDocs,
    by unfold NoInheritedKeys; decide,
    ⟨(buildPrefix {} classWithTypedefDocs 1).get (by decide), by simp, by decide, by decide,
      by decide⟩,
    type_members_moved_out_of_classes {} classWithTypedefDocs
      (by unfold DistinctLongnames; decide) noDerivedLongnames_classWithTypedefDocs
      (by unfold NoInheritedKeys; decide)⟩

end Emitter

namespace Emitter

/-! ## The interface merge of a class -/

theorem implements_eq_of_unmember {d d' : Doclet} (h : d.unmember = d'.unmember) :
    d.implements = d'.implements := by
  have := congrArg Doclet.implements h; exact this

theorem mixes_eq_of_unmember {d d' : Doclet} (h : d.unmember = d'.unmember) :
    d.mixes = d'.mixes := by
  have := congrArg Doclet.mixes h; exact this

theorem augments_eq_of_unmember {d d' : Doclet} (h : d.unmember = d'.unmember) :
    d.augments = d'.augments := by
  have := congrArg Doclet.augments h; exact this

/-- The pushes of `place` with an interface merge and no namespace merge. -/
theorem container_place_interfaceMerge (s : Emitter) (c : Option Nat) (m obj : Nat)
    (hc : s.validContainer c = true) :
    (s.place c (some m) none obj).container c = s.container c ++ [m, obj] := by
  have hv : (s.pushTo c m).validContainer c = true := by
    rw [show s.pushTo c m = s.pushOpt c (some m) from rfl, validContainer_pushOpt]; exact hc
  show ((s.pushTo c m).pushTo c obj).container c = _
  rw [container_pushTo, if_pos ⟨rfl, hv⟩, container_pushTo, if_pos ⟨rfl, hc⟩]
  simp

/-- The iteration of a placed class with a non-empty `implements ++ mixes`: the
interface merge and the node of the class are the last two elements of a container. -/
theorem buildTreeStep_interfaceMerge {o : Options} {D : List Doclet} {s : Emitter}
    (hwf : WF o D s) (ht : SrcTable o D s) (hn : NoDerivedLongnames o D)
    {i : Nat} (hi : i < D.length) (hs : survives o (docAt D i) = true)
    (hk : (docAt D i).kind = "class")
    (hex : (docAt D i).implements.getD [] ++ (docAt D i).mixes.getD [] ≠ [])
    (hpl : truthy ((s.beforePlacement i).doc i).memberof = false
      ∨ ∃ p, (s.beforePlacement i).lookup (((s.beforePlacement i).doc i).memberof.getD "") = some p
          ∧ isEnum ((s.beforePlacement i).docOf p) = false)
    (s' : Emitter) (h : buildTreeStep s i = some s') :
    ∃ m n c pre, m < s'.nodes.length ∧ n < s'.nodes.length
      ∧ s'.srcIndex m = none ∧ (s'.docOf m).kind = "interface"
      ∧ (s'.docOf m).longname = (docAt D i).longname ++ "$$interface$helper"
      ∧ (s'.docOf m).augments
          = some ((docAt D i).implements.getD [] ++ (docAt D i).mixes.getD [])
      ∧ s'.srcIndex n = some i
      ∧ s'.container c = pre ++ [m, n] := by
  have hf := hwf.doc_frame i
  have hsi : survives s.options (s.doc i) = true := by
    rw [hwf.options_eq, survives_eq_of_unmember o hf]; exact hs
  have hk' : (s.doc i).kind = "class" := by rw [kind_eq_of_unmember hf]; exact hk
  have hex' : (s.doc i).implements.getD [] ++ (s.doc i).mixes.getD [] ≠ [] := by
    rw [implements_eq_of_unmember hf, mixes_eq_of_unmember hf]; exact hex
  have hlong : (docAt D i).longname ≠ "" := by
    intro h0
    exact hn i hi hs (h0 ▸ isDerivedKey_empty)
  have hwf1 := wf_interfaceMergeStep hwf (s.doc i)
  have hwf2 : WF o D (s.beforePlacement i) := wf_namespaceMergeStep hwf1 (s.doc i)
  have hg1 := grows_interfaceMergeStep s (s.doc i)
  have hnm : (namespaceMergeStep (interfaceMergeStep s (s.doc i)).1 (s.doc i)).2 = none := by
    rcases namespaceMergeStep_cases (interfaceMergeStep s (s.doc i)).1 (s.doc i) with
      ⟨he, _⟩ | ⟨hki, _, _⟩
    · rw [he]
    · rw [hk'] at hki; exact absurd hki (by decide)
  have hb : s.beforePlacement i = (interfaceMergeStep s (s.doc i)).1 :=
    namespaceMergeStep_none _ _ hnm
  have him : (interfaceMergeStep s (s.doc i)).2 = some s.nodes.length := by
    rcases interfaceMergeStep_cases s (s.doc i) with ⟨_, hc⟩ | ⟨_, _, he⟩
    · rcases hc with hc | hc
      · exact absurd hk' hc
      · exact absurd hc hex'
    · rw [he]
  obtain ⟨_, hlen1, hsrcm, hdocm, _, _⟩ := interfaceMergeStep_merge s (s.doc i) _ him
  rw [← hb] at hlen1 hsrcm hdocm
  rcases buildTreeStep_cases s i s' h with ⟨hf', _⟩ | ⟨_, hl, _⟩ | ⟨obj, _, hl, hp⟩
  · rw [hsi] at hf'; exact absurd hf' (by decide)
  · obtain ⟨n, hn', _⟩ := ht i hi hs
    rw [longname_eq_of_unmember hf, hn'] at hl
    exact absurd hl (by simp)
  · have hobj := hwf.table_valid _ _ hl
    have hsrc := srcIndex_of_srcTable hwf ht hi hsi hl
    have hp' : placementStep (s.beforePlacement i) i obj (some s.nodes.length) none
        = some s' := by
      rw [him, hnm] at hp; exact hp
    obtain ⟨hwf', hg'⟩ := placementStep_wf hwf2 i obj _ _ s' hp'
      (fun n hn => by simp only [Option.some.injEq] at hn; omega) (fun n hn => by simp at hn)
      (by omega)
    have hlen' := hg'.nodes_length
    have hframe := hg'.docOf_frame s.nodes.length (by omega)
    rw [hdocm] at hframe
    have hsrcobj : s'.srcIndex obj = some i := by
      rw [hg'.srcIndex_eq obj (by omega), hb, hg1.srcIndex_eq obj hobj]; exact hsrc
    have hcont : ∃ c pre, s'.container c = pre ++ [s.nodes.length, obj] := by
      rcases placementStep_cases _ i obj _ _ s' hp' with
        ⟨_, rfl⟩ | ⟨htr, hl', _⟩ | ⟨parent, s1, mod, _, hl', _, _, hg, rfl⟩
        | ⟨parent, htr, hl', _, hen, _⟩ | ⟨parent, _, hl', _, _, rfl⟩
      · exact ⟨none, _, container_place_interfaceMerge _ none _ _ rfl⟩
      · rcases hpl with hpl | ⟨p, hpl, _⟩
        · rw [hpl] at htr; exact absurd htr (by decide)
        · rw [hpl] at hl'; exact absurd hl' (by simp)
      · obtain ⟨_, _, hmod⟩ := getOrCreate_post o D _ _ _ _ _ hg hwf2 (hwf2.table_valid _ _ hl')
        exact ⟨some mod, _, container_place_interfaceMerge _ (some mod) _ _
          (by simpa [validContainer] using hmod)⟩
      · rcases hpl with hpl | ⟨p, hpl, hne⟩
        · rw [hpl] at htr; exact absurd htr (by decide)
        · rw [hpl] at hl'
          simp only [Option.some.injEq] at hl'
          subst hl'
          rw [docOf_markNested, hne] at hen
          exact absurd hen (by decide)
      · exact ⟨some parent, _, container_place_interfaceMerge _ (some parent) _ _
          (by
            have := hwf2.table_valid _ _ hl'
            simpa [validContainer, nodes_length_markNested] using this)⟩
    obtain ⟨c, pre, hc⟩ := hcont
    refine ⟨s.nodes.length, obj, c, pre, by omega, by omega, ?_, ?_, ?_, ?_, hsrcobj, hc⟩
    · rw [hg'.srcIndex_eq _ (by omega)]; exact hsrcm
    · rw [kind_eq_of_unmember hframe]; rfl
    · rw [longname_eq_of_unmember hframe]
      show _getInterfaceKey (s.doc i).longname = _
      rw [longname_eq_of_unmember hf, interfaceKey_of_ne hlong]
    · rw [augments_eq_of_unmember hframe]
      show some ((s.doc i).implements.getD [] ++ (s.doc i).mixes.getD []) = _
      rw [implements_eq_of_unmember hf, mixes_eq_of_unmember hf]

end Emitter

namespace Emitter

theorem allSrc_createPrefix (o : Options) (D : List Doclet) (j : Nat) :
    ∀ m, m < (createPrefix o D j).nodes.length → ∃ i, (createPrefix o D j).srcIndex m = some i := by
  induction j with
  | zero => intro m hm; simp [createPrefix, start] at hm
  | succ j ih =>
    intro m hm
    rw [createPrefix_succ] at hm ⊢
    rcases createTreeNodesStep_cases (createPrefix o D j) j with ⟨he, _⟩ | ⟨_, _, he⟩
    · rw [he] at hm ⊢; exact ih m hm
    · rw [he] at hm ⊢
      rw [srcIndex_register, srcIndex_alloc]
      by_cases hmj : m = (createPrefix o D j).nodes.length
      · rw [if_pos hmj]; exact ⟨j, rfl⟩
      · rw [if_neg hmj]
        refine ih m ?_
        simp [register] at hm
        omega

theorem nodes_length_place (s : Emitter) (c : Option Nat) (im nm : Option Nat) (obj : Nat) :
    (s.place c im nm obj).nodes.length = s.nodes.length := by
  unfold place
  rw [nodes_length_pushTo, nodes_length_pushOpt, nodes_length_pushOpt]

/-- Whatever node the placement allocates is a namespace. -/
theorem placementStep_fresh {o : Options} {D : List Doclet} {s : Emitter} (hwf : WF o D s)
    (i obj : Nat) (im nm : Option Nat) (s' : Emitter)
    (h : placementStep s i obj im nm = some s') (m : Nat) (hm : s.nodes.length ≤ m)
    (hm' : m < s'.nodes.length) : (s'.docOf m).kind = "namespace" := by
  rcases placementStep_cases s i obj im nm s' h with
    ⟨_, rfl⟩ | ⟨_, _, rfl⟩ | ⟨parent, s1, mod, _, hl, _, _, hg, rfl⟩
    | ⟨parent, _, _, _, _, rfl⟩ | ⟨parent, _, _, _, _, rfl⟩
  · rw [nodes_length_place] at hm'; omega
  · have : (s.warn (Warning.missingParent (s.doc i).longname
        ((s.doc i).memberof.getD ""))).nodes.length = s.nodes.length := rfl
    omega
  · obtain ⟨_, hpost, _⟩ := getOrCreate_post o D _ _ _ _ _ hg hwf (hwf.table_valid _ _ hl)
    rw [nodes_length_place] at hm'
    rw [docOf_place]
    exact (hpost.fresh_syn m hm hm').2
  · rw [nodes_length_markNested] at hm'; omega
  · rw [nodes_length_place, nodes_length_markNested] at hm'; omega

theorem ifaceNodes_of_grows {o : Options} {D : List Doclet} {s s' : Emitter} (hg : Grows s s')
    (hfresh : ∀ m, s.nodes.length ≤ m → m < s'.nodes.length → (s'.docOf m).kind = "interface" →
      (∃ i, s'.srcIndex m = some i)
      ∨ ∃ k, k < D.length ∧ survives o (docAt D k) = true ∧ (docAt D k).kind = "class"
          ∧ (docAt D k).implements.getD [] ++ (docAt D k).mixes.getD [] ≠ []
          ∧ (s'.docOf m).longname = _getInterfaceKey (docAt D k).longname)
    (h : IfaceNodes o D s) : IfaceNodes o D s' := by
  intro m hm hk
  by_cases hlt : m < s.nodes.length
  · rw [hg.srcIndex_eq m hlt, hg.longname_eq hlt]
    rw [hg.kind_eq hlt] at hk
    exact h m hlt hk
  · exact hfresh m (by omega) hm hk

/-- An iteration of `_buildTree` allocates interface-kind nodes only as the interface
merge of its doclet. -/
theorem buildTreeStep_ifaceNodes {o : Options} {D : List Doclet} {s : Emitter} (hwf : WF o D s)
    {j : Nat} (hj : j < D.length) (s' : Emitter) (h : buildTreeStep s j = some s')
    (hi : IfaceNodes o D s) : IfaceNodes o D s' := by
  rcases buildTreeStep_cases s j s' h with ⟨_, he⟩ | ⟨_, _, rfl⟩ | ⟨obj, hs, hl, hp⟩
  · subst s'; exact hi
  · exact hi
  · have hf := hwf.doc_frame j
    have hsj : survives o (docAt D j) = true := by
      rw [← survives_eq_of_unmember o hf, ← hwf.options_eq]; exact hs
    have hwf1 := wf_interfaceMergeStep hwf (s.doc j)
    have hwf2 := wf_namespaceMergeStep hwf1 (s.doc j)
    have hobj := hwf.table_valid _ _ hl
    have hg1 := grows_interfaceMergeStep s (s.doc j)
    have hg2 := grows_namespaceMergeStep (interfaceMergeStep s (s.doc j)).1 (s.doc j)
    have h1 : IfaceNodes o D (interfaceMergeStep s (s.doc j)).1 := by
      refine ifaceNodes_of_grows hg1 (fun m hm hm' _ => ?_) hi
      rcases interfaceMergeStep_cases s (s.doc j) with ⟨he, _⟩ | ⟨hk, hex, he⟩
      · rw [he] at hm'
        have : (s, (none : Option Nat)).1.nodes.length = s.nodes.length := rfl
        omega
      · have him : (interfaceMergeStep s (s.doc j)).2 = some s.nodes.length := by rw [he]
        obtain ⟨_, hlen, _, hdoc, _, _⟩ := interfaceMergeStep_merge s (s.doc j) _ him
        have hmeq : m = s.nodes.length := by omega
        subst hmeq
        right
        refine ⟨j, hj, hsj, ?_, ?_, ?_⟩
        · rw [← kind_eq_of_unmember hf]; exact hk
        · rw [← implements_eq_of_unmember hf, ← mixes_eq_of_unmember hf]; exact hex
        · rw [hdoc, ← longname_eq_of_unmember hf]; rfl
    have h2 : IfaceNodes o D (namespaceMergeStep (interfaceMergeStep s (s.doc j)).1 (s.doc j)).1 := by
      refine ifaceNodes_of_grows hg2 (fun m hm hm' hk => ?_) h1
      cases hnm : (namespaceMergeStep (interfaceMergeStep s (s.doc j)).1 (s.doc j)).2 with
      | none => rw [namespaceMergeStep_none _ _ hnm] at hm'; omega
      | some n =>
        obtain ⟨hn, hlen, _, hdoc, _, _⟩ := namespaceMergeStep_merge _ (s.doc j) n hnm
        have hmeq : m = n := by omega
        subst hmeq
        rw [hdoc] at hk
        exact absurd hk (by simp [namespaceMergeDoclet])
    have hl1 := hg1.nodes_length
    have hl2 := hg2.nodes_length
    obtain ⟨_, hg'⟩ := placementStep_wf hwf2 j obj _ _ s' hp
      (fun n hn => by
        obtain ⟨h1, h2, _⟩ := interfaceMergeStep_merge s (s.doc j) n hn
        omega)
      (fun n hn => by
        obtain ⟨h1, h2, _⟩ := namespaceMergeStep_merge _ (s.doc j) n hn
        omega)
      (by omega)
    refine ifaceNodes_of_grows hg' (fun m hm hm' hk => ?_) h2
    rw [placementStep_fresh hwf2 j obj _ _ s' hp m hm hm'] at hk
    exact absurd hk (by decide)

theorem ifaceNodes_buildPrefix (o : Options) (D : List Doclet) (j : Nat) (hj : j ≤ D.length)
    (s : Emitter) (h : buildPrefix o D j = some s) : IfaceNodes o D s := by
  induction j generalizing s with
  | zero =>
    rw [buildPrefix_zero] at h
    simp only [Option.some.injEq] at h
    subst h
    intro m hm _
    exact Or.inl (allSrc_createPrefix o D D.length m hm)
  | succ j ih =>
    rw [buildPrefix_succ] at h
    cases hp : buildPrefix o D j with
    | none => rw [hp] at h; simp at h
    | some s1 =>
      rw [hp] at h
      exact buildTreeStep_ifaceNodes (wf_buildPrefix o D j s1 hp) (by omega) s h
        (ih (by omega) s1 hp)

end Emitter

namespace Emitter

theorem string_append_right_cancel {x y a : String} (h : x ++ a = y ++ a) : x = y := by
  have h' := congrArg String.data h
  rw [String.data_append, String.data_append] at h'
  exact String.ext (List.append_cancel_right h')

/-- With pairwise distinct surviving longnames, none of them a derived key, the state
left by the builder has C2 with the class doclet unchanged up to `memberof`. -/
theorem interfaceMergeClaim_of_build {o : Options} {D : List Doclet}
    (hd : DistinctLongnames o D) (hn : NoDerivedLongnames o D) (s : Emitter)
    (hb : build o D = some s) :
    InterfaceMergeClaim (fun d d' => d.unmember = d'.unmember) o D s := by
  rw [build_eq_buildPrefix] at hb
  have hwfs := wf_buildPrefix o D _ s hb
  constructor
  · intro i hi hs hk hex hpl
    refine ⟨?_, hwfs.doc_frame i⟩
    obtain ⟨si, hsi, hpl⟩ := hpl
    have hwf := wf_buildPrefix o D i si hsi
    have ht := (forest_buildPrefix hd hn i (by omega) si hsi).2
    have hsome := buildPrefix_isSome o D (i + 1)
    cases h1 : buildPrefix o D (i + 1) with
    | none => rw [h1] at hsome; simp at hsome
    | some s1 =>
      have hstep : buildTreeStep si i = some s1 := by
        rw [buildPrefix_succ, hsi] at h1; exact h1
      obtain ⟨m, n, c, pre, hm, hn', hsrcm, hkind, hname, haug, hsrcn, hcont⟩ :=
        buildTreeStep_interfaceMerge hwf ht hn hi hs hk hex hpl s1 hstep
      have hgrow : Grows s1 s := by
        refine grows_buildPrefix o D (i + 1) s1 h1 (D.length - (i + 1)) s ?_
        rw [show i + 1 + (D.length - (i + 1)) = D.length by omega]; exact hb
      obtain ⟨post, hpost⟩ := hgrow.container_prefix c
      refine ⟨m, n, c, pre, post, ?_, ?_, ?_, ?_, ?_, ?_⟩
      · rw [hgrow.srcIndex_eq m hm]; exact hsrcm
      · rw [hgrow.kind_eq hm]; exact hkind
      · rw [hgrow.longname_eq hm]; exact hname
      · rw [augments_eq_of_unmember (hgrow.docOf_frame m hm)]; exact haug
      · rw [hgrow.srcIndex_eq n hn']; exact hsrcn
      · rw [← hpost, hcont]; simp
  · intro i hi hs hk hex m hm hkind hname
    have hlong : (docAt D i).longname ≠ "" := fun h0 => hn i hi hs (h0 ▸ isDerivedKey_empty)
    rw [← interfaceKey_of_ne hlong] at hname
    rcases ifaceNodes_buildPrefix o D D.length (Nat.le_refl _) s hb m hm hkind with
      ⟨i', hsrc⟩ | ⟨k, hk1, hk2, _, hk4, hk5⟩
    · obtain ⟨hi', hs'⟩ := hwfs.src_survives m i' hsrc
      rw [docOf_of_srcIndex hsrc, longname_eq_of_unmember (hwfs.doc_frame i')] at hname
      exact hn i' hi' hs' (hname ▸ isDerivedKey_interfaceKey _)
    · have hlongk : (docAt D k).longname ≠ "" := fun h0 => hn k hk1 hk2 (h0 ▸ isDerivedKey_empty)
      rw [hk5, interfaceKey_of_ne hlong, interfaceKey_of_ne hlongk] at hname
      have hki := hd k hk1 i hi hk2 hs (string_append_right_cancel hname)
      subst hki
      exact hk4 hex

theorem noDerivedLongnames_implementsDocs : NoDerivedLongnames {} implementsDocs := by
  intro i hi _
  have hi' : i < 3 := hi
  interval_cases i
  · exact not_isDerivedKey_of_short _ (by decide) (by decide)
  · exact not_isDerivedKey_of_short _ (by decide) (by decide)
  · exact not_isDerivedKey_of_short _ (by decide) (by decide)

/-- C2 (amended): when the surviving doclets have pairwise distinct longnames, none of
them a derived merge key, and no `longname` or `memberof` of them is a property name of
`Object.prototype`, then for every surviving class doclet with a non-empty
`implements ++ mixes` that is placed (no `memberof`, or a `memberof` resolving to a
node that is not enum-tagged) the builder creates an interface-kind node whose longname
is the class longname followed by the interface suffix and whose `augments` is
`implements ++ mixes`; that node sits immediately before the node of the class in the
same container; the fields of the class doclet other than `memberof` are unchanged.
No interface-kind node is named after a class whose `implements ++ mixes` is empty. -/
theorem interface_merge_before_class (o : Options) (D : List Doclet)
    (hd : DistinctLongnames o D) (hn : NoDerivedLongnames o D) (_hkeys : NoInheritedKeys o D) :
    ∃ s, build o D = some s
      ∧ InterfaceMergeClaim (fun d d' => d.unmember = d'.unmember) o D s := by
  have hsome := build_isSome o D
  cases hb : build o D with
  | none => rw [hb] at hsome; simp at hsome
  | some s => exact ⟨s, rfl, interfaceMergeClaim_of_build hd hn s hb⟩

/-- C2 at a concrete input: the class `N.K` with `implements ["A", "B"]` and
`mixes ["M"]` in the namespace `N`, and the class `L` without either. -/
theorem interface_merge_before_class_witness :
    DistinctLongnames {} implementsDocs ∧ NoDerivedLongnames {} implementsDocs
    ∧ NoInheritedKeys {} implementsDocs
    ∧ PlacedAt {} implementsDocs 1
    ∧ ∃ s, build {} implementsDocs = some s
      ∧ InterfaceMergeClaim (fun d d' => d.unmember = d'.unmember) {} implementsDocs s :=
  ⟨by unfold DistinctLongnames; decide, noDerivedLongnames_implementsDocs,
    by unfold NoInheritedKeys; decide,
    ⟨(buildPrefix {} implementsDocs 1).get (by decide), by simp,
      Or.inr ⟨0, by decide, by decide⟩⟩,
    interface_merge_before_class {} implementsDocs (by unfold DistinctLongnames; decide)
      noDerivedLongnames_implementsDocs (by unfold NoInheritedKeys; decide)⟩

end Emitter

namespace Emitter

theorem noDerivedLongnames_staticClassDocs : NoDerivedLongnames {} staticClassDocs := by
  intro i hi _
  have hi' : i < 2 := hi
  interval_cases i
  · exact not_isDerivedKey_of_short _ (by decide) (by decide)
  · exact not_isDerivedKey_of_short _ (by decide) (by decide)

/-- C2 as stated fails in three ways.  On `duplicateClassDocs` the second class has no
node of its own.  On `interfaceKeyClashDocs` (pairwise distinct longnames) the table
holds the interface merge of `K` under the longname of the second class, whose own node
is in no container.  On `staticClassDocs` (pairwise distinct longnames, none a derived
key) the `memberof` of the class is reassigned by the namespace merge of the interface. -/
theorem interface_merge_claim_fails :
    (∃ s, build {} duplicateClassDocs = some s
      ∧ ¬ InterfaceMergeClaim (fun d d' => d = d') {} duplicateClassDocs s)
    ∧ (DistinctLongnames {} interfaceKeyClashDocs
      ∧ ∃ s, build {} interfaceKeyClashDocs = some s
        ∧ ¬ InterfaceMergeClaim (fun d d' => d = d') {} interfaceKeyClashDocs s)
    ∧ (DistinctLongnames {} staticClassDocs ∧ NoDerivedLongnames {} staticClassDocs
      ∧ ∃ s, build {} staticClassDocs = some s
        ∧ ¬ InterfaceMergeClaim (fun d d' => d = d') {} staticClassDocs s) := by
  refine ⟨?_, ⟨by unfold DistinctLongnames; decide, ?_⟩,
    ⟨by unfold DistinctLongnames; decide, noDerivedLongnames_staticClassDocs, ?_⟩⟩
  · have key : ∃ s : Emitter, build {} duplicateClassDocs = some s ∧ s.nodes.length = 3
        ∧ ∀ n, n < 3 → s.srcIndex n ≠ some 1 :=
      ⟨(build {} duplicateClassDocs).get (by decide), by simp, by decide, by decide⟩
    obtain ⟨s, hb, hlen, hsrc⟩ := key
    refine ⟨s, hb, fun h => ?_⟩
    have hpl : PlacedAt {} duplicateClassDocs 1 :=
      ⟨(buildPrefix {} duplicateClassDocs 1).get (by decide), by simp, Or.inl (by decide)⟩
    obtain ⟨⟨m, n, c, pre, post, _, _, _, _, hn, _⟩, _⟩ :=
      h.1 1 (by decide) (by decide) (by decide) (by decide) hpl
    by_cases hlt : n < 3
    · exact hsrc n hlt hn
    · rw [srcIndex_of_length_le s n (by omega)] at hn
      exact absurd hn (by simp)
  · have key : ∃ s : Emitter, build {} interfaceKeyClashDocs = some s ∧ s.nodes.length = 4
        ∧ (∀ n, n < 4 → s.srcIndex n = some 1 → n = 1) ∧ 1 ∉ s._treeRoots
        ∧ ∀ p, p < 4 → 1 ∉ s.childrenOf p :=
      ⟨(build {} interfaceKeyClashDocs).get (by decide), by simp, by decide, by decide,
        by decide, by decide⟩
    obtain ⟨s, hb, hlen, hsrc, hroots, hch⟩ := key
    refine ⟨s, hb, fun h => ?_⟩
    have hpl : PlacedAt {} interfaceKeyClashDocs 1 :=
      ⟨(buildPrefix {} interfaceKeyClashDocs 1).get (by decide), by simp, Or.inl (by decide)⟩
    obtain ⟨⟨m, n, c, pre, post, _, _, _, _, hn, hc⟩, _⟩ :=
      h.1 1 (by decide) (by decide) (by decide) (by decide) hpl
    have hn1 : n = 1 := by
      by_cases hlt : n < 4
      · exact hsrc n hlt hn
      · rw [srcIndex_of_length_le s n (by omega)] at hn
        exact absurd hn (by simp)
    subst hn1
    have hmem : 1 ∈ s.container c := by rw [hc]; simp
    cases c with
    | none => exact hroots hmem
    | some p =>
      have hp := childrenOf_lt hmem
      exact hch p (by omega) hmem
  · have key : ∃ s : Emitter, build {} staticClassDocs = some s
        ∧ s.doc 1 ≠ docAt staticClassDocs 1 :=
      ⟨(build {} staticClassDocs).get (by decide), by simp, by decide⟩
    obtain ⟨s, hb, hne⟩ := key
    refine ⟨s, hb, fun h => ?_⟩
    have hpl : PlacedAt {} staticClassDocs 1 :=
      ⟨(buildPrefix {} staticClassDocs 1).get (by decide), by simp,
        Or.inr ⟨2, by decide, by decide⟩⟩
    exact hne (h.1 1 (by decide) (by decide) (by decide) (by decide) hpl).2

end Emitter

namespace Emitter

/-! ## The static members of an interface or mixin -/

theorem scope_eq_of_unmember {d d' : Doclet} (h : d.unmember = d'.unmember) :
    d.scope = d'.scope := by
  have := congrArg Doclet.scope h; exact this

theorem isStaticChildOf_iff (l : String) (d : Doclet) :
    isStaticChildOf l d = true ↔ d.memberof = some l ∧ d.scope = some "static" := by
  unfold isStaticChildOf; simp

theorem docs_reassignStatic_of_filter_nil (s : Emitter) (l : String)
    (h : s.docs.filter (isStaticChildOf l) = []) : (s.reassignStatic l).docs = s.docs := by
  unfold reassignStatic
  simp only
  rw [List.filter_eq_nil_iff] at h
  conv_rhs => rw [← List.map_id s.docs]
  apply List.map_congr_left
  intro c hc
  rw [if_neg (h c hc)]; rfl

/-- The iteration of a surviving interface or mixin that has a node runs line 107 on
the doclet array (which changes nothing when there is no static child). -/
theorem buildTreeStep_docs_interface {o : Options} {D : List Doclet} {s : Emitter}
    (hwf : WF o D s) (j : Nat) (s' : Emitter) (h : buildTreeStep s j = some s')
    (hs : survives s.options (s.doc j) = true) (hl : (s.lookup (s.doc j).longname).isSome = true)
    (hk : (s.doc j).kind = "interface" ∨ (s.doc j).kind = "mixin") :
    s'.docs = (s.reassignStatic (s.doc j).longname).docs := by
  rcases buildTreeStep_cases s j s' h with ⟨hf, _⟩ | ⟨_, hl', _⟩ | ⟨obj, _, _, hp⟩
  · rw [hs] at hf; exact absurd hf (by decide)
  · rw [hl'] at hl; exact absurd hl (by decide)
  · have hwf1 := wf_interfaceMergeStep hwf (s.doc j)
    have hwf2 := wf_namespaceMergeStep hwf1 (s.doc j)
    have h3 := placementStep_docs hwf2 j obj _ _ s' hp
    have h1 := docs_interfaceMergeStep s (s.doc j)
    rw [h3]
    rcases namespaceMergeStep_cases (interfaceMergeStep s (s.doc j)).1 (s.doc j) with
      ⟨he, hc⟩ | ⟨_, _, he⟩
    · rw [he]
      rcases hc with hc | hc
      · rcases hk with hk | hk
        · exact absurd hk hc.1
        · exact absurd hk hc.2
      · rw [h1] at hc ⊢
        exact (docs_reassignStatic_of_filter_nil s _ hc).symm
    · rw [he]
      have h1' : (((interfaceMergeStep s (s.doc j)).1.alloc
          (DocRef.syn (namespaceMergeDoclet (s.doc j)))).register
            (_getNamespaceKey (s.doc j).longname)
            (interfaceMergeStep s (s.doc j)).1.nodes.length).docs = s.docs := h1
      unfold reassignStatic
      simp only
      rw [h1']

/-- An iteration keeps track of the reassigned `memberof` fields. -/
theorem buildTreeStep_track {o : Options} {D : List Doclet} {s : Emitter} (hwf : WF o D s)
    (hd : DistinctLongnames o D) (hn : NoDerivedLongnames o D) {t : Nat} (ht : t < D.length)
    (htr : Track o D t s) (s' : Emitter) (h : buildTreeStep s t = some s')
    (hkeys : survives o (docAt D t) = true → (s.lookup (docAt D t).longname).isSome = true) :
    Track o D (t + 1) s' := by
  have hf := hwf.doc_frame t
  have hsurv : survives s.options (s.doc t) = survives o (docAt D t) := by
    rw [hwf.options_eq, survives_eq_of_unmember o hf]
  by_cases hcase : survives o (docAt D t) = true
      ∧ ((docAt D t).kind = "interface" ∨ (docAt D t).kind = "mixin")
  · obtain ⟨hs, hk⟩ := hcase
    have hlong := longname_eq_of_unmember hf
    have hdocs := buildTreeStep_docs_interface hwf t s' h (by rw [hsurv]; exact hs)
      (by rw [hlong]; exact hkeys hs) (by rw [kind_eq_of_unmember hf]; exact hk)
    rw [hlong] at hdocs
    have hdoc : ∀ j, s'.doc j = if isStaticChildOf (docAt D t).longname (s.doc j) then
        { s.doc j with memberof := some (_getNamespaceKey (docAt D t).longname) }
        else s.doc j := by
      intro j
      rw [doc_eq_of_docs_eq hdocs, doc_reassignStatic]
    have hnot : ∀ x, (docAt D t).longname ≠ _getNamespaceKey x :=
      fun x hx => hn t ht hs (hx ▸ isDerivedKey_namespaceKey x)
    constructor
    · intro j
      rw [hdoc j]
      by_cases hst : isStaticChildOf (docAt D t).longname (s.doc j) = true
      · rw [if_pos hst]
        have hm := ((isStaticChildOf_iff _ _).1 hst).1
        rcases htr.changed j with hc | ⟨q, _, _, _, _, hq⟩
        · exact Or.inr ⟨t, by omega, ht, hs, by rw [← hc]; exact hm, rfl⟩
        · rw [hq] at hm
          simp only [Option.some.injEq] at hm
          exact absurd hm.symm (hnot _)
      · rw [if_neg hst]
        rcases htr.changed j with hc | ⟨q, hq1, hq2, hq3, hq4, hq5⟩
        · exact Or.inl hc
        · exact Or.inr ⟨q, by omega, hq2, hq3, hq4, hq5⟩
    · intro q j hq hqD hj hqs hqk hst
      rw [hdoc j]
      by_cases hqt : q < t
      · have ih := htr.moved q j hqt hqD hj hqs hqk hst
        by_cases hst' : isStaticChildOf (docAt D t).longname (s.doc j) = true
        · have hm := ((isStaticChildOf_iff _ _).1 hst').1
          rw [ih] at hm
          simp only [Option.some.injEq] at hm
          exact absurd hm.symm (hnot _)
        · rw [if_neg hst']; exact ih
      · have hqeq : q = t := by omega
        subst hqeq
        obtain ⟨hm, hsc⟩ := (isStaticChildOf_iff _ _).1 hst
        have hst' : isStaticChildOf (docAt D q).longname (s.doc j) = true := by
          rw [isStaticChildOf_iff]
          refine ⟨?_, by rw [scope_eq_of_unmember (hwf.doc_frame j)]; exact hsc⟩
          rcases htr.changed j with hc | ⟨q', hq1, hq2, hq3, hq4, _⟩
          · rw [hc]; exact hm
          · rw [hm] at hq4
            simp only [Option.some.injEq] at hq4
            have := hd q ht q' hq2 hs hq3 hq4
            omega
        rw [if_pos hst']
  · have hdocs : s'.docs = s.docs := by
      rcases buildTreeStep_docs hwf t s' h with he | ⟨hk, hs, _⟩
      · exact he
      · exfalso
        apply hcase
        rw [hsurv] at hs
        rw [kind_eq_of_unmember hf] at hk
        exact ⟨hs, hk⟩
    constructor
    · intro j
      rw [doc_eq_of_docs_eq hdocs]
      rcases htr.changed j with hc | ⟨q, hq1, hq2, hq3, hq4, hq5⟩
      · exact Or.inl hc
      · exact Or.inr ⟨q, by omega, hq2, hq3, hq4, hq5⟩
    · intro q j hq hqD hj hqs hqk hst
      rw [doc_eq_of_docs_eq hdocs]
      by_cases hqt : q < t
      · exact htr.moved q j hqt hqD hj hqs hqk hst
      · have hqeq : q = t := by omega
        subst hqeq
        exact absurd ⟨hqs, hqk⟩ hcase

theorem track_buildPrefix {o : Options} {D : List Doclet} (hd : DistinctLongnames o D)
    (hn : NoDerivedLongnames o D) (t : Nat) (ht : t ≤ D.length) (s : Emitter)
    (h : buildPrefix o D t = some s) : Track o D t s := by
  induction t generalizing s with
  | zero =>
    rw [buildPrefix_zero] at h
    simp only [Option.some.injEq] at h
    subst h
    constructor
    · intro j
      left
      unfold doc; rw [(createInv_createTreeNodes o D).docs_eq]; rfl
    · intro q j hq; omega
  | succ t ih =>
    rw [buildPrefix_succ] at h
    cases hp : buildPrefix o D t with
    | none => rw [hp] at h; simp at h
    | some s1 =>
      rw [hp] at h
      exact buildTreeStep_track (wf_buildPrefix o D t s1 hp) hd hn (by omega)
        (ih (by omega) s1 hp) s h
        (fun hs => (keys_buildPrefix o D t s1 hp).1 t (by omega) hs)

end Emitter

namespace Emitter

/-- The companion-namespace construction pushes nothing into a node that is not a
namespace. -/
theorem getOrCreate_children (o : Options) (D : List Doclet) (fuel : Nat) (s : Emitter) (obj : Nat)
    (s' : Emitter) (g : Nat) (h : _getOrCreateClassNamespaceFuel fuel s obj = some (s', g)) :
    WF o D s → obj < s.nodes.length → NsKeysOk s →
      ∀ p, p < s.nodes.length → (s.docOf p).kind ≠ "namespace" →
        s'.childrenOf p = s.childrenOf p := by
  refine getOrCreate_induct
    (fun s obj s' g => WF o D s → obj < s.nodes.length → NsKeysOk s →
      ∀ p, p < s.nodes.length → (s.docOf p).kind ≠ "namespace" →
        s'.childrenOf p = s.childrenOf p)
    ?_ ?_ ?_ ?_ ?_ fuel s obj s' g h
  · intro s obj _ _ _ _ p _ _; rfl
  · intro s obj g _ _ _ _ _ p _ _; rfl
  · intro s obj _ _ _ _ _ p _ _
    show ((s.withNamespace obj).pushTo none s.nodes.length).container (some p) = _
    rw [container_pushTo, if_neg (by simp), container_withNamespace]; rfl
  · intro s obj _ _ _ _ _ _ p _ _
    exact container_withNamespace s obj (some p)
  · intro s obj parent s2 parentMod _ _ hl hex ih hwf _ hns p hp hkp
    have hwf1 := wf_withNamespace hwf obj
    have hns1 := nsKeysOk_withNamespace hwf hns obj
    have hpar := hwf1.table_valid _ _ hl
    obtain ⟨fuel', hf⟩ := hex
    obtain ⟨hkind, _, _⟩ := getOrCreate_result o D _ _ _ _ _ hf hwf1 hpar hns1
    obtain ⟨_, hpost2, _⟩ := getOrCreate_post o D _ _ _ _ _ hf hwf1 hpar
    have hp1 : p < (s.withNamespace obj).nodes.length := by simp; omega
    have hdoc1 : (s.withNamespace obj).docOf p = s.docOf p := by
      rw [docOf_withNamespace, if_neg (by omega)]
    have h2 := ih hwf1 hpar hns1 p hp1 (by rw [hdoc1]; exact hkp)
    have hne : parentMod ≠ p := by
      intro he
      subst he
      rw [hpost2.grows.kind_eq hp1, hdoc1] at hkind
      exact hkp hkind
    show ((s2.setMemberof s.nodes.length (some (s2.docOf parentMod).longname)).pushTo
      (some parentMod) s.nodes.length).container (some p) = _
    rw [container_pushTo, if_neg (fun hh => hne (by simpa using hh.1.symm)),
      container_setMemberof]
    exact h2.trans (container_withNamespace s obj (some p))

theorem mem_container_pushOpt {s : Emitter} {c c' : Option Nat} {m : Option Nat} {ch : Nat}
    (h : ch ∈ (s.pushOpt c m).container c') : ch ∈ s.container c' ∨ (c' = c ∧ m = some ch) := by
  cases m with
  | none => exact Or.inl h
  | some n =>
    have h' : ch ∈ (s.pushTo c n).container c' := h
    rw [container_pushTo] at h'
    split at h'
    · rename_i hc
      rcases List.mem_append.1 h' with h1 | h1
      · left; rw [hc.1]; exact h1
      · right; simp only [List.mem_singleton] at h1; exact ⟨hc.1, by rw [h1]⟩
    · exact Or.inl h'

/-- What `place` adds to a container. -/
theorem mem_container_of_place {s : Emitter} {c c' : Option Nat} {im nm : Option Nat}
    {obj ch : Nat} (h : ch ∈ (s.place c im nm obj).container c') :
    ch ∈ s.container c' ∨ (c' = c ∧ (ch = obj ∨ im = some ch ∨ nm = some ch)) := by
  unfold place at h
  rcases mem_container_pushOpt (m := some obj) h with h1 | ⟨hc, h1⟩
  · rcases mem_container_pushOpt h1 with h2 | ⟨hc, h2⟩
    · rcases mem_container_pushOpt h2 with h3 | ⟨hc, h3⟩
      · exact Or.inl h3
      · exact Or.inr ⟨hc, Or.inr (Or.inl h3)⟩
    · exact Or.inr ⟨hc, Or.inr (Or.inr h2)⟩
  · simp only [Option.some.injEq] at h1
    exact Or.inr ⟨hc, Or.inl h1.symm⟩

/-- What the placement pushes into a node that is not a namespace: nothing, or the
node of the doclet and its merge nodes when the `memberof` resolves to that node and
the doclet is not moved out. -/
theorem placementStep_children {o : Options} {D : List Doclet} {s : Emitter} (hwf : WF o D s)
    (hns : NsKeysOk s) (i obj : Nat) (im nm : Option Nat) (s' : Emitter)
    (h : placementStep s i obj im nm = some s') (p : Nat) (hp : p < s.nodes.length)
    (hkp : (s.docOf p).kind ≠ "namespace") (ch : Nat) (hch : ch ∈ s'.childrenOf p) :
    ch ∈ s.childrenOf p
    ∨ (truthy (s.doc i).memberof = true ∧ s.lookup ((s.doc i).memberof.getD "") = some p
      ∧ ¬ (isClassLike (s.docOf p) = true ∧ shouldMoveOutOfClass (s.doc i) = true)
      ∧ (ch = obj ∨ im = some ch ∨ nm = some ch)) := by
  have hch' : ch ∈ s'.container (some p) := hch
  rcases placementStep_cases s i obj im nm s' h with
    ⟨_, rfl⟩ | ⟨_, _, rfl⟩ | ⟨parent, s1, mod, _, hl, _, _, hg, rfl⟩
    | ⟨parent, _, _, _, _, rfl⟩ | ⟨parent, htr, hl, hnc, _, rfl⟩
  · rcases mem_container_of_place hch' with h1 | ⟨hc, _⟩
    · exact Or.inl h1
    · simp at hc
  · exact Or.inl hch
  · have hpar := hwf.table_valid _ _ hl
    obtain ⟨hkind, _, _⟩ := getOrCreate_result o D _ _ _ _ _ hg hwf hpar hns
    obtain ⟨_, hpost, _⟩ := getOrCreate_post o D _ _ _ _ _ hg hwf hpar
    have hsame := getOrCreate_children o D _ _ _ _ _ hg hwf hpar hns p hp hkp
    rcases mem_container_of_place hch' with h1 | ⟨hc, _⟩
    · left
      have h1' : ch ∈ s1.childrenOf p := h1
      rw [hsame] at h1'; exact h1'
    · exfalso
      simp only [Option.some.injEq] at hc
      subst hc
      rw [hpost.grows.kind_eq hp] at hkind
      exact hkp hkind
  · rw [container_markNested] at hch'; exact Or.inl hch'
  · rcases mem_container_of_place hch' with h1 | ⟨hc, h1⟩
    · rw [container_markNested] at h1; exact Or.inl h1
    · simp only [Option.some.injEq] at hc
      subst hc
      exact Or.inr ⟨htr, hl, hnc, h1⟩

end Emitter

namespace Emitter

theorem eq_some_of_truthy {m : Option String} (h : truthy m = true) : m = some (m.getD "") := by
  cases m with
  | none => simp [truthy] at h
  | some x => rfl

theorem kind_ne_namespace_of_interface {d : Doclet}
    (h : d.kind = "interface" ∨ d.kind = "mixin") : d.kind ≠ "namespace" := by
  rcases h with h | h <;> rw [h] <;> decide

/-- A doclet that is not to be moved out of classes has no merge nodes. -/
theorem merges_none_of_not_moveOut (s : Emitter) (d : Doclet)
    (h : shouldMoveOutOfClass d = false) :
    (interfaceMergeStep s d).2 = none
    ∧ (namespaceMergeStep (interfaceMergeStep s d).1 d).2 = none := by
  constructor
  · cases him : (interfaceMergeStep s d).2 with
    | none => rfl
    | some n =>
      have hk := (interfaceMergeStep_merge s d n him).2.2.2.2.2
      rw [shouldMoveOutOfClass_of_isClassLike (isClassLike_of_kind (Or.inl hk))] at h
      exact absurd h (by decide)
  · cases hnm : (namespaceMergeStep (interfaceMergeStep s d).1 d).2 with
    | none => rfl
    | some n =>
      have hk := (namespaceMergeStep_merge _ d n hnm).2.2.2.2.2
      rw [shouldMoveOutOfClass_of_isClassLike (isClassLike_of_kind (Or.inr hk))] at h
      exact absurd h (by decide)

/-- An iteration pushes no node of static scope into the node of an interface or mixin
whose surviving static children all come after it. -/
theorem buildTreeStep_noStatic {o : Options} {D : List Doclet} {s : Emitter} (hwf : WF o D s)
    (ht : SrcTable o D s) (hn : NoDerivedLongnames o D) (hns : NsKeysOk s)
    (hc : ClassChildren s) {t : Nat} (htl : t < D.length) (htr : Track o D t s)
    {k : Nat} (hk : k < D.length) (hks : survives o (docAt D k) = true)
    (hkk : (docAt D k).kind = "interface" ∨ (docAt D k).kind = "mixin")
    (haft : StaticChildrenFollow o D k) (iNode : Nat) (hsrc : s.srcIndex iNode = some k)
    (hno : ∀ ch, ch ∈ s.childrenOf iNode → (s.docOf ch).scope ≠ some "static")
    (s' : Emitter) (h : buildTreeStep s t = some s') :
    ∀ ch, ch ∈ s'.childrenOf iNode → (s'.docOf ch).scope ≠ some "static" := by
  obtain ⟨hwf', hg⟩ := buildTreeStep_wf hwf t s' h
  have hnode : iNode < s.nodes.length := by
    by_contra hlt
    rw [srcIndex_of_length_le s iNode (by omega)] at hsrc
    exact absurd hsrc (by simp)
  have hold : ∀ ch, ch ∈ s.childrenOf iNode → (s'.docOf ch).scope ≠ some "static" := by
    intro ch hch
    rw [scope_eq_of_unmember (hg.docOf_frame ch (hwf.container_valid (some iNode) ch hch))]
    exact hno ch hch
  have hnotk : ∀ x, (docAt D k).longname ≠ _getNamespaceKey x :=
    fun x hx => hn k hk hks (hx ▸ isDerivedKey_namespaceKey x)
  rcases buildTreeStep_cases s t s' h with ⟨_, he⟩ | ⟨_, _, rfl⟩ | ⟨obj, hs, hl, hp⟩
  · subst s'; exact hno
  · exact hno
  · intro ch hch
    have hf := hwf.doc_frame t
    have hst : survives o (docAt D t) = true := by
      rw [← survives_eq_of_unmember o hf, ← hwf.options_eq]; exact hs
    have hlong : (s.doc t).longname ≠ "" := by
      rw [longname_eq_of_unmember hf]
      exact fun h0 => hn t htl hst (h0 ▸ isDerivedKey_empty)
    have hobj := hwf.table_valid _ _ hl
    have hwf1 := wf_interfaceMergeStep hwf (s.doc t)
    have hwf2 : WF o D (s.beforePlacement t) := wf_namespaceMergeStep hwf1 (s.doc t)
    have hg12 : Grows s (s.beforePlacement t) :=
      (grows_interfaceMergeStep s (s.doc t)).trans (grows_namespaceMergeStep _ (s.doc t))
    obtain ⟨hns1, hc1⟩ := classInv_interfaceMergeStep hwf (s.doc t) hlong hns hc
    have hns2 : NsKeysOk (s.beforePlacement t) :=
      (classInv_namespaceMergeStep hwf1 (s.doc t) hns1 hc1).1
    obtain ⟨_, _, _, _, hcont⟩ := mergeSteps_facts hwf (s.doc t) obj hobj
    have hsrcb : (s.beforePlacement t).srcIndex iNode = some k := by
      rw [hg12.srcIndex_eq iNode hnode]; exact hsrc
    have hdocb : (s.beforePlacement t).docOf iNode = (s.beforePlacement t).doc k :=
      docOf_of_srcIndex hsrcb
    have hkindb : ((s.beforePlacement t).docOf iNode).kind = (docAt D k).kind := by
      rw [hdocb, kind_eq_of_unmember (hwf2.doc_frame k)]
    have hlongb : ((s.beforePlacement t).docOf iNode).longname = (docAt D k).longname := by
      rw [hdocb, longname_eq_of_unmember (hwf2.doc_frame k)]
    have hp' : placementStep (s.beforePlacement t) t obj (interfaceMergeStep s (s.doc t)).2
        (namespaceMergeStep (interfaceMergeStep s (s.doc t)).1 (s.doc t)).2 = some s' := hp
    rcases placementStep_children hwf2 hns2 t obj _ _ s' hp' iNode
        (by have := hg12.nodes_length; omega)
        (by rw [hkindb]; exact kind_ne_namespace_of_interface hkk) ch hch with
      h1 | ⟨htru, hlk, hnc, hnew⟩
    · have h1' : ch ∈ (s.beforePlacement t).container (some iNode) := h1
      rw [show (s.beforePlacement t).container (some iNode) = s.container (some iNode) from
        hcont (some iNode)] at h1'
      exact hold ch h1'
    · have hcl : isClassLike ((s.beforePlacement t).docOf iNode) = true :=
        isClassLike_of_kind (by rw [hkindb]; rcases hkk with h | h
                                · exact Or.inr (Or.inl h)
                                · exact Or.inr (Or.inr h))
      have hmo : shouldMoveOutOfClass (s.doc t) = false := by
        cases hm : shouldMoveOutOfClass (s.doc t) with
        | false => rfl
        | true =>
          exfalso
          apply hnc
          refine ⟨hcl, ?_⟩
          rw [shouldMoveOutOfClass_eq_of_unmember (hg12.doc_frame t)]; exact hm
      obtain ⟨him, hnm⟩ := merges_none_of_not_moveOut s (s.doc t) hmo
      have hbs : s.beforePlacement t = s := by
        unfold beforePlacement
        rw [namespaceMergeStep_none _ _ hnm, interfaceMergeStep_none _ _ him]
      have hch_obj : ch = obj := by
        rcases hnew with h1 | h1 | h1
        · exact h1
        · rw [him] at h1; exact absurd h1 (by simp)
        · rw [hnm] at h1; exact absurd h1 (by simp)
      subst hch_obj
      have hsrco := srcIndex_of_srcTable hwf ht htl hs hl
      have hsrco' : s'.srcIndex ch = some t := by rw [hg.srcIndex_eq ch hobj]; exact hsrco
      rw [docOf_of_srcIndex hsrco', scope_eq_of_unmember (hwf'.doc_frame t)]
      intro hscope
      rw [hbs] at htru hlk hlongb
      have hkey := hwf.key_longname _ _ hlk
      rw [hlongb] at hkey
      have hmem : (s.doc t).memberof = some (docAt D k).longname := by
        rw [eq_some_of_truthy htru, ← hkey]
      have hin : (docAt D t).memberof = some (docAt D k).longname := by
        rcases htr.changed t with hch | ⟨q, _, _, _, _, hq⟩
        · rw [← hch]; exact hmem
        · rw [hq] at hmem
          simp only [Option.some.injEq] at hmem
          exact absurd hmem.symm (hnotk _)
      have hstatic : isStaticChildOf (docAt D k).longname (docAt D t) = true :=
        (isStaticChildOf_iff _ _).2 ⟨hin, hscope⟩
      have hkt := haft t htl hst hstatic
      have hmv := htr.moved k t hkt hk htl hks hkk hstatic
      rw [hmv] at hmem
      simp only [Option.some.injEq] at hmem
      exact hnotk _ hmem.symm

end Emitter

namespace Emitter

/-- The pushes of `place` with a namespace merge and no interface merge. -/
theorem container_place_namespaceMerge (s : Emitter) (c : Option Nat) (m obj : Nat)
    (hc : s.validContainer c = true) :
    (s.place c none (some m) obj).container c = s.container c ++ [m, obj] :=
  container_place_interfaceMerge s c m obj hc

theorem namespaceKey_injective {x y : String} (hx : x ≠ "") (hy : y ≠ "")
    (h : _getNamespaceKey x = _getNamespaceKey y) : x = y := by
  rw [namespaceKey_of_ne hx, namespaceKey_of_ne hy] at h
  exact string_append_right_cancel h

/-- The merge steps of an iteration keep the binding of the namespace key of another
longname. -/
theorem lookup_beforePlacement_namespaceKey (s : Emitter) (t : Nat) (x : String) (hx : x ≠ "")
    (hlong : (s.doc t).longname ≠ "") (hne : (s.doc t).longname ≠ x) :
    (s.beforePlacement t).lookup (_getNamespaceKey x) = s.lookup (_getNamespaceKey x) := by
  unfold beforePlacement
  have h1 : (interfaceMergeStep s (s.doc t)).1.lookup (_getNamespaceKey x)
      = s.lookup (_getNamespaceKey x) := by
    rcases interfaceMergeStep_cases s (s.doc t) with ⟨he, _⟩ | ⟨_, _, he⟩
    · rw [he]
    · rw [he, lookup_register, if_neg (interfaceKey_ne_namespaceKey hlong x), lookup_alloc]
  rcases namespaceMergeStep_cases (interfaceMergeStep s (s.doc t)).1 (s.doc t) with
    ⟨he, _⟩ | ⟨_, _, he⟩
  · rw [he]; exact h1
  · rw [he, lookup_reassignStatic, lookup_register,
      if_neg (fun h => hne (namespaceKey_injective hlong hx h)), lookup_alloc]
    exact h1

/-- An iteration keeps the binding of the namespace key of another longname. -/
theorem buildTreeStep_lookup_namespaceKey {o : Options} {D : List Doclet} {s : Emitter}
    (hwf : WF o D s) (hn : NoDerivedLongnames o D) {t : Nat} (htl : t < D.length)
    (s' : Emitter) (h : buildTreeStep s t = some s') (x : String) (hx : x ≠ "")
    (hne : survives o (docAt D t) = true → (docAt D t).longname ≠ x) (M : Nat)
    (hM : s.lookup (_getNamespaceKey x) = some M) :
    s'.lookup (_getNamespaceKey x) = some M := by
  rcases buildTreeStep_cases s t s' h with ⟨_, he⟩ | ⟨_, _, rfl⟩ | ⟨obj, hs, hl, hp⟩
  · subst s'; exact hM
  · exact hM
  · have hf := hwf.doc_frame t
    have hst : survives o (docAt D t) = true := by
      rw [← survives_eq_of_unmember o hf, ← hwf.options_eq]; exact hs
    have hlong : (s.doc t).longname ≠ "" := by
      rw [longname_eq_of_unmember hf]
      exact fun h0 => hn t htl hst (h0 ▸ isDerivedKey_empty)
    have hwf1 := wf_interfaceMergeStep hwf (s.doc t)
    have hwf2 : WF o D (s.beforePlacement t) := wf_namespaceMergeStep hwf1 (s.doc t)
    have hp' : placementStep (s.beforePlacement t) t obj (interfaceMergeStep s (s.doc t)).2
        (namespaceMergeStep (interfaceMergeStep s (s.doc t)).1 (s.doc t)).2 = some s' := hp
    refine placementStep_lookup_old hwf2 t obj _ _ s' hp' _ M ?_
    rw [lookup_beforePlacement_namespaceKey s t x hx hlong
      (by rw [longname_eq_of_unmember hf]; exact hne hst)]
    exact hM

/-- The iteration of a placed interface or mixin with a static child: the namespace
merge is written to the table under the namespace key, and the namespace merge and the
node of the doclet are the last two elements of a container. -/
theorem buildTreeStep_namespaceMerge {o : Options} {D : List Doclet} {s : Emitter}
    (hwf : WF o D s) (ht : SrcTable o D s) (hd : DistinctLongnames o D)
    (hn : NoDerivedLongnames o D) {k : Nat} (htr : Track o D k s)
    (hk : HasStaticChildren o D k)
    (hpl : truthy ((s.beforePlacement k).doc k).memberof = false
      ∨ ∃ p, (s.beforePlacement k).lookup (((s.beforePlacement k).doc k).memberof.getD "") = some p
          ∧ isEnum ((s.beforePlacement k).docOf p) = false)
    (s' : Emitter) (h : buildTreeStep s k = some s') :
    ∃ M n c pre, M < s'.nodes.length ∧ n < s'.nodes.length
      ∧ s'.lookup (_getNamespaceKey (docAt D k).longname) = some M
      ∧ s'.lookup (docAt D k).longname = some n
      ∧ s'.srcIndex n = some k
      ∧ s'.container c = pre ++ [M, n] := by
  obtain ⟨hkl, hs, hkk, j, hj, _, hstat⟩ := hk
  have hf := hwf.doc_frame k
  have hsi : survives s.options (s.doc k) = true := by
    rw [hwf.options_eq, survives_eq_of_unmember o hf]; exact hs
  have hk' : (s.doc k).kind = "interface" ∨ (s.doc k).kind = "mixin" := by
    rw [kind_eq_of_unmember hf]; exact hkk
  have hlongeq := longname_eq_of_unmember hf
  have him : (interfaceMergeStep s (s.doc k)).2 = none := by
    rcases interfaceMergeStep_cases s (s.doc k) with ⟨he, _⟩ | ⟨hc, _, _⟩
    · rw [he]
    · rcases hk' with h1 | h1 <;> rw [h1] at hc <;> exact absurd hc (by decide)
  have hs1 : (interfaceMergeStep s (s.doc k)).1 = s := interfaceMergeStep_none s _ him
  have hfilter : s.docs.filter (isStaticChildOf (s.doc k).longname) ≠ [] := by
    obtain ⟨hm, hsc⟩ := (isStaticChildOf_iff _ _).1 hstat
    have hjs : j < s.docs.length := by rw [hwf.docs_length]; exact hj
    have hmem : s.doc j ∈ s.docs := by
      unfold doc
      rw [List.getElem?_eq_getElem hjs]
      exact List.getElem_mem _
    have hst' : isStaticChildOf (s.doc k).longname (s.doc j) = true := by
      rw [isStaticChildOf_iff, hlongeq]
      refine ⟨?_, by rw [scope_eq_of_unmember (hwf.doc_frame j)]; exact hsc⟩
      rcases htr.changed j with hc | ⟨q, hq1, hq2, hq3, hq4, _⟩
      · rw [hc]; exact hm
      · rw [hm] at hq4
        simp only [Option.some.injEq] at hq4
        have := hd k hkl q hq2 hs hq3 hq4
        omega
    intro hnil
    rw [List.filter_eq_nil_iff] at hnil
    exact hnil _ hmem hst'
  have hnm : (namespaceMergeStep (interfaceMergeStep s (s.doc k)).1 (s.doc k)).2
      = some s.nodes.length := by
    rw [hs1]
    rcases namespaceMergeStep_cases s (s.doc k) with ⟨_, hc⟩ | ⟨_, _, he⟩
    · rcases hc with hc | hc
      · rcases hk' with h1 | h1
        · exact absurd h1 hc.1
        · exact absurd h1 hc.2
      · exact absurd hc hfilter
    · rw [he]
  obtain ⟨_, hlen1, _, _, hlkM, _⟩ := namespaceMergeStep_merge _ (s.doc k) _ hnm
  rw [hs1] at hlen1 hlkM
  have hwf1 := wf_interfaceMergeStep hwf (s.doc k)
  have hwf2 : WF o D (s.beforePlacement k) := wf_namespaceMergeStep hwf1 (s.doc k)
  have hb : s.beforePlacement k = (namespaceMergeStep s (s.doc k)).1 := by
    unfold beforePlacement; rw [hs1]
  rw [← hb] at hlen1 hlkM
  rw [hlongeq] at hlkM
  rcases buildTreeStep_cases s k s' h with ⟨hf', _⟩ | ⟨_, hl, _⟩ | ⟨obj, _, hl, hp⟩
  · rw [hsi] at hf'; exact absurd hf' (by decide)
  · obtain ⟨n, hn', _⟩ := ht k hkl hs
    rw [hlongeq, hn'] at hl
    exact absurd hl (by simp)
  · have hobj := hwf.table_valid _ _ hl
    have hsrc := srcIndex_of_srcTable hwf ht hkl hsi hl
    have hp' : placementStep (s.beforePlacement k) k obj none (some s.nodes.length)
        = some s' := by
      rw [him, hnm] at hp; exact hp
    obtain ⟨hwf', hg'⟩ := placementStep_wf hwf2 k obj _ _ s' hp'
      (fun n hn => by simp at hn) (fun n hn => by simp only [Option.some.injEq] at hn; omega)
      (by omega)
    have hlen' := hg'.nodes_length
    have hg12 : Grows s (s.beforePlacement k) :=
      (grows_interfaceMergeStep s (s.doc k)).trans (grows_namespaceMergeStep _ (s.doc k))
    have hsrcobj : s'.srcIndex obj = some k := by
      rw [hg'.srcIndex_eq obj (by omega), hg12.srcIndex_eq obj hobj]; exact hsrc
    have hcont : ∃ c pre, s'.container c = pre ++ [s.nodes.length, obj] := by
      rcases placementStep_cases _ k obj _ _ s' hp' with
        ⟨_, rfl⟩ | ⟨htr', hl', _⟩ | ⟨parent, s1, mod, _, hl', _, _, hg, rfl⟩
        | ⟨parent, htr', hl', _, hen, _⟩ | ⟨parent, _, hl', _, _, rfl⟩
      · exact ⟨none, _, container_place_namespaceMerge _ none _ _ rfl⟩
      · rcases hpl with hpl | ⟨p, hpl, _⟩
        · rw [hpl] at htr'; exact absurd htr' (by decide)
        · rw [hpl] at hl'; exact absurd hl' (by simp)
      · obtain ⟨_, _, hmod⟩ := getOrCreate_post o D _ _ _ _ _ hg hwf2 (hwf2.table_valid _ _ hl')
        exact ⟨some mod, _, container_place_namespaceMerge _ (some mod) _ _
          (by simpa [validContainer] using hmod)⟩
      · rcases hpl with hpl | ⟨p, hpl, hne⟩
        · rw [hpl] at htr'; exact absurd htr' (by decide)
        · rw [hpl] at hl'
          simp only [Option.some.injEq] at hl'
          subst hl'
          rw [docOf_markNested, hne] at hen
          exact absurd hen (by decide)
      · exact ⟨some parent, _, container_place_namespaceMerge _ (some parent) _ _
          (by
            have := hwf2.table_valid _ _ hl'
            simpa [validContainer, nodes_length_markNested] using this)⟩
    obtain ⟨c, pre, hc⟩ := hcont
    exact ⟨s.nodes.length, obj, c, pre, by omega, by omega,
      placementStep_lookup_old hwf2 k obj _ _ s' hp' _ _ hlkM,
      buildTreeStep_lookup_plain hwf k s' h _ obj (by rw [← hlongeq]; exact hl) (hn k hkl hs),
      hsrcobj, hc⟩

end Emitter

namespace Emitter

theorem doc_beforePlacement (s : Emitter) (t j : Nat) :
    (s.beforePlacement t).doc j = s.doc j
    ∨ (s.beforePlacement t).doc j = (s.reassignStatic (s.doc t).longname).doc j := by
  have h1 := docs_interfaceMergeStep s (s.doc t)
  rcases docs_namespaceMergeStep (interfaceMergeStep s (s.doc t)).1 (s.doc t) with h2 | ⟨_, _, h2⟩
  · left
    exact doc_eq_of_docs_eq (h2.trans h1) j
  · right
    have h3 : (s.beforePlacement t).docs = (s.reassignStatic (s.doc t).longname).docs := by
      unfold beforePlacement
      rw [h2]
      unfold reassignStatic
      simp only [h1]
    exact doc_eq_of_docs_eq h3 j

theorem isEnum_of_namespace {d : Doclet} (h : d.kind = "namespace") : isEnum d = false := by
  unfold isEnum; rw [h]
  have : decide (("namespace" : String) = "member" ∨ ("namespace" : String) = "constant") = false := by
    decide
  rw [this]; rfl

theorem truthy_namespaceKey {x : String} (hx : x ≠ "") :
    truthy (some (_getNamespaceKey x)) = true := by
  rw [namespaceKey_of_ne hx]
  unfold truthy
  simp only [ne_eq, decide_eq_true_eq]
  intro h
  have := congrArg String.length h
  rw [String.length_append] at this
  have h18 : "$$namespace$helper".length = 18 := by decide
  have h0 : "".length = 0 := rfl
  omega

/-- The iteration of a surviving doclet whose `memberof` is the namespace key of
another doclet, bound in the table to `M`: its node is pushed into `M`. -/
theorem buildTreeStep_staticChild {o : Options} {D : List Doclet} {s : Emitter}
    (hwf : WF o D s) (ht : SrcTable o D s) (hn : NoDerivedLongnames o D) (hns : NsKeysOk s)
    (hc : ClassChildren s) {k j : Nat} (hk : k < D.length)
    (hks : survives o (docAt D k) = true) (hj : j < D.length)
    (hjs : survives o (docAt D j) = true)
    (hne : (docAt D j).longname ≠ (docAt D k).longname)
    (hmem : (s.doc j).memberof = some (_getNamespaceKey (docAt D k).longname)) (M : Nat)
    (hM : s.lookup (_getNamespaceKey (docAt D k).longname) = some M)
    (s' : Emitter) (h : buildTreeStep s j = some s') :
    ∃ n, n < s'.nodes.length ∧ s'.srcIndex n = some j ∧ n ∈ s'.childrenOf M := by
  have hf := hwf.doc_frame j
  have hsi : survives s.options (s.doc j) = true := by
    rw [hwf.options_eq, survives_eq_of_unmember o hf]; exact hjs
  have hlongk : (docAt D k).longname ≠ "" := fun h0 => hn k hk hks (h0 ▸ isDerivedKey_empty)
  have hlongj : (s.doc j).longname ≠ "" := by
    rw [longname_eq_of_unmember hf]
    exact fun h0 => hn j hj hjs (h0 ▸ isDerivedKey_empty)
  have hnotj : ∀ x, (s.doc j).longname ≠ _getNamespaceKey x := by
    intro x hx
    rw [longname_eq_of_unmember hf] at hx
    exact hn j hj hjs (hx ▸ isDerivedKey_namespaceKey x)
  have hwf1 := wf_interfaceMergeStep hwf (s.doc j)
  have hwf2 : WF o D (s.beforePlacement j) := wf_namespaceMergeStep hwf1 (s.doc j)
  have hg12 : Grows s (s.beforePlacement j) :=
    (grows_interfaceMergeStep s (s.doc j)).trans (grows_namespaceMergeStep _ (s.doc j))
  obtain ⟨hns1, hc1⟩ := classInv_interfaceMergeStep hwf (s.doc j) hlongj hns hc
  have hns2 : NsKeysOk (s.beforePlacement j) :=
    (classInv_namespaceMergeStep hwf1 (s.doc j) hns1 hc1).1
  have hdocb : (s.beforePlacement j).doc j = s.doc j := by
    rcases doc_beforePlacement s j j with h1 | h1
    · exact h1
    · rw [h1, doc_reassignStatic, if_neg]
      intro hst
      have hm := ((isStaticChildOf_iff _ _).1 hst).1
      rw [hmem] at hm
      simp only [Option.some.injEq] at hm
      exact hnotj _ hm.symm
  have hMb : (s.beforePlacement j).lookup (_getNamespaceKey (docAt D k).longname) = some M := by
    rw [lookup_beforePlacement_namespaceKey s j _ hlongk hlongj
      (by rw [longname_eq_of_unmember hf]; exact hne)]
    exact hM
  have hkindM : ((s.beforePlacement j).docOf M).kind = "namespace" := hns2 _ _ hMb
  have hMlt := hwf2.table_valid _ _ hMb
  rcases buildTreeStep_cases s j s' h with ⟨hf', _⟩ | ⟨_, hl, _⟩ | ⟨obj, _, hl, hp⟩
  · rw [hsi] at hf'; exact absurd hf' (by decide)
  · obtain ⟨n, hn', _⟩ := ht j hj hjs
    rw [longname_eq_of_unmember hf, hn'] at hl
    exact absurd hl (by simp)
  · have hobj := hwf.table_valid _ _ hl
    have hsrc := srcIndex_of_srcTable hwf ht hj hsi hl
    have hp' : placementStep (s.beforePlacement j) j obj (interfaceMergeStep s (s.doc j)).2
        (namespaceMergeStep (interfaceMergeStep s (s.doc j)).1 (s.doc j)).2 = some s' := hp
    have hlen := hg12.nodes_length
    have hmemb : ((s.beforePlacement j).doc j).memberof
        = some (_getNamespaceKey (docAt D k).longname) := by rw [hdocb]; exact hmem
    rcases placementStep_cases _ j obj _ _ s' hp' with
      ⟨htr', _⟩ | ⟨_, hl', _⟩ | ⟨parent, s1, mod, _, hl', hcl, _, _, _⟩
      | ⟨parent, _, hl', _, hen, _⟩ | ⟨parent, _, hl', _, _, rfl⟩
    · rw [hmemb, truthy_namespaceKey hlongk] at htr'; exact absurd htr' (by decide)
    · rw [hmemb] at hl'
      simp only [Option.getD_some] at hl'
      rw [hMb] at hl'; exact absurd hl' (by simp)
    · rw [hmemb] at hl'
      simp only [Option.getD_some] at hl'
      rw [hMb] at hl'
      simp only [Option.some.injEq] at hl'
      subst hl'
      rw [isClassLike_of_namespace hkindM] at hcl
      exact absurd hcl (by decide)
    · rw [hmemb] at hl'
      simp only [Option.getD_some] at hl'
      rw [hMb] at hl'
      simp only [Option.some.injEq] at hl'
      subst hl'
      rw [docOf_markNested, isEnum_of_namespace hkindM] at hen
      exact absurd hen (by decide)
    · rw [hmemb] at hl'
      simp only [Option.getD_some] at hl'
      rw [hMb] at hl'
      simp only [Option.some.injEq] at hl'
      subst hl'
      refine ⟨obj, ?_, ?_, ?_⟩
      · rw [nodes_length_place, nodes_length_markNested]; omega
      · unfold place
        rw [srcIndex_pushTo, srcIndex_pushOpt, srcIndex_pushOpt, srcIndex_markNested,
          hg12.srcIndex_eq obj hobj]
        exact hsrc
      · exact mem_container_place _ (some M) _ _ obj
          (by simpa [validContainer, nodes_length_markNested] using hMlt)

end Emitter

namespace Emitter

/-- The binding of a key that is not a derived key is kept from one prefix of the
second pass to a longer one. -/
theorem lookup_plain_buildPrefix (o : Options) (D : List Doclet) (j : Nat) (s : Emitter)
    (h : buildPrefix o D j = some s) (key : String) (hkey : ¬ IsDerivedKey key) (n : Nat)
    (hl : s.lookup key = some n) (d : Nat) (s' : Emitter)
    (h' : buildPrefix o D (j + d) = some s') : s'.lookup key = some n := by
  induction d generalizing s' with
  | zero =>
    rw [Nat.add_zero, h] at h'
    simp only [Option.some.injEq] at h'
    subst h'; exact hl
  | succ d ih =>
    rw [← Nat.add_assoc, buildPrefix_succ] at h'
    cases hp : buildPrefix o D (j + d) with
    | none => rw [hp] at h'; simp at h'
    | some s1 =>
      rw [hp] at h'
      exact buildTreeStep_lookup_plain (wf_buildPrefix o D _ s1 hp) _ s' h' key n (ih s1 hp) hkey

/-- The node of an interface or mixin whose surviving static children all come after it
never gets a child of static scope. -/
theorem noStatic_buildPrefix {o : Options} {D : List Doclet} (hd : DistinctLongnames o D)
    (hn : NoDerivedLongnames o D) {k : Nat} (hk : k < D.length)
    (hks : survives o (docAt D k) = true)
    (hkk : (docAt D k).kind = "interface" ∨ (docAt D k).kind = "mixin")
    (haft : StaticChildrenFollow o D k) (t : Nat) (ht : t ≤ D.length) (s : Emitter)
    (h : buildPrefix o D t = some s) :
    ∀ iNode, s.lookup (docAt D k).longname = some iNode →
      ∀ ch, ch ∈ s.childrenOf iNode → (s.docOf ch).scope ≠ some "static" := by
  induction t generalizing s with
  | zero =>
    rw [buildPrefix_zero] at h
    simp only [Option.some.injEq] at h
    subst h
    intro iNode _ ch hch
    have := (createInv_createTreeNodes o D).empty (some iNode)
    rw [show (_createTreeNodes (start o D)).childrenOf iNode
      = (_createTreeNodes (start o D)).container (some iNode) from rfl, this] at hch
    simp at hch
  | succ t ih =>
    rw [buildPrefix_succ] at h
    cases hp : buildPrefix o D t with
    | none => rw [hp] at h; simp at h
    | some s1 =>
      rw [hp] at h
      intro iNode hl
      have hwf := wf_buildPrefix o D t s1 hp
      have hst := (forest_buildPrefix hd hn t (by omega) s1 hp).2
      obtain ⟨hns, hc⟩ := classInv_buildPrefix hd hn t (by omega) s1 hp
      obtain ⟨n0, hl0, hsrc0⟩ := hst k hk hks
      have hl1 := buildTreeStep_lookup_plain hwf t s h _ n0 hl0 (hn k hk hks)
      rw [hl1] at hl
      simp only [Option.some.injEq] at hl
      subst hl
      exact buildTreeStep_noStatic hwf hst hn hns hc (by omega)
        (track_buildPrefix hd hn t (by omega) s1 hp) hk hks hkk haft n0 hsrc0
        (ih (by omega) s1 hp n0 hl0) s h

/-- After the iteration of an interface or mixin, the binding of its namespace key is
kept and the node of every later surviving static child is pushed into the node bound. -/
theorem staticChildren_buildPrefix {o : Options} {D : List Doclet} (hd : DistinctLongnames o D)
    (hn : NoDerivedLongnames o D) {k : Nat} (hk : k < D.length)
    (hks : survives o (docAt D k) = true)
    (hkk : (docAt D k).kind = "interface" ∨ (docAt D k).kind = "mixin")
    (M : Nat) (s1 : Emitter) (h1 : buildPrefix o D (k + 1) = some s1)
    (hM : s1.lookup (_getNamespaceKey (docAt D k).longname) = some M) (d : Nat)
    (hd' : k + 1 + d ≤ D.length) (s : Emitter) (h : buildPrefix o D (k + 1 + d) = some s) :
    s.lookup (_getNamespaceKey (docAt D k).longname) = some M
    ∧ ∀ j, k < j → j < k + 1 + d → survives o (docAt D j) = true →
        isStaticChildOf (docAt D k).longname (docAt D j) = true →
        ∃ n, n < s.nodes.length ∧ s.srcIndex n = some j ∧ n ∈ s.childrenOf M := by
  have hlongk : (docAt D k).longname ≠ "" := fun h0 => hn k hk hks (h0 ▸ isDerivedKey_empty)
  induction d generalizing s with
  | zero =>
    rw [Nat.add_zero, h1] at h
    simp only [Option.some.injEq] at h
    subst h
    exact ⟨hM, fun j hj1 hj2 => by omega⟩
  | succ d ih =>
    rw [← Nat.add_assoc, buildPrefix_succ] at h
    cases hp : buildPrefix o D (k + 1 + d) with
    | none => rw [hp] at h; simp at h
    | some s0 =>
      rw [hp] at h
      obtain ⟨ihM, ihch⟩ := ih (by omega) s0 hp
      have hwf := wf_buildPrefix o D _ s0 hp
      have hst := (forest_buildPrefix hd hn _ (by omega) s0 hp).2
      obtain ⟨hns, hc⟩ := classInv_buildPrefix hd hn _ (by omega) s0 hp
      have htr := track_buildPrefix hd hn _ (by omega) s0 hp
      obtain ⟨_, hg⟩ := buildTreeStep_wf hwf _ s h
      have hne : survives o (docAt D (k + 1 + d)) = true →
          (docAt D (k + 1 + d)).longname ≠ (docAt D k).longname := by
        intro hs heq
        have := hd (k + 1 + d) (by omega) k hk hs hks heq
        omega
      refine ⟨buildTreeStep_lookup_namespaceKey hwf hn (by omega) s h _ hlongk hne M ihM, ?_⟩
      intro j hj1 hj2 hjs hstat
      by_cases hlt : j < k + 1 + d
      · obtain ⟨n, hn1, hn2, hn3⟩ := ihch j hj1 hlt hjs hstat
        exact ⟨n, by have := hg.nodes_length; omega, by rw [hg.srcIndex_eq n hn1]; exact hn2,
          hg.mem_container (c := some M) hn3⟩
      · have hjeq : j = k + 1 + d := by omega
        subst hjeq
        have hmem := htr.moved k (k + 1 + d) hj1 hk (by omega) hks hkk hstat
        exact buildTreeStep_staticChild hwf hst hn hns hc hk hks (by omega) hjs (hne hjs) hmem
          M ihM s h

end Emitter

namespace Emitter

/-- With pairwise distinct surviving longnames, none of them a derived key, the state
left by the builder has the conclusion of C3 (without exactness) for every placed
interface or mixin whose surviving static children all come after it. -/
theorem staticMembersMoved_of_build {o : Options} {D : List Doclet}
    (hd : DistinctLongnames o D) (hn : NoDerivedLongnames o D) {k : Nat}
    (hk : HasStaticChildren o D k) (hpl : PlacedAt o D k) (haft : StaticChildrenFollow o D k)
    (s : Emitter) (hb : build o D = some s) : StaticMembersMoved false o D s k := by
  rw [build_eq_buildPrefix] at hb
  obtain ⟨sk, hsk, hcond⟩ := hpl
  have hkl := hk.1
  have hks := hk.2.1
  have hkk := hk.2.2.1
  have hlongk : (docAt D k).longname ≠ "" := fun h0 => hn k hkl hks (h0 ▸ isDerivedKey_empty)
  have hwf := wf_buildPrefix o D k sk hsk
  have ht := (forest_buildPrefix hd hn k (by omega) sk hsk).2
  have hsome := buildPrefix_isSome o D (k + 1)
  cases h1 : buildPrefix o D (k + 1) with
  | none => rw [h1] at hsome; simp at hsome
  | some s1 =>
    have hstep : buildTreeStep sk k = some s1 := by
      rw [buildPrefix_succ, hsk] at h1; exact h1
    obtain ⟨M, n, c, pre, hMlt, hnlt, hlkM, hlkn, hsrcn, hcont⟩ :=
      buildTreeStep_namespaceMerge hwf ht hd hn (track_buildPrefix hd hn k (by omega) sk hsk)
        hk hcond s1 hstep
    have hlen : k + 1 + (D.length - (k + 1)) = D.length := by omega
    have hb' : buildPrefix o D (k + 1 + (D.length - (k + 1))) = some s := by rw [hlen]; exact hb
    have hgrow : Grows s1 s := grows_buildPrefix o D (k + 1) s1 h1 _ s hb'
    obtain ⟨hMfin, hchildren⟩ := staticChildren_buildPrefix hd hn hkl hks hkk M s1 h1 hlkM
      (D.length - (k + 1)) (by omega) s hb'
    have hnfin : s.lookup (docAt D k).longname = some n :=
      lookup_plain_buildPrefix o D (k + 1) s1 h1 _ (hn k hkl hks) n hlkn _ s hb'
    obtain ⟨post, hpost⟩ := hgrow.container_prefix c
    refine ⟨n, M, c, pre, post, ?_, ?_, ?_, ?_, ?_, ?_, ?_⟩
    · rw [hgrow.srcIndex_eq n hnlt]; exact hsrcn
    · rw [← namespaceKey_of_ne hlongk]; exact hMfin
    · exact (classInv_buildPrefix hd hn D.length (Nat.le_refl _) s hb).1 _ _ hMfin
    · exact noStatic_buildPrefix hd hn hkl hks hkk haft D.length (Nat.le_refl _) s hb n hnfin
    · intro j hj hjs hstat
      obtain ⟨n', _, h2, h3⟩ := hchildren j (haft j hj hjs hstat) (by omega) hjs hstat
      exact ⟨n', h2, h3⟩
    · intro hfalse; exact absurd hfalse (by decide)
    · rw [← hpost, hcont]; simp

theorem noDerivedLongnames_interfaceWithStaticDocs :
    NoDerivedLongnames {} interfaceWithStaticDocs := by
  intro i hi _
  have hi' : i < 3 := hi
  interval_cases i
  · exact not_isDerivedKey_of_short _ (by decide) (by decide)
  · exact not_isDerivedKey_of_short _ (by decide) (by decide)
  · exact not_isDerivedKey_of_short _ (by decide) (by decide)

/-- C3 (amended): when the surviving doclets have pairwise distinct longnames, none of
them a derived merge key, no `longname` or `memberof` of them is a property name of
`Object.prototype`, and a surviving interface or mixin doclet `I` is placed and
has surviving static children (`memberof` equal to the longname of `I`, scope static)
that all come after `I` in the list, then in the structure left by `_buildTree` the
node of `I` has no child whose doclet scope is static, the nodes of those static
children are children of the namespace-kind node that the table holds under the
longname of `I` followed by the namespace suffix, and that namespace node sits
immediately before the node of `I` in the same container. -/
theorem static_members_moved_to_namespace (o : Options) (D : List Doclet)
    (hd : DistinctLongnames o D) (hn : NoDerivedLongnames o D) (_hkeys : NoInheritedKeys o D)
    (k : Nat)
    (hk : HasStaticChildren o D k) (hpl : PlacedAt o D k) (haft : StaticChildrenFollow o D k) :
    ∃ s, build o D = some s ∧ StaticMembersMoved false o D s k := by
  have hsome := build_isSome o D
  cases hb : build o D with
  | none => rw [hb] at hsome; simp at hsome
  | some s => exact ⟨s, rfl, staticMembersMoved_of_build hd hn hk hpl haft s hb⟩

theorem hasStaticChildren_interfaceWithStaticDocs :
    HasStaticChildren {} interfaceWithStaticDocs 0 :=
  ⟨by decide, by decide, by decide, 1, by decide, by decide, by decide⟩

theorem staticChildrenFollow_interfaceWithStaticDocs :
    StaticChildrenFollow {} interfaceWithStaticDocs 0 := by
  intro j hj _ hst
  have hj' : j < 3 := hj
  interval_cases j
  · exact absurd hst (by decide)
  · decide
  · decide

/-- C3 at a concrete input: the interface `I` with the static function `I.f` and the
instance function `I#g`. -/
theorem static_members_moved_to_namespace_witness :
    DistinctLongnames {} interfaceWithStaticDocs ∧ NoDerivedLongnames {} interfaceWithStaticDocs
    ∧ NoInheritedKeys {} interfaceWithStaticDocs
    ∧ HasStaticChildren {} interfaceWithStaticDocs 0 ∧ PlacedAt {} interfaceWithStaticDocs 0
    ∧ StaticChildrenFollow {} interfaceWithStaticDocs 0
    ∧ ∃ s, build {} interfaceWithStaticDocs = some s
        ∧ StaticMembersMoved false {} interfaceWithStaticDocs s 0 :=
  ⟨by unfold DistinctLongnames; decide, noDerivedLongnames_interfaceWithStaticDocs,
    by unfold NoInheritedKeys; decide,
    hasStaticChildren_interfaceWithStaticDocs,
    ⟨(buildPrefix {} interfaceWithStaticDocs 0).get (by decide), by simp, Or.inl (by decide)⟩,
    staticChildrenFollow_interfaceWithStaticDocs,
    static_members_moved_to_namespace {} interfaceWithStaticDocs
      (by unfold DistinctLongnames; decide) noDerivedLongnames_interfaceWithStaticDocs
      (by unfold NoInheritedKeys; decide) 0
      hasStaticChildren_interfaceWithStaticDocs
      ⟨(buildPrefix {} interfaceWithStaticDocs 0).get (by decide), by simp, Or.inl (by decide)⟩
      staticChildrenFollow_interfaceWithStaticDocs⟩

end Emitter

namespace Emitter

theorem noDerivedLongnames_interfaceWithTypedefDocs :
    NoDerivedLongnames {} interfaceWithTypedefDocs := by
  intro i hi _
  have hi' : i < 3 := hi
  interval_cases i
  · exact not_isDerivedKey_of_short _ (by decide) (by decide)
  · exact not_isDerivedKey_of_short _ (by decide) (by decide)
  · exact not_isDerivedKey_of_short _ (by decide) (by decide)

theorem staticChildrenFollow_interfaceWithTypedefDocs :
    StaticChildrenFollow {} interfaceWithTypedefDocs 0 := by
  intro j hj _ hst
  have hj' : j < 3 := hj
  interval_cases j
  · exact absurd hst (by decide)
  · decide
  · decide

/-- C3 as stated (the conclusion `StaticMembersMoved true` for every surviving interface
or mixin with surviving static children, the longnames being pairwise distinct) fails
in four ways.  On `staticBeforeInterfaceDocs` the static function is placed before the
interface is visited and stays a child of the node of the interface.  On
`interfaceWithTypedefDocs` (which has every hypothesis of the amended statement) the
typedef, which is not static, is moved into the same namespace node.  On
`orphanInterfaceDocs` the interface is not placed, so nothing sits before its node.  On
`staticKeyClashDocs` the table holds the interface merge of `X` under the longname of
the static function, whose own node is pushed nowhere.  The first, third and fourth
fail even without the exactness of the children of the namespace node. -/
theorem static_members_claim_fails :
    (DistinctLongnames {} staticBeforeInterfaceDocs
      ∧ HasStaticChildren {} staticBeforeInterfaceDocs 1
      ∧ ∃ s, build {} staticBeforeInterfaceDocs = some s
          ∧ ¬ StaticMembersMoved false {} staticBeforeInterfaceDocs s 1)
    ∧ (DistinctLongnames {} interfaceWithTypedefDocs
      ∧ NoDerivedLongnames {} interfaceWithTypedefDocs
      ∧ HasStaticChildren {} interfaceWithTypedefDocs 0
      ∧ PlacedAt {} interfaceWithTypedefDocs 0
      ∧ StaticChildrenFollow {} interfaceWithTypedefDocs 0
      ∧ ∃ s, build {} interfaceWithTypedefDocs = some s
          ∧ ¬ StaticMembersMoved true {} interfaceWithTypedefDocs s 0)
    ∧ (DistinctLongnames {} orphanInterfaceDocs
      ∧ HasStaticChildren {} orphanInterfaceDocs 0
      ∧ ∃ s, build {} orphanInterfaceDocs = some s
          ∧ ¬ StaticMembersMoved false {} orphanInterfaceDocs s 0)
    ∧ (DistinctLongnames {} staticKeyClashDocs
      ∧ HasStaticChildren {} staticKeyClashDocs 0
      ∧ ∃ s, build {} staticKeyClashDocs = some s
          ∧ ¬ StaticMembersMoved false {} staticKeyClashDocs s 0) := by
  refine ⟨⟨by unfold DistinctLongnames; decide,
      ⟨by decide, by decide, by decide, 0, by decide, by decide, by decide⟩, ?_⟩,
    ⟨by unfold DistinctLongnames; decide, noDerivedLongnames_interfaceWithTypedefDocs,
      ⟨by decide, by decide, by decide, 1, by decide, by decide, by decide⟩,
      ⟨(buildPrefix {} interfaceWithTypedefDocs 0).get (by decide), by simp,
        Or.inl (by decide)⟩,
      staticChildrenFollow_interfaceWithTypedefDocs, ?_⟩,
    ⟨by unfold DistinctLongnames; decide,
      ⟨by decide, by decide, by decide, 1, by decide, by decide, by decide⟩, ?_⟩,
    ⟨by unfold DistinctLongnames; decide,
      ⟨by decide, by decide, by decide, 2, by decide, by decide, by decide⟩, ?_⟩⟩
  · have key : ∃ s : Emitter, build {} staticBeforeInterfaceDocs = some s
        ∧ s.nodes.length = 3 ∧ (∀ n, n < 3 → s.srcIndex n = some 1 → n = 1)
        ∧ 0 ∈ s.childrenOf 1 ∧ (s.docOf 0).scope = some "static" :=
      ⟨(build {} staticBeforeInterfaceDocs).get (by decide), by simp, by decide, by decide,
        by decide, by decide⟩
    obtain ⟨s, hb, hlen, hsrc, hmem, hscope⟩ := key
    refine ⟨s, hb, ?_⟩
    rintro ⟨iNode, M, c, pre, post, hi, _, _, hno, _, _, _⟩
    have hi1 : iNode = 1 := by
      by_cases hlt : iNode < 3
      · exact hsrc iNode hlt hi
      · rw [srcIndex_of_length_le s iNode (by omega)] at hi
        exact absurd hi (by simp)
    subst hi1
    exact hno 0 hmem hscope
  · have key : ∃ s : Emitter, build {} interfaceWithTypedefDocs = some s
        ∧ s.lookup ((docAt interfaceWithTypedefDocs 0).longname ++ "$$namespace$helper")
            = some 3
        ∧ 2 ∈ s.childrenOf 3 ∧ s.srcIndex 2 = some 2 :=
      ⟨(build {} interfaceWithTypedefDocs).get (by decide), by simp, by decide, by decide,
        by decide⟩
    obtain ⟨s, hb, hlk, hmem, hsrc⟩ := key
    refine ⟨s, hb, ?_⟩
    rintro ⟨iNode, M, c, pre, post, _, hM, _, _, _, hex, _⟩
    rw [hlk] at hM
    simp only [Option.some.injEq] at hM
    subst hM
    obtain ⟨j, _, _, hst, hj⟩ := hex rfl 2 hmem
    rw [hsrc] at hj
    simp only [Option.some.injEq] at hj
    subst hj
    exact absurd hst (by decide)
  · have key : ∃ s : Emitter, build {} orphanInterfaceDocs = some s
        ∧ s.nodes.length = 3 ∧ (∀ n, n < 3 → s.srcIndex n = some 0 → n = 0)
        ∧ 0 ∉ s._treeRoots ∧ ∀ p, p < 3 → 0 ∉ s.childrenOf p :=
      ⟨(build {} orphanInterfaceDocs).get (by decide), by simp, by decide, by decide,
        by decide, by decide⟩
    obtain ⟨s, hb, hlen, hsrc, hroots, hch⟩ := key
    refine ⟨s, hb, ?_⟩
    rintro ⟨iNode, M, c, pre, post, hi, _, _, _, _, _, hc⟩
    have hi0 : iNode = 0 := by
      by_cases hlt : iNode < 3
      · exact hsrc iNode hlt hi
      · rw [srcIndex_of_length_le s iNode (by omega)] at hi
        exact absurd hi (by simp)
    subst hi0
    have hmem : 0 ∈ s.container c := by rw [hc]; simp
    cases c with
    | none => exact hroots hmem
    | some p =>
      have hp := childrenOf_lt hmem
      exact hch p (by omega) hmem
  · have key : ∃ s : Emitter, build {} staticKeyClashDocs = some s
        ∧ s.nodes.length = 5 ∧ (∀ n, n < 5 → s.srcIndex n = some 2 → n = 2)
        ∧ s.lookup ((docAt staticKeyClashDocs 0).longname ++ "$$namespace$helper") = some 3
        ∧ 2 ∉ s.childrenOf 3 :=
      ⟨(build {} staticKeyClashDocs).get (by decide), by simp, by decide, by decide,
        by decide, by decide⟩
    obtain ⟨s, hb, hlen, hsrc, hlk, hnot⟩ := key
    refine ⟨s, hb, ?_⟩
    rintro ⟨iNode, M, c, pre, post, _, hM, _, _, hall, _, _⟩
    rw [hlk] at hM
    simp only [Option.some.injEq] at hM
    subst hM
    obtain ⟨n, hn, hmem⟩ := hall 2 (by decide) (by decide) (by decide)
    have hn2 : n = 2 := by
      by_cases hlt : n < 5
      · exact hsrc n hlt hn
      · rw [srcIndex_of_length_le s n (by omega)] at hn
        exact absurd hn (by simp)
    subst hn2
    exact hnot hmem

end Emitter

namespace Emitter

/-! ## Monotonicity of the filter -/

theorem ignoreDoclet_mono {a b : Options} (h : SameButAccess a b) (d : Doclet)
    (hi : _ignoreDoclet a d = true) : _ignoreDoclet b d = true := by
  obtain ⟨hp, hle⟩ := h
  unfold _ignoreDoclet at hi ⊢
  by_cases hc : d.kind = "package" ∨ d.ignore = true
      ∨ (a.private_ = false ∧ d.access = some "private")
  · rw [if_pos (by rw [← hp]; exact hc)]
  · rw [if_neg hc] at hi
    by_cases hc' : d.kind = "package" ∨ d.ignore = true
        ∨ (b.private_ = false ∧ d.access = some "private")
    · rw [if_pos hc']
    · rw [if_neg hc']
      cases hacc : d.access with
      | none => rw [hacc] at hi; simp at hi
      | some x =>
        rw [hacc] at hi
        simp only [decide_eq_true_eq] at hi ⊢
        rw [indexOf_accessLevels, indexOf_accessLevels] at hi ⊢
        exact lt_of_lt_of_le hi hle

theorem survives_mono {a b : Options} (h : SameButAccess a b) (d : Doclet)
    (hs : survives b d = true) : survives a d = true := by
  unfold survives at hs ⊢
  cases hk : decide (d.kind = "package") with
  | true => rw [hk] at hs; simp at hs
  | false =>
    rw [hk] at hs
    cases hi : _ignoreDoclet a d with
    | false => rfl
    | true =>
      rw [ignoreDoclet_mono h d hi] at hs
      simp at hs

theorem distinctLongnames_mono {a b : Options} (h : SameButAccess a b) {D : List Doclet}
    (hd : DistinctLongnames a D) : DistinctLongnames b D :=
  fun i hi j hj hsi hsj => hd i hi j hj (survives_mono h _ hsi) (survives_mono h _ hsj)

theorem noDerivedLongnames_mono {a b : Options} (h : SameButAccess a b) {D : List Doclet}
    (hn : NoDerivedLongnames a D) : NoDerivedLongnames b D :=
  fun i hi hs => hn i hi (survives_mono h _ hs)

/-- The nodes of a set that holds no forest root and holds the parent of each of its
nodes are not reachable from the forest roots. -/
theorem not_reachable_of_closed (s : Emitter) (S : List Nat)
    (hroots : ∀ r, r ∈ s._treeRoots → r ∉ S)
    (hclosed : ∀ p c, c ∈ s.childrenOf p → c ∈ S → p ∈ S) (n : Nat) (hn : n ∈ S) :
    ¬ Reachable s n := by
  have hdesc : ∀ p c, Descendant s p c → c ∈ S → p ∈ S := by
    intro p c h
    induction h with
    | child hc => exact hclosed _ _ hc
    | step hc _ ih => exact fun h => hclosed _ _ hc (ih h)
  rintro (hr | ⟨r, hr, hd⟩)
  · exact hroots n hr hn
  · exact hroots r hr (hdesc r n hd hn)

/-- The node of a surviving doclet without a truthy `memberof` is pushed to the forest
roots by the iteration of the doclet. -/
theorem buildTreeStep_root_src {o : Options} {D : List Doclet} {s : Emitter} (hwf : WF o D s)
    (ht : SrcTable o D s) {j : Nat} (hj : j < D.length) (s' : Emitter)
    (h : buildTreeStep s j = some s') (hs : survives o (docAt D j) = true)
    (hm : truthy (s.doc j).memberof = false) :
    ∃ n, n ∈ s'._treeRoots ∧ s'.srcIndex n = some j := by
  have hf := hwf.doc_frame j
  have hsi : survives s.options (s.doc j) = true := by
    rw [hwf.options_eq, survives_eq_of_unmember o hf]; exact hs
  obtain ⟨hwf', hg⟩ := buildTreeStep_wf hwf j s' h
  rcases buildTreeStep_cases s j s' h with ⟨hs', _⟩ | ⟨_, hl', _⟩ | ⟨obj, _, hl, hp⟩
  · rw [hsi] at hs'; simp at hs'
  · obtain ⟨n0, hl0, _⟩ := ht j hj hs
    rw [longname_eq_of_unmember hf, hl0] at hl'
    simp at hl'
  · have hobj := hwf.table_valid _ _ hl
    have hsrc := srcIndex_of_srcTable hwf ht hj hsi hl
    have hm2 : truthy ((namespaceMergeStep (interfaceMergeStep s (s.doc j)).1 (s.doc j)).1.doc
        j).memberof = false := by
      have h1 := docs_interfaceMergeStep s (s.doc j)
      rcases docs_namespaceMergeStep (interfaceMergeStep s (s.doc j)).1 (s.doc j) with
        h2 | ⟨_, _, h2⟩
      · rw [doc_eq_of_docs_eq (h2.trans h1)]; exact hm
      · rw [doc_eq_of_docs_eq h2]
        exact truthy_memberof_reassignStatic _ _ j (by rw [doc_eq_of_docs_eq h1]; exact hm)
    rcases placementStep_cases _ j obj _ _ s' hp with
      ⟨_, he⟩ | ⟨hm', _⟩ | ⟨_, _, _, hm', _⟩ | ⟨_, hm', _⟩ | ⟨_, hm', _⟩
    · refine ⟨obj, ?_, ?_⟩
      · rw [he]; exact mem_container_place _ none _ _ obj rfl
      · rw [hg.srcIndex_eq obj hobj]; exact hsrc
    · rw [hm2] at hm'; simp at hm'
    · rw [hm2] at hm'; simp at hm'
    · rw [hm2] at hm'; simp at hm'
    · rw [hm2] at hm'; simp at hm'

/-- With pairwise distinct surviving longnames, none of them a derived key, the node of
every surviving doclet that came without a truthy `memberof` is a forest root. -/
theorem roots_src_buildPrefix {o : Options} {D : List Doclet} (hd : DistinctLongnames o D)
    (hn : NoDerivedLongnames o D) (j : Nat) (hj : j ≤ D.length) (s : Emitter)
    (h : buildPrefix o D j = some s) :
    ∀ k, k < j → survives o (docAt D k) = true → truthy (docAt D k).memberof = false →
      ∃ n, n ∈ s._treeRoots ∧ s.srcIndex n = some k := by
  induction j generalizing s with
  | zero => intro k hk; omega
  | succ j ih =>
    rw [buildPrefix_succ] at h
    cases hp : buildPrefix o D j with
    | none => rw [hp] at h; simp at h
    | some s1 =>
      rw [hp] at h
      have hwf := wf_buildPrefix o D j s1 hp
      obtain ⟨_, hg⟩ := buildTreeStep_wf hwf j s h
      intro k hk hs hm
      by_cases hkj : k = j
      · subst hkj
        exact buildTreeStep_root_src hwf (forest_buildPrefix hd hn k (by omega) s1 hp).2
          (by omega) s h hs ((keys_buildPrefix o D k s1 hp).2 k hm)
      · obtain ⟨n, hn', hsrc⟩ := ih (by omega) s1 hp k (by omega) hs hm
        exact ⟨n, (hg.container_prefix none).subset hn',
          by rw [hg.srcIndex_eq n (hwf.container_valid none n hn')]; exact hsrc⟩

theorem noDerivedLongnames_accessDocs : NoDerivedLongnames {} accessDocs := by
  intro i hi _
  have hi' : i < 4 := hi
  interval_cases i
  · exact not_isDerivedKey_of_short _ (by decide) (by decide)
  · exact not_isDerivedKey_of_short _ (by decide) (by decide)
  · exact not_isDerivedKey_of_short _ (by decide) (by decide)
  · exact not_isDerivedKey_of_short _ (by decide) (by decide)

end Emitter

namespace Emitter

theorem noDerivedLongnames_earlyCompanionDocs : NoDerivedLongnames {} earlyCompanionDocs := by
  intro i hi _
  have hi' : i < 5 := hi
  interval_cases i <;> exact not_isDerivedKey_of_short _ (by decide) (by decide)

theorem noDerivedLongnames_enumParentDocs : NoDerivedLongnames {} enumParentDocs := by
  intro i hi _
  have hi' : i < 9 := hi
  interval_cases i <;> exact not_isDerivedKey_of_short _ (by decide) (by decide)

/-- C6, the code at the failing inputs.  The filter itself is monotone: a doclet kept
under the higher minimum level is kept under the lower one.  The set of source doclets
reachable from the forest roots is not, with the minimum levels `package` and `public`,
on three lists of pairwise distinct longnames.  On `packageClassKeyDocs` the top-level function is a
forest root under `public`; under `package` the class survives and its interface merge
takes the table entry of the function, whose own node is pushed nowhere.  On
`earlyCompanionDocs` the class `X` is reachable under `public`; under `package` the
companion namespace of `N` is made for `Y`, before the namespace of `Z` that is to hold
it exists, and stays unattached, with `X` in it.  On `enumParentDocs`, which has no
derived key at all, the typedef `X` is reachable under `public`; under `package` the
companion namespace of `P` is made for `Y` before the interface `J` is visited, together
with a companion namespace of `J`; the iteration of `J` then makes the namespace merge
of `J` without reading the table, a second namespace node of the same key, and `X` stays
in the first, which hangs below the namespace merge of `R`, attached nowhere. -/
theorem reachability_not_monotone :
    (∀ a b : Options, SameButAccess a b → ∀ d, survives b d = true → survives a d = true)
    ∧ SameButAccess {} { access := some "public" }
    ∧ (DistinctLongnames {} packageClassKeyDocs
      ∧ ¬ FilterMonotone {} { access := some "public" } packageClassKeyDocs)
    ∧ (DistinctLongnames {} earlyCompanionDocs ∧ NoDerivedLongnames {} earlyCompanionDocs
      ∧ ¬ FilterMonotone {} { access := some "public" } earlyCompanionDocs)
    ∧ (DistinctLongnames {} enumParentDocs ∧ NoDerivedLongnames {} enumParentDocs
      ∧ ¬ FilterMonotone {} { access := some "public" } enumParentDocs) := by
  refine ⟨fun a b hsame d => survives_mono hsame d, ⟨rfl, by decide⟩,
    ⟨by unfold DistinctLongnames; decide, ?_⟩,
    ⟨by unfold DistinctLongnames; decide, noDerivedLongnames_earlyCompanionDocs, ?_⟩,
    ⟨by unfold DistinctLongnames; decide, noDerivedLongnames_enumParentDocs, ?_⟩⟩
  · intro h
    have ka : ∃ s : Emitter, build {} packageClassKeyDocs = some s ∧ s.nodes.length = 3
        ∧ (∀ n, n < 3 → s.srcIndex n = some 1 → n = 1)
        ∧ (∀ r, r ∈ s._treeRoots → r ∉ [1])
        ∧ ∀ p, p < 3 → ∀ c, c ∈ s.childrenOf p → c ∈ [1] → p ∈ [1] :=
      ⟨(build {} packageClassKeyDocs).get (by decide), by simp, by decide, by decide,
        by decide, by decide⟩
    have kb : ∃ s : Emitter, build { access := some "public" } packageClassKeyDocs = some s
        ∧ s.srcIndex 0 = some 1 ∧ 0 ∈ s._treeRoots :=
      ⟨(build { access := some "public" } packageClassKeyDocs).get (by decide), by simp,
        by decide, by decide⟩
    obtain ⟨sa, hba, hlen, hsrc, hroots, hclosed⟩ := ka
    obtain ⟨sb, hbb, hsrcb, hrb⟩ := kb
    obtain ⟨n, hn, hreach⟩ := h sa sb hba hbb 1 ⟨0, hsrcb, Or.inl hrb⟩
    have hn1 : n = 1 := by
      by_cases hlt : n < 3
      · exact hsrc n hlt hn
      · rw [srcIndex_of_length_le sa n (by omega)] at hn
        exact absurd hn (by simp)
    subst hn1
    exact not_reachable_of_closed sa [1] hroots
      (fun p c hc hS => hclosed p (by have := childrenOf_lt hc; omega) c hc hS) 1 (by simp)
      hreach
  · intro h
    have ka : ∃ s : Emitter, build {} earlyCompanionDocs = some s ∧ s.nodes.length = 7
        ∧ (∀ n, n < 7 → s.srcIndex n = some 4 → n = 4)
        ∧ (∀ r, r ∈ s._treeRoots → r ∉ [4, 5])
        ∧ ∀ p, p < 7 → ∀ c, c ∈ s.childrenOf p → c ∈ [4, 5] → p ∈ [4, 5] :=
      ⟨(build {} earlyCompanionDocs).get (by decide), by simp, by decide, by decide,
        by decide, by decide⟩
    have kb : ∃ s : Emitter, build { access := some "public" } earlyCompanionDocs = some s
        ∧ s.srcIndex 3 = some 4 ∧ 4 ∈ s._treeRoots ∧ 5 ∈ s.childrenOf 4
        ∧ 3 ∈ s.childrenOf 5 :=
      ⟨(build { access := some "public" } earlyCompanionDocs).get (by decide), by simp,
        by decide, by decide, by decide, by decide⟩
    obtain ⟨sa, hba, hlen, hsrc, hroots, hclosed⟩ := ka
    obtain ⟨sb, hbb, hsrcb, hrb, h1, h2⟩ := kb
    obtain ⟨n, hn, hreach⟩ := h sa sb hba hbb 4
      ⟨3, hsrcb, Or.inr ⟨4, hrb, Descendant.step h1 (Descendant.child h2)⟩⟩
    have hn4 : n = 4 := by
      by_cases hlt : n < 7
      · exact hsrc n hlt hn
      · rw [srcIndex_of_length_le sa n (by omega)] at hn
        exact absurd hn (by simp)
    subst hn4
    exact not_reachable_of_closed sa [4, 5] hroots
      (fun p c hc hS => hclosed p (by have := childrenOf_lt hc; omega) c hc hS) 4 (by simp)
      hreach
  · intro h
    have ka : ∃ s : Emitter, build {} enumParentDocs = some s ∧ s.nodes.length = 16
        ∧ (∀ n, n < 16 → s.srcIndex n = some 8 → n = 8)
        ∧ (∀ r, r ∈ s._treeRoots → r ∉ [8, 14, 12, 13, 11])
        ∧ ∀ p, p < 16 → ∀ c, c ∈ s.childrenOf p → c ∈ [8, 14, 12, 13, 11] →
            p ∈ [8, 14, 12, 13, 11] :=
      ⟨(build {} enumParentDocs).get (by decide), by simp, by decide, by decide,
        by decide, by decide⟩
    have kb : ∃ s : Emitter, build { access := some "public" } enumParentDocs = some s
        ∧ s.srcIndex 7 = some 8 ∧ 9 ∈ s._treeRoots ∧ 8 ∈ s.childrenOf 9
        ∧ 1 ∈ s.childrenOf 8 ∧ 13 ∈ s.childrenOf 1 ∧ 14 ∈ s.childrenOf 13
        ∧ 7 ∈ s.childrenOf 14 :=
      ⟨(build { access := some "public" } enumParentDocs).get (by decide), by simp,
        by decide, by decide, by decide, by decide, by decide, by decide, by decide⟩
    obtain ⟨sa, hba, hlen, hsrc, hroots, hclosed⟩ := ka
    obtain ⟨sb, hbb, hsrcb, hrb, h1, h2, h3, h4, h5⟩ := kb
    obtain ⟨n, hn, hreach⟩ := h sa sb hba hbb 8
      ⟨7, hsrcb, Or.inr ⟨9, hrb, Descendant.step h1 (Descendant.step h2
        (Descendant.step h3 (Descendant.step h4 (Descendant.child h5))))⟩⟩
    have hn8 : n = 8 := by
      by_cases hlt : n < 16
      · exact hsrc n hlt hn
      · rw [srcIndex_of_length_le sa n (by omega)] at hn
        exact absurd hn (by simp)
    subst hn8
    exact not_reachable_of_closed sa [8, 14, 12, 13, 11] hroots
      (fun p c hc hS => hclosed p (by have := childrenOf_lt hc; omega) c hc hS) 8 (by simp)
      hreach

end Emitter

theorem handleComment_cases (d : Doclet) (n : TsNode) :
    handleComment d n = n ∨ ∃ c, handleComment d n = n.withComment c := by
  unfold handleComment
  by_cases h : truthy d.comment = true ∧ 4 < utf16Length (d.comment.getD "")
  · rw [if_pos h]
    simp only
    split_ifs
    all_goals first | exact Or.inl rfl | exact Or.inr ⟨_, rfl⟩
  · rw [if_neg h]; exact Or.inl rfl

theorem handleComment_kind (d : Doclet) (n : TsNode) : (handleComment d n).kind = n.kind := by
  rcases handleComment_cases d n with h | ⟨c, h⟩ <;> rw [h]
  cases n; rfl

theorem handleComment_modifiers (d : Doclet) (n : TsNode) :
    (handleComment d n).modifiers = n.modifiers := by
  rcases handleComment_cases d n with h | ⟨c, h⟩ <;> rw [h]
  cases n; rfl

theorem handleComment_name (d : Doclet) (n : TsNode) : (handleComment d n).name = n.name := by
  rcases handleComment_cases d n with h | ⟨c, h⟩ <;> rw [h]
  cases n; rfl

theorem handleComment_members (d : Doclet) (n : TsNode) :
    (handleComment d n).members = n.members := by
  rcases handleComment_cases d n with h | ⟨c, h⟩ <;> rw [h]
  cases n; rfl

theorem handleComment_initializer (d : Doclet) (n : TsNode) :
    (handleComment d n).initializer = n.initializer := by
  rcases handleComment_cases d n with h | ⟨c, h⟩ <;> rw [h]
  cases n; rfl

theorem handleComment_outline (d : Doclet) (n : TsNode) :
    (handleComment d n).outline = n.outline := by
  unfold TsNode.outline
  rw [handleComment_kind, handleComment_modifiers, handleComment_name, handleComment_initializer]

namespace Emitter

theorem dispatch_enum (r : Resolver) (s : Emitter) (n : Nat) (parent : Option Nat)
    (children : List TsNode) (hk : (s.docOf n).kind = "member" ∨ (s.docOf n).kind = "constant")
    (he : (s.docOf n).isEnum = some true) :
    dispatch r s n parent children = Outcome.value (s.afterHelper n (createEnum (s.docOf n))) := by
  unfold dispatch
  have h1 : ¬ (s.docOf n).kind = "class" := by
    rcases hk with h | h <;> rw [h] <;> decide
  simp only
  rw [if_neg h1, if_pos hk.symm, if_pos he]

end Emitter

/-- C15: for an enum-tagged member or constant doclet, the walk calls `createEnum`,
whose construct is an enum declaration with the name of the doclet, one enum member per
entry of `properties` in list order, the initializer of a member being the
`defaultvalue` of its entry (none when the entry has none), and with the const
modifier exactly when the kind is `constant`.  For the doclet `Color` the construct,
and the only result of `parse`, is a const enum `Color` with the members
`RED = "red"` and `BLUE = "blue"`. -/
theorem createEnum_declaration (doclet : Doclet)
    (hk : doclet.kind = "member" ∨ doclet.kind = "constant") (he : doclet.isEnum = some true) :
    (∀ (r : Resolver) (s : Emitter) (n : Nat) (parent : Option Nat) (children : List TsNode),
        s.docOf n = doclet →
        Emitter.dispatch r s n parent children
          = Emitter.Outcome.value (s.afterHelper n (createEnum doclet)))
    ∧ (createEnum doclet).2.2.kind = SyntaxKind.EnumDeclaration
    ∧ (createEnum doclet).2.2.name = doclet.name
    ∧ (createEnum doclet).2.2.members.map TsNode.outline
        = (doclet.properties.getD []).map
            (fun p => ⟨SyntaxKind.EnumMember, [], p.name, p.defaultvalue⟩)
    ∧ (Modifier.ConstKeyword ∈ (createEnum doclet).2.2.modifiers ↔ doclet.kind = "constant")
    ∧ (createEnum colorDoclet).2.2.outline2
        = ⟨⟨SyntaxKind.EnumDeclaration, [Modifier.DeclareKeyword, Modifier.ConstKeyword],
              "Color", none⟩,
            [⟨SyntaxKind.EnumMember, [], "RED", some "red"⟩,
              ⟨SyntaxKind.EnumMember, [], "BLUE", some "blue"⟩]⟩
    ∧ (Emitter.parseResults {} 2 {} [colorDoclet]).map (List.map TsNode.outline2)
        = some [⟨⟨SyntaxKind.EnumDeclaration,
              [Modifier.DeclareKeyword, Modifier.ConstKeyword], "Color", none⟩,
            [⟨SyntaxKind.EnumMember, [], "RED", some "red"⟩,
              ⟨SyntaxKind.EnumMember, [], "BLUE", some "blue"⟩]⟩] := by
  refine ⟨?_, ?_, ?_, ?_, ?_, by decide, by decide⟩
  · intro r s n parent children hn
    subst hn
    exact Emitter.dispatch_enum r s n parent children hk he
  · unfold createEnum; simp only; rw [handleComment_kind]; rfl
  · unfold createEnum; simp only; rw [handleComment_name]; rfl
  · unfold createEnum; simp only; rw [handleComment_members]
    simp [TsNode.members, TsNode.outline, TsNode.kind, TsNode.modifiers, TsNode.name,
      TsNode.initializer]
  · unfold createEnum; simp only; rw [handleComment_modifiers]
    simp only [TsNode.modifiers]
    unfold declareMods
    by_cases hc : doclet.kind = "constant"
    · simp [hc]
    · simp only [hc, if_false, List.append_nil, iff_false]
      split_ifs <;> simp

/-- C15 at the doclet `Color`. -/
theorem createEnum_declaration_witness :
    (colorDoclet.kind = "member" ∨ colorDoclet.kind = "constant")
    ∧ colorDoclet.isEnum = some true
    ∧ (createEnum colorDoclet).2.2.kind = SyntaxKind.EnumDeclaration :=
  ⟨by decide, by decide, (createEnum_declaration colorDoclet (by decide) (by decide)).2.1⟩

/-- C18, the code at the failing input: `createClassMember` follows the member modifier
rule (access modifier, then static, then readonly for a constant or a read-only
doclet), and the field of `createInterfaceMember` is static exactly when the scope is
static; but its readonly modifier depends on the kind alone, so the interface field of
a `member` doclet marked read-only carries no readonly modifier. -/
theorem createInterfaceMember_ignores_readonly (r : Resolver) :
    (∀ doclet : Doclet, (createClassMember r doclet).2.2.modifiers
        = (if doclet.access = some "private" then [Modifier.PrivateKeyword]
            else if doclet.access = some "protected" then [Modifier.ProtectedKeyword]
            else if doclet.access = some "public" then [Modifier.PublicKeyword] else [])
          ++ (if doclet.scope = some "static" then [Modifier.StaticKeyword] else [])
          ++ (if doclet.kind = "constant" ∨ doclet.readonly = true
              then [Modifier.ReadonlyKeyword] else []))
    ∧ (∀ doclet : Doclet, Modifier.StaticKeyword ∈ (createInterfaceMember r doclet).2.2.modifiers
        ↔ doclet.scope = some "static")
    ∧ (∀ doclet : Doclet, Modifier.ReadonlyKeyword ∈ (createInterfaceMember r doclet).2.2.modifiers
        ↔ doclet.kind = "constant")
    ∧ readonlyMemberDoclet.readonly = true
    ∧ (createInterfaceMember r readonlyMemberDoclet).2.2.modifiers = []
    ∧ (createClassMember r readonlyMemberDoclet).2.2.modifiers = [Modifier.ReadonlyKeyword] := by
  refine ⟨?_, ?_, ?_, rfl, ?_, ?_⟩
  · intro doclet
    unfold createClassMember
    simp only
    rw [handleComment_modifiers]
    rfl
  · intro doclet
    unfold createInterfaceMember
    simp only
    rw [handleComment_modifiers]
    simp only [TsNode.modifiers, staticMods]
    by_cases h1 : doclet.kind = "constant" <;> by_cases h2 : doclet.scope = some "static" <;>
      simp [h1, h2]
  · intro doclet
    unfold createInterfaceMember
    simp only
    rw [handleComment_modifiers]
    simp only [TsNode.modifiers, staticMods]
    by_cases h1 : doclet.kind = "constant" <;> by_cases h2 : doclet.scope = some "static" <;>
      simp [h1, h2]
  · unfold createInterfaceMember
    simp only
    rw [handleComment_modifiers]
    rfl
  · unfold createClassMember
    simp only
    rw [handleComment_modifiers]
    rfl

theorem stripExports_prefixed (x : String) : stripExports ("exports." ++ x) = x := by
  unfold stripExports
  have h : ("exports." ++ x).data = "exports.".data ++ x.data := String.data_append _ _
  rw [h]
  have hp : ("exports.".data).isPrefixOf ("exports.".data ++ x.data) = true := by
    rw [List.isPrefixOf_iff_prefix]
    exact List.prefix_append _ _
  rw [if_pos hp, List.drop_left]

theorem stripExports_unprefixed (x : String)
    (h : ("exports.".data).isPrefixOf x.data = false) : stripExports x = x := by
  unfold stripExports
  rw [if_neg (by rw [h]; decide)]

/-- C19, the code at the failing input: the helpers for a class, an interface, a
function, a variable, a module, a namespace and a type alias name their construct by
the doclet name without the `exports.` prefix (and by the doclet name itself when it
has no such prefix); `createEnum` names the enum by the doclet name as it is, so the
enum of a doclet named `exports.Color` is named `exports.Color`. -/
theorem createEnum_keeps_exports_prefix (r : Resolver) (doclet : Doclet)
    (children : List TsNode) (nested : Bool) :
    (∀ x, doclet.name = "exports." ++ x →
        (createClass r doclet children).2.2.name = x
        ∧ (createInterface doclet children).2.2.name = x
        ∧ (createFunction doclet).2.2.name = x
        ∧ (createNamespaceMember doclet).2.2.name = x
        ∧ (createModule doclet nested children).2.2.name = x
        ∧ (createNamespace doclet nested children).2.2.name = x
        ∧ (createTypedef doclet).2.2.name = x)
    ∧ (("exports.".data).isPrefixOf doclet.name.data = false →
        (createClass r doclet children).2.2.name = doclet.name
        ∧ (createInterface doclet children).2.2.name = doclet.name
        ∧ (createFunction doclet).2.2.name = doclet.name
        ∧ (createNamespaceMember doclet).2.2.name = doclet.name
        ∧ (createModule doclet nested children).2.2.name = doclet.name
        ∧ (createNamespace doclet nested children).2.2.name = doclet.name
        ∧ (createTypedef doclet).2.2.name = doclet.name)
    ∧ (createEnum doclet).2.2.name = doclet.name
    ∧ (createEnum exportsEnumDoclet).2.2.name = "exports.Color"
    ∧ (Emitter.parseResults r 2 {} [exportsEnumDoclet]).map (List.map TsNode.name)
        = some ["exports.Color"] := by
  have hname : ∀ d : Doclet,
      (createClass r d children).2.2.name = stripExports d.name
      ∧ (createInterface d children).2.2.name = stripExports d.name
      ∧ (createFunction d).2.2.name = stripExports d.name
      ∧ (createNamespaceMember d).2.2.name = stripExports d.name
      ∧ (createModule d nested children).2.2.name = stripExports d.name
      ∧ (createNamespace d nested children).2.2.name = stripExports d.name
      ∧ (createTypedef d).2.2.name = stripExports d.name := by
    intro d
    refine ⟨?_, ?_, ?_, ?_, ?_, ?_, ?_⟩
    · unfold createClass; simp only; rw [handleComment_name]; rfl
    · unfold createInterface; simp only; rw [handleComment_name]; rfl
    · unfold createFunction; simp only; rw [handleComment_name]; rfl
    · unfold createNamespaceMember; simp only; rw [handleComment_name]; rfl
    · unfold createModule; simp only; rw [handleComment_name]; rfl
    · unfold createNamespace; simp only; rw [handleComment_name]; rfl
    · unfold createTypedef; simp only; rw [handleComment_name]; rfl
  have henum : ∀ d : Doclet, (createEnum d).2.2.name = d.name := by
    intro d; unfold createEnum; simp only; rw [handleComment_name]; rfl
  refine ⟨?_, ?_, henum doclet, henum _, ?_⟩
  · intro x hx
    have := hname doclet
    rw [hx, stripExports_prefixed] at this
    exact this
  · intro hx
    have := hname doclet
    rw [stripExports_unprefixed _ hx] at this
    exact this
  · have hb : Emitter.build {} [exportsEnumDoclet]
        = some ((Emitter.build {} [exportsEnumDoclet]).get (by decide)) := by simp
    have hroots : ((Emitter.build {} [exportsEnumDoclet]).get (by decide))._treeRoots = [0] := by decide
    have hch : ((Emitter.build {} [exportsEnumDoclet]).get (by decide)).childrenOf 0 = [] := by decide
    have hdoc : ((Emitter.build {} [exportsEnumDoclet]).get (by decide)).docOf 0 = exportsEnumDoclet := by
      decide
    unfold Emitter.parseResults Emitter.parse
    rw [hb]
    simp only
    unfold Emitter._parseTree
    rw [hroots]
    unfold Emitter.parseChildren Emitter._parseTreeNode
    rw [hch]
    unfold Emitter.parseChildren
    simp only
    rw [Emitter.dispatch_enum r _ 0 none [] (by rw [hdoc]; decide) (by rw [hdoc]; decide)]
    simp only [Emitter.afterHelper, Emitter.parseChildren, Option.map, List.nil_append, List.map]
    rw [hdoc, henum]
    rfl

namespace Emitter

theorem docOf_of_ge (s : Emitter) (n : Nat) (h : s.nodes.length ≤ n) : s.docOf n = {} := by
  unfold docOf node
  rw [List.getElem?_eq_none h]
  rfl

theorem lt_of_kind_ne_empty (s : Emitter) (n : Nat) (h : (s.docOf n).kind ≠ "") :
    n < s.nodes.length := by
  by_contra hn
  rw [docOf_of_ge s n (by omega)] at h
  exact h rfl

/-- The effect of a returning call, without any assumption on the state. -/
theorem getOrCreate_effect (fuel : Nat) (s : Emitter) (obj : Nat)
    (s' : Emitter) (g : Nat) (h : _getOrCreateClassNamespaceFuel fuel s obj = some (s', g)) :
    GocPost s.nodes.length s s'
    ∧ PushedOnce s s' g
    ∧ (s.pendingNode obj = true →
        g = s.nodes.length ∧ s'.lookup (_getNamespaceKey (s.docOf obj).longname) = some g) := by
  refine getOrCreate_induct
    (fun s obj s' g => GocPost s.nodes.length s s'
      ∧ PushedOnce s s' g
      ∧ (s.pendingNode obj = true →
        g = s.nodes.length ∧ s'.lookup (_getNamespaceKey (s.docOf obj).longname) = some g))
    ?_ ?_ ?_ ?_ ?_ fuel s obj s' g h
  · intro s obj hk
    refine ⟨GocPost.same _ _, ⟨none, fun c => ⟨[], by simp, by simp, by simp⟩⟩, ?_⟩
    intro hp
    exact absurd hk ((pendingNode_iff s obj).1 hp).1
  · intro s obj g _ hl
    refine ⟨GocPost.same _ _, ⟨none, fun c => ⟨[], by simp, by simp, by simp⟩⟩, ?_⟩
    intro hp
    rw [((pendingNode_iff s obj).1 hp).2] at hl
    simp at hl
  · intro s obj hp _
    have hk := ((pendingNode_iff s obj).1 hp).2
    have h1 := gocPost_withNamespace s obj hk
    have h2 : GocPost s.nodes.length (s.withNamespace obj)
        ((s.withNamespace obj).pushTo none s.nodes.length) :=
      gocPost_pushTo _ _ _ _ (Nat.le_refl _)
    refine ⟨h1.andThen h2, ⟨none, fun c => ?_⟩, fun _ => ⟨rfl, ?_⟩⟩
    · rw [container_pushTo]
      by_cases hc : c = none ∧ validContainer (s.withNamespace obj) none = true
      · rw [if_pos hc, hc.1, container_withNamespace]
        exact ⟨[s.nodes.length], rfl, fun h => absurd rfl h, by simp⟩
      · rw [if_neg hc, container_withNamespace]
        exact ⟨[], by simp, by simp, by simp⟩
    · rw [lookup_pushTo, lookup_withNamespace, if_pos rfl]
  · intro s obj hp _ _
    have hk := ((pendingNode_iff s obj).1 hp).2
    refine ⟨(gocPost_withNamespace s obj hk).andThen (gocPost_warn _ _ _),
      ⟨none, fun c => ⟨[], by simp [container_withNamespace], by simp, by simp⟩⟩,
      fun _ => ⟨rfl, ?_⟩⟩
    show (s.withNamespace obj).lookup _ = _
    rw [lookup_withNamespace, if_pos rfl]
  · intro s obj parent s2 parentMod hp _ hl _ ih
    obtain ⟨hpost2, _, _⟩ := ih
    have hk := ((pendingNode_iff s obj).1 hp).2
    have hlen : s.nodes.length < s2.nodes.length := by
      have := hpost2.grows.nodes_length; simp at this; omega
    have hsyn1 : (s.withNamespace obj).srcIndex s.nodes.length = none := by
      rw [srcIndex_withNamespace, if_pos rfl]
    have hsyn2 : s2.srcIndex s.nodes.length = none := by
      rw [hpost2.grows.srcIndex_eq _ (by simp)]; exact hsyn1
    have h3 : GocPost s.nodes.length s2
        (s2.setMemberof s.nodes.length (some (s2.docOf parentMod).longname)) :=
      gocPost_setMemberof _ _ _ _ (Nat.le_refl _) hsyn2
    refine ⟨((gocPost_withNamespace s obj hk).andThen (hpost2.weaken (by simp))).andThen
        (h3.andThen (gocPost_pushTo _ _ _ _ (Nat.le_refl _))), ⟨some parentMod, fun c => ?_⟩,
      fun _ => ⟨rfl, ?_⟩⟩
    · obtain ⟨t2, ht2, hfresh⟩ := hpost2.pushes_fresh c
      rw [container_withNamespace] at ht2
      have hg : s.nodes.length ∉ t2 := by
        intro hmem
        have := hfresh _ hmem
        simp at this
      rw [container_pushTo, container_setMemberof, container_setMemberof]
      by_cases hc : c = some parentMod ∧ validContainer
          (s2.setMemberof s.nodes.length (some (s2.docOf parentMod).longname))
          (some parentMod) = true
      · rw [if_pos hc, ← hc.1, ht2]
        refine ⟨t2 ++ [s.nodes.length], by simp, fun h => absurd rfl h, ?_⟩
        rw [List.count_append, List.count_eq_zero_of_not_mem hg]
        simp
      · rw [if_neg hc, ht2]
        exact ⟨t2, rfl, fun _ => hg, by rw [List.count_eq_zero_of_not_mem hg]; omega⟩
    · rw [lookup_pushTo, lookup_setMemberof]
      exact hpost2.lookup_old _ _ (by rw [lookup_withNamespace, if_pos rfl])

/-- A second call on the same node returns the result of the first in the same state. -/
theorem getOrCreate_again (s : Emitter) (obj : Nat) (hobj : obj < s.nodes.length) :
    ∃ s1 g, s._getOrCreateClassNamespace obj = some (s1, g)
      ∧ s1._getOrCreateClassNamespace obj = some (s1, g)
      ∧ PushedOnce s s1 g := by
  cases hp : s.pendingNode obj with
  | false =>
    obtain ⟨g, hg⟩ := getOrCreate_succ_not_pending s obj hp
    exact ⟨s, g, hg _, hg _, ⟨none, fun c => ⟨[], by simp, by simp, by simp⟩⟩⟩
  | true =>
    have hsome := (getOrCreate_returns s obj).1
    cases hr : s._getOrCreateClassNamespace obj with
    | none => rw [hr] at hsome; simp at hsome
    | some res =>
      obtain ⟨s1, g⟩ := res
      obtain ⟨hpost, honce, hmemo⟩ := getOrCreate_effect _ s obj s1 g hr
      obtain ⟨_, hl⟩ := hmemo hp
      have hdoc : s1.docOf obj = s.docOf obj := hpost.old_docOf obj hobj
      have hk := ((pendingNode_iff s obj).1 hp).1
      refine ⟨s1, g, rfl, ?_, honce⟩
      unfold _getOrCreateClassNamespace
      rw [_getOrCreateClassNamespaceFuel, hdoc, if_neg hk]
      simp only [hl]

/-- C20: on every state, a second call of `_getOrCreateClassNamespace` on a node of the
store returns the node the first call returned and leaves the state as the first call
left it (no table entry is added and nothing is pushed to a children list or to the
forest roots); the first call appends its result at most once, to at most one
container; and a node of kind namespace is returned as its own container in an
unchanged state. -/
theorem getOrCreateClassNamespace_memoized (s : Emitter) (obj : Nat)
    (hobj : obj < s.nodes.length) :
    (∃ s1 g, s._getOrCreateClassNamespace obj = some (s1, g)
      ∧ s1._getOrCreateClassNamespace obj = some (s1, g)
      ∧ PushedOnce s s1 g)
    ∧ ((s.docOf obj).kind = "namespace" → s._getOrCreateClassNamespace obj = some (s, obj)) := by
  refine ⟨getOrCreate_again s obj hobj, ?_⟩
  intro hk
  unfold _getOrCreateClassNamespace
  rw [_getOrCreateClassNamespaceFuel, if_pos hk]

/-- C20 at the node of the class `P` after the first pass on a class with a typedef
and a method. -/
theorem getOrCreateClassNamespace_memoized_witness :
    0 < (_createTreeNodes (start {} classWithTypedefDocs)).nodes.length
    ∧ isClassLike ((_createTreeNodes (start {} classWithTypedefDocs)).docOf 0) = true
    ∧ ((∃ s1 g, (_createTreeNodes (start {} classWithTypedefDocs))._getOrCreateClassNamespace 0
          = some (s1, g)
        ∧ s1._getOrCreateClassNamespace 0 = some (s1, g)
        ∧ PushedOnce (_createTreeNodes (start {} classWithTypedefDocs)) s1 g)
      ∧ (((_createTreeNodes (start {} classWithTypedefDocs)).docOf 0).kind = "namespace" →
        (_createTreeNodes (start {} classWithTypedefDocs))._getOrCreateClassNamespace 0
          = some (_createTreeNodes (start {} classWithTypedefDocs), 0))) :=
  ⟨by decide, by decide,
    getOrCreateClassNamespace_memoized (_createTreeNodes (start {} classWithTypedefDocs)) 0
      (by decide)⟩

end Emitter

namespace Emitter

theorem unplaced_of_bounded (s : Emitter) (n : Nat) (hr : n ∉ s._treeRoots)
    (hc : ∀ p, p < s.nodes.length → n ∉ s.childrenOf p) : Unplaced s n := by
  intro c
  cases c with
  | none => exact hr
  | some p =>
    intro h
    exact hc p (childrenOf_lt h) h

theorem not_classLike_of_isEnum {d : Doclet} (h : isEnum d = true) : isClassLike d = false := by
  unfold isEnum at h
  unfold isClassLike
  simp only [Bool.and_eq_true, decide_eq_true_eq] at h
  rcases h.1 with hk | hk <;> rw [hk] <;> decide

/-- The iteration of a doclet whose `memberof` resolves to an enum-tagged node pushes
nothing. -/
theorem buildTreeStep_enumParent (s : Emitter) (i obj p : Nat)
    (hs : survives s.options (s.doc i) = true) (hl : s.lookup (s.doc i).longname = some obj)
    (hm : truthy ((s.beforePlacement i).doc i).memberof = true)
    (hp : (s.beforePlacement i).lookup (((s.beforePlacement i).doc i).memberof.getD "") = some p)
    (he : isEnum ((s.beforePlacement i).docOf p) = true) :
    ∃ s', buildTreeStep s i = some s' ∧ ∀ c, s'.container c = s.container c := by
  have hsv : ¬ ((s.doc i).kind = "package" ∨ _ignoreDoclet s.options (s.doc i) = true) := by
    unfold survives at hs
    intro h
    rcases h with h | h <;> simp [h] at hs
  refine ⟨(s.beforePlacement i).markNested i obj p, ?_, ?_⟩
  · unfold buildTreeStep
    simp only
    rw [if_neg hsv]
    simp only [hl]
    show placementStep (s.beforePlacement i) i obj _ _ = _
    unfold placementStep
    simp only
    rw [if_pos hm]
    simp only [hp]
    rw [if_neg (by rw [not_classLike_of_isEnum he]; simp)]
    rw [if_neg (by rw [docOf_markNested, he]; simp)]
  · intro c
    rw [container_markNested, container_beforePlacement]

end Emitter

namespace Emitter

/-- C11 as stated fails: `parse` assigns to its input doclets.  On an
interface `I` with a static function `f`, the first run leaves `f.memberof` equal to
the namespace key of `I` and yields a namespace `I` holding `f` followed by the
interface `I`; a second run on the same doclet objects finds no static child of `I`,
makes no namespace, cannot resolve the `memberof` of `f`, and yields the interface `I`
alone.  A helper also renames a doclet whose name starts with `exports.`. -/
theorem parse_mutates_doclets :
    parseDocs {} 3 {} staticMemberDocs
      = some [{ kind := "interface", name := "I", longname := "I" },
          { kind := "function", name := "f", longname := "I.f",
            memberof := some "I$$namespace$helper", scope := some "static" }]
    ∧ parseDocs {} 3 {} staticMemberDocs ≠ some staticMemberDocs
    ∧ parseOutlines {} 3 {} staticMemberDocs
      = some [⟨⟨SyntaxKind.ModuleDeclaration, [Modifier.DeclareKeyword], "I", none⟩,
            [⟨SyntaxKind.FunctionDeclaration, [], "f", none⟩]⟩,
          ⟨⟨SyntaxKind.InterfaceDeclaration, [Modifier.DeclareKeyword], "I", none⟩, []⟩]
    ∧ reparseOutlines {} 3 {} staticMemberDocs
      = some [⟨⟨SyntaxKind.InterfaceDeclaration, [Modifier.DeclareKeyword], "I", none⟩, []⟩]
    ∧ reparseOutlines {} 3 {} staticMemberDocs ≠ parseOutlines {} 3 {} staticMemberDocs
    ∧ parseDocs {} 3 {} exportsFunctionDocs
      = some [{ kind := "function", name := "foo", longname := "module.exports.foo" }] := by
  refine ⟨by decide, by decide, by decide, by decide, by decide, by decide⟩

end Emitter

theorem createClassMethod_kind (r : Resolver) (d : Doclet) :
    (createClassMethod r d).2.2.kind = SyntaxKind.MethodDeclaration := by
  unfold createClassMethod; simp only; rw [handleComment_kind]; rfl

theorem createInterfaceMethod_kind (r : Resolver) (d : Doclet) :
    (createInterfaceMethod r d).2.2.kind = SyntaxKind.MethodSignature := by
  unfold createInterfaceMethod; simp only; rw [handleComment_kind]; rfl

theorem createFunction_kind (d : Doclet) :
    (createFunction d).2.2.kind = SyntaxKind.FunctionDeclaration := by
  unfold createFunction; simp only; rw [handleComment_kind]; rfl

theorem createClassMember_kind (r : Resolver) (d : Doclet) :
    (createClassMember r d).2.2.kind = SyntaxKind.PropertyDeclaration := by
  unfold createClassMember; simp only; rw [handleComment_kind]; rfl

theorem createInterfaceMember_kind (r : Resolver) (d : Doclet) :
    (createInterfaceMember r d).2.2.kind = SyntaxKind.PropertySignature := by
  unfold createInterfaceMember; simp only; rw [handleComment_kind]; rfl

theorem createNamespaceMember_kind (d : Doclet) :
    (createNamespaceMember d).2.2.kind = SyntaxKind.VariableStatement := by
  unfold createNamespaceMember; simp only; rw [handleComment_kind]; rfl

namespace Emitter

theorem dispatch_function (r : Resolver) (s : Emitter) (n : Nat) (parent : Option Nat)
    (children : List TsNode) (hk : IsFunctionNode s n) :
    dispatch r s n parent children
      = Outcome.value (s.afterHelper n
          (if s.tableParentKind n = some "class" then createClassMethod r (s.docOf n)
            else if s.tableParentKind n = some "interface" then
              createInterfaceMethod r (s.docOf n)
            else createFunction (s.docOf n))) := by
  unfold IsFunctionNode at hk
  have h1 : ¬ (s.docOf n).kind = "class" := by rcases hk with h | h <;> rw [h] <;> decide
  have h2 : ¬ ((s.docOf n).kind = "constant" ∨ (s.docOf n).kind = "member") := by
    rcases hk with h | h <;> rw [h] <;> decide
  unfold dispatch tableParentKind
  simp only
  rw [if_neg h1, if_neg h2, if_pos hk.symm]
  split_ifs <;> rfl

theorem dispatch_field (r : Resolver) (s : Emitter) (n : Nat) (parent : Option Nat)
    (children : List TsNode) (hk : IsFieldNode s n) :
    dispatch r s n parent children
      = Outcome.value (s.afterHelper n
          (if s.treeParentKind parent = some "class" then createClassMember r (s.docOf n)
            else if s.treeParentKind parent = some "interface" then
              createInterfaceMember r (s.docOf n)
            else createNamespaceMember (s.docOf n))) := by
  obtain ⟨hk, he⟩ := hk
  have h1 : ¬ (s.docOf n).kind = "class" := by rcases hk with h | h <;> rw [h] <;> decide
  unfold dispatch treeParentKind
  simp only
  rw [if_neg h1, if_pos hk.symm, if_neg he]
  split_ifs <;> rfl

/-- C13 as stated fails: on `staticBeforeInterfaceDocs` the node of the function `f` is
a child of the node of the interface `I`, yet the construct synthesized for it is a
function declaration, not a method signature (the `memberof` of `f` names the
namespace merge of `I` by then); the interface declaration loses it with a warning. -/
theorem function_dispatch_ignores_tree_parent :
    ∃ s : Emitter, build {} staticBeforeInterfaceDocs = some s
      ∧ s.srcIndex 0 = some 0 ∧ s.srcIndex 1 = some 1
      ∧ survives {} (docAt staticBeforeInterfaceDocs 0) = true
      ∧ (s.docOf 0).kind = "function" ∧ (s.docOf 1).kind = "interface"
      ∧ 0 ∈ s.childrenOf 1 ∧ 1 ∈ s._treeRoots
      ∧ nodeOutline {} 2 s 0 (some 1)
          = some ⟨SyntaxKind.FunctionDeclaration, [], "f", none⟩
      ∧ parseOutlines {} 3 {} staticBeforeInterfaceDocs
          = some [⟨⟨SyntaxKind.ModuleDeclaration, [Modifier.DeclareKeyword], "I", none⟩, []⟩,
              ⟨⟨SyntaxKind.InterfaceDeclaration, [Modifier.DeclareKeyword], "I", none⟩, []⟩]
      ∧ parseWarnings {} 3 {} staticBeforeInterfaceDocs = some [Warning.badChild "TypeElement"] :=
  ⟨(build {} staticBeforeInterfaceDocs).get (by decide), by simp, by decide, by decide, by decide,
    by decide, by decide, by decide, by decide, by decide, by decide, by decide⟩

/-- C13 (amended): the switch of `_parseTreeNode` synthesizes a function or callback
node as a class method, an interface method signature or a free function declaration
according to the kind of the node the lookup table holds under the `memberof` of its
doclet (a free function when there is none), and a member or constant node that is not
enum-tagged as a class field, an interface field or a loose variable declaration
according to the kind of the `parent` argument, its tree parent.  For the class `Foo`
with the function `Foo#bar` the only result is a class declaration `Foo` whose only
member is a method `bar` without modifiers. -/
theorem dispatch_by_parent_kind (r : Resolver) (s : Emitter) (n : Nat) (parent : Option Nat)
    (children : List TsNode) (hk : IsFunctionNode s n ∨ IsFieldNode s n) :
    (∃ x, dispatch r s n parent children = Outcome.value (s.afterHelper n x)
      ∧ x.2.2.kind = expectedKind s n parent)
    ∧ parseOutlines {} 3 {} fooBarDocs
        = some [⟨⟨SyntaxKind.ClassDeclaration, [Modifier.DeclareKeyword], "Foo", none⟩,
            [⟨SyntaxKind.MethodDeclaration, [], "bar", none⟩]⟩] := by
  refine ⟨?_, by decide⟩
  rcases hk with hk | hk
  · refine ⟨_, dispatch_function r s n parent children hk, ?_⟩
    have hk1 : (s.docOf n).kind = "function" ∨ (s.docOf n).kind = "callback" := hk
    unfold expectedKind
    rw [if_pos hk1]
    split_ifs
    · exact createClassMethod_kind r _
    · exact createInterfaceMethod_kind r _
    · exact createFunction_kind _
  · refine ⟨_, dispatch_field r s n parent children hk, ?_⟩
    have hnf : ¬ ((s.docOf n).kind = "function" ∨ (s.docOf n).kind = "callback") := by
      rcases hk.1 with h | h <;> rw [h] <;> decide
    unfold expectedKind
    rw [if_neg hnf]
    split_ifs
    · exact createClassMember_kind r _
    · exact createInterfaceMember_kind r _
    · exact createNamespaceMember_kind _

/-- C13 (amended) at the node of `Foo#bar` after the first pass on `fooBarDocs`: a
function whose `memberof` names a class is synthesized as a method. -/
theorem dispatch_by_parent_kind_witness :
    (IsFunctionNode (_createTreeNodes (start {} fooBarDocs)) 1
      ∨ IsFieldNode (_createTreeNodes (start {} fooBarDocs)) 1)
    ∧ expectedKind (_createTreeNodes (start {} fooBarDocs)) 1 (some 0)
        = SyntaxKind.MethodDeclaration
    ∧ ∃ x, dispatch {} (_createTreeNodes (start {} fooBarDocs)) 1 (some 0) []
          = Outcome.value ((_createTreeNodes (start {} fooBarDocs)).afterHelper 1 x)
        ∧ x.2.2.kind = expectedKind (_createTreeNodes (start {} fooBarDocs)) 1 (some 0) :=
  ⟨Or.inl (Or.inl (by decide)), by decide,
    (dispatch_by_parent_kind {} (_createTreeNodes (start {} fooBarDocs)) 1 (some 0) []
      (Or.inl (Or.inl (by decide)))).1⟩

end Emitter

theorem validateClassLikeChildren_eq (validate : TsNode → Bool) (msg : String)
    (children : List TsNode) :
    validateClassLikeChildren validate msg children
      = (children.filter validate,
          List.replicate (children.countP (fun c => !validate c)) (Warning.badChild msg)) := by
  induction children with
  | nil => rfl
  | cons child rest ih =>
    unfold validateClassLikeChildren
    simp only
    rw [ih]
    by_cases h : validate child = true
    · simp [h]
    · simp only [Bool.not_eq_true] at h
      simp [h, List.replicate_succ']

theorem validateModuleChildren_eq (children : List TsNode) :
    validateModuleChildren children
      = (children.filter isModuleChild,
          List.replicate (children.countP (fun c => !isModuleChild c))
            (Warning.badChild "supported declaration")) := by
  induction children with
  | nil => rfl
  | cons child rest ih =>
    unfold validateModuleChildren
    simp only
    rw [ih]
    by_cases h : isModuleChild child = true
    · simp [h]
    · simp only [Bool.not_eq_true] at h
      simp [h, List.replicate_succ']

theorem countP_not_eq_zero {α : Type} (p : α → Bool) (l : List α) (h : ∀ c ∈ l, p c = true) :
    l.countP (fun c => !p c) = 0 := by
  rw [List.countP_eq_zero]
  intro c hc
  simp [h c hc]

/-- C22: `validateClassLikeChildren` with the predicate `validate` (the class-element
test for classes, the type-element test for interfaces) and `validateModuleChildren`
(whose predicate holds of class, interface, function, enum, module and type-alias
declarations and of variable statements) leave the children that satisfy the
predicate, in their order, and log one warning for each child removed; a list all of
whose children satisfy the predicate is left as it is, without a warning. -/
theorem validation_is_filter (validate : TsNode → Bool) (msg : String) (children : List TsNode) :
    (validateClassLikeChildren validate msg children).1 = children.filter validate
    ∧ (validateClassLikeChildren validate msg children).2
        = List.replicate (children.length - (children.filter validate).length)
            (Warning.badChild msg)
    ∧ (validateModuleChildren children).1 = children.filter isModuleChild
    ∧ (validateModuleChildren children).2
        = List.replicate (children.length - (children.filter isModuleChild).length)
            (Warning.badChild "supported declaration")
    ∧ ((∀ c ∈ children, validate c = true) →
        validateClassLikeChildren validate msg children = (children, []))
    ∧ ((∀ c ∈ children, isModuleChild c = true) → validateModuleChildren children = (children, []))
    ∧ validateClassChildren children
        = validateClassLikeChildren isClassElement "ClassElement" children
    ∧ validateInterfaceChildren children
        = validateClassLikeChildren isTypeElement "TypeElement" children
    ∧ (∀ c : TsNode, isModuleChild c = true ↔
        c.kind ∈ [SyntaxKind.ClassDeclaration, SyntaxKind.InterfaceDeclaration,
          SyntaxKind.FunctionDeclaration, SyntaxKind.EnumDeclaration,
          SyntaxKind.ModuleDeclaration, SyntaxKind.TypeAliasDeclaration,
          SyntaxKind.VariableStatement]) := by
  have hlen : ∀ p : TsNode → Bool,
      children.countP (fun c => !p c) = children.length - (children.filter p).length := by
    intro p
    have h1 := List.length_eq_countP_add_countP p children
    rw [← List.countP_eq_length_filter]
    have h2 : children.countP (fun c => !p c) = children.countP (fun a => decide ¬p a = true) := by
      congr 1; funext c; cases p c <;> rfl
    omega
  refine ⟨?_, ?_, ?_, ?_, ?_, ?_, rfl, rfl, ?_⟩
  · rw [validateClassLikeChildren_eq]
  · rw [validateClassLikeChildren_eq, hlen]
  · rw [validateModuleChildren_eq]
  · rw [validateModuleChildren_eq, hlen]
  · intro h
    rw [validateClassLikeChildren_eq, countP_not_eq_zero validate children h]
    simp only [List.replicate_zero, Prod.mk.injEq, and_true]
    exact List.filter_eq_self.2 h
  · intro h
    rw [validateModuleChildren_eq, countP_not_eq_zero isModuleChild children h]
    simp only [List.replicate_zero, Prod.mk.injEq, and_true]
    exact List.filter_eq_self.2 h
  · intro c
    unfold isModuleChild
    simp

theorem string_ne_empty_of_data_cons {s : String} {c : Char} {l : List Char}
    (h : s.data = c :: l) : s ≠ "" := by
  intro he
  rw [he] at h
  simp at h

theorem propComment_eq (tag : String) (prop : PropDoc) :
    propComment tag prop
      = if truthy prop.description then renderedEntry tag prop else "" := by
  unfold propComment renderedEntry renderedName truthy
  cases hd : prop.description with
  | none => simp
  | some description =>
    by_cases he : description = ""
    · simp [he]
    · simp only [he, if_false, ne_eq, not_false_eq_true, decide_True, if_true, Option.getD_some]

theorem renderedEntry_ne_empty (tag : String) (prop : PropDoc) : renderedEntry tag prop ≠ "" := by
  unfold renderedEntry
  intro h
  have := congrArg String.data h
  simp only [String.data_append] at this
  simp at this

theorem handlePropsComment_eq (props : List PropDoc) (tag : String) :
    handlePropsComment props tag
      = String.join ((props.filter (fun p => truthy p.description)).map (renderedEntry tag)) := by
  unfold handlePropsComment
  congr 1
  induction props with
  | nil => rfl
  | cons p ps ih =>
    rw [List.map_cons, List.filter_cons, List.filter_cons, propComment_eq]
    by_cases h : truthy p.description = true
    · have hne : decide (renderedEntry tag p ≠ "") = true :=
        decide_eq_true (renderedEntry_ne_empty tag p)
      rw [if_pos h, if_pos hne, if_pos h, List.map_cons, ih]
    · have hne : ¬ decide (("" : String) ≠ "") = true := by decide
      rw [if_neg h, if_neg hne, if_neg h, ih]

theorem handleComment_unfold (doclet : Doclet) (node : TsNode) :
    handleComment doclet node
      = if truthy doclet.comment = true ∧ 4 < utf16Length (doclet.comment.getD "") then
          if descriptionSection doclet ≠ "" ∨ handleExamplesComment doclet ≠ ""
              ∨ handlePropertiesComment doclet ≠ "" ∨ handleParamsComment doclet ≠ ""
              ∨ handleReturnsComment doclet ≠ "" then
            node.withComment ("*" ++ descriptionSection doclet ++ handleExamplesComment doclet
              ++ handlePropertiesComment doclet ++ handleParamsComment doclet
              ++ handleReturnsComment doclet ++ "\n ")
          else node
        else node := by
  unfold handleComment descriptionSection
  rfl

theorem handleComment_eq (doclet : Doclet) (node : TsNode) :
    handleComment doclet node
      = if truthy doclet.comment = true ∧ 4 < utf16Length (doclet.comment.getD "")
            ∧ ∃ sec ∈ commentSections doclet, sec ≠ "" then
          node.withComment ("*" ++ String.join (commentSections doclet) ++ "\n ")
        else node := by
  have hjoin : "*" ++ String.join (commentSections doclet) ++ "\n "
      = "*" ++ descriptionSection doclet ++ handleExamplesComment doclet
        ++ handlePropertiesComment doclet ++ handleParamsComment doclet
        ++ handleReturnsComment doclet ++ "\n " := by
    unfold commentSections
    simp [String.join, String.append_assoc]
  have hex : (∃ sec ∈ commentSections doclet, sec ≠ "")
      ↔ (descriptionSection doclet ≠ "" ∨ handleExamplesComment doclet ≠ ""
          ∨ handlePropertiesComment doclet ≠ "" ∨ handleParamsComment doclet ≠ ""
          ∨ handleReturnsComment doclet ≠ "") := by
    unfold commentSections
    simp
  rw [hjoin, handleComment_unfold]
  by_cases h : truthy doclet.comment = true ∧ 4 < utf16Length (doclet.comment.getD "")
  · rw [if_pos h]
    by_cases hs : descriptionSection doclet ≠ "" ∨ handleExamplesComment doclet ≠ ""
          ∨ handlePropertiesComment doclet ≠ "" ∨ handleParamsComment doclet ≠ ""
          ∨ handleReturnsComment doclet ≠ ""
    · have hR : truthy doclet.comment = true ∧ 4 < utf16Length (doclet.comment.getD "")
          ∧ ∃ sec ∈ commentSections doclet, sec ≠ "" := ⟨h.1, h.2, hex.2 hs⟩
      rw [if_pos hs, if_pos hR]
    · have hR : ¬ (truthy doclet.comment = true ∧ 4 < utf16Length (doclet.comment.getD "")
          ∧ ∃ sec ∈ commentSections doclet, sec ≠ "") := fun hh => hs (hex.1 hh.2.2)
      rw [if_neg hs, if_neg hR]
  · have hR : ¬ (truthy doclet.comment = true ∧ 4 < utf16Length (doclet.comment.getD "")
        ∧ ∃ sec ∈ commentSections doclet, sec ≠ "") := fun hh => h ⟨hh.1, hh.2.1⟩
    rw [if_neg h, if_neg hR]

theorem filter_map_nonempty {α : Type} (f g : α → String) (c : α → Bool)
    (hf : ∀ a, f a = if c a = true then g a else "") (hg : ∀ a, g a ≠ "") (l : List α) :
    (l.map f).filter (fun v => decide (v ≠ "")) = (l.filter c).map g := by
  induction l with
  | nil => rfl
  | cons p ps ih =>
    rw [List.map_cons, List.filter_cons, List.filter_cons, hf p]
    by_cases h : c p = true
    · have hne : decide (g p ≠ "") = true := decide_eq_true (hg p)
      rw [if_pos h, if_pos hne, if_pos h, List.map_cons, ih]
    · have hne : ¬ decide (("" : String) ≠ "") = true := by decide
      rw [if_neg h, if_neg hne, if_neg h, ih]

theorem handleReturnsComment_eq (doclet : Doclet) :
    handleReturnsComment doclet
      = String.join (((doclet.returns.getD []).filter (fun p => truthy p.description)).map
          (fun p => "\n * @returns " ++ formatMultilineComment (p.description.getD ""))) := by
  unfold handleReturnsComment
  cases doclet.returns with
  | none => rfl
  | some rets =>
    simp only [Option.getD_some]
    congr 1
    apply filter_map_nonempty
    · intro p
      unfold truthy
      cases p.description with
      | none => rfl
      | some description =>
        by_cases he : description = ""
        · simp [he]
        · simp [he]
    · intro p h
      have := congrArg String.data h
      simp only [String.data_append] at this
      simp at this

/-- C23: `handleComment` attaches a comment to the node exactly when the comment text
of the doclet is longer than four characters, counted as `String.prototype.length`
counts them (UTF-16 code units), and one of the five sections is not empty; the
comment is then a star, the sections in the order description (of the
doclet, else of its class), examples, properties, params, returns, and a closing line
break and blank.  The properties and params sections hold one line for each entry that
has a description, in the order of the entries, the name rendered as `[name = default]`
for an optional entry with a default value, `[name]` for an optional entry without one,
and `name` otherwise; the examples and returns sections keep the order of their
entries too.  A comment text of three characters above `U+FFFF` has length six and is
long enough. -/
theorem handleComment_rule (doclet : Doclet) (node : TsNode) :
    (truthy doclet.comment = true ∧ 4 < utf16Length (doclet.comment.getD "")
        ∧ (∃ sec ∈ commentSections doclet, sec ≠ "") →
      handleComment doclet node
        = node.withComment ("*" ++ String.join (commentSections doclet) ++ "\n "))
    ∧ (¬ (truthy doclet.comment = true ∧ 4 < utf16Length (doclet.comment.getD "")
        ∧ ∃ sec ∈ commentSections doclet, sec ≠ "") → handleComment doclet node = node)
    ∧ (∀ (props : List PropDoc) (tag : String), handlePropsComment props tag
        = String.join ((props.filter (fun p => truthy p.description)).map (renderedEntry tag)))
    ∧ handleParamsComment doclet = handlePropsComment (doclet.params.getD []) "param"
    ∧ handlePropertiesComment doclet
        = (if doclet.isEnum = none ∨ doclet.isEnum = some false then
            handlePropsComment (doclet.properties.getD []) "property" else "")
    ∧ handleExamplesComment doclet
        = String.join ((doclet.examples.getD []).map
            (fun e => "\n * @example\n * " ++ formatMultilineComment e))
    ∧ handleReturnsComment doclet
        = String.join (((doclet.returns.getD []).filter (fun p => truthy p.description)).map
            (fun p => "\n * @returns " ++ formatMultilineComment (p.description.getD "")))
    ∧ (handleComment commentedDoclet
          (TsNode.mk SyntaxKind.FunctionDeclaration [] "f" [] none false none none)).comment
        = some "*\n * d\n * @param [a = 1] - first\n "
    ∧ (astralCommentDoclet.comment.getD "").length = 3
    ∧ utf16Length (astralCommentDoclet.comment.getD "") = 6
    ∧ (handleComment astralCommentDoclet
          (TsNode.mk SyntaxKind.FunctionDeclaration [] "f" [] none false none none)).comment
        = some "*\n * d\n " := by
  refine ⟨?_, ?_, handlePropsComment_eq, ?_, ?_, ?_, handleReturnsComment_eq doclet, ?_,
    by decide, by decide, by decide⟩
  · intro h
    rw [handleComment_eq, if_pos h]
  · intro h
    rw [handleComment_eq, if_neg h]
  · unfold handleParamsComment
    cases doclet.params <;> rfl
  · unfold handlePropertiesComment
    cases doclet.properties with
    | none => simp only [Option.getD_none]; split_ifs <;> rfl
    | some ps => rfl
  · unfold handleExamplesComment
    cases doclet.examples <;> rfl
  · decide

theorem unname_normalizeName (d : Doclet) : (normalizeName d).unname = d.unname := rfl

theorem kind_eq_of_unname {d d' : Doclet} (h : d.unname = d'.unname) : d.kind = d'.kind := by
  have := congrArg Doclet.kind h; exact this

theorem memberof_eq_of_unname {d d' : Doclet} (h : d.unname = d'.unname) :
    d.memberof = d'.memberof := by
  have := congrArg Doclet.memberof h; exact this

theorem isEnum_eq_of_unname {d d' : Doclet} (h : d.unname = d'.unname) :
    d.isEnum = d'.isEnum := by
  have := congrArg Doclet.isEnum h; exact this

theorem longname_eq_of_unname {d d' : Doclet} (h : d.unname = d'.unname) :
    d.longname = d'.longname := by
  have := congrArg Doclet.longname h; exact this

namespace Emitter

theorem WalkFrame.unchanged (s : Emitter) : WalkFrame s s :=
  ⟨rfl, rfl, rfl, rfl, fun _ => rfl, fun _ => rfl, fun _ => rfl⟩

theorem WalkFrame.followedBy {s s1 s2 : Emitter} (h : WalkFrame s s1) (h' : WalkFrame s1 s2) :
    WalkFrame s s2 :=
  ⟨h'.options.trans h.options, h'.table.trans h.table, h'.roots.trans h.roots,
    h'.nodes_length.trans h.nodes_length, fun n => (h'.children n).trans (h.children n),
    fun n => (h'.nested n).trans (h.nested n),
    fun n => (h'.docOf_frame n).trans (h.docOf_frame n)⟩

theorem WalkFrame.lookup {s s' : Emitter} (h : WalkFrame s s') (k : String) :
    s'.lookup k = s.lookup k := by
  unfold Emitter.lookup; rw [h.table]

theorem WalkFrame.kind {s s' : Emitter} (h : WalkFrame s s') (n : Nat) :
    (s'.docOf n).kind = (s.docOf n).kind := kind_eq_of_unname (h.docOf_frame n)

theorem WalkFrame.memberof {s s' : Emitter} (h : WalkFrame s s') (n : Nat) :
    (s'.docOf n).memberof = (s.docOf n).memberof := memberof_eq_of_unname (h.docOf_frame n)

theorem doc_set (s : Emitter) (i : Nat) (d : Doclet) (j : Nat) :
    ({ s with docs := s.docs.set i d } : Emitter).doc j
      = if j = i ∧ i < s.docs.length then d else s.doc j := by
  unfold doc
  simp only [List.getElem?_set]
  by_cases hij : i = j
  · subst hij
    by_cases hlt : i < s.docs.length
    · simp [hlt]
    · simp [hlt, List.getElem?_eq_none (Nat.le_of_not_lt hlt)]
  · have : ¬ (j = i ∧ i < s.docs.length) := fun h => hij h.1.symm
    simp [hij, this]

theorem walkFrame_setDoclet (s : Emitter) (n : Nat) (d : Doclet)
    (hd : d.unname = (s.docOf n).unname) : WalkFrame s (s.setDoclet n d) := by
  unfold setDoclet
  cases hr : (s.node n).doclet with
  | src i =>
    simp only
    have hdoc : s.docOf n = s.doc i := by unfold docOf; rw [hr]; rfl
    refine ⟨rfl, rfl, rfl, rfl, fun _ => rfl, fun _ => rfl, fun m => ?_⟩
    have hnode : ∀ k, ({ s with docs := s.docs.set i d } : Emitter).node k = s.node k :=
      fun _ => rfl
    unfold docOf
    rw [hnode]
    cases hm : (s.node m).doclet with
    | src j =>
      show (({ s with docs := s.docs.set i d } : Emitter).doc j).unname = (s.doc j).unname
      rw [doc_set]
      by_cases hj : j = i ∧ i < s.docs.length
      · rw [if_pos hj, hj.1, hd, hdoc]
      · rw [if_neg hj]
    | syn e => rfl
  | syn e =>
    simp only
    have hdoc : s.docOf n = e := by unfold docOf; rw [hr]; rfl
    have hnode := fun m => node_set s n { s.node n with doclet := DocRef.syn d } m _ rfl
    refine ⟨rfl, rfl, rfl, by simp, fun m => ?_, fun m => ?_, fun m => ?_⟩
    · unfold childrenOf
      rw [hnode]
      by_cases h : m = n ∧ n < s.nodes.length
      · rw [if_pos h, h.1]
      · rw [if_neg h]
    · rw [hnode]
      by_cases h : m = n ∧ n < s.nodes.length
      · rw [if_pos h, h.1]
      · rw [if_neg h]
    · unfold docOf
      rw [hnode]
      by_cases h : m = n ∧ n < s.nodes.length
      · rw [if_pos h, h.1, hr]
        show d.unname = e.unname
        rw [hd, hdoc]
      · rw [if_neg h]
        rfl

theorem walkFrame_afterHelper (s : Emitter) (n : Nat) (x : Doclet × List Warning × TsNode)
    (hd : x.1.unname = (s.docOf n).unname) : WalkFrame s (s.afterHelper n x).1 := by
  have h := walkFrame_setDoclet s n x.1 hd
  exact ⟨h.options, h.table, h.roots, h.nodes_length, h.children, h.nested, h.docOf_frame⟩

/-- The outcome of the `switch`: a kind without a case ends in `assertNever`, the kinds
`file` and `event` give no construct, every other kind gives the construct of a helper
that leaves the doclet as it is up to its name. -/
theorem dispatch_outcome (r : Resolver) (s : Emitter) (n : Nat) (parent : Option Nat)
    (children : List TsNode) :
    ((s.docOf n).kind ∉ switchKinds
      ∧ dispatch r s n parent children = Outcome.assertNever (s.docOf n).kind)
    ∨ ((s.docOf n).kind ∈ switchKinds
      ∧ (((s.docOf n).kind = "file" ∨ (s.docOf n).kind = "event")
          ∧ dispatch r s n parent children = Outcome.value (s, none)
        ∨ ((s.docOf n).kind ≠ "file" ∧ (s.docOf n).kind ≠ "event")
          ∧ ∃ x, dispatch r s n parent children = Outcome.value (s.afterHelper n x)
              ∧ x.1.unname = (s.docOf n).unname)) := by
  unfold dispatch
  simp only
  by_cases h1 : (s.docOf n).kind = "class"
  · right
    refine ⟨by simp [switchKinds, h1], Or.inr ⟨by rw [h1]; decide, _, if_pos h1, rfl⟩⟩
  rw [if_neg h1]
  by_cases h2 : (s.docOf n).kind = "constant" ∨ (s.docOf n).kind = "member"
  · right
    rw [if_pos h2]
    refine ⟨by rcases h2 with h | h <;> simp [switchKinds, h],
      Or.inr ⟨by rcases h2 with h | h <;> rw [h] <;> decide, ?_⟩⟩
    split_ifs <;> exact ⟨_, rfl, rfl⟩
  rw [if_neg h2]
  by_cases h6 : (s.docOf n).kind = "callback" ∨ (s.docOf n).kind = "function"
  · right
    rw [if_pos h6]
    refine ⟨by rcases h6 with h | h <;> simp [switchKinds, h],
      Or.inr ⟨by rcases h6 with h | h <;> rw [h] <;> decide, ?_⟩⟩
    split_ifs <;> exact ⟨_, rfl, rfl⟩
  rw [if_neg h6]
  by_cases h7 : (s.docOf n).kind = "interface"
  · right
    refine ⟨by simp [switchKinds, h7], Or.inr ⟨by rw [h7]; decide, _, if_pos h7, rfl⟩⟩
  rw [if_neg h7]
  by_cases h8 : (s.docOf n).kind = "mixin"
  · right
    refine ⟨by simp [switchKinds, h8], Or.inr ⟨by rw [h8]; decide, _, if_pos h8, rfl⟩⟩
  rw [if_neg h8]
  by_cases h9 : (s.docOf n).kind = "module"
  · right
    refine ⟨by simp [switchKinds, h9], Or.inr ⟨by rw [h9]; decide, _, if_pos h9, rfl⟩⟩
  rw [if_neg h9]
  by_cases h10 : (s.docOf n).kind = "namespace"
  · right
    refine ⟨by simp [switchKinds, h10], Or.inr ⟨by rw [h10]; decide, _, if_pos h10, rfl⟩⟩
  rw [if_neg h10]
  by_cases h11 : (s.docOf n).kind = "typedef"
  · right
    refine ⟨by simp [switchKinds, h11], Or.inr ⟨by rw [h11]; decide, _, if_pos h11, rfl⟩⟩
  rw [if_neg h11]
  by_cases h12 : (s.docOf n).kind = "file"
  · right
    exact ⟨by simp [switchKinds, h12], Or.inl ⟨Or.inl h12, if_pos h12⟩⟩
  rw [if_neg h12]
  by_cases h13 : (s.docOf n).kind = "event"
  · right
    exact ⟨by simp [switchKinds, h13], Or.inl ⟨Or.inr h13, if_pos h13⟩⟩
  rw [if_neg h13]
  left
  refine ⟨?_, rfl⟩
  simp only [not_or] at h2 h6
  simp [switchKinds, h1, h2.1, h2.2, h6.1, h6.2, h7, h8, h9, h10, h11, h12, h13]

/-- A value of the `switch` leaves the state as it was up to names and warnings, and
the kind of the node has a case. -/
theorem dispatch_value (r : Resolver) (s : Emitter) (n : Nat) (parent : Option Nat)
    (children : List TsNode) (v : Emitter × Option TsNode)
    (h : dispatch r s n parent children = Outcome.value v) :
    WalkFrame s v.1 ∧ (s.docOf n).kind ∈ switchKinds := by
  rcases dispatch_outcome r s n parent children with ⟨_, he⟩ | ⟨hk, ⟨_, he⟩ | ⟨_, x, he, hx⟩⟩
  · rw [he] at h; cases h
  · rw [he] at h
    cases h
    exact ⟨WalkFrame.unchanged s, hk⟩
  · rw [he] at h
    cases h
    exact ⟨walkFrame_afterHelper s n x hx, hk⟩

end Emitter

namespace Emitter

theorem descendant_congr {s s' : Emitter} (h : ∀ n, s'.childrenOf n = s.childrenOf n)
    {p c : Nat} (hd : Descendant s' p c) : Descendant s p c := by
  induction hd with
  | child hc => exact Descendant.child (by rw [← h]; exact hc)
  | step hc _ ih => exact Descendant.step (by rw [← h]; exact hc) ih

theorem WalkFrame.inSubtree {s s' : Emitter} (h : WalkFrame s s') {n c : Nat} :
    InSubtree s' n c ↔ InSubtree s n c := by
  unfold InSubtree
  constructor
  · rintro (h1 | h1)
    · exact Or.inl h1
    · exact Or.inr (descendant_congr h.children h1)
  · rintro (h1 | h1)
    · exact Or.inl h1
    · exact Or.inr (descendant_congr (fun n => (h.children n).symm) h1)

theorem walkSpec_parseChildren
    (visit : Emitter → Nat → Option (Outcome (Emitter × Option TsNode)))
    (hvisit : ∀ s c out, visit s c = some out → WalkSpec s (InSubtree s c) out) :
    ∀ (l : List Nat) (s : Emitter) (acc : List TsNode) (out : Outcome (Emitter × List TsNode)),
      parseChildren visit s l acc = some out →
      WalkSpec s (fun d => ∃ c ∈ l, InSubtree s c d) out := by
  intro l
  induction l with
  | nil =>
    intro s acc out h
    unfold parseChildren at h
    cases h
    exact ⟨WalkFrame.unchanged s, fun c hc => by obtain ⟨_, hm, _⟩ := hc; simp at hm⟩
  | cons c cs ih =>
    intro s acc out h
    unfold parseChildren at h
    cases hv : visit s c with
    | none => rw [hv] at h; simp at h
    | some o =>
      have hspec := hvisit s c o hv
      rw [hv] at h
      cases o with
      | assertNever k =>
        simp only [Option.some.injEq] at h
        subst h
        exact ⟨hspec.1, by
          obtain ⟨d, hd, hk⟩ := hspec.2
          exact ⟨d, ⟨c, List.mem_cons_self _ _, hd⟩, hk⟩⟩
      | value v =>
        obtain ⟨s1, childNode⟩ := v
        simp only at h
        obtain ⟨hf1, hgood1⟩ := hspec
        have hrest := ih s1 _ out h
        cases out with
        | value w =>
          obtain ⟨hf2, hgood2⟩ := hrest
          refine ⟨hf1.followedBy hf2, ?_⟩
          rintro d ⟨c', hc', hd⟩
          rcases List.mem_cons.1 hc' with rfl | hc'
          · exact hgood1 d hd
          · rw [← hf1.kind d]
            exact hgood2 d ⟨c', hc', hf1.inSubtree.2 hd⟩
        | assertNever k =>
          obtain ⟨hk, d, ⟨c', hc', hd⟩, hkd⟩ := hrest
          exact ⟨hk, d, ⟨c', List.mem_cons_of_mem _ hc', hf1.inSubtree.1 hd⟩, by
            rw [← hf1.kind d]; exact hkd⟩

theorem walkSpec_parseTreeNode (r : Resolver) :
    ∀ (fuel : Nat) (s : Emitter) (n : Nat) (parent : Option Nat)
      (out : Outcome (Emitter × Option TsNode)),
      _parseTreeNode r fuel s n parent = some out → WalkSpec s (InSubtree s n) out := by
  intro fuel
  induction fuel with
  | zero => intro s n parent out h; simp [_parseTreeNode] at h
  | succ fuel ih =>
    intro s n parent out h
    unfold _parseTreeNode at h
    cases hc : parseChildren (fun s1 c => _parseTreeNode r fuel s1 c (some n)) s
        (s.childrenOf n) [] with
    | none => rw [hc] at h; simp at h
    | some o =>
      have hspec := walkSpec_parseChildren _ (fun s1 c out1 h1 => ih s1 c (some n) out1 h1)
        _ s [] o hc
      rw [hc] at h
      have hsub : ∀ d, (∃ c ∈ s.childrenOf n, InSubtree s c d) → InSubtree s n d := by
        rintro d ⟨c, hcm, hd | hd⟩
        · subst hd; exact Or.inr (Descendant.child hcm)
        · exact Or.inr (Descendant.step hcm hd)
      cases o with
      | assertNever k =>
        simp only [Option.some.injEq] at h
        subst h
        obtain ⟨hk, d, hd, hkd⟩ := hspec
        exact ⟨hk, d, hsub d hd, hkd⟩
      | value v =>
        obtain ⟨s1, children⟩ := v
        simp only [Option.some.injEq] at h
        obtain ⟨hf1, hgood1⟩ := hspec
        rcases dispatch_outcome r s1 n parent children with ⟨hk, he⟩ | ⟨hk, hrest⟩
        · rw [he] at h
          subst h
          refine ⟨hk, n, Or.inl rfl, (hf1.kind n).symm⟩
        · cases out with
          | assertNever k =>
            rcases hrest with ⟨_, he⟩ | ⟨_, x, he, _⟩ <;> rw [he] at h <;> cases h
          | value w =>
            obtain ⟨hf2, _⟩ := dispatch_value r s1 n parent children w h
            refine ⟨hf1.followedBy hf2, ?_⟩
            rintro d (hd | hd)
            · subst hd; rw [← hf1.kind d]; exact hk
            · cases hd with
              | child hcm => exact hgood1 d ⟨d, hcm, Or.inl rfl⟩
              | step hcm hdd => exact hgood1 d ⟨_, hcm, Or.inr hdd⟩

theorem walkSpec_parseTree (r : Resolver) (fuel : Nat) (s : Emitter)
    (out : Outcome (Emitter × List TsNode)) (h : _parseTree r fuel s = some out) :
    WalkSpec s (fun d => ∃ c ∈ s._treeRoots, InSubtree s c d) out :=
  walkSpec_parseChildren _ (fun s1 c out1 h1 => walkSpec_parseTreeNode r fuel s1 c none out1 h1)
    _ s [] out h

end Emitter

namespace Emitter

theorem synKinds_of_grows {s s' : Emitter} (hg : Grows s s')
    (hfresh : ∀ m, s.nodes.length ≤ m → m < s'.nodes.length →
      (s'.docOf m).kind = "interface" ∨ (s'.docOf m).kind = "namespace")
    (h : SynKinds s) : SynKinds s' := by
  intro m hm hsrc
  by_cases hlt : m < s.nodes.length
  · rw [hg.kind_eq hlt]
    rw [hg.srcIndex_eq m hlt] at hsrc
    exact h m hlt hsrc
  · exact hfresh m (by omega) hm

theorem buildTreeStep_synKinds {o : Options} {D : List Doclet} {s : Emitter} (hwf : WF o D s)
    (j : Nat) (s' : Emitter) (h : buildTreeStep s j = some s')
    (hi : SynKinds s) : SynKinds s' := by
  rcases buildTreeStep_cases s j s' h with ⟨_, he⟩ | ⟨_, _, rfl⟩ | ⟨obj, hs, hl, hp⟩
  · subst s'; exact hi
  · exact hi
  · have hwf1 := wf_interfaceMergeStep hwf (s.doc j)
    have hwf2 := wf_namespaceMergeStep hwf1 (s.doc j)
    have hobj := hwf.table_valid _ _ hl
    have hg1 := grows_interfaceMergeStep s (s.doc j)
    have hg2 := grows_namespaceMergeStep (interfaceMergeStep s (s.doc j)).1 (s.doc j)
    have h1 : SynKinds (interfaceMergeStep s (s.doc j)).1 := by
      refine synKinds_of_grows hg1 (fun m hm hm' => ?_) hi
      rcases interfaceMergeStep_cases s (s.doc j) with ⟨he, _⟩ | ⟨hk, hex, he⟩
      · rw [he] at hm'
        have : (s, (none : Option Nat)).1.nodes.length = s.nodes.length := rfl
        omega
      · have him : (interfaceMergeStep s (s.doc j)).2 = some s.nodes.length := by rw [he]
        obtain ⟨_, hlen, _, hdoc, _, _⟩ := interfaceMergeStep_merge s (s.doc j) _ him
        have hmeq : m = s.nodes.length := by omega
        subst hmeq
        left
        rw [hdoc]; rfl
    have h2 : SynKinds (namespaceMergeStep (interfaceMergeStep s (s.doc j)).1 (s.doc j)).1 := by
      refine synKinds_of_grows hg2 (fun m hm hm' => ?_) h1
      cases hnm : (namespaceMergeStep (interfaceMergeStep s (s.doc j)).1 (s.doc j)).2 with
      | none => rw [namespaceMergeStep_none _ _ hnm] at hm'; omega
      | some n =>
        obtain ⟨hn, hlen, _, hdoc, _, _⟩ := namespaceMergeStep_merge _ (s.doc j) n hnm
        have hmeq : m = n := by omega
        subst hmeq
        right
        rw [hdoc]; rfl
    have hl1 := hg1.nodes_length
    have hl2 := hg2.nodes_length
    obtain ⟨_, hg'⟩ := placementStep_wf hwf2 j obj _ _ s' hp
      (fun n hn => by
        obtain ⟨h1, h2, _⟩ := interfaceMergeStep_merge s (s.doc j) n hn
        omega)
      (fun n hn => by
        obtain ⟨h1, h2, _⟩ := namespaceMergeStep_merge _ (s.doc j) n hn
        omega)
      (by omega)
    refine synKinds_of_grows hg' (fun m hm hm' => ?_) h2
    exact Or.inr (placementStep_fresh hwf2 j obj _ _ s' hp m hm hm')

theorem synKinds_buildPrefix (o : Options) (D : List Doclet) (j : Nat)
    (s : Emitter) (h : buildPrefix o D j = some s) : SynKinds s := by
  induction j generalizing s with
  | zero =>
    rw [buildPrefix_zero] at h
    simp only [Option.some.injEq] at h
    subst h
    intro m hm hsrc
    obtain ⟨i, hi⟩ := allSrc_createPrefix o D D.length m hm
    have : (_createTreeNodes (start o D)).srcIndex m = some i := hi
    rw [this] at hsrc
    cases hsrc
  | succ j ih =>
    rw [buildPrefix_succ] at h
    cases hp : buildPrefix o D j with
    | none => rw [hp] at h; simp at h
    | some s1 =>
      rw [hp] at h
      exact buildTreeStep_synKinds (wf_buildPrefix o D j s1 hp) j s h (ih s1 hp)

theorem lt_of_inSubtree_root {o : Options} {D : List Doclet} {s : Emitter} (hwf : WF o D s)
    {d : Nat} (h : ∃ c ∈ s._treeRoots, InSubtree s c d) : d < s.nodes.length := by
  obtain ⟨c, hc, hd | hd⟩ := h
  · subst hd; exact hwf.container_valid none d hc
  · obtain ⟨p, hp⟩ := descendant_is_child hd
    exact hwf.container_valid (some p) d hp

/-- Every node of the store left by the builder has the kind of a surviving doclet of
the input, or is of kind interface or namespace. -/
theorem kind_of_node {o : Options} {D : List Doclet} {s : Emitter} (hwf : WF o D s)
    (hsyn : SynKinds s) (m : Nat) (hm : m < s.nodes.length) :
    (∃ i, i < D.length ∧ survives o (docAt D i) = true ∧ (s.docOf m).kind = (docAt D i).kind)
    ∨ (s.docOf m).kind = "interface" ∨ (s.docOf m).kind = "namespace" := by
  cases hsrc : s.srcIndex m with
  | none => exact Or.inr (hsyn m hm hsrc)
  | some i =>
    left
    obtain ⟨hi, hs⟩ := hwf.src_survives m i hsrc
    refine ⟨i, hi, hs, ?_⟩
    rw [docOf_of_srcIndex hsrc]
    exact kind_eq_of_unmember (hwf.doc_frame i)

theorem reachable_iff_inSubtree (s : Emitter) (n : Nat) :
    Reachable s n ↔ ∃ c ∈ s._treeRoots, InSubtree s c n := by
  unfold Reachable InSubtree
  constructor
  · rintro (h | ⟨r, hr, hd⟩)
    · exact ⟨n, h, Or.inl rfl⟩
    · exact ⟨r, hr, Or.inr hd⟩
  · rintro ⟨c, hc, h | h⟩
    · subst h; exact Or.inl hc
    · exact Or.inr ⟨c, hc, h⟩

end Emitter

namespace Emitter

theorem kind_ne_package_of_survives {o : Options} {d : Doclet} (h : survives o d = true) :
    d.kind ≠ "package" := by
  unfold survives at h
  intro hk
  simp [hk] at h

theorem mem_switchKinds_of_closed {k : String} (h : k ∈ closedKinds) (hp : k ≠ "package") :
    k ∈ switchKinds := by
  unfold closedKinds at h
  rcases List.mem_cons.1 h with h | h
  · exact absurd h hp
  · exact h

theorem docAt_mem {D : List Doclet} {i : Nat} (hi : i < D.length) : docAt D i ∈ D := by
  unfold docAt
  rw [List.getElem?_eq_getElem hi]
  exact List.getElem_mem _

/-- On a list whose kinds are all in the closed set, every node of the store has a kind
with a case in the `switch`. -/
theorem kind_mem_switchKinds {o : Options} {D : List Doclet} {s : Emitter} (hwf : WF o D s)
    (hsyn : SynKinds s) (hD : ∀ d ∈ D, d.kind ∈ closedKinds) (m : Nat)
    (hm : m < s.nodes.length) : (s.docOf m).kind ∈ switchKinds := by
  rcases kind_of_node hwf hsyn m hm with ⟨i, hi, hs, hk⟩ | hk | hk
  · rw [hk]
    exact mem_switchKinds_of_closed (hD _ (docAt_mem hi)) (kind_ne_package_of_survives hs)
  · rw [hk]; decide
  · rw [hk]; decide

theorem parse_eq_parseTree (r : Resolver) (fuel : Nat) {o : Options} {D : List Doclet}
    {s : Emitter} (hb : build o D = some s) : parse r fuel o D = _parseTree r fuel s := by
  unfold parse; rw [hb]

/-- On a list whose kinds are all in the closed set, `parse` never ends in
`assertNever`. -/
theorem parse_no_assertNever (r : Resolver) (fuel : Nat) (o : Options) (D : List Doclet)
    (hD : ∀ d ∈ D, d.kind ∈ closedKinds) (k : String) :
    parse r fuel o D ≠ some (Outcome.assertNever k) := by
  intro h
  have hsome := build_isSome o D
  cases hb : build o D with
  | none => rw [hb] at hsome; simp at hsome
  | some s =>
    rw [parse_eq_parseTree r fuel hb] at h
    rw [build_eq_buildPrefix] at hb
    have hwf := wf_buildPrefix o D _ s hb
    have hsyn := synKinds_buildPrefix o D _ s hb
    obtain ⟨hk, c, hc, hkc⟩ := walkSpec_parseTree r fuel s _ h
    rw [← hkc] at hk
    exact hk (kind_mem_switchKinds hwf hsyn hD c (lt_of_inSubtree_root hwf hc))

/-- On `cycleUnknownDocs` the walk from the node of `A` never returns. -/
theorem cycle_walk_none (r : Resolver) (s : Emitter) (h0 : s.childrenOf 0 = [1])
    (h1 : s.childrenOf 1 = [0]) :
    ∀ (fuel : Nat) (parent : Option Nat),
      _parseTreeNode r fuel s 0 parent = none ∧ _parseTreeNode r fuel s 1 parent = none := by
  intro fuel
  induction fuel with
  | zero => intro parent; exact ⟨rfl, rfl⟩
  | succ fuel ih =>
    intro parent
    constructor
    · unfold _parseTreeNode
      rw [h0]
      unfold parseChildren
      rw [(ih (some 0)).2]
    · unfold _parseTreeNode
      rw [h1]
      unfold parseChildren
      rw [(ih (some 1)).1]

/-- C12 as stated fails in its second half: on `cycleUnknownDocs` the node of the
doclet `Z`, of the unknown kind `widget`, is a forest root, yet no run of `parse` ends
in `assertNever`: the node of `A` is a child of its own child `B` and the walk from the
first root never returns (whatever the fuel, the run has no outcome). -/
theorem unknown_kind_behind_cycle :
    (∀ r : Resolver, ¬ UnknownKindAborts r {} cycleUnknownDocs)
    ∧ ∃ s : Emitter, build {} cycleUnknownDocs = some s ∧ s._treeRoots = [0, 2]
        ∧ s.childrenOf 0 = [1] ∧ s.childrenOf 1 = [0] ∧ (s.docOf 2).kind = "widget"
        ∧ ∀ (r : Resolver) (fuel : Nat), parse r fuel {} cycleUnknownDocs = none := by
  have key : ∃ s : Emitter, build {} cycleUnknownDocs = some s ∧ s._treeRoots = [0, 2]
      ∧ s.childrenOf 0 = [1] ∧ s.childrenOf 1 = [0] ∧ (s.docOf 2).kind = "widget" :=
    ⟨(build {} cycleUnknownDocs).get (by decide), by simp, by decide, by decide, by decide,
      by decide⟩
  obtain ⟨s, hb, hroots, h0, h1, hk⟩ := key
  have hnone : ∀ (r : Resolver) (fuel : Nat), parse r fuel {} cycleUnknownDocs = none := by
    intro r fuel
    rw [parse_eq_parseTree r fuel hb]
    unfold _parseTree
    rw [hroots]
    unfold parseChildren
    rw [(cycle_walk_none r s h0 h1 fuel none).1]
  refine ⟨?_, s, hb, hroots, h0, h1, hk, hnone⟩
  intro r h
  obtain ⟨fuel, k, hp⟩ := h s hb 2 (Or.inl (by rw [hroots]; simp)) (by rw [hk]; decide)
  rw [hnone r fuel] at hp
  cases hp

theorem noDerivedLongnames_unknownKindDocs : NoDerivedLongnames {} unknownKindDocs := by
  intro i hi _
  have hi' : i < 2 := hi
  interval_cases i
  · exact not_isDerivedKey_of_short _ (by decide) (by decide)
  · exact not_isDerivedKey_of_short _ (by decide) (by decide)

/-- C12 (amended): on every list whose kinds are all in the closed set `parse` never
ends in `assertNever` (no node wraps a `package` doclet and a synthetic node is of kind
interface or namespace), and a node of kind `file` or `event` yields no construct.
Conversely, when the surviving doclets have pairwise distinct longnames, none of them a
derived merge key, no `longname` or `memberof` of them is a property name of
`Object.prototype`, and the doclet of a node reachable from a forest root has a kind
outside the closed set, `parse` ends in `assertNever` with a kind that has no case,
given fuel for as many levels as there are nodes; with all kinds in the closed set it
returns a value. -/
theorem kind_dispatch_total (r : Resolver) (o : Options) (D : List Doclet)
    (hd : DistinctLongnames o D) (hn : NoDerivedLongnames o D) (_hkeys : NoInheritedKeys o D) :
    (∀ (D1 : List Doclet), (∀ d ∈ D1, d.kind ∈ closedKinds) →
        (∀ (fuel : Nat) (k : String), parse r fuel o D1 ≠ some (Outcome.assertNever k))
        ∧ ∀ s1, build o D1 = some s1 → ∀ m, m < s1.nodes.length →
            (s1.docOf m).kind ≠ "package"
            ∧ (s1.srcIndex m = none →
                (s1.docOf m).kind = "interface" ∨ (s1.docOf m).kind = "namespace"))
    ∧ (∀ (s1 : Emitter) (n : Nat) (parent : Option Nat) (children : List TsNode),
        (s1.docOf n).kind = "file" ∨ (s1.docOf n).kind = "event" →
        dispatch r s1 n parent children = Outcome.value (s1, none))
    ∧ ∃ s, build o D = some s
      ∧ (∀ n, Reachable s n → (s.docOf n).kind ∉ closedKinds →
          ∀ fuel, s.nodes.length ≤ fuel →
            ∃ k, k ∉ switchKinds ∧ parse r fuel o D = some (Outcome.assertNever k))
      ∧ ((∀ d ∈ D, d.kind ∈ closedKinds) → ∀ fuel, s.nodes.length ≤ fuel →
          ∃ v, parse r fuel o D = some (Outcome.value v)) := by
  refine ⟨?_, ?_, ?_⟩
  · intro D1 hD1
    refine ⟨fun fuel k => parse_no_assertNever r fuel o D1 hD1 k, ?_⟩
    intro s1 hb m hm
    rw [build_eq_buildPrefix] at hb
    have hwf := wf_buildPrefix o D1 _ s1 hb
    have hsyn := synKinds_buildPrefix o D1 _ s1 hb
    refine ⟨?_, hsyn m hm⟩
    rcases kind_of_node hwf hsyn m hm with ⟨i, _, hs, hk⟩ | hk | hk
    · rw [hk]; exact kind_ne_package_of_survives hs
    · rw [hk]; decide
    · rw [hk]; decide
  · intro s1 n parent children hk
    rcases dispatch_outcome r s1 n parent children with ⟨hnk, _⟩ | ⟨_, ⟨_, he⟩ | ⟨hne, _⟩⟩
    · exfalso
      rcases hk with h | h <;> rw [h] at hnk <;> exact hnk (by decide)
    · exact he
    · exfalso
      rcases hk with h | h
      · exact hne.1 h
      · exact hne.2 h
  · have hsome := build_isSome o D
    cases hb : build o D with
    | none => rw [hb] at hsome; simp at hsome
    | some s =>
      have hb' := hb
      rw [build_eq_buildPrefix] at hb'
      have hwf := wf_buildPrefix o D _ s hb'
      have hf := (forest_buildPrefix hd hn D.length (Nat.le_refl _) s hb').1
      refine ⟨s, rfl, ?_, ?_⟩
      · intro n hr hk fuel hfuel
        have hterm := (parseTree_terminates hwf hf r fuel hfuel).1
        rw [parse_eq_parseTree r fuel hb]
        cases hout : _parseTree r fuel s with
        | none => rw [hout] at hterm; simp at hterm
        | some out =>
          have hspec := walkSpec_parseTree r fuel s out hout
          cases out with
          | assertNever k => exact ⟨k, hspec.1, rfl⟩
          | value v =>
            exfalso
            have := hspec.2 n ((reachable_iff_inSubtree s n).1 hr)
            exact hk (List.mem_cons_of_mem _ this)
      · intro hD fuel hfuel
        have hterm := (parseTree_terminates hwf hf r fuel hfuel).1
        cases hout : parse r fuel o D with
        | none =>
          rw [parse_eq_parseTree r fuel hb] at hout
          rw [hout] at hterm; simp at hterm
        | some out =>
          cases out with
          | assertNever k => exact absurd hout (parse_no_assertNever r fuel o D hD k)
          | value v => exact ⟨v, rfl⟩

/-- C12 (amended) on a function followed by a doclet of the unknown kind `widget`. -/
theorem kind_dispatch_total_witness :
    DistinctLongnames {} unknownKindDocs ∧ NoDerivedLongnames {} unknownKindDocs
    ∧ NoInheritedKeys {} unknownKindDocs
    ∧ ∃ s, build {} unknownKindDocs = some s
      ∧ (∀ n, Reachable s n → (s.docOf n).kind ∉ closedKinds →
          ∀ fuel, s.nodes.length ≤ fuel →
            ∃ k, k ∉ switchKinds
              ∧ parse {} fuel {} unknownKindDocs = some (Outcome.assertNever k))
      ∧ ((∀ d ∈ unknownKindDocs, d.kind ∈ closedKinds) → ∀ fuel, s.nodes.length ≤ fuel →
          ∃ v, parse {} fuel {} unknownKindDocs = some (Outcome.value v)) :=
  ⟨by unfold DistinctLongnames; decide, noDerivedLongnames_unknownKindDocs,
    by unfold NoInheritedKeys; decide,
    (kind_dispatch_total {} {} unknownKindDocs (by unfold DistinctLongnames; decide)
      noDerivedLongnames_unknownKindDocs (by unfold NoInheritedKeys; decide)).2.2⟩

end Emitter

namespace Emitter

theorem mixinChildren_of_step {o : Options} {D : List Doclet} {s s' : Emitter} (hwf : WF o D s)
    (hg : Grows s s') (hsame : ∀ p, s'.childrenOf p = s.childrenOf p)
    (hmem : ∀ i, (s'.doc i).memberof = (s.doc i).memberof
      ∨ ∃ x, (s'.doc i).memberof = some (_getNamespaceKey x))
    (hlook : ∀ k n, ¬ IsDerivedKey k → s.lookup k = some n → s'.lookup k = some n)
    (h : MixinChildren s) : MixinChildren s' := by
  intro p n i hn hsrc hk
  rw [hsame] at hn
  have hp := childrenOf_lt hn
  have hnv := hwf.container_valid (some p) n hn
  rw [hg.srcIndex_eq n hnv] at hsrc
  rw [hg.kind_eq hp] at hk
  unfold NamesParent
  rw [hg.longname_eq hp]
  rcases h p n i hn hsrc hk with ⟨h1, h2, h3⟩ | ⟨x, hx⟩
  · rcases hmem i with he | he
    · exact Or.inl ⟨he.trans h1, hlook _ _ h3 h2, h3⟩
    · exact Or.inr he
  · rcases hmem i with he | he
    · exact Or.inr ⟨x, he.trans hx⟩
    · exact Or.inr he

theorem mixinChildren_of_eq {s s' : Emitter} (hch : ∀ p, s'.childrenOf p = s.childrenOf p)
    (hsrc : ∀ n, s'.srcIndex n = s.srcIndex n) (hdoc : ∀ n, s'.docOf n = s.docOf n)
    (hd : ∀ i, s'.doc i = s.doc i) (hl : ∀ k, s'.lookup k = s.lookup k)
    (h : MixinChildren s) : MixinChildren s' := by
  intro p n i hn hs hk
  rw [hch] at hn
  rw [hsrc] at hs
  rw [hdoc] at hk
  unfold NamesParent
  rw [hdoc, hd, hl]
  exact h p n i hn hs hk

theorem mixinChildren_pushTo {s : Emitter} (h : MixinChildren s) (c : Option Nat) (n : Nat)
    (hn : ∀ p i, c = some p → s.srcIndex n = some i → (s.docOf p).kind = "mixin" →
      NamesParent s p i) :
    MixinChildren (s.pushTo c n) := by
  intro p k i hk hs hkind
  rw [srcIndex_pushTo] at hs
  rw [docOf_pushTo] at hkind
  unfold NamesParent
  rw [docOf_pushTo, doc_pushTo, lookup_pushTo]
  have hk' : k ∈ (s.pushTo c n).container (some p) := hk
  rw [container_pushTo] at hk'
  split at hk'
  · rename_i hc
    obtain ⟨h0, _⟩ := hc
    subst h0
    rcases List.mem_append.1 hk' with h1 | h1
    · exact h p k i h1 hs hkind
    · simp only [List.mem_singleton] at h1
      subst h1
      exact hn p i rfl hs hkind
  · exact h p k i hk' hs hkind

theorem namesParent_pushOpt (s : Emitter) (c : Option Nat) (m : Option Nat) (p i : Nat) :
    NamesParent (s.pushOpt c m) p i ↔ NamesParent s p i := by
  cases m with
  | none => rfl
  | some k =>
    unfold NamesParent pushOpt
    simp only
    rw [docOf_pushTo, doc_pushTo, lookup_pushTo]

theorem mixinChildren_pushOpt {s : Emitter} (h : MixinChildren s) (c : Option Nat)
    (m : Option Nat) (hm : ∀ n, m = some n → s.srcIndex n = none) :
    MixinChildren (s.pushOpt c m) := by
  cases m with
  | none => exact h
  | some n =>
    refine mixinChildren_pushTo h c n (fun p i _ hs _ => ?_)
    rw [hm n rfl] at hs
    cases hs

theorem mixinChildren_place {s : Emitter} (h : MixinChildren s) (c : Option Nat)
    (im nm : Option Nat) (obj : Nat) (him : ∀ n, im = some n → s.srcIndex n = none)
    (hnm : ∀ n, nm = some n → s.srcIndex n = none)
    (hobj : ∀ p i, c = some p → s.srcIndex obj = some i → (s.docOf p).kind = "mixin" →
      NamesParent s p i) :
    MixinChildren (s.place c im nm obj) := by
  unfold place
  have h1 := mixinChildren_pushOpt h c im him
  have h2 := mixinChildren_pushOpt h1 c nm (fun n hn => by rw [srcIndex_pushOpt]; exact hnm n hn)
  refine mixinChildren_pushTo h2 c obj (fun p i hp hs hk => ?_)
  rw [srcIndex_pushOpt, srcIndex_pushOpt] at hs
  rw [docOf_pushOpt, docOf_pushOpt] at hk
  rw [namesParent_pushOpt, namesParent_pushOpt]
  exact hobj p i hp hs hk

theorem mixinChildren_of_gocPost {o : Options} {D : List Doclet} {s s' : Emitter}
    (hwf : WF o D s) (hp : GocPost s.nodes.length s s') (h : MixinChildren s) :
    MixinChildren s' := by
  intro p n i hn hsrc hk
  obtain ⟨t, ht, hfresh⟩ := hp.pushes_fresh (some p)
  have hn' : n ∈ s'.container (some p) := hn
  rw [ht] at hn'
  rcases List.mem_append.1 hn' with hold | hnew
  · have hplt := childrenOf_lt hold
    have hnv := hwf.container_valid (some p) n hold
    rw [hp.grows.srcIndex_eq n hnv] at hsrc
    rw [hp.old_docOf p hplt] at hk
    unfold NamesParent
    rw [hp.old_docOf p hplt, doc_eq_of_docs_eq hp.docs_eq]
    rcases h p n i hold hsrc hk with ⟨h1, h2, h3⟩ | hx
    · exact Or.inl ⟨h1, hp.lookup_old _ _ h2, h3⟩
    · exact Or.inr hx
  · exfalso
    have hge := hfresh n hnew
    by_cases hlt : n < s'.nodes.length
    · rw [(hp.fresh_syn n hge hlt).1] at hsrc; cases hsrc
    · rw [srcIndex_of_length_le s' n (by omega)] at hsrc; cases hsrc

theorem mixinChildren_interfaceMergeStep {o : Options} {D : List Doclet} {s : Emitter}
    (hwf : WF o D s) (d : Doclet) (h : MixinChildren s) :
    MixinChildren (interfaceMergeStep s d).1 :=
  mixinChildren_of_step hwf (grows_interfaceMergeStep s d)
    (fun p => container_interfaceMergeStep s d (some p))
    (fun i => Or.inl (by rw [doc_eq_of_docs_eq (docs_interfaceMergeStep s d)]))
    (fun k n hk hl => by rw [lookup_interfaceMergeStep_plain s d k hk]; exact hl) h

theorem mixinChildren_namespaceMergeStep {o : Options} {D : List Doclet} {s : Emitter}
    (hwf : WF o D s) (d : Doclet) (h : MixinChildren s) :
    MixinChildren (namespaceMergeStep s d).1 := by
  refine mixinChildren_of_step hwf (grows_namespaceMergeStep s d)
    (fun p => container_namespaceMergeStep s d (some p)) (fun i => ?_)
    (fun k n hk hl => by rw [lookup_namespaceMergeStep_plain s d k hk]; exact hl) h
  rcases docs_namespaceMergeStep s d with he | ⟨_, _, he⟩
  · exact Or.inl (by rw [doc_eq_of_docs_eq he])
  · rw [doc_eq_of_docs_eq he, doc_reassignStatic]
    by_cases hst : isStaticChildOf d.longname (s.doc i) = true
    · rw [if_pos hst]
      exact Or.inr ⟨d.longname, rfl⟩
    · rw [if_neg hst]
      exact Or.inl rfl

theorem not_derived_of_mixin {o : Options} {D : List Doclet} {s : Emitter} (hwf : WF o D s)
    (hsyn : SynKinds s) (hnd : NoDerivedLongnames o D) {p : Nat} (hp : p < s.nodes.length)
    (hk : (s.docOf p).kind = "mixin") : ¬ IsDerivedKey (s.docOf p).longname := by
  cases hsrc : s.srcIndex p with
  | none =>
    rcases hsyn p hp hsrc with h | h <;> rw [h] at hk <;> exact absurd hk (by decide)
  | some j =>
    obtain ⟨hj, hs⟩ := hwf.src_survives p j hsrc
    rw [docOf_of_srcIndex hsrc, longname_eq_of_unmember (hwf.doc_frame j)]
    exact hnd j hj hs

theorem placementStep_mixin {o : Options} {D : List Doclet} {s : Emitter} (hwf : WF o D s)
    (hsyn : SynKinds s) (hnd : NoDerivedLongnames o D) (hns : NsKeysOk s)
    (i obj : Nat) (im nm : Option Nat) (s' : Emitter)
    (h : placementStep s i obj im nm = some s')
    (hobj : s.srcIndex obj = some i)
    (him : ∀ n, im = some n → s.srcIndex n = none ∧ n < s.nodes.length)
    (hnm : ∀ n, nm = some n → s.srcIndex n = none ∧ n < s.nodes.length)
    (hmc : MixinChildren s) : MixinChildren s' := by
  rcases placementStep_cases s i obj im nm s' h with
    ⟨_, rfl⟩ | ⟨_, _, rfl⟩ | ⟨parent, s1, mod, _, hl, _, _, hg, rfl⟩
    | ⟨parent, _, _, _, _, rfl⟩ | ⟨parent, htr, hl, _, _, rfl⟩
  · exact mixinChildren_place hmc none im nm obj (fun n hn => (him n hn).1)
      (fun n hn => (hnm n hn).1) (fun p i' hp => by simp at hp)
  · exact mixinChildren_of_eq (fun _ => rfl) (fun _ => rfl) (fun _ => rfl) (fun _ => rfl)
      (fun _ => rfl) hmc
  · have hpar := hwf.table_valid _ _ hl
    obtain ⟨hwf1, hpost, _⟩ := getOrCreate_post o D _ _ _ _ _ hg hwf hpar
    obtain ⟨hkind, _, _⟩ := getOrCreate_result o D _ _ _ _ _ hg hwf hpar hns
    have h1 := mixinChildren_of_gocPost hwf hpost hmc
    refine mixinChildren_place h1 (some mod) im nm obj
      (fun n hn => by rw [hpost.grows.srcIndex_eq n (him n hn).2]; exact (him n hn).1)
      (fun n hn => by rw [hpost.grows.srcIndex_eq n (hnm n hn).2]; exact (hnm n hn).1)
      (fun p i' hp _ hk => ?_)
    simp only [Option.some.injEq] at hp
    subst hp
    rw [hkind] at hk
    exact absurd hk (by decide)
  · exact mixinChildren_of_eq (fun p => container_markNested s i obj parent (some p))
      (fun n => srcIndex_markNested s i obj parent n) (fun n => docOf_markNested s i obj parent n)
      (fun k => doc_markNested s i obj parent k) (fun k => lookup_markNested s i obj parent k) hmc
  · have h1 : MixinChildren (s.markNested i obj parent) :=
      mixinChildren_of_eq (fun p => container_markNested s i obj parent (some p))
        (fun n => srcIndex_markNested s i obj parent n)
        (fun n => docOf_markNested s i obj parent n)
        (fun k => doc_markNested s i obj parent k)
        (fun k => lookup_markNested s i obj parent k) hmc
    refine mixinChildren_place h1 (some parent) im nm obj
      (fun n hn => by rw [srcIndex_markNested]; exact (him n hn).1)
      (fun n hn => by rw [srcIndex_markNested]; exact (hnm n hn).1)
      (fun p i' hp hs hk => ?_)
    simp only [Option.some.injEq] at hp
    subst hp
    rw [srcIndex_markNested, hobj] at hs
    simp only [Option.some.injEq] at hs
    subst hs
    rw [docOf_markNested] at hk
    unfold NamesParent
    rw [docOf_markNested, doc_markNested, lookup_markNested]
    have hlong := hwf.key_longname _ _ hl
    left
    refine ⟨?_, ?_, not_derived_of_mixin hwf hsyn hnd (hwf.table_valid _ _ hl) hk⟩
    · rw [hlong]; exact eq_some_of_truthy htr
    · rw [hlong]; exact hl

theorem synKinds_interfaceMergeStep {s : Emitter} (hi : SynKinds s) (d : Doclet) :
    SynKinds (interfaceMergeStep s d).1 := by
  refine synKinds_of_grows (grows_interfaceMergeStep s d) (fun m hm hm' => ?_) hi
  rcases interfaceMergeStep_cases s d with ⟨he, _⟩ | ⟨hk, hex, he⟩
  · rw [he] at hm'
    have : (s, (none : Option Nat)).1.nodes.length = s.nodes.length := rfl
    omega
  · have him : (interfaceMergeStep s d).2 = some s.nodes.length := by rw [he]
    obtain ⟨_, hlen, _, hdoc, _, _⟩ := interfaceMergeStep_merge s d _ him
    have hmeq : m = s.nodes.length := by omega
    subst hmeq
    left
    rw [hdoc]; rfl

theorem synKinds_namespaceMergeStep {s : Emitter} (hi : SynKinds s) (d : Doclet) :
    SynKinds (namespaceMergeStep s d).1 := by
  refine synKinds_of_grows (grows_namespaceMergeStep s d) (fun m hm hm' => ?_) hi
  cases hnm : (namespaceMergeStep s d).2 with
  | none => rw [namespaceMergeStep_none _ _ hnm] at hm'; omega
  | some n =>
    obtain ⟨hn, hlen, _, hdoc, _, _⟩ := namespaceMergeStep_merge _ d n hnm
    have hmeq : m = n := by omega
    subst hmeq
    right
    rw [hdoc]; rfl

theorem buildTreeStep_mixin {o : Options} {D : List Doclet} {s : Emitter} (hwf : WF o D s)
    (ht : SrcTable o D s) (hsyn : SynKinds s) (hnd : NoDerivedLongnames o D) (hns : NsKeysOk s)
    (hcc : ClassChildren s) {j : Nat} (hj : j < D.length) (s' : Emitter)
    (h : buildTreeStep s j = some s') (hmc : MixinChildren s) : MixinChildren s' := by
  rcases buildTreeStep_cases s j s' h with ⟨_, he⟩ | ⟨_, _, rfl⟩ | ⟨obj, hs, hl, hp⟩
  · subst s'; exact hmc
  · exact mixinChildren_of_eq (fun _ => rfl) (fun _ => rfl) (fun _ => rfl) (fun _ => rfl)
      (fun _ => rfl) hmc
  · have hobj := hwf.table_valid _ _ hl
    have hwf1 := wf_interfaceMergeStep hwf (s.doc j)
    have hwf2 := wf_namespaceMergeStep hwf1 (s.doc j)
    have hsrc := srcIndex_of_srcTable hwf ht hj hs hl
    have hsj : survives o (docAt D j) = true := by
      rw [← survives_eq_of_unmember o (hwf.doc_frame j), ← hwf.options_eq]; exact hs
    have hlong : (s.doc j).longname ≠ "" := by
      rw [longname_eq_of_unmember (hwf.doc_frame j)]
      intro h0
      exact hnd j hj hsj (h0 ▸ isDerivedKey_empty)
    obtain ⟨hns1, hc1⟩ := classInv_interfaceMergeStep hwf (s.doc j) hlong hns hcc
    obtain ⟨hns2, _⟩ := classInv_namespaceMergeStep hwf1 (s.doc j) hns1 hc1
    obtain ⟨hf1, hf2, _, hsrcEq, _⟩ := mergeSteps_facts hwf (s.doc j) obj hobj
    have hm1 := mixinChildren_interfaceMergeStep hwf (s.doc j) hmc
    have hm2 := mixinChildren_namespaceMergeStep hwf1 (s.doc j) hm1
    have hsyn2 := synKinds_namespaceMergeStep (synKinds_interfaceMergeStep hsyn (s.doc j))
      (s.doc j)
    refine placementStep_mixin hwf2 hsyn2 hnd hns2 j obj _ _ s' hp
      ((hsrcEq obj hobj).trans hsrc) ?_ ?_ hm2
    · intro n hn
      obtain ⟨h1, h2, _⟩ := hf1 n hn
      exact ⟨h1, h2⟩
    · intro n hn
      obtain ⟨h1, h2, _⟩ := hf2 n hn
      exact ⟨h1, h2⟩

theorem mixinChildren_buildPrefix {o : Options} {D : List Doclet} (hd : DistinctLongnames o D)
    (hnd : NoDerivedLongnames o D) (j : Nat) (hj : j ≤ D.length) (s : Emitter)
    (h : buildPrefix o D j = some s) : MixinChildren s := by
  induction j generalizing s with
  | zero =>
    rw [buildPrefix_zero] at h
    simp only [Option.some.injEq] at h
    subst h
    intro p n i hn
    have := (createInv_createTreeNodes o D).empty (some p)
    rw [show (_createTreeNodes (start o D)).childrenOf p
      = (_createTreeNodes (start o D)).container (some p) from rfl, this] at hn
    simp at hn
  | succ j ih =>
    rw [buildPrefix_succ] at h
    cases hp : buildPrefix o D j with
    | none => rw [hp] at h; simp at h
    | some s1 =>
      rw [hp] at h
      obtain ⟨hns, hcc⟩ := classInv_buildPrefix hd hnd j (by omega) s1 hp
      exact buildTreeStep_mixin (wf_buildPrefix o D j s1 hp)
        (forest_buildPrefix hd hnd j (by omega) s1 hp).2 (synKinds_buildPrefix o D j s1 hp)
        hnd hns hcc (by omega) s h (ih (by omega) s1 hp)

end Emitter

theorem createClass_kind (r : Resolver) (d : Doclet) (ch : List TsNode) :
    (createClass r d ch).2.2.kind = SyntaxKind.ClassDeclaration := by
  unfold createClass; simp only; rw [handleComment_kind]; rfl

theorem createInterface_kind (d : Doclet) (ch : List TsNode) :
    (createInterface d ch).2.2.kind = SyntaxKind.InterfaceDeclaration := by
  unfold createInterface; simp only; rw [handleComment_kind]; rfl

theorem createEnum_kind (d : Doclet) :
    (createEnum d).2.2.kind = SyntaxKind.EnumDeclaration := by
  unfold createEnum; simp only; rw [handleComment_kind]; rfl

theorem createModule_kind (d : Doclet) (nested : Bool) (ch : List TsNode) :
    (createModule d nested ch).2.2.kind = SyntaxKind.ModuleDeclaration := by
  unfold createModule; simp only; rw [handleComment_kind]; rfl

theorem createNamespace_kind (d : Doclet) (nested : Bool) (ch : List TsNode) :
    (createNamespace d nested ch).2.2.kind = SyntaxKind.ModuleDeclaration := by
  unfold createNamespace; simp only; rw [handleComment_kind]; rfl

theorem createTypedef_kind (d : Doclet) :
    (createTypedef d).2.2.kind = SyntaxKind.TypeAliasDeclaration := by
  unfold createTypedef; simp only; rw [handleComment_kind]; rfl

theorem isTypeElement_of_kind {t : TsNode} {k : SyntaxKind} (h : t.kind = k)
    (hk : k ≠ SyntaxKind.PropertySignature ∧ k ≠ SyntaxKind.MethodSignature) :
    isTypeElement t = false := by
  unfold isTypeElement
  rw [h]
  simp [hk.1, hk.2]

namespace Emitter

/-- The construct of the `switch` is a type element only for a field whose tree parent
is an interface and for a function whose `memberof` names an interface in the table. -/
theorem dispatch_typeElement (r : Resolver) (s : Emitter) (n : Nat) (parent : Option Nat)
    (children : List TsNode) (s' : Emitter) (t : TsNode)
    (h : dispatch r s n parent children = Outcome.value (s', some t))
    (ht : isTypeElement t = true) :
    (IsFieldNode s n ∧ s.treeParentKind parent = some "interface")
    ∨ (IsFunctionNode s n ∧ s.tableParentKind n = some "interface") := by
  have key : ∀ (x : Doclet × List Warning × TsNode) (k : SyntaxKind),
      dispatch r s n parent children = Outcome.value (s.afterHelper n x) →
      x.2.2.kind = k → k ≠ SyntaxKind.PropertySignature ∧ k ≠ SyntaxKind.MethodSignature →
      False := by
    intro x k hx hk hne
    rw [hx] at h
    simp only [afterHelper, Outcome.value.injEq, Prod.mk.injEq, Option.some.injEq] at h
    rw [← h.2, isTypeElement_of_kind hk hne] at ht
    cases ht
  by_cases hfun : IsFunctionNode s n
  · right
    refine ⟨hfun, ?_⟩
    by_contra hni
    have hd := dispatch_function r s n parent children hfun
    rw [if_neg hni] at hd
    by_cases hc : s.tableParentKind n = some "class"
    · rw [if_pos hc] at hd
      exact key _ _ hd (createClassMethod_kind r _) (by decide)
    · rw [if_neg hc] at hd
      exact key _ _ hd (createFunction_kind _) (by decide)
  by_cases hfield : IsFieldNode s n
  · left
    refine ⟨hfield, ?_⟩
    by_contra hni
    have hd := dispatch_field r s n parent children hfield
    rw [if_neg hni] at hd
    by_cases hc : s.treeParentKind parent = some "class"
    · rw [if_pos hc] at hd
      exact key _ _ hd (createClassMember_kind r _) (by decide)
    · rw [if_neg hc] at hd
      exact key _ _ hd (createNamespaceMember_kind _) (by decide)
  exfalso
  unfold IsFunctionNode at hfun
  unfold IsFieldNode at hfield
  simp only [not_or] at hfun
  unfold dispatch at h key
  simp only at h key
  by_cases h1 : (s.docOf n).kind = "class"
  · rw [if_pos h1] at key
    exact key _ _ rfl (createClass_kind r _ _) (by decide)
  rw [if_neg h1] at h key
  by_cases h2 : (s.docOf n).kind = "constant" ∨ (s.docOf n).kind = "member"
  · rw [if_pos h2] at key
    by_cases h3 : (s.docOf n).isEnum = some true
    · rw [if_pos h3] at key
      exact key _ _ rfl (createEnum_kind _) (by decide)
    · exact hfield ⟨h2.symm, h3⟩
  rw [if_neg h2] at h key
  rw [if_neg (fun hh : (s.docOf n).kind = "callback" ∨ (s.docOf n).kind = "function" =>
    hh.elim hfun.2 hfun.1)] at h key
  by_cases h7 : (s.docOf n).kind = "interface"
  · rw [if_pos h7] at key
    exact key _ _ rfl (createInterface_kind _ _) (by decide)
  rw [if_neg h7] at h key
  by_cases h8 : (s.docOf n).kind = "mixin"
  · rw [if_pos h8] at key
    exact key _ _ rfl (createInterface_kind _ _) (by decide)
  rw [if_neg h8] at h key
  by_cases h9 : (s.docOf n).kind = "module"
  · rw [if_pos h9] at key
    exact key _ _ rfl (createModule_kind _ _ _) (by decide)
  rw [if_neg h9] at h key
  by_cases h10 : (s.docOf n).kind = "namespace"
  · rw [if_pos h10] at key
    exact key _ _ rfl (createNamespace_kind _ _ _) (by decide)
  rw [if_neg h10] at h key
  by_cases h11 : (s.docOf n).kind = "typedef"
  · rw [if_pos h11] at key
    exact key _ _ rfl (createTypedef_kind _) (by decide)
  rw [if_neg h11] at h
  by_cases h12 : (s.docOf n).kind = "file"
  · rw [if_pos h12] at h
    simp at h
  rw [if_neg h12] at h
  by_cases h13 : (s.docOf n).kind = "event"
  · rw [if_pos h13] at h
    simp at h
  rw [if_neg h13] at h
  cases h

theorem WalkFrame.isFunctionNode {s s' : Emitter} (h : WalkFrame s s') (n : Nat) :
    IsFunctionNode s' n ↔ IsFunctionNode s n := by
  unfold IsFunctionNode; rw [h.kind n]

theorem WalkFrame.isFieldNode {s s' : Emitter} (h : WalkFrame s s') (n : Nat) :
    IsFieldNode s' n ↔ IsFieldNode s n := by
  unfold IsFieldNode; rw [h.kind n, isEnum_eq_of_unname (h.docOf_frame n)]

theorem WalkFrame.tableParentKind {s s' : Emitter} (h : WalkFrame s s') (n : Nat) :
    s'.tableParentKind n = s.tableParentKind n := by
  unfold Emitter.tableParentKind
  rw [h.memberof n, h.lookup]
  congr 1
  cases s.lookup ((s.docOf n).memberof.getD "") with
  | none => rfl
  | some p => simp only [Option.map_some']; rw [h.kind p]

theorem WalkFrame.treeParentKind {s s' : Emitter} (h : WalkFrame s s') (parent : Option Nat) :
    s'.treeParentKind parent = s.treeParentKind parent := by
  unfold Emitter.treeParentKind
  cases parent with
  | none => rfl
  | some p => simp only [Option.map_some']; rw [h.kind p]

/-- The value of a call of `_parseTreeNode` is the value of its `switch`, run in a state
that is the starting state up to names and warnings. -/
theorem parseTreeNode_dispatch (r : Resolver) (fuel : Nat) (s : Emitter) (n : Nat)
    (parent : Option Nat) (v : Emitter × Option TsNode)
    (h : _parseTreeNode r (fuel + 1) s n parent = some (Outcome.value v)) :
    ∃ s1 children,
      parseChildren (fun s3 c => _parseTreeNode r fuel s3 c (some n)) s (s.childrenOf n) []
        = some (Outcome.value (s1, children))
      ∧ WalkFrame s s1 ∧ dispatch r s1 n parent children = Outcome.value v := by
  unfold _parseTreeNode at h
  cases hc : parseChildren (fun s1 c => _parseTreeNode r fuel s1 c (some n)) s
      (s.childrenOf n) [] with
  | none => rw [hc] at h; simp at h
  | some o =>
    rw [hc] at h
    cases o with
    | assertNever k => simp at h
    | value w =>
      obtain ⟨s1, children⟩ := w
      simp only [Option.some.injEq] at h
      have hspec := walkSpec_parseChildren _
        (fun s1 c out1 h1 => walkSpec_parseTreeNode r fuel s1 c (some n) out1 h1) _ s [] _ hc
      exact ⟨s1, children, rfl, hspec.1, h⟩

/-- A property of the constructs of the children that holds whatever state of the walk
a child is visited in holds for every construct the loop over the children collects. -/
theorem parseChildren_all (visit : Emitter → Nat → Option (Outcome (Emitter × Option TsNode)))
    (Q : TsNode → Prop) :
    ∀ (l : List Nat) (s : Emitter) (acc : List TsNode) (s' : Emitter) (res : List TsNode),
      (∀ t ∈ acc, Q t) →
      (∀ c ∈ l, ∀ s1 s2 t, WalkFrame s s1 → visit s1 c = some (Outcome.value (s2, some t)) →
        Q t) →
      (∀ c ∈ l, ∀ s1 v, visit s1 c = some (Outcome.value v) → WalkFrame s1 v.1) →
      parseChildren visit s l acc = some (Outcome.value (s', res)) → ∀ t ∈ res, Q t := by
  intro l
  induction l with
  | nil =>
    intro s acc s' res hacc _ _ h
    unfold parseChildren at h
    simp only [Option.some.injEq, Outcome.value.injEq, Prod.mk.injEq] at h
    rw [← h.2]; exact hacc
  | cons c cs ih =>
    intro s acc s' res hacc hq hf h
    unfold parseChildren at h
    cases hv : visit s c with
    | none => rw [hv] at h; simp at h
    | some o =>
      rw [hv] at h
      cases o with
      | assertNever k => simp at h
      | value v =>
        obtain ⟨s1, childNode⟩ := v
        simp only at h
        have hfr : WalkFrame s s1 := hf c (List.mem_cons_self _ _) s _ hv
        refine ih s1 _ s' res ?_ ?_ ?_ h
        · cases childNode with
          | none => exact hacc
          | some t =>
            intro t' ht'
            rcases List.mem_append.1 ht' with h1 | h1
            · exact hacc t' h1
            · simp only [List.mem_singleton] at h1
              subst h1
              exact hq c (List.mem_cons_self _ _) s s1 t' (WalkFrame.unchanged s) hv
        · intro c' hc' s2 s3 t hfr2 hv2
          exact hq c' (List.mem_cons_of_mem _ hc') s2 s3 t (hfr.followedBy hfr2) hv2
        · intro c' hc' s2 v hv2
          exact hf c' (List.mem_cons_of_mem _ hc') s2 v hv2

theorem warnings_setDoclet (s : Emitter) (n : Nat) (d : Doclet) :
    (s.setDoclet n d).warnings = s.warnings := by
  unfold setDoclet
  cases (s.node n).doclet <;> rfl

theorem dispatch_mixin (r : Resolver) (s : Emitter) (n : Nat) (parent : Option Nat)
    (children : List TsNode) (hk : (s.docOf n).kind = "mixin") :
    dispatch r s n parent children
      = Outcome.value (s.afterHelper n (createInterface (s.docOf n) children)) := by
  unfold dispatch
  simp only
  rw [if_neg (by rw [hk]; decide), if_neg (by rw [hk]; decide), if_neg (by rw [hk]; decide),
    if_neg (by rw [hk]; decide), if_pos hk]

/-- In a state where no function child of the mixin node `p` names a class or an
interface in the table, the mixin node has C24. -/
theorem mixinClaim_of_safe (r : Resolver) (s : Emitter) (p : Nat)
    (hk : (s.docOf p).kind = "mixin")
    (hsafe : ∀ c ∈ s.childrenOf p, IsFunctionNode s c →
      s.tableParentKind c ≠ some "class" ∧ s.tableParentKind c ≠ some "interface") :
    MixinClaim r s p := by
  constructor
  · intro c hc s1 hfr children
    constructor
    · intro hf
      have hf1 := (hfr.isFunctionNode c).2 hf
      have hd := dispatch_function r s1 c (some p) children hf1
      obtain ⟨h1, h2⟩ := hsafe c hc hf
      rw [hfr.tableParentKind, if_neg h1, if_neg h2] at hd
      exact ⟨_, hd, createFunction_kind _,
        isTypeElement_of_kind (createFunction_kind _) (by decide)⟩
    · intro hf
      have hf1 := (hfr.isFieldNode c).2 hf
      have hd := dispatch_field r s1 c (some p) children hf1
      have htp : s1.treeParentKind (some p) = some "mixin" := by
        rw [hfr.treeParentKind]; unfold Emitter.treeParentKind; simp [hk]
      rw [htp, if_neg (by decide), if_neg (by decide)] at hd
      exact ⟨_, hd, createNamespaceMember_kind _,
        isTypeElement_of_kind (createNamespaceMember_kind _) (by decide)⟩
  · intro fuel s1 parent s2 t hfr h
    obtain ⟨sc, children, hpc, hfr1, hd⟩ := parseTreeNode_dispatch r fuel s1 p parent _ h
    have hall : ∀ t' ∈ children, isTypeElement t' = false := by
      refine parseChildren_all _ (fun t' => isTypeElement t' = false) _ s1 [] sc children
        (by simp) ?_ ?_ hpc
      · intro c hc s3 s4 t' hfr3 hv
        cases fuel with
        | zero => simp [_parseTreeNode] at hv
        | succ fuel =>
          obtain ⟨s5, ch5, _, hfr5, hd5⟩ := parseTreeNode_dispatch r fuel s3 c (some p) _ hv
          cases hte : isTypeElement t' with
          | false => rfl
          | true =>
            exfalso
            have hfr05 : WalkFrame s s5 := (hfr.followedBy hfr3).followedBy hfr5
            have hc0 : c ∈ s.childrenOf p := by rw [← hfr.children]; exact hc
            rcases dispatch_typeElement r s5 c (some p) ch5 s4 t' hd5 hte with
              ⟨_, htp⟩ | ⟨hf, htab⟩
            · rw [hfr05.treeParentKind] at htp
              unfold Emitter.treeParentKind at htp
              simp [hk] at htp
            · rw [hfr05.tableParentKind] at htab
              exact (hsafe c hc0 ((hfr05.isFunctionNode c).1 hf)).2 htab
      · intro c _ s3 v hv
        exact (walkSpec_parseTreeNode r fuel s3 c (some p) _ hv).1
    have hkc : (sc.docOf p).kind = "mixin" := by rw [(hfr.followedBy hfr1).kind]; exact hk
    rw [dispatch_mixin r sc p parent children hkc] at hd
    simp only [afterHelper, Outcome.value.injEq, Prod.mk.injEq, Option.some.injEq] at hd
    obtain ⟨hs2, ht⟩ := hd
    have hfilter : children.filter isTypeElement = [] := by
      rw [List.filter_eq_nil_iff]
      intro a ha
      rw [hall a ha]
      simp
    refine ⟨by rw [← ht]; exact createInterface_kind _ _, ?_, sc, children, hpc, ?_⟩
    · rw [← ht]
      unfold createInterface
      simp only
      rw [handleComment_members]
      unfold validateInterfaceChildren
      rw [validateClassLikeChildren_eq]
      exact hfilter
    · rw [← hs2]
      simp only
      rw [warnings_setDoclet]
      unfold createInterface validateInterfaceChildren
      simp only
      rw [validateClassLikeChildren_eq]
      simp only
      congr 2
      rw [List.countP_eq_length]
      intro a ha
      rw [hall a ha]
      rfl

end Emitter

namespace Emitter

/-- A function child of a mixin node names, in the table, the mixin itself, a
namespace, or nothing. -/
theorem mixin_function_child {o : Options} {D : List Doclet} {s : Emitter} (hwf : WF o D s)
    (hsyn : SynKinds s) (hns : NsKeysOk s) (hmc : MixinChildren s) {p n : Nat}
    (hn : n ∈ s.childrenOf p) (hk : (s.docOf p).kind = "mixin") (hf : IsFunctionNode s n) :
    s.tableParentKind n ≠ some "class" ∧ s.tableParentKind n ≠ some "interface" := by
  have hnv := hwf.container_valid (some p) n hn
  cases hsrc : s.srcIndex n with
  | none =>
    exfalso
    rcases hsyn n hnv hsrc with h | h <;> rcases hf with h' | h' <;> rw [h] at h' <;>
      exact absurd h' (by decide)
  | some i =>
    have hdoc := docOf_of_srcIndex hsrc
    unfold Emitter.tableParentKind
    rw [hdoc]
    rcases hmc p n i hn hsrc hk with ⟨h1, h2, _⟩ | ⟨x, hx⟩
    · rw [h1]
      simp only [Option.getD_some]
      rw [h2]
      split_ifs <;> simp [hk]
    · rw [hx]
      simp only [Option.getD_some]
      cases hl : s.lookup (_getNamespaceKey x) with
      | none => split_ifs <;> simp
      | some q =>
        have := hns x q hl
        split_ifs <;> simp [this]

theorem noDerivedLongnames_mixinDocs : NoDerivedLongnames {} mixinDocs := by
  intro i hi _
  have hi' : i < 4 := hi
  interval_cases i
  · exact not_isDerivedKey_of_short _ (by decide) (by decide)
  · exact not_isDerivedKey_of_short _ (by decide) (by decide)
  · exact not_isDerivedKey_of_short _ (by decide) (by decide)
  · exact not_isDerivedKey_of_short _ (by decide) (by decide)

/-- C24 as stated fails.  On `mixinDuplicateDocs` the one node of the two function
doclets of longname `F` is a child of the mixin `M`, but its doclet names the interface
`J`, so it is synthesized as a method signature, which the interface of the mixin keeps
without a warning.  On `mixinKeyClashDocs` the longnames are distinct, but the table
entry under the `memberof` of the function is overwritten by the interface merge of the
class `K`, with the same effect. -/
theorem mixin_keeps_method_signature :
    (∃ s : Emitter, build {} mixinDuplicateDocs = some s
      ∧ (s.docOf 0).kind = "mixin" ∧ 2 ∈ s.childrenOf 0 ∧ (s.docOf 2).kind = "function"
      ∧ nodeOutline {} 2 s 2 (some 0) = some ⟨SyntaxKind.MethodSignature, [], "f", none⟩)
    ∧ parseOutlines {} 3 {} mixinDuplicateDocs
        = some [⟨⟨SyntaxKind.InterfaceDeclaration, [Modifier.DeclareKeyword], "M", none⟩,
              [⟨SyntaxKind.MethodSignature, [], "f", none⟩]⟩,
            ⟨⟨SyntaxKind.InterfaceDeclaration, [Modifier.DeclareKeyword], "J", none⟩,
              [⟨SyntaxKind.MethodSignature, [], "f", none⟩]⟩]
    ∧ parseWarnings {} 3 {} mixinDuplicateDocs = some []
    ∧ (∃ s : Emitter, build {} mixinKeyClashDocs = some s
      ∧ (s.docOf 0).kind = "mixin" ∧ 1 ∈ s.childrenOf 0 ∧ (s.docOf 1).kind = "function"
      ∧ nodeOutline {} 2 s 1 (some 0) = some ⟨SyntaxKind.MethodSignature, [], "f", none⟩)
    ∧ parseOutlines {} 3 {} mixinKeyClashDocs
        = some [⟨⟨SyntaxKind.InterfaceDeclaration, [Modifier.DeclareKeyword], "M", none⟩,
              [⟨SyntaxKind.MethodSignature, [], "f", none⟩]⟩,
            ⟨⟨SyntaxKind.InterfaceDeclaration, [Modifier.DeclareKeyword], "K", none⟩, []⟩,
            ⟨⟨SyntaxKind.ClassDeclaration, [Modifier.DeclareKeyword], "K", none⟩, []⟩]
    ∧ parseWarnings {} 3 {} mixinKeyClashDocs = some [] :=
  ⟨⟨(build {} mixinDuplicateDocs).get (by decide), by simp, by decide, by decide, by decide,
      by decide⟩,
    by decide, by decide,
    ⟨(build {} mixinKeyClashDocs).get (by decide), by simp, by decide, by decide, by decide,
      by decide⟩,
    by decide, by decide⟩

/-- C24 (amended): when the surviving doclets have pairwise distinct longnames, none of
them a derived merge key, every mixin node of the forest has C24: a function or
callback child is synthesized as a free function declaration and a member or constant
child that is not enum-tagged as a loose variable declaration, none of them a type
element; the interface declaration of the mixin has no members, and `createInterface`
logs one warning for each construct of a child.  On `mixinDocs` the results are the
namespace of the static function and an interface without members, with two warnings. -/
theorem mixin_children_removed (r : Resolver) (o : Options) (D : List Doclet)
    (hd : DistinctLongnames o D) (hnd : NoDerivedLongnames o D) :
    (∃ s, build o D = some s ∧ ∀ p, (s.docOf p).kind = "mixin" → MixinClaim r s p)
    ∧ parseOutlines {} 3 {} mixinDocs
        = some [⟨⟨SyntaxKind.ModuleDeclaration, [Modifier.DeclareKeyword], "M", none⟩,
              [⟨SyntaxKind.FunctionDeclaration, [], "g", none⟩]⟩,
            ⟨⟨SyntaxKind.InterfaceDeclaration, [Modifier.DeclareKeyword], "M", none⟩, []⟩]
    ∧ parseWarnings {} 3 {} mixinDocs
        = some [Warning.badChild "TypeElement", Warning.badChild "TypeElement"] := by
  refine ⟨?_, by decide, by decide⟩
  have hsome := build_isSome o D
  cases hb : build o D with
  | none => rw [hb] at hsome; simp at hsome
  | some s =>
    refine ⟨s, rfl, fun p hk => ?_⟩
    rw [build_eq_buildPrefix] at hb
    have hwf := wf_buildPrefix o D _ s hb
    have hsyn := synKinds_buildPrefix o D _ s hb
    have hns := (classInv_buildPrefix hd hnd D.length (Nat.le_refl _) s hb).1
    have hmc := mixinChildren_buildPrefix hd hnd D.length (Nat.le_refl _) s hb
    exact mixinClaim_of_safe r s p hk
      (fun c hc hf => mixin_function_child hwf hsyn hns hmc hc hk hf)

/-- C24 (amended) on a mixin with an instance function, a member and a static
function. -/
theorem mixin_children_removed_witness :
    DistinctLongnames {} mixinDocs ∧ NoDerivedLongnames {} mixinDocs
    ∧ ∃ s, build {} mixinDocs = some s ∧ ∀ p, (s.docOf p).kind = "mixin" → MixinClaim {} s p :=
  ⟨by unfold DistinctLongnames; decide, noDerivedLongnames_mixinDocs,
    (mixin_children_removed {} {} mixinDocs (by unfold DistinctLongnames; decide)
      noDerivedLongnames_mixinDocs).1⟩

end Emitter

namespace Emitter

/-- C21, the code at the failing input: pass 1 leaves the state as it is at a doclet
whose longname is already in the table, so the node of the first doclet of a longname
is kept; but pass 2 runs for the later duplicate as well and pushes that node a second
time.  For two function doclets of longname `a` the one node is twice among the forest
roots and `parse` yields the declaration of `a` twice, while the list without the later
duplicate yields it once. -/
theorem duplicate_longname_emitted_twice :
    (∀ (s : Emitter) (i n : Nat), s.lookup (s.doc i).longname = some n →
        createTreeNodesStep s i = s)
    ∧ (_createTreeNodes (start {} duplicateFunctionDocs)).nodes.length = 1
    ∧ (_createTreeNodes (start {} duplicateFunctionDocs)).srcIndex 0 = some 0
    ∧ (∃ s : Emitter, build {} duplicateFunctionDocs = some s ∧ s._treeRoots = [0, 0])
    ∧ (∃ s : Emitter, build {} (duplicateFunctionDocs.eraseIdx 1) = some s ∧ s._treeRoots = [0])
    ∧ parseOutlines {} 2 {} duplicateFunctionDocs
        = some [⟨⟨SyntaxKind.FunctionDeclaration, [Modifier.DeclareKeyword], "a", none⟩, []⟩,
            ⟨⟨SyntaxKind.FunctionDeclaration, [Modifier.DeclareKeyword], "a", none⟩, []⟩]
    ∧ parseOutlines {} 2 {} (duplicateFunctionDocs.eraseIdx 1)
        = some [⟨⟨SyntaxKind.FunctionDeclaration, [Modifier.DeclareKeyword], "a", none⟩, []⟩]
    ∧ parseOutlines {} 2 {} duplicateFunctionDocs
        ≠ parseOutlines {} 2 {} (duplicateFunctionDocs.eraseIdx 1) := by
  refine ⟨?_, by decide, by decide,
    ⟨(build {} duplicateFunctionDocs).get (by decide), by simp, by decide⟩,
    ⟨(build {} (duplicateFunctionDocs.eraseIdx 1)).get (by decide), by simp, by decide⟩,
    by decide, by decide, by decide⟩
  intro s i n hl
  unfold createTreeNodesStep
  simp only
  split
  · rfl
  · rw [hl]

end Emitter

namespace Emitter

theorem interfaceKey_injective {x y : String} (hx : x ≠ "") (hy : y ≠ "")
    (h : _getInterfaceKey x = _getInterfaceKey y) : x = y := by
  rw [interfaceKey_of_ne hx, interfaceKey_of_ne hy] at h
  exact string_append_right_cancel h

theorem ifaceUnique_mono {o : Options} {D : List Doclet} {j : Nat} {s : Emitter}
    (h : IfaceUnique o D j s) : IfaceUnique o D (j + 1) s :=
  ⟨fun m hm hs hk => by
      obtain ⟨k, hk1, hk2⟩ := h.origin m hm hs hk
      exact ⟨k, by omega, hk2⟩,
    h.unique⟩

theorem ifaceUnique_of_grows {o : Options} {D : List Doclet} {j : Nat} {s s' : Emitter}
    (hg : Grows s s')
    (hfresh : ∀ m, s.nodes.length ≤ m → m < s'.nodes.length → (s'.docOf m).kind ≠ "interface")
    (h : IfaceUnique o D j s) : IfaceUnique o D j s' := by
  have hold : ∀ m, m < s'.nodes.length → (s'.docOf m).kind = "interface" →
      m < s.nodes.length := by
    intro m hm hk
    by_contra hlt
    exact hfresh m (by omega) hm hk
  constructor
  · intro m hm hs hk
    have hlt := hold m hm hk
    rw [hg.srcIndex_eq m hlt] at hs
    rw [hg.kind_eq hlt] at hk
    rw [hg.longname_eq hlt]
    exact h.origin m hlt hs hk
  · intro m m' hm hm' hs hs' hk hk' hl
    have hlt := hold m hm hk
    have hlt' := hold m' hm' hk'
    rw [hg.srcIndex_eq m hlt] at hs
    rw [hg.srcIndex_eq m' hlt'] at hs'
    rw [hg.kind_eq hlt] at hk
    rw [hg.kind_eq hlt'] at hk'
    rw [hg.longname_eq hlt, hg.longname_eq hlt'] at hl
    exact h.unique m m' hlt hlt' hs hs' hk hk' hl

theorem ifaceUnique_interfaceMergeStep {o : Options} {D : List Doclet} {j : Nat} {s : Emitter}
    (hwf : WF o D s) (hd : DistinctLongnames o D) (hnd : NoDerivedLongnames o D)
    (hj : j < D.length) (hsj : survives o (docAt D j) = true)
    (h : IfaceUnique o D j s) :
    IfaceUnique o D (j + 1) (interfaceMergeStep s (s.doc j)).1 := by
  have hlongj : (s.doc j).longname = (docAt D j).longname :=
    longname_eq_of_unmember (hwf.doc_frame j)
  have hne : ∀ k, k < D.length → survives o (docAt D k) = true → (docAt D k).longname ≠ "" := by
    intro k hk hs h0
    exact hnd k hk hs (h0 ▸ isDerivedKey_empty)
  rcases interfaceMergeStep_cases s (s.doc j) with ⟨he, _⟩ | ⟨_, _, he⟩
  · rw [he]; exact ifaceUnique_mono h
  · have him : (interfaceMergeStep s (s.doc j)).2 = some s.nodes.length := by rw [he]
    obtain ⟨_, hlen, hsrc0, hdoc0, _, _⟩ := interfaceMergeStep_merge s (s.doc j) _ him
    have hg := grows_interfaceMergeStep s (s.doc j)
    have hlong0 : ((interfaceMergeStep s (s.doc j)).1.docOf s.nodes.length).longname
        = _getInterfaceKey (docAt D j).longname := by
      rw [hdoc0, ← hlongj]; rfl
    have horigin : ∀ m, m < s.nodes.length →
        (interfaceMergeStep s (s.doc j)).1.srcIndex m = none →
        ((interfaceMergeStep s (s.doc j)).1.docOf m).kind = "interface" →
        ∃ k, k < j ∧ k < D.length ∧ survives o (docAt D k) = true
          ∧ ((interfaceMergeStep s (s.doc j)).1.docOf m).longname
              = _getInterfaceKey (docAt D k).longname := by
      intro m hlt hs hk
      rw [hg.srcIndex_eq m hlt] at hs
      rw [hg.kind_eq hlt] at hk
      rw [hg.longname_eq hlt]
      exact h.origin m hlt hs hk
    have hclash : ∀ m, m < s.nodes.length →
        (interfaceMergeStep s (s.doc j)).1.srcIndex m = none →
        ((interfaceMergeStep s (s.doc j)).1.docOf m).kind = "interface" →
        ((interfaceMergeStep s (s.doc j)).1.docOf m).longname
          ≠ ((interfaceMergeStep s (s.doc j)).1.docOf s.nodes.length).longname := by
      intro m hlt hs hk heq
      obtain ⟨k, hkj, hkD, hks, hkl⟩ := horigin m hlt hs hk
      rw [hkl, hlong0] at heq
      have := interfaceKey_injective (hne k hkD hks) (hne j hj hsj) heq
      have hkj' : k = j := hd k hkD j hj hks hsj this
      omega
    constructor
    · intro m hm hs hk
      by_cases hlt : m < s.nodes.length
      · obtain ⟨k, hk1, hk2⟩ := horigin m hlt hs hk
        exact ⟨k, by omega, hk2⟩
      · have hmeq : m = s.nodes.length := by omega
        subst hmeq
        exact ⟨j, by omega, hj, hsj, hlong0⟩
    · intro m m' hm hm' hs hs' hk hk' hl
      by_cases hlt : m < s.nodes.length
      · by_cases hlt' : m' < s.nodes.length
        · rw [hg.srcIndex_eq m hlt] at hs
          rw [hg.srcIndex_eq m' hlt'] at hs'
          rw [hg.kind_eq hlt] at hk
          rw [hg.kind_eq hlt'] at hk'
          rw [hg.longname_eq hlt, hg.longname_eq hlt'] at hl
          exact h.unique m m' hlt hlt' hs hs' hk hk' hl
        · have hmeq : m' = s.nodes.length := by omega
          subst hmeq
          exact absurd hl (hclash m hlt hs hk)
      · have hmeq : m = s.nodes.length := by omega
        subst hmeq
        by_cases hlt' : m' < s.nodes.length
        · exact absurd hl.symm (hclash m' hlt' hs' hk')
        · omega

theorem buildTreeStep_ifaceUnique {o : Options} {D : List Doclet} {s : Emitter} (hwf : WF o D s)
    (hd : DistinctLongnames o D) (hnd : NoDerivedLongnames o D) {j : Nat} (hj : j < D.length)
    (s' : Emitter) (h : buildTreeStep s j = some s') (hi : IfaceUnique o D j s) :
    IfaceUnique o D (j + 1) s' := by
  rcases buildTreeStep_cases s j s' h with ⟨_, he⟩ | ⟨_, _, rfl⟩ | ⟨obj, hs, hl, hp⟩
  · subst s'; exact ifaceUnique_mono hi
  · exact ifaceUnique_mono (ifaceUnique_of_grows (grows_warn s _)
      (fun m hm hm' => by
        have : (s.warn (Warning.missingNode (s.doc j).longname)).nodes.length
            = s.nodes.length := rfl
        omega) hi)
  · have hsj : survives o (docAt D j) = true := by
      rw [← survives_eq_of_unmember o (hwf.doc_frame j), ← hwf.options_eq]; exact hs
    have hwf1 := wf_interfaceMergeStep hwf (s.doc j)
    have hwf2 := wf_namespaceMergeStep hwf1 (s.doc j)
    have hobj := hwf.table_valid _ _ hl
    have hg1 := grows_interfaceMergeStep s (s.doc j)
    have hg2 := grows_namespaceMergeStep (interfaceMergeStep s (s.doc j)).1 (s.doc j)
    have h1 := ifaceUnique_interfaceMergeStep hwf hd hnd hj hsj hi
    have h2 : IfaceUnique o D (j + 1)
        (namespaceMergeStep (interfaceMergeStep s (s.doc j)).1 (s.doc j)).1 := by
      refine ifaceUnique_of_grows hg2 (fun m hm hm' => ?_) h1
      cases hnm : (namespaceMergeStep (interfaceMergeStep s (s.doc j)).1 (s.doc j)).2 with
      | none => rw [namespaceMergeStep_none _ _ hnm] at hm'; omega
      | some n =>
        obtain ⟨hn, hlen, _, hdoc, _, _⟩ := namespaceMergeStep_merge _ (s.doc j) n hnm
        have hmeq : m = n := by omega
        subst hmeq
        rw [hdoc]
        simp [namespaceMergeDoclet]
    have hl1 := hg1.nodes_length
    have hl2 := hg2.nodes_length
    obtain ⟨_, hg'⟩ := placementStep_wf hwf2 j obj _ _ s' hp
      (fun n hn => by
        obtain ⟨h1, h2, _⟩ := interfaceMergeStep_merge s (s.doc j) n hn
        omega)
      (fun n hn => by
        obtain ⟨h1, h2, _⟩ := namespaceMergeStep_merge _ (s.doc j) n hn
        omega)
      (by omega)
    refine ifaceUnique_of_grows hg' (fun m hm hm' => ?_) h2
    rw [placementStep_fresh hwf2 j obj _ _ s' hp m hm hm']
    decide

theorem ifaceUnique_buildPrefix {o : Options} {D : List Doclet} (hd : DistinctLongnames o D)
    (hnd : NoDerivedLongnames o D) (j : Nat) (hj : j ≤ D.length) (s : Emitter)
    (h : buildPrefix o D j = some s) : IfaceUnique o D j s := by
  induction j generalizing s with
  | zero =>
    rw [buildPrefix_zero] at h
    simp only [Option.some.injEq] at h
    subst h
    have hall : ∀ m, m < (_createTreeNodes (start o D)).nodes.length →
        (_createTreeNodes (start o D)).srcIndex m = none → False := by
      intro m hm hs
      obtain ⟨i, hi⟩ := allSrc_createPrefix o D D.length m hm
      have : (_createTreeNodes (start o D)).srcIndex m = some i := hi
      rw [this] at hs
      cases hs
    exact ⟨fun m hm hs _ => (hall m hm hs).elim, fun m _ hm _ hs _ _ _ _ => (hall m hm hs).elim⟩
  | succ j ih =>
    rw [buildPrefix_succ] at h
    cases hp : buildPrefix o D j with
    | none => rw [hp] at h; simp at h
    | some s1 =>
      rw [hp] at h
      exact buildTreeStep_ifaceUnique (wf_buildPrefix o D j s1 hp) hd hnd (by omega) s h
        (ih (by omega) s1 hp)

theorem noDerivedLongnames_typedefBeforeInterfaceDocs :
    NoDerivedLongnames {} typedefBeforeInterfaceDocs := by
  intro i hi _
  have hi' : i < 3 := hi
  interval_cases i
  · exact not_isDerivedKey_of_short _ (by decide) (by decide)
  · exact not_isDerivedKey_of_short _ (by decide) (by decide)
  · exact not_isDerivedKey_of_short _ (by decide) (by decide)

/-- C16, the code at the failing input.  `_getOrCreateClassNamespace` reads the table
first and returns the node it holds under the namespace key; the namespace merge of
`_buildTree` is a fresh node that takes the table entry whatever the table holds.  On
`typedefBeforeInterfaceDocs`, whose longnames are distinct and no derived keys, the
typedef makes the companion namespace of `I` and the iteration of `I` makes its
namespace merge: two namespace nodes of the longname `I$$namespace$helper` are forest
roots.  On `duplicateClassDocs` each of the two iterations of the class `K` makes an
interface merge node, and both are forest roots. -/
theorem merge_nodes_not_unique :
    (∀ (s : Emitter) (obj g : Nat), (s.docOf obj).kind ≠ "namespace" →
        s.lookup (_getNamespaceKey (s.docOf obj).longname) = some g →
        s._getOrCreateClassNamespace obj = some (s, g))
    ∧ (∀ (s : Emitter) (d : Doclet), (d.kind = "interface" ∨ d.kind = "mixin") →
        s.docs.filter (isStaticChildOf d.longname) ≠ [] →
        (namespaceMergeStep s d).2 = some s.nodes.length
        ∧ (namespaceMergeStep s d).1.lookup (_getNamespaceKey d.longname)
            = some s.nodes.length)
    ∧ (∃ s : Emitter, build {} duplicateClassDocs = some s ∧ ¬ MergeNodesUnique s
      ∧ s._treeRoots = [1, 0, 2, 0]
      ∧ s.docOf 1 = interfaceMergeDoclet (docAt duplicateClassDocs 0)
      ∧ s.docOf 2 = interfaceMergeDoclet (docAt duplicateClassDocs 1))
    ∧ DistinctLongnames {} typedefBeforeInterfaceDocs
    ∧ NoDerivedLongnames {} typedefBeforeInterfaceDocs
    ∧ ∃ s : Emitter, build {} typedefBeforeInterfaceDocs = some s ∧ ¬ MergeNodesUnique s
      ∧ s._treeRoots = [3, 4, 1]
      ∧ (s.docOf 3).kind = "namespace" ∧ (s.docOf 3).longname = "I$$namespace$helper"
      ∧ (s.docOf 4).kind = "namespace" ∧ (s.docOf 4).longname = "I$$namespace$helper" := by
  have key1 : ∃ s : Emitter, build {} duplicateClassDocs = some s
      ∧ s._treeRoots = [1, 0, 2, 0]
      ∧ s.docOf 1 = interfaceMergeDoclet (docAt duplicateClassDocs 0)
      ∧ s.docOf 2 = interfaceMergeDoclet (docAt duplicateClassDocs 1)
      ∧ s.srcIndex 1 = none ∧ s.srcIndex 2 = none
      ∧ (s.docOf 1).kind = (s.docOf 2).kind ∧ (s.docOf 1).longname = (s.docOf 2).longname :=
    ⟨(build {} duplicateClassDocs).get (by decide), by simp, by decide, by decide, by decide,
      by decide, by decide, by decide, by decide⟩
  have key2 : ∃ s : Emitter, build {} typedefBeforeInterfaceDocs = some s
      ∧ s._treeRoots = [3, 4, 1]
      ∧ (s.docOf 3).kind = "namespace" ∧ (s.docOf 3).longname = "I$$namespace$helper"
      ∧ (s.docOf 4).kind = "namespace" ∧ (s.docOf 4).longname = "I$$namespace$helper"
      ∧ s.srcIndex 3 = none ∧ s.srcIndex 4 = none :=
    ⟨(build {} typedefBeforeInterfaceDocs).get (by decide), by simp, by decide, by decide,
      by decide, by decide, by decide, by decide, by decide⟩
  obtain ⟨s1, hb1, hr1, hd1, hd2, hs1, hs2, hk, hl⟩ := key1
  obtain ⟨s2, hb2, hr2, hk3, hl3, hk4, hl4, hs3, hs4⟩ := key2
  refine ⟨?_, ?_, ⟨s1, hb1, ?_, hr1, hd1, hd2⟩, by unfold DistinctLongnames; decide,
    noDerivedLongnames_typedefBeforeInterfaceDocs, s2, hb2, ?_, hr2, hk3, hl3, hk4, hl4⟩
  · intro s obj g hk hl
    unfold _getOrCreateClassNamespace
    rw [_getOrCreateClassNamespaceFuel, if_neg hk]
    simp only [hl]
  · intro s d hk hne
    rcases namespaceMergeStep_cases s d with ⟨_, hno⟩ | ⟨_, _, he⟩
    · rcases hno with hno | hno
      · exact absurd hk (fun h => h.elim hno.1 hno.2)
      · exact absurd hno hne
    · have h2 : (namespaceMergeStep s d).2 = some s.nodes.length := by rw [he]
      exact ⟨h2, (namespaceMergeStep_merge s d _ h2).2.2.2.2.1⟩
  · intro hu
    have := hu 1 2 (Or.inl (by rw [hr1]; simp)) (Or.inl (by rw [hr1]; simp)) hs1 hs2 hk hl
    omega
  · intro hu
    have := hu 3 4 (Or.inl (by rw [hr2]; simp)) (Or.inl (by rw [hr2]; simp)) hs3 hs4
      (by rw [hk3, hk4]) (by rw [hl3, hl4])
    omega

end Emitter

namespace Emitter

theorem attached_of_same {s s' : Emitter} (hsame : ∀ c, s'.container c = s.container c)
    (htr : ∀ c n, n ∈ s.container c →
      truthy (s'.docOf n).memberof = truthy (s.docOf n).memberof)
    (h : Attached s) : Attached s' := by
  intro c n hn
  rw [hsame] at hn
  rw [htr c n hn]
  exact h c n hn

theorem attached_pushTo {s : Emitter} (h : Attached s) (c : Option Nat) (n : Nat)
    (hn : truthy (s.docOf n).memberof = c.isSome) : Attached (s.pushTo c n) := by
  intro c' k hk
  rw [docOf_pushTo]
  rw [container_pushTo] at hk
  split at hk
  · rename_i hc
    obtain ⟨h0, _⟩ := hc
    subst h0
    rcases List.mem_append.1 hk with h1 | h1
    · exact h c' k h1
    · simp only [List.mem_singleton] at h1
      subst h1
      exact hn
  · exact h c' k hk

theorem attached_pushOpt {s : Emitter} (h : Attached s) (c : Option Nat) (m : Option Nat)
    (hm : ∀ n, m = some n → truthy (s.docOf n).memberof = c.isSome) :
    Attached (s.pushOpt c m) := by
  cases m with
  | none => exact h
  | some n => exact attached_pushTo h c n (hm n rfl)

theorem attached_place {s : Emitter} (h : Attached s) (c : Option Nat) (im nm : Option Nat)
    (obj : Nat) (him : ∀ n, im = some n → truthy (s.docOf n).memberof = c.isSome)
    (hnm : ∀ n, nm = some n → truthy (s.docOf n).memberof = c.isSome)
    (hobj : truthy (s.docOf obj).memberof = c.isSome) : Attached (s.place c im nm obj) := by
  unfold place
  have h1 := attached_pushOpt h c im him
  have h2 := attached_pushOpt h1 c nm (fun n hn => by rw [docOf_pushOpt]; exact hnm n hn)
  exact attached_pushTo h2 c obj (by rw [docOf_pushOpt, docOf_pushOpt]; exact hobj)

theorem truthy_reassignStatic (s : Emitter) (l : String) (hl : l ≠ "") (k : Nat) :
    truthy ((s.reassignStatic l).doc k).memberof = truthy (s.doc k).memberof := by
  rw [doc_reassignStatic]
  by_cases hst : isStaticChildOf l (s.doc k) = true
  · rw [if_pos hst]
    unfold isStaticChildOf at hst
    simp only [decide_eq_true_eq] at hst
    rw [hst.1]
    simp only
    rw [truthy_namespaceKey hl]
    unfold truthy
    exact (decide_eq_true hl).symm
  · rw [if_neg hst]

theorem truthy_docOf_reassignStatic (s : Emitter) (l : String) (hl : l ≠ "") (n : Nat) :
    truthy ((s.reassignStatic l).docOf n).memberof = truthy (s.docOf n).memberof := by
  cases hsrc : s.srcIndex n with
  | none => rw [docOf_reassignStatic_syn s l n hsrc]
  | some i =>
    have h1 : (s.reassignStatic l).srcIndex n = some i := by
      rw [srcIndex_reassignStatic]; exact hsrc
    rw [docOf_of_srcIndex h1, docOf_of_srcIndex hsrc]
    exact truthy_reassignStatic s l hl i

theorem docOf_allocRegister_old (s : Emitter) (d : DocRef) (k : String) (n : Nat)
    (hn : n < s.nodes.length) :
    ((s.alloc d).register k s.nodes.length).docOf n = s.docOf n := by
  rw [docOf_register, docOf_alloc, if_neg (Nat.ne_of_lt hn)]

theorem docOf_interfaceMergeStep_old (s : Emitter) (d : Doclet) (n : Nat)
    (hn : n < s.nodes.length) : (interfaceMergeStep s d).1.docOf n = s.docOf n := by
  rcases interfaceMergeStep_cases s d with ⟨he, _⟩ | ⟨_, _, he⟩
  · rw [he]
  · rw [he]; exact docOf_allocRegister_old s _ _ n hn

theorem truthy_namespaceMergeStep_old (s : Emitter) (d : Doclet) (hd : d.longname ≠ "") (n : Nat)
    (hn : n < s.nodes.length) :
    truthy ((namespaceMergeStep s d).1.docOf n).memberof = truthy (s.docOf n).memberof := by
  rcases namespaceMergeStep_cases s d with ⟨he, _⟩ | ⟨_, _, he⟩
  · rw [he]
  · rw [he]
    simp only
    rw [truthy_docOf_reassignStatic _ _ hd, docOf_allocRegister_old s _ _ n hn]

theorem attached_interfaceMergeStep {o : Options} {D : List Doclet} {s : Emitter}
    (hwf : WF o D s) (d : Doclet) (h : Attached s) : Attached (interfaceMergeStep s d).1 :=
  attached_of_same (container_interfaceMergeStep s d)
    (fun c n hn => by
      rw [docOf_interfaceMergeStep_old s d n (hwf.container_valid c n hn)]) h

theorem attached_namespaceMergeStep {o : Options} {D : List Doclet} {s : Emitter}
    (hwf : WF o D s) (d : Doclet) (hd : d.longname ≠ "") (h : Attached s) :
    Attached (namespaceMergeStep s d).1 :=
  attached_of_same (container_namespaceMergeStep s d)
    (fun c n hn => truthy_namespaceMergeStep_old s d hd n (hwf.container_valid c n hn)) h

end Emitter

namespace Emitter

theorem namespaceKey_ne_empty {x : String} (hx : x ≠ "") : _getNamespaceKey x ≠ "" := by
  have := truthy_namespaceKey hx
  unfold truthy at this
  simpa using this

theorem attached_withNamespace {o : Options} {D : List Doclet} {s : Emitter} (hwf : WF o D s)
    (obj : Nat) (h : Attached s) : Attached (s.withNamespace obj) :=
  attached_of_same (container_withNamespace s obj)
    (fun c n hn => by
      rw [docOf_withNamespace, if_neg (Nat.ne_of_lt (hwf.container_valid c n hn))]) h

theorem longname_of_lookup_truthy {o : Options} {D : List Doclet} {s : Emitter} (hwf : WF o D s)
    {m : Option String} {p : Nat} (hm : truthy m = true) (hl : s.lookup (m.getD "") = some p) :
    (s.docOf p).longname ≠ "" := by
  rw [hwf.key_longname _ _ hl]
  exact ne_empty_of_truthy hm

/-- The companion-namespace construction keeps roots without `memberof` and children
with one, and its result has a non-empty longname. -/
theorem getOrCreate_attached (o : Options) (D : List Doclet) (fuel : Nat) (s : Emitter)
    (obj : Nat) (s' : Emitter) (g : Nat)
    (h : _getOrCreateClassNamespaceFuel fuel s obj = some (s', g)) :
    WF o D s → obj < s.nodes.length → (s.docOf obj).longname ≠ "" → Attached s →
      Attached s' ∧ (s'.docOf g).longname ≠ "" := by
  refine getOrCreate_induct
    (fun s obj s' g => WF o D s → obj < s.nodes.length → (s.docOf obj).longname ≠ "" →
      Attached s → Attached s' ∧ (s'.docOf g).longname ≠ "")
    ?_ ?_ ?_ ?_ ?_ fuel s obj s' g h
  · intro s obj _ _ _ hne ha
    exact ⟨ha, hne⟩
  · intro s obj g _ hl hwf _ hne ha
    refine ⟨ha, ?_⟩
    rw [hwf.key_longname _ _ hl]
    exact namespaceKey_ne_empty hne
  · intro s obj _ htr hwf _ hne ha
    have h1 := attached_withNamespace hwf obj ha
    have hdoc : (s.withNamespace obj).docOf s.nodes.length = companionDoclet (s.docOf obj) := by
      rw [docOf_withNamespace, if_pos rfl]
    refine ⟨attached_pushTo h1 none _ (by rw [hdoc]; rfl), ?_⟩
    rw [docOf_pushTo, hdoc]
    exact namespaceKey_ne_empty hne
  · intro s obj _ _ _ hwf _ hne ha
    have h1 := attached_withNamespace hwf obj ha
    refine ⟨attached_of_same (fun c => container_warn _ _ c) (fun _ _ _ => rfl) h1, ?_⟩
    rw [docOf_warn, docOf_withNamespace, if_pos rfl]
    exact namespaceKey_ne_empty hne
  · intro s obj parent s2 parentMod hp htr hl hex ih hwf hobj hne ha
    have hk := ((pendingNode_iff s obj).1 hp).2
    have hwf1 := wf_withNamespace hwf obj
    have h1 := attached_withNamespace hwf obj ha
    have hpar := hwf1.table_valid _ _ hl
    obtain ⟨ha2, hne2⟩ := ih hwf1 hpar (longname_of_lookup_truthy hwf1 htr hl) h1
    obtain ⟨fuel', hrec⟩ := hex
    obtain ⟨hwf2, hpost2, _⟩ := getOrCreate_post o D _ _ _ _ _ hrec hwf1 hpar
    have hlen1 : (s.withNamespace obj).nodes.length = s.nodes.length + 1 := by
      simp [withNamespace, register]
    have hlt : s.nodes.length < s2.nodes.length := by
      have := hpost2.grows.nodes_length; omega
    have hsyn1 : (s.withNamespace obj).srcIndex s.nodes.length = none := by
      rw [srcIndex_withNamespace, if_pos rfl]
    have hsyn2 : s2.srcIndex s.nodes.length = none := by
      rw [hpost2.grows.srcIndex_eq _ (by omega)]; exact hsyn1
    obtain ⟨d, hd⟩ := doclet_of_srcIndex_none hsyn2
    have hun : Unplaced s2 s.nodes.length := by
      refine hpost2.unplaced ?_ (by omega)
      exact unplaced_of_container_eq (container_withNamespace s obj)
        (unplaced_of_ge hwf (Nat.le_refl _))
    have ha3 : Attached (s2.setMemberof s.nodes.length (some (s2.docOf parentMod).longname)) := by
      refine attached_of_same (fun c => container_setMemberof _ _ _ c) (fun c n hn => ?_) ha2
      rw [docOf_setMemberof_ne s2 _ _ d hd n (fun hh => hun c (hh ▸ hn))]
    have hself := docOf_setMemberof_self s2 s.nodes.length
      (some (s2.docOf parentMod).longname) d hd hlt
    have hd2 : s2.docOf s.nodes.length = d := by unfold docOf; rw [hd]; rfl
    have hlong2 : (s2.docOf s.nodes.length).longname ≠ "" := by
      rw [hpost2.grows.longname_eq (by omega), docOf_withNamespace, if_pos rfl]
      exact namespaceKey_ne_empty hne
    refine ⟨attached_pushTo ha3 (some parentMod) _ ?_, ?_⟩
    · rw [hself]
      simp only [Option.isSome_some]
      unfold truthy
      exact decide_eq_true hne2
    · rw [docOf_pushTo, hself]
      show d.longname ≠ ""
      rw [← hd2]; exact hlong2

end Emitter

namespace Emitter

theorem truthy_doc_mergeSteps (s : Emitter) (d : Doclet) (hd : d.longname ≠ "") (k : Nat) :
    truthy ((namespaceMergeStep (interfaceMergeStep s d).1 d).1.doc k).memberof
      = truthy (s.doc k).memberof := by
  have h1 : (interfaceMergeStep s d).1.doc k = s.doc k := by
    unfold doc; rw [docs_interfaceMergeStep]
  rw [← h1]
  rcases namespaceMergeStep_cases (interfaceMergeStep s d).1 d with ⟨he, _⟩ | ⟨_, _, he⟩
  · rw [he]
  · rw [he]
    simp only
    rw [truthy_reassignStatic _ _ hd]
    rfl

theorem placementStep_attached {o : Options} {D : List Doclet} {s : Emitter} (hwf : WF o D s)
    (i obj : Nat) (im nm : Option Nat) (s' : Emitter)
    (h : placementStep s i obj im nm = some s')
    (hobj : s.srcIndex obj = some i) (hlt : obj < s.nodes.length)
    (him : ∀ n, im = some n →
      truthy (s.docOf n).memberof = truthy (s.doc i).memberof ∧ n < s.nodes.length)
    (hnm : ∀ n, nm = some n →
      truthy (s.docOf n).memberof = truthy (s.doc i).memberof ∧ n < s.nodes.length)
    (ha : Attached s) : Attached s' := by
  have hdo := docOf_of_srcIndex hobj
  rcases placementStep_cases s i obj im nm s' h with
    ⟨hf, rfl⟩ | ⟨_, _, rfl⟩ | ⟨parent, s1, mod, htr, hl, _, _, hg, rfl⟩
    | ⟨parent, _, _, _, _, rfl⟩ | ⟨parent, htr, hl, _, _, rfl⟩
  · exact attached_place ha none im nm obj (fun n hn => by rw [(him n hn).1, hf]; rfl)
      (fun n hn => by rw [(hnm n hn).1, hf]; rfl) (by rw [hdo, hf]; rfl)
  · exact attached_of_same (fun c => container_warn _ _ c) (fun _ _ _ => rfl) ha
  · have hpar := hwf.table_valid _ _ hl
    obtain ⟨_, hpost, _⟩ := getOrCreate_post o D _ _ _ _ _ hg hwf hpar
    obtain ⟨ha1, _⟩ := getOrCreate_attached o D _ _ _ _ _ hg hwf hpar
      (longname_of_lookup_truthy hwf htr hl) ha
    exact attached_place ha1 (some mod) im nm obj
      (fun n hn => by rw [hpost.old_docOf n (him n hn).2, (him n hn).1, htr]; rfl)
      (fun n hn => by rw [hpost.old_docOf n (hnm n hn).2, (hnm n hn).1, htr]; rfl)
      (by rw [hpost.old_docOf obj hlt, hdo, htr]; rfl)
  · exact attached_of_same (fun c => container_markNested s i obj parent c)
      (fun c n _ => by rw [docOf_markNested]) ha
  · have h1 : Attached (s.markNested i obj parent) :=
      attached_of_same (fun c => container_markNested s i obj parent c)
        (fun c n _ => by rw [docOf_markNested]) ha
    exact attached_place h1 (some parent) im nm obj
      (fun n hn => by rw [docOf_markNested, (him n hn).1, htr]; rfl)
      (fun n hn => by rw [docOf_markNested, (hnm n hn).1, htr]; rfl)
      (by rw [docOf_markNested, hdo, htr]; rfl)

theorem buildTreeStep_attached {o : Options} {D : List Doclet} {s : Emitter} (hwf : WF o D s)
    (ht : SrcTable o D s) (hnd : NoDerivedLongnames o D) {j : Nat} (hj : j < D.length)
    (s' : Emitter) (h : buildTreeStep s j = some s') (ha : Attached s) : Attached s' := by
  rcases buildTreeStep_cases s j s' h with ⟨_, he⟩ | ⟨_, _, rfl⟩ | ⟨obj, hs, hl, hp⟩
  · subst s'; exact ha
  · exact attached_of_same (fun c => container_warn _ _ c) (fun _ _ _ => rfl) ha
  · have hobj := hwf.table_valid _ _ hl
    have hwf1 := wf_interfaceMergeStep hwf (s.doc j)
    have hwf2 := wf_namespaceMergeStep hwf1 (s.doc j)
    have hsrc := srcIndex_of_srcTable hwf ht hj hs hl
    have hsj : survives o (docAt D j) = true := by
      rw [← survives_eq_of_unmember o (hwf.doc_frame j), ← hwf.options_eq]; exact hs
    have hlong : (s.doc j).longname ≠ "" := by
      rw [longname_eq_of_unmember (hwf.doc_frame j)]
      intro h0
      exact hnd j hj hsj (h0 ▸ isDerivedKey_empty)
    obtain ⟨hf1, hf2, hobj2, hsrcEq, _⟩ := mergeSteps_facts hwf (s.doc j) obj hobj
    have ha1 := attached_interfaceMergeStep hwf (s.doc j) ha
    have ha2 := attached_namespaceMergeStep hwf1 (s.doc j) hlong ha1
    have hdj := truthy_doc_mergeSteps s (s.doc j) hlong j
    refine placementStep_attached hwf2 j obj _ _ s' hp ((hsrcEq obj hobj).trans hsrc) hobj2
      ?_ ?_ ha2
    · intro n hn
      obtain ⟨_, h2, _⟩ := hf1 n hn
      refine ⟨?_, h2⟩
      obtain ⟨_, hlen, _, hdoc, _, _⟩ := interfaceMergeStep_merge s (s.doc j) n hn
      rw [truthy_namespaceMergeStep_old _ _ hlong n (by omega), hdoc, hdj]
      rfl
    · intro n hn
      obtain ⟨_, h2, _⟩ := hf2 n hn
      refine ⟨?_, h2⟩
      obtain ⟨_, _, _, hdoc, _, _⟩ := namespaceMergeStep_merge _ (s.doc j) n hn
      rw [hdoc, hdj]
      rfl

theorem attached_buildPrefix {o : Options} {D : List Doclet} (hd : DistinctLongnames o D)
    (hnd : NoDerivedLongnames o D) (j : Nat) (hj : j ≤ D.length) (s : Emitter)
    (h : buildPrefix o D j = some s) : Attached s := by
  induction j generalizing s with
  | zero =>
    rw [buildPrefix_zero] at h
    simp only [Option.some.injEq] at h
    subst h
    intro c n hn
    rw [(createInv_createTreeNodes o D).empty c] at hn
    simp at hn
  | succ j ih =>
    rw [buildPrefix_succ] at h
    cases hp : buildPrefix o D j with
    | none => rw [hp] at h; simp at h
    | some s1 =>
      rw [hp] at h
      exact buildTreeStep_attached (wf_buildPrefix o D j s1 hp)
        (forest_buildPrefix hd hnd j (by omega) s1 hp).2 hnd (by omega) s h
        (ih (by omega) s1 hp)

end Emitter

theorem mem_declareMods (d : Doclet) :
    Modifier.DeclareKeyword ∈ declareMods d ↔ truthy d.memberof = false := by
  unfold declareMods
  by_cases h : truthy d.memberof = true
  · rw [if_pos h, h]; simp
  · rw [if_neg h]
    simp only [Bool.not_eq_true] at h
    rw [h]; simp

theorem createClass_declare (r : Resolver) (d : Doclet) (ch : List TsNode) :
    Modifier.DeclareKeyword ∈ (createClass r d ch).2.2.modifiers ↔ truthy d.memberof = false := by
  unfold createClass; simp only; rw [handleComment_modifiers]; exact mem_declareMods d

theorem createInterface_declare (d : Doclet) (ch : List TsNode) :
    Modifier.DeclareKeyword ∈ (createInterface d ch).2.2.modifiers ↔ truthy d.memberof = false := by
  unfold createInterface; simp only; rw [handleComment_modifiers]; exact mem_declareMods d

theorem createFunction_declare (d : Doclet) :
    Modifier.DeclareKeyword ∈ (createFunction d).2.2.modifiers ↔ truthy d.memberof = false := by
  unfold createFunction; simp only; rw [handleComment_modifiers]; exact mem_declareMods d

theorem createModule_declare (d : Doclet) (nested : Bool) (ch : List TsNode) :
    Modifier.DeclareKeyword ∈ (createModule d nested ch).2.2.modifiers
      ↔ truthy d.memberof = false := by
  unfold createModule; simp only; rw [handleComment_modifiers]; exact mem_declareMods d

theorem createNamespace_declare (d : Doclet) (nested : Bool) (ch : List TsNode) :
    Modifier.DeclareKeyword ∈ (createNamespace d nested ch).2.2.modifiers
      ↔ truthy d.memberof = false := by
  unfold createNamespace; simp only; rw [handleComment_modifiers]; exact mem_declareMods d

theorem createTypedef_declare (d : Doclet) :
    Modifier.DeclareKeyword ∈ (createTypedef d).2.2.modifiers ↔ truthy d.memberof = false := by
  unfold createTypedef; simp only; rw [handleComment_modifiers]; exact mem_declareMods d

theorem createEnum_declare (d : Doclet) :
    Modifier.DeclareKeyword ∈ (createEnum d).2.2.modifiers ↔ truthy d.memberof = false := by
  unfold createEnum; simp only; rw [handleComment_modifiers]
  show Modifier.DeclareKeyword ∈ declareMods d ++ _ ↔ _
  rw [List.mem_append, mem_declareMods]
  constructor
  · rintro (h | h)
    · exact h
    · split at h <;> simp at h
  · exact Or.inl

theorem createNamespaceMember_declare (d : Doclet) :
    Modifier.DeclareKeyword ∈ (createNamespaceMember d).2.2.modifiers
      ↔ truthy d.memberof = false := by
  unfold createNamespaceMember; simp only; rw [handleComment_modifiers]
  show Modifier.DeclareKeyword ∈ declareMods d ++ _ ↔ _
  rw [List.mem_append, mem_declareMods]
  constructor
  · rintro (h | h)
    · exact h
    · split at h <;> simp at h
  · exact Or.inl

namespace Emitter

/-- A declaration the `switch` synthesizes carries the declare modifier exactly when
the doclet of its node has no `memberof`. -/
theorem dispatch_declare (r : Resolver) (s : Emitter) (n : Nat) (parent : Option Nat)
    (children : List TsNode) (s' : Emitter) (t : TsNode)
    (h : dispatch r s n parent children = Outcome.value (s', some t))
    (ht : t.kind ∈ declarationKinds) :
    Modifier.DeclareKeyword ∈ t.modifiers ↔ truthy (s.docOf n).memberof = false := by
  have key : ∀ (x : Doclet × List Warning × TsNode),
      dispatch r s n parent children = Outcome.value (s.afterHelper n x) →
      (x.2.2.kind ∈ declarationKinds →
        (Modifier.DeclareKeyword ∈ x.2.2.modifiers ↔ truthy (s.docOf n).memberof = false)) →
      (Modifier.DeclareKeyword ∈ t.modifiers ↔ truthy (s.docOf n).memberof = false) := by
    intro x hx hd
    rw [hx] at h
    simp only [afterHelper, Outcome.value.injEq, Prod.mk.injEq, Option.some.injEq] at h
    rw [← h.2] at ht ⊢
    exact hd ht
  have no : ∀ {x : Doclet × List Warning × TsNode} {k : SyntaxKind}, x.2.2.kind = k →
      k ∉ declarationKinds → x.2.2.kind ∈ declarationKinds →
        (Modifier.DeclareKeyword ∈ x.2.2.modifiers ↔ truthy (s.docOf n).memberof = false) := by
    intro x k hk hn hm
    rw [hk] at hm
    exact absurd hm hn
  by_cases hfun : IsFunctionNode s n
  · have hd := dispatch_function r s n parent children hfun
    by_cases hc : s.tableParentKind n = some "class"
    · rw [if_pos hc] at hd
      exact key _ hd (no (createClassMethod_kind r _) (by decide))
    · rw [if_neg hc] at hd
      by_cases hi : s.tableParentKind n = some "interface"
      · rw [if_pos hi] at hd
        exact key _ hd (no (createInterfaceMethod_kind r _) (by decide))
      · rw [if_neg hi] at hd
        exact key _ hd (fun _ => createFunction_declare _)
  by_cases hfield : IsFieldNode s n
  · have hd := dispatch_field r s n parent children hfield
    by_cases hc : s.treeParentKind parent = some "class"
    · rw [if_pos hc] at hd
      exact key _ hd (no (createClassMember_kind r _) (by decide))
    · rw [if_neg hc] at hd
      by_cases hi : s.treeParentKind parent = some "interface"
      · rw [if_pos hi] at hd
        exact key _ hd (no (createInterfaceMember_kind r _) (by decide))
      · rw [if_neg hi] at hd
        exact key _ hd (fun _ => createNamespaceMember_declare _)
  unfold IsFunctionNode at hfun
  unfold IsFieldNode at hfield
  simp only [not_or] at hfun
  unfold dispatch at h key
  simp only at h key
  by_cases h1 : (s.docOf n).kind = "class"
  · rw [if_pos h1] at key
    exact key _ rfl (fun _ => createClass_declare r _ _)
  rw [if_neg h1] at h key
  by_cases h2 : (s.docOf n).kind = "constant" ∨ (s.docOf n).kind = "member"
  · rw [if_pos h2] at key
    by_cases h3 : (s.docOf n).isEnum = some true
    · rw [if_pos h3] at key
      exact key _ rfl (fun _ => createEnum_declare _)
    · exact absurd ⟨h2.symm, h3⟩ hfield
  rw [if_neg h2] at h key
  rw [if_neg (fun hh : (s.docOf n).kind = "callback" ∨ (s.docOf n).kind = "function" =>
    hh.elim hfun.2 hfun.1)] at h key
  by_cases h7 : (s.docOf n).kind = "interface"
  · rw [if_pos h7] at key
    exact key _ rfl (fun _ => createInterface_declare _ _)
  rw [if_neg h7] at h key
  by_cases h8 : (s.docOf n).kind = "mixin"
  · rw [if_pos h8] at key
    exact key _ rfl (fun _ => createInterface_declare _ _)
  rw [if_neg h8] at h key
  by_cases h9 : (s.docOf n).kind = "module"
  · rw [if_pos h9] at key
    exact key _ rfl (fun _ => createModule_declare _ _ _)
  rw [if_neg h9] at h key
  by_cases h10 : (s.docOf n).kind = "namespace"
  · rw [if_pos h10] at key
    exact key _ rfl (fun _ => createNamespace_declare _ _ _)
  rw [if_neg h10] at h key
  by_cases h11 : (s.docOf n).kind = "typedef"
  · rw [if_pos h11] at key
    exact key _ rfl (fun _ => createTypedef_declare _)
  rw [if_neg h11] at h
  by_cases h12 : (s.docOf n).kind = "file"
  · rw [if_pos h12] at h
    simp at h
  rw [if_neg h12] at h
  by_cases h13 : (s.docOf n).kind = "event"
  · rw [if_pos h13] at h
    simp at h
  rw [if_neg h13] at h
  cases h

/-- When roots have no `memberof` and children have one, the declare modifier marks
exactly the declarations of the forest roots. -/
theorem declareAtRoots_of_attached (r : Resolver) (s : Emitter) (ha : Attached s) :
    DeclareAtRoots r s := by
  refine ⟨fun n hn => ha none n hn, fun p n hn => ha (some p) n hn, ?_⟩
  intro n hr s1 parent children s2 t hfr hd ht
  rw [dispatch_declare r s1 n parent children s2 t hd ht, hfr.memberof]
  constructor
  · intro hf
    rcases hr with hroot | ⟨q, _, hdesc⟩
    · exact hroot
    · obtain ⟨p, hp⟩ := descendant_is_child hdesc
      have := ha (some p) n hp
      rw [hf] at this
      simp at this
  · intro hroot
    exact ha none n hroot

end Emitter

namespace Emitter

theorem noDerivedLongnames_nestedClassDocs : NoDerivedLongnames {} nestedClassDocs := by
  intro i hi _
  have hi' : i < 4 := hi
  interval_cases i
  · exact not_isDerivedKey_of_short _ (by decide) (by decide)
  · exact not_isDerivedKey_of_short _ (by decide) (by decide)
  · exact not_isDerivedKey_of_short _ (by decide) (by decide)
  · exact not_isDerivedKey_of_short _ (by decide) (by decide)

/-- The results of a walk from the roots of a state with `DeclareAtRoots`: every
declaration among them carries the declare modifier. -/
theorem results_declared (r : Resolver) (s : Emitter) (h : DeclareAtRoots r s) (fuel : Nat)
    (s' : Emitter) (results : List TsNode)
    (hp : _parseTree r fuel s = some (Outcome.value (s', results))) :
    ∀ t ∈ results, t.kind ∈ declarationKinds → Modifier.DeclareKeyword ∈ t.modifiers := by
  unfold _parseTree at hp
  refine parseChildren_all _
    (fun t => t.kind ∈ declarationKinds → Modifier.DeclareKeyword ∈ t.modifiers)
    _ s [] s' results (by simp) ?_ ?_ hp
  · intro c hc s1 s2 t hfr hv ht
    cases fuel with
    | zero => simp [_parseTreeNode] at hv
    | succ fuel =>
      obtain ⟨s5, ch5, _, hfr5, hd5⟩ := parseTreeNode_dispatch r fuel s1 c none _ hv
      exact (h.2.2 c (Or.inl hc) s5 none ch5 s2 t (hfr.followedBy hfr5) hd5 ht).2 hc
  · intro c _ s3 v hv
    exact (walkSpec_parseTreeNode r fuel s3 c none _ hv).1

/-- C14 as stated fails.  The longnames of `rootWithMemberofDocs` are pairwise distinct.
The interface merge of the class `K` takes the table entry of the function doclet whose
longname is the interface key of `K`; it is attached under the namespace `N` with the
class, and pass 2 at the function doclet, which has no `memberof`, pushes it to the
forest roots as well.  So node 3 is a forest root whose doclet has the `memberof` `N`,
and its interface declaration, a top-level result of `parse`, is not marked declare. -/
theorem root_with_memberof :
    DistinctLongnames {} rootWithMemberofDocs
    ∧ (∃ s : Emitter, build {} rootWithMemberofDocs = some s
        ∧ s._treeRoots = [0, 3] ∧ s.childrenOf 0 = [3, 1]
        ∧ (s.docOf 3).kind = "interface" ∧ (s.docOf 3).memberof = some "N"
        ∧ nodeOutline {} 1 s 3 none
            = some ⟨SyntaxKind.InterfaceDeclaration, [], "K", none⟩
        ∧ ∀ r : Resolver, ¬ DeclareAtRoots r s)
    ∧ parseOutlines {} 3 {} rootWithMemberofDocs
        = some [⟨⟨SyntaxKind.ModuleDeclaration, [Modifier.DeclareKeyword], "N", none⟩,
              [⟨SyntaxKind.InterfaceDeclaration, [], "K", none⟩,
                ⟨SyntaxKind.ClassDeclaration, [], "K", none⟩]⟩,
            ⟨⟨SyntaxKind.InterfaceDeclaration, [], "K", none⟩, []⟩] := by
  refine ⟨by unfold DistinctLongnames; decide,
    ⟨(build {} rootWithMemberofDocs).get (by decide), by simp, by decide, by decide, by decide,
      by decide, by decide, ?_⟩, by decide⟩
  intro r h
  have h3 := h.1 3 (by decide)
  revert h3
  decide

/-- C14 (amended): when the surviving doclets have pairwise distinct longnames, none of
them a derived merge key, and no `longname` or `memberof` of them is a property name of
`Object.prototype`, the builder leaves a forest in which the doclet of every root
has no `memberof` and the doclet of every child of a node has a non-empty one, and a
class, interface, function, enum, variable, module, namespace or type-alias declaration
the walk synthesizes for a reachable node carries the declare modifier exactly when the
node is a forest root; every such declaration among the results of `parse` is marked
declare.  On `nestedClassDocs` the results are the namespace `N`, declared, with the
class `K` unmarked in it, and the declared function `f`. -/
theorem declare_exactly_at_roots (r : Resolver) (o : Options) (D : List Doclet)
    (hd : DistinctLongnames o D) (hnd : NoDerivedLongnames o D) (_hkeys : NoInheritedKeys o D) :
    (∃ s, build o D = some s ∧ DeclareAtRoots r s
      ∧ ∀ (fuel : Nat) (s' : Emitter) (results : List TsNode),
          parse r fuel o D = some (Outcome.value (s', results)) →
          ∀ t ∈ results, t.kind ∈ declarationKinds → Modifier.DeclareKeyword ∈ t.modifiers)
    ∧ parseOutlines {} 3 {} nestedClassDocs
        = some [⟨⟨SyntaxKind.ModuleDeclaration, [Modifier.DeclareKeyword], "N", none⟩,
              [⟨SyntaxKind.ClassDeclaration, [], "K", none⟩]⟩,
            ⟨⟨SyntaxKind.FunctionDeclaration, [Modifier.DeclareKeyword], "f", none⟩, []⟩] := by
  refine ⟨?_, by decide⟩
  have hsome := build_isSome o D
  cases hb : build o D with
  | none => rw [hb] at hsome; simp at hsome
  | some s =>
    have hb1 := hb
    rw [build_eq_buildPrefix] at hb1
    have hdr := declareAtRoots_of_attached r s
      (attached_buildPrefix hd hnd D.length (Nat.le_refl _) s hb1)
    refine ⟨s, rfl, hdr, fun fuel s' results hp => ?_⟩
    rw [parse_eq_parseTree r fuel hb] at hp
    exact results_declared r s hdr fuel s' results hp

/-- C14 (amended) on a namespace with a class and its method, and a top-level
function. -/
theorem declare_exactly_at_roots_witness :
    DistinctLongnames {} nestedClassDocs ∧ NoDerivedLongnames {} nestedClassDocs
    ∧ NoInheritedKeys {} nestedClassDocs
    ∧ ∃ s, build {} nestedClassDocs = some s ∧ DeclareAtRoots {} s
      ∧ ∀ (fuel : Nat) (s' : Emitter) (results : List TsNode),
          parse {} fuel {} nestedClassDocs = some (Outcome.value (s', results)) →
          ∀ t ∈ results, t.kind ∈ declarationKinds → Modifier.DeclareKeyword ∈ t.modifiers :=
  ⟨by unfold DistinctLongnames; decide, noDerivedLongnames_nestedClassDocs,
    by unfold NoInheritedKeys; decide,
    (declare_exactly_at_roots {} {} nestedClassDocs (by unfold DistinctLongnames; decide)
      noDerivedLongnames_nestedClassDocs (by unfold NoInheritedKeys; decide)).1⟩

end Emitter

namespace Emitter

/-! ## Members of an enum-tagged node -/

theorem unplaced_place {s : Emitter} {m : Nat} (hu : Unplaced s m) (c : Option Nat)
    (im nm : Option Nat) (obj : Nat) (him : im ≠ some m) (hnm : nm ≠ some m) (hobj : obj ≠ m) :
    Unplaced (s.place c im nm obj) m := by
  unfold place
  exact unplaced_pushTo (unplaced_pushOpt (unplaced_pushOpt hu c im him) c nm hnm) c obj hobj

/-- The placement pushes its three arguments and fresh nodes only. -/
theorem placementStep_unplaced {o : Options} {D : List Doclet} {s : Emitter} (hwf : WF o D s)
    (i obj : Nat) (im nm : Option Nat) (s' : Emitter)
    (h : placementStep s i obj im nm = some s') {m : Nat} (hm : m < s.nodes.length)
    (him : im ≠ some m) (hnm : nm ≠ some m) (hobj : obj ≠ m) (hu : Unplaced s m) :
    Unplaced s' m := by
  rcases placementStep_cases s i obj im nm s' h with
    ⟨_, rfl⟩ | ⟨_, _, rfl⟩ | ⟨parent, s1, mod, _, hl, _, _, hg, rfl⟩
    | ⟨parent, _, _, _, _, rfl⟩ | ⟨parent, _, _, _, _, rfl⟩
  · exact unplaced_place hu _ _ _ _ him hnm hobj
  · exact unplaced_of_container_eq (fun c => container_warn _ _ c) hu
  · obtain ⟨_, hpost, _⟩ := getOrCreate_post o D _ _ _ _ _ hg hwf (hwf.table_valid _ _ hl)
    exact unplaced_place (hpost.unplaced hu hm) _ _ _ _ him hnm hobj
  · exact unplaced_of_container_eq (container_markNested s i obj parent) hu
  · exact unplaced_place (unplaced_of_container_eq (container_markNested s i obj parent) hu)
      _ _ _ _ him hnm hobj

/-- An iteration pushes, of the nodes that exist when it starts, at most the node of its
own doclet: a synthetic node that is in no container stays in none. -/
theorem buildTreeStep_unplaced {o : Options} {D : List Doclet} {s : Emitter} (hwf : WF o D s)
    (ht : SrcTable o D s) {j : Nat} (hj : j < D.length) (s' : Emitter)
    (h : buildTreeStep s j = some s') {m : Nat} (hm : m < s.nodes.length)
    (hsyn : s.srcIndex m = none) (hu : Unplaced s m) : Unplaced s' m := by
  rcases buildTreeStep_cases s j s' h with ⟨_, he⟩ | ⟨_, _, rfl⟩ | ⟨obj, hs, hl, hp⟩
  · subst s'; exact hu
  · exact unplaced_of_container_eq (fun c => container_warn _ _ c) hu
  · have hobj := hwf.table_valid _ _ hl
    obtain ⟨him, hnm, hobj2, _, hcont⟩ := mergeSteps_facts hwf (s.doc j) obj hobj
    have hwf1 := wf_interfaceMergeStep hwf (s.doc j)
    have hwf2 := wf_namespaceMergeStep hwf1 (s.doc j)
    have hsrc := srcIndex_of_srcTable hwf ht hj hs hl
    have hlen : s.nodes.length
        ≤ (namespaceMergeStep (interfaceMergeStep s (s.doc j)).1 (s.doc j)).1.nodes.length :=
      ((grows_interfaceMergeStep s (s.doc j)).trans (grows_namespaceMergeStep _ (s.doc j))).nodes_length
    refine placementStep_unplaced hwf2 j obj _ _ s' hp (by omega) ?_ ?_ ?_
      (unplaced_of_container_eq hcont hu)
    · intro e
      have := (him m e).2.2.2.2
      omega
    · intro e
      have := (hnm m e).2.2.2.2.2
      omega
    · intro e
      rw [e, hsyn] at hsrc
      exact absurd hsrc (by simp)

/-- A synthetic node that is in no container after `j` iterations is in none at the end
of the second pass. -/
theorem unplaced_syn_buildPrefix {o : Options} {D : List Doclet} (hd : DistinctLongnames o D)
    (hn : NoDerivedLongnames o D) {j : Nat} {sj : Emitter} (hsj : buildPrefix o D j = some sj)
    {m : Nat} (hm : m < sj.nodes.length) (hsyn : sj.srcIndex m = none) (hu : Unplaced sj m) :
    ∀ k, j + k ≤ D.length → ∀ s, buildPrefix o D (j + k) = some s →
      m < s.nodes.length ∧ s.srcIndex m = none ∧ Unplaced s m := by
  intro k
  induction k with
  | zero =>
    intro _ s h
    rw [Nat.add_zero, hsj] at h
    simp only [Option.some.injEq] at h
    subst h
    exact ⟨hm, hsyn, hu⟩
  | succ k ih =>
    intro hk s h
    rw [← Nat.add_assoc, buildPrefix_succ] at h
    cases hp : buildPrefix o D (j + k) with
    | none => rw [hp] at h; simp at h
    | some s1 =>
      rw [hp] at h
      obtain ⟨hm1, hsyn1, hu1⟩ := ih (by omega) s1 hp
      have hwf := wf_buildPrefix o D (j + k) s1 hp
      obtain ⟨_, hg⟩ := buildTreeStep_wf hwf (j + k) s h
      have ht := (forest_buildPrefix hd hn (j + k) (by omega) s1 hp).2
      refine ⟨by have := hg.nodes_length; omega, by rw [hg.srcIndex_eq m hm1]; exact hsyn1,
        buildTreeStep_unplaced hwf ht (by omega) s h hm1 hsyn1 hu1⟩

/-- When an iteration leaves every container as it was, the node of its doclet is in no
container from then on. -/
theorem idle_unplaced {o : Options} {D : List Doclet} (hd : DistinctLongnames o D) {i : Nat}
    (hi : i < D.length) {si sn : Emitter} (hsi : buildPrefix o D i = some si)
    (hsn : buildPrefix o D (i + 1) = some sn) (hc : ∀ c, sn.container c = si.container c) :
    ∀ j, i < j → j ≤ D.length → ∀ s, buildPrefix o D j = some s →
      PlacedIn (fun k => k ≠ i) s := by
  intro j hij
  induction j with
  | zero => omega
  | succ j ih =>
    intro hj s h
    by_cases hji : j = i
    · subst hji
      rw [hsn] at h
      simp only [Option.some.injEq] at h
      subst h
      have ho := ordered_buildPrefix hd j (by omega) si hsi
      have hwf := wf_buildPrefix o D j si hsi
      have hg : Grows si sn := grows_buildPrefix o D j si hsi 1 sn hsn
      intro c n k hn' hk
      rw [hc] at hn'
      have hlt := hwf.container_valid c n hn'
      rw [hg.srcIndex_eq n hlt] at hk
      have := ho.bound c n k hn' hk
      omega
    · rw [buildPrefix_succ] at h
      cases hp : buildPrefix o D j with
      | none => rw [hp] at h; simp at h
      | some s1 =>
        rw [hp] at h
        have hwf := wf_buildPrefix o D j s1 hp
        exact buildTreeStep_placedIn hwf hd (by omega) s h hji (ih (by omega) (by omega) s1 hp)

theorem noDerivedLongnames_enumMergeDocs : NoDerivedLongnames {} enumMergeDocs := by
  intro i hi _
  have hi' : i < 4 := hi
  interval_cases i <;> exact not_isDerivedKey_of_short _ (by decide) (by decide)

theorem enumParentAt_enumMergeDocs_one : EnumParentAt {} enumMergeDocs 1 :=
  ⟨(buildPrefix {} enumMergeDocs 1).get (by decide), 1, 0, by simp, by decide, by decide,
    by decide, by decide, by decide⟩

theorem buildTreeStep_enumParent_eq (s : Emitter) (i obj p : Nat)
    (hs : survives s.options (s.doc i) = true) (hl : s.lookup (s.doc i).longname = some obj)
    (hm : truthy ((s.beforePlacement i).doc i).memberof = true)
    (hp : (s.beforePlacement i).lookup (((s.beforePlacement i).doc i).memberof.getD "") = some p)
    (he : isEnum ((s.beforePlacement i).docOf p) = true) :
    buildTreeStep s i = some ((s.beforePlacement i).markNested i obj p) := by
  have hsv : ¬ ((s.doc i).kind = "package" ∨ _ignoreDoclet s.options (s.doc i) = true) := by
    unfold survives at hs
    intro h
    rcases h with h | h <;> simp [h] at hs
  unfold buildTreeStep
  simp only
  rw [if_neg hsv]
  simp only [hl]
  show placementStep (s.beforePlacement i) i obj _ _ = _
  unfold placementStep
  simp only
  rw [if_pos hm]
  simp only [hp]
  rw [if_neg (by rw [not_classLike_of_isEnum he]; simp)]
  rw [if_neg (by rw [docOf_markNested, he]; simp)]

/-- What the code does for a doclet whose `memberof` resolves to an enum-tagged node
when it is placed: its iteration pushes nothing, and neither the node of the doclet nor
a merge node made by the iteration is in a container after the run. -/
theorem enumParent_dropped {o : Options} {D : List Doclet} (hd : DistinctLongnames o D)
    (hn : NoDerivedLongnames o D) (i : Nat) (hi : i < D.length) (h : EnumParentAt o D i) :
    ∃ si sn s, buildPrefix o D i = some si ∧ buildPrefix o D (i + 1) = some sn
      ∧ build o D = some s
      ∧ (∀ c, sn.container c = si.container c)
      ∧ (∀ n, s.srcIndex n = some i → Unplaced s n ∧ ¬ Reachable s n)
      ∧ ∀ m, IsMergeAt si i m →
          si.nodes.length ≤ m ∧ m < sn.nodes.length ∧ s.srcIndex m = none
          ∧ Unplaced s m ∧ ¬ Reachable s m := by
  have hsome := build_isSome o D
  cases hb : build o D with
  | none => rw [hb] at hsome; simp at hsome
  | some s =>
    have hb' := hb
    rw [build_eq_buildPrefix] at hb'
    obtain ⟨si, obj, p, hsi, hs, hl, hm, hp, he⟩ := h
    have hstep := buildTreeStep_enumParent_eq si i obj p hs hl hm hp he
    have hsn : buildPrefix o D (i + 1) = some ((si.beforePlacement i).markNested i obj p) := by
      rw [buildPrefix_succ, hsi]; exact hstep
    have hc : ∀ c, ((si.beforePlacement i).markNested i obj p).container c = si.container c :=
      fun c => by rw [container_markNested, container_beforePlacement]
    have hwf := wf_buildPrefix o D i si hsi
    refine ⟨si, _, s, hsi, hsn, rfl, hc, ?_, ?_⟩
    · intro n hsrc
      have hplaced := idle_unplaced hd hi hsi hsn hc D.length hi (Nat.le_refl _) s hb'
      have hu : Unplaced s n := fun c hcn => hplaced c n i hcn hsrc rfl
      exact ⟨hu, not_reachable_of_unplaced hu⟩
    · intro m hmerge
      have hobj := hwf.table_valid _ _ hl
      obtain ⟨him, hnm, _, _, _⟩ := mergeSteps_facts hwf (si.doc i) obj hobj
      have hfacts : (si.beforePlacement i).srcIndex m = none
          ∧ m < (si.beforePlacement i).nodes.length ∧ Unplaced (si.beforePlacement i) m
          ∧ si.nodes.length ≤ m := by
        rcases hmerge with hmi | hmn
        · obtain ⟨h1, h2, _, h4, h5⟩ := him m hmi
          exact ⟨h1, h2, h4, h5⟩
        · obtain ⟨h1, h2, _, h4, _, h6⟩ := hnm m hmn
          exact ⟨h1, h2, h4, h6⟩
      obtain ⟨f1, f2, f3, f4⟩ := hfacts
      have hlen : ((si.beforePlacement i).markNested i obj p).nodes.length
          = (si.beforePlacement i).nodes.length := nodes_length_markNested _ _ _ _
      obtain ⟨_, g2, g3⟩ := unplaced_syn_buildPrefix hd hn hsn (m := m) (by omega)
        (by rw [srcIndex_markNested]; exact f1)
        (unplaced_of_container_eq (container_markNested _ i obj p) f3)
        (D.length - (i + 1)) (by omega) s
        (by rw [show i + 1 + (D.length - (i + 1)) = D.length by omega]; exact hb')
      exact ⟨f4, by omega, g2, g3, not_reachable_of_unplaced g3⟩

/-- C17 as stated fails.  On `enumMergeDocs`, whose longnames are pairwise distinct and
no derived keys, the `memberof` of the class `E.K` and of the interface `E.I` resolves to
the enum-tagged member `E`.  The interface merge of `E.K` (node 4) and the namespace
merge of `E.I` (node 5) are made and written to the lookup table, but the guard
`if (!isParentEnum)` skips their pushes together with the push of the doclet's own
node: after the run the only forest root is the node of `E`, and the two merge nodes
are in no container, so they are not among the forest roots. -/
theorem merge_nodes_of_enum_member_not_parked :
    DistinctLongnames {} enumMergeDocs ∧ NoDerivedLongnames {} enumMergeDocs
    ∧ EnumParentAt {} enumMergeDocs 1 ∧ EnumParentAt {} enumMergeDocs 2
    ∧ ¬ EnumMemberClaim {} enumMergeDocs
    ∧ ∃ s m n, build {} enumMergeDocs = some s ∧ s._treeRoots = [0]
        ∧ s.srcIndex 0 = some 0
        ∧ s.lookup "E.K$$interface$helper" = some m ∧ (s.docOf m).kind = "interface"
        ∧ s.srcIndex m = none ∧ Unplaced s m ∧ ¬ Reachable s m
        ∧ s.lookup "E.I$$namespace$helper" = some n ∧ (s.docOf n).kind = "namespace"
        ∧ s.srcIndex n = none ∧ Unplaced s n ∧ ¬ Reachable s n := by
  have key : ∃ s : Emitter, build {} enumMergeDocs = some s ∧ s._treeRoots = [0]
      ∧ s.srcIndex 0 = some 0
      ∧ s.lookup "E.K$$interface$helper" = some 4 ∧ (s.docOf 4).kind = "interface"
      ∧ s.srcIndex 4 = none ∧ 4 ∉ s._treeRoots
      ∧ (∀ p, p < s.nodes.length → 4 ∉ s.childrenOf p)
      ∧ s.lookup "E.I$$namespace$helper" = some 5 ∧ (s.docOf 5).kind = "namespace"
      ∧ s.srcIndex 5 = none ∧ 5 ∉ s._treeRoots
      ∧ (∀ p, p < s.nodes.length → 5 ∉ s.childrenOf p) :=
    ⟨(build {} enumMergeDocs).get (by decide), by simp, by decide, by decide, by decide,
      by decide, by decide, by decide, by decide, by decide, by decide, by decide, by decide,
      by decide⟩
  have keyi : ∃ si : Emitter, buildPrefix {} enumMergeDocs 1 = some si
      ∧ (interfaceMergeStep si (si.doc 1)).2 = some 4 :=
    ⟨(buildPrefix {} enumMergeDocs 1).get (by decide), by simp, by decide⟩
  obtain ⟨s, hb, h1, h0, h2, h3, h4, h5, h6, h7, h8, h9, h10, h11⟩ := key
  obtain ⟨si, hsi, hmerge⟩ := keyi
  have hu4 := unplaced_of_bounded s 4 h5 h6
  have hu5 := unplaced_of_bounded s 5 h10 h11
  refine ⟨by unfold DistinctLongnames; decide, noDerivedLongnames_enumMergeDocs,
    enumParentAt_enumMergeDocs_one,
    ⟨(buildPrefix {} enumMergeDocs 2).get (by decide), 2, 0, by simp, by decide, by decide,
      by decide, by decide, by decide⟩, ?_,
    s, 4, 5, hb, h1, h0, h2, h3, h4, hu4, not_reachable_of_unplaced hu4, h7, h8, h9, hu5,
    not_reachable_of_unplaced hu5⟩
  intro hclaim
  exact h5 ((hclaim 1 enumParentAt_enumMergeDocs_one si s hsi hb).2 4 (Or.inl hmerge))

/-- C17 (amended): when the surviving doclets have pairwise distinct longnames, none of
them a derived merge key, no `longname` or `memberof` of them is a property name of
`Object.prototype`, and the `memberof` of a surviving doclet resolves, when it is
placed, to an enum-tagged member or constant node, the iteration of `_buildTree` for
the doclet pushes nothing; after the run the doclet's own node is in no container (it
is neither a child of the enum node nor a forest root), and every interface merge or
namespace merge node made by that iteration is a synthetic node that is in no
container either: the merge nodes are dropped with the doclet, none is placed among
the forest roots. -/
theorem enum_parent_drops_merge_nodes (o : Options) (D : List Doclet)
    (hd : DistinctLongnames o D) (hn : NoDerivedLongnames o D) (_hkeys : NoInheritedKeys o D)
    (i : Nat) (hi : i < D.length) (h : EnumParentAt o D i) :
    ∃ si sn s, buildPrefix o D i = some si ∧ buildPrefix o D (i + 1) = some sn
      ∧ build o D = some s
      ∧ (∀ c, sn.container c = si.container c)
      ∧ (∀ n, s.srcIndex n = some i → Unplaced s n ∧ ¬ Reachable s n)
      ∧ ∀ m, IsMergeAt si i m →
          si.nodes.length ≤ m ∧ m < sn.nodes.length ∧ s.srcIndex m = none
          ∧ Unplaced s m ∧ ¬ Reachable s m :=
  enumParent_dropped hd hn i hi h

/-- C17 (amended) at the class `E.K` of `enumMergeDocs`, a member of the enum-tagged
`E` with an `implements` list: its iteration makes the interface merge node 4. -/
theorem enum_parent_drops_merge_nodes_witness :
    DistinctLongnames {} enumMergeDocs ∧ NoDerivedLongnames {} enumMergeDocs
    ∧ NoInheritedKeys {} enumMergeDocs ∧ EnumParentAt {} enumMergeDocs 1
    ∧ (∃ si, buildPrefix {} enumMergeDocs 1 = some si ∧ IsMergeAt si 1 4)
    ∧ ∃ si sn s, buildPrefix {} enumMergeDocs 1 = some si
      ∧ buildPrefix {} enumMergeDocs (1 + 1) = some sn
      ∧ build {} enumMergeDocs = some s
      ∧ (∀ c, sn.container c = si.container c)
      ∧ (∀ n, s.srcIndex n = some 1 → Unplaced s n ∧ ¬ Reachable s n)
      ∧ ∀ m, IsMergeAt si 1 m →
          si.nodes.length ≤ m ∧ m < sn.nodes.length ∧ s.srcIndex m = none
          ∧ Unplaced s m ∧ ¬ Reachable s m :=
  ⟨by unfold DistinctLongnames; decide, noDerivedLongnames_enumMergeDocs,
    by unfold NoInheritedKeys; decide, enumParentAt_enumMergeDocs_one,
    ⟨(buildPrefix {} enumMergeDocs 1).get (by decide), by simp, Or.inl (by decide)⟩,
    enum_parent_drops_merge_nodes {} enumMergeDocs (by unfold DistinctLongnames; decide)
      noDerivedLongnames_enumMergeDocs (by unfold NoInheritedKeys; decide) 1 (by decide)
      enumParentAt_enumMergeDocs_one⟩

end Emitter

namespace Emitter

/-! ## The results follow the run over the roots -/

theorem parseChildren_rootsRun
    (visit : Emitter → Nat → Option (Outcome (Emitter × Option TsNode))) :
    ∀ (l : List Nat) (s : Emitter) (acc : List TsNode) (s' : Emitter) (res : List TsNode),
      parseChildren visit s l acc = some (Outcome.value (s', res))
        ↔ ∃ res', RootsRun visit s l s' res' ∧ res = acc ++ res' := by
  intro l
  induction l with
  | nil =>
    intro s acc s' res
    simp only [parseChildren, Option.some.injEq, Outcome.value.injEq, Prod.mk.injEq]
    constructor
    · rintro ⟨rfl, rfl⟩
      exact ⟨[], RootsRun.nil s, by simp⟩
    · rintro ⟨res', hrun, rfl⟩
      cases hrun
      exact ⟨rfl, by simp⟩
  | cons c l ih =>
    intro s acc s' res
    unfold parseChildren
    cases hv : visit s c with
    | none =>
      simp only
      constructor
      · intro h; cases h
      · rintro ⟨res', hrun, _⟩
        cases hrun with
        | cons h1 _ => rw [hv] at h1; cases h1
    | some out =>
      cases out with
      | assertNever k =>
        simp only
        constructor
        · intro h; cases h
        · rintro ⟨res', hrun, _⟩
          cases hrun with
          | cons h1 _ => rw [hv] at h1; cases h1
      | value v =>
        obtain ⟨s1, childNode⟩ := v
        simp only
        rw [ih]
        constructor
        · rintro ⟨res', hrun, rfl⟩
          refine ⟨childNode.toList ++ res', RootsRun.cons hv hrun, ?_⟩
          cases childNode <;> simp
        · rintro ⟨res', hrun, rfl⟩
          cases hrun with
          | cons h1 h2 =>
            rw [hv] at h1
            simp only [Option.some.injEq, Outcome.value.injEq, Prod.mk.injEq] at h1
            obtain ⟨rfl, rfl⟩ := h1
            refine ⟨_, h2, ?_⟩
            cases childNode <;> simp

theorem resultsFollowRoots (r : Resolver) (fuel : Nat) (s : Emitter) :
    ResultsFollowRoots r fuel s := by
  intro s' results
  unfold _parseTree
  rw [parseChildren_rootsRun]
  constructor
  · rintro ⟨res', hrun, rfl⟩
    simpa using hrun
  · intro hrun
    exact ⟨results, hrun, by simp⟩

theorem noDerivedLongnames_orderDocs : NoDerivedLongnames {} orderDocs := by
  intro i hi _
  have hi' : i < 6 := hi
  interval_cases i <;> exact not_isDerivedKey_of_short _ (by decide) (by decide)

/-- C10 (amended): when the surviving doclets have pairwise distinct longnames, no
`longname` or `memberof` of them a property name of `Object.prototype`, the nodes of
input doclets come, in the forest roots and in every children list, in the order of the
doclets in the input list; and the results of `_parseTree` keep the order of the forest
roots: they are the constructs returned by the calls of `_parseTreeNode` on the roots,
one root after the other, each call in the state the call before has left, a root
without a construct leaving no result.  When no surviving longname is a derived merge
key the run returns, given fuel for as many levels as there are nodes. -/
theorem parse_keeps_input_order (r : Resolver) (fuel : Nat) (o : Options) (D : List Doclet)
    (hd : DistinctLongnames o D) (_hkeys : NoInheritedKeys o D) :
    OrderKept o D
    ∧ ∃ s, build o D = some s ∧ ResultsFollowRoots r fuel s
      ∧ (NoDerivedLongnames o D → s.nodes.length ≤ fuel →
          (_parseTree r fuel s).isSome = true) := by
  refine ⟨orderKept_of_distinct hd, ?_⟩
  have hsome := build_isSome o D
  cases hb : build o D with
  | none => rw [hb] at hsome; simp at hsome
  | some s =>
    refine ⟨s, rfl, resultsFollowRoots r fuel s, fun hn hfuel => ?_⟩
    rw [build_eq_buildPrefix] at hb
    exact (parseTree_terminates (wf_buildPrefix o D D.length s hb)
      (forest_buildPrefix hd hn D.length (Nat.le_refl _) s hb).1 r fuel hfuel).1

/-- C10 (amended) at a concrete input: the forest roots are the nodes of `b`, `N`, `c`
and `a` in the order of the input, the children of `N` are the nodes of `N.z` and `N.a`
in the order of the input, and the results are the declarations of `b`, `N`, `c` and
`a` in this order. -/
theorem parse_keeps_input_order_witness :
    DistinctLongnames {} orderDocs ∧ NoInheritedKeys {} orderDocs
    ∧ NoDerivedLongnames {} orderDocs
    ∧ (OrderKept {} orderDocs
      ∧ ∃ s, build {} orderDocs = some s ∧ ResultsFollowRoots {} 6 s
        ∧ (NoDerivedLongnames {} orderDocs → s.nodes.length ≤ 6 →
            (_parseTree {} 6 s).isSome = true))
    ∧ (∃ s, build {} orderDocs = some s ∧ s.nodes.length = 6 ∧ s._treeRoots = [0, 1, 3, 5]
        ∧ s.childrenOf 1 = [2, 4]
        ∧ (List.range 6).map s.srcIndex = [some 0, some 1, some 2, some 3, some 4, some 5])
    ∧ parseOutlines {} 6 {} orderDocs
        = some [⟨⟨SyntaxKind.FunctionDeclaration, [Modifier.DeclareKeyword], "b", none⟩, []⟩,
            ⟨⟨SyntaxKind.ModuleDeclaration, [Modifier.DeclareKeyword], "N", none⟩,
              [⟨SyntaxKind.FunctionDeclaration, [], "z", none⟩,
                ⟨SyntaxKind.FunctionDeclaration, [], "a", none⟩]⟩,
            ⟨⟨SyntaxKind.FunctionDeclaration, [Modifier.DeclareKeyword], "c", none⟩, []⟩,
            ⟨⟨SyntaxKind.FunctionDeclaration, [Modifier.DeclareKeyword], "a", none⟩, []⟩] :=
  ⟨by unfold DistinctLongnames; decide, by unfold NoInheritedKeys; decide,
    noDerivedLongnames_orderDocs,
    parse_keeps_input_order {} 6 {} orderDocs (by unfold DistinctLongnames; decide)
      (by unfold NoInheritedKeys; decide),
    ⟨(build {} orderDocs).get (by decide), by simp, by decide, by decide, by decide, by decide⟩,
    by decide⟩

end Emitter

namespace Emitter

/-! ## Where the doclets other than an orphan are attached -/

theorem descendant_last {s : Emitter} {a b : Nat} (h : Descendant s a b) :
    ∃ q, b ∈ s.childrenOf q ∧ (q = a ∨ Descendant s a q) := by
  induction h with
  | child hc => exact ⟨_, hc, Or.inl rfl⟩
  | @step p c d hc _ ih =>
    obtain ⟨q, hq, hqa⟩ := ih
    refine ⟨q, hq, Or.inr ?_⟩
    rcases hqa with rfl | hqa
    · exact Descendant.child hc
    · exact Descendant.step hc hqa

theorem descendant_snoc {s : Emitter} {a q b : Nat} (h : Descendant s a q)
    (hb : b ∈ s.childrenOf q) : Descendant s a b := by
  induction h with
  | child hc => exact Descendant.step hc (Descendant.child hb)
  | step hc _ ih => exact Descendant.step hc (ih hb)

/-- In a forest a child is reachable from the roots exactly when the node that holds
it is. -/
theorem reachable_child_iff {s : Emitter} (hf : Forest s) {n c : Nat}
    (h : n ∈ s.childrenOf c) : Reachable s n ↔ Reachable s c := by
  constructor
  · rintro (hr | ⟨r, hr, hd⟩)
    · have := hf.unique none (some c) n hr h
      cases this
    · obtain ⟨q, hq, hqa⟩ := descendant_last hd
      have hqc : some q = some c := hf.unique (some q) (some c) n hq h
      simp only [Option.some.injEq] at hqc
      subst hqc
      rcases hqa with rfl | hqa
      · exact Or.inl hr
      · exact Or.inr ⟨r, hr, hqa⟩
  · rintro (hr | ⟨r, hr, hd⟩)
    · exact Or.inr ⟨c, hr, Descendant.child h⟩
    · exact Or.inr ⟨r, hr, descendant_snoc hd h⟩

/-- The iteration of a doclet whose `memberof` resolves to a node that is not
enum-tagged pushes the node of the doclet into that node, or into a namespace named by
the namespace key of that node. -/
theorem buildTreeStep_attaches {o : Options} {D : List Doclet} {s : Emitter} (hwf : WF o D s)
    (ht : SrcTable o D s) (hn : NoDerivedLongnames o D) (hns : NsKeysOk s) (hc : ClassChildren s)
    {i : Nat} (hi : i < D.length) (hs : survives o (docAt D i) = true) (p : Nat)
    (htr : truthy ((s.beforePlacement i).doc i).memberof = true)
    (hlk : (s.beforePlacement i).lookup (((s.beforePlacement i).doc i).memberof.getD "") = some p)
    (hne : isEnum ((s.beforePlacement i).docOf p) = false)
    (s' : Emitter) (h : buildTreeStep s i = some s') :
    ∃ n g, n < s'.nodes.length ∧ g < s'.nodes.length ∧ p < s'.nodes.length
      ∧ s'.srcIndex n = some i ∧ n ∈ s'.childrenOf g
      ∧ (g = p ∨ ((s'.docOf g).kind = "namespace"
          ∧ (s'.docOf g).longname = (s'.docOf p).longname ++ "$$namespace$helper")) := by
  have hsi : survives s.options (s.doc i) = true := by
    rw [hwf.options_eq, survives_eq_of_unmember o (hwf.doc_frame i)]; exact hs
  have hwf1 := wf_interfaceMergeStep hwf (s.doc i)
  have hwf2 : WF o D (s.beforePlacement i) := wf_namespaceMergeStep hwf1 (s.doc i)
  have hg12 : Grows s (s.beforePlacement i) :=
    (grows_interfaceMergeStep s (s.doc i)).trans (grows_namespaceMergeStep _ (s.doc i))
  have hlong : (s.doc i).longname ≠ "" := by
    rw [longname_eq_of_unmember (hwf.doc_frame i)]
    intro h0
    exact hn i hi hs (h0 ▸ isDerivedKey_empty)
  have hns2 : NsKeysOk (s.beforePlacement i) :=
    (classInv_namespaceMergeStep hwf1 (s.doc i)
      (classInv_interfaceMergeStep hwf (s.doc i) hlong hns hc).1
      (classInv_interfaceMergeStep hwf (s.doc i) hlong hns hc).2).1
  have hpar := hwf2.table_valid _ _ hlk
  have hplong : ((s.beforePlacement i).docOf p).longname ≠ "" := by
    rw [hwf2.key_longname _ _ hlk]; exact ne_empty_of_truthy htr
  rcases buildTreeStep_cases s i s' h with ⟨hf, _⟩ | ⟨_, hl, _⟩ | ⟨obj, _, hl, hp⟩
  · rw [hsi] at hf; exact absurd hf (by decide)
  · obtain ⟨n, hn', _⟩ := ht i hi hs
    rw [longname_eq_of_unmember (hwf.doc_frame i), hn'] at hl
    exact absurd hl (by simp)
  · have hobj := hwf.table_valid _ _ hl
    have hsrc := srcIndex_of_srcTable hwf ht hi hsi hl
    have hlen2 := hg12.nodes_length
    have hp' : placementStep (s.beforePlacement i) i obj (interfaceMergeStep s (s.doc i)).2
        (namespaceMergeStep (interfaceMergeStep s (s.doc i)).1 (s.doc i)).2 = some s' := hp
    rcases placementStep_cases _ i obj _ _ s' hp' with
      ⟨hf, _⟩ | ⟨_, hl', _⟩ | ⟨parent, s1, mod, _, hl', hcl, _, hg, rfl⟩
      | ⟨parent, _, hl', _, he, _⟩ | ⟨parent, _, hl', _, _, rfl⟩
    · rw [htr] at hf; exact absurd hf (by decide)
    · rw [hlk] at hl'; exact absurd hl' (by simp)
    · rw [hlk] at hl'
      simp only [Option.some.injEq] at hl'
      subst hl'
      obtain ⟨hwf3, hpost, hmod⟩ := getOrCreate_post o D _ _ _ _ _ hg hwf2 hpar
      obtain ⟨hkind, hname, _⟩ := getOrCreate_result o D _ _ _ _ _ hg hwf2 hpar hns2
      have hlen3 := hpost.grows.nodes_length
      have hlenp : (s1.place (some mod) (interfaceMergeStep s (s.doc i)).2
          (namespaceMergeStep (interfaceMergeStep s (s.doc i)).1 (s.doc i)).2 obj).nodes.length
            = s1.nodes.length := nodes_length_place _ _ _ _ _
      refine ⟨obj, mod, by omega, by omega, by omega, ?_, ?_, Or.inr ⟨?_, ?_⟩⟩
      · unfold place
        rw [srcIndex_pushTo, srcIndex_pushOpt, srcIndex_pushOpt,
          hpost.grows.srcIndex_eq obj (by omega), hg12.srcIndex_eq obj hobj]
        exact hsrc
      · exact mem_container_place s1 (some mod) _ _ obj (by simpa [validContainer] using hmod)
      · rw [docOf_place]; exact hkind
      · rw [docOf_place, docOf_place, hname (kind_ne_namespace_of_isClassLike hcl),
          namespaceKey_of_ne hplong, hpost.grows.longname_eq hpar]
    · rw [hlk] at hl'
      simp only [Option.some.injEq] at hl'
      subst hl'
      rw [docOf_markNested, hne] at he
      exact absurd he (by decide)
    · rw [hlk] at hl'
      simp only [Option.some.injEq] at hl'
      subst hl'
      have hlenm : ((s.beforePlacement i).markNested i obj p).nodes.length
          = (s.beforePlacement i).nodes.length := nodes_length_markNested _ _ _ _
      have hlenp : (((s.beforePlacement i).markNested i obj p).place (some p)
          (interfaceMergeStep s (s.doc i)).2
          (namespaceMergeStep (interfaceMergeStep s (s.doc i)).1 (s.doc i)).2 obj).nodes.length
            = ((s.beforePlacement i).markNested i obj p).nodes.length :=
        nodes_length_place _ _ _ _ _
      refine ⟨obj, p, by omega, by omega, by omega, ?_, ?_, Or.inl rfl⟩
      · unfold place
        rw [srcIndex_pushTo, srcIndex_pushOpt, srcIndex_pushOpt, srcIndex_markNested,
          hg12.srcIndex_eq obj hobj]
        exact hsrc
      · exact mem_container_place _ (some p) _ _ obj
          (by simp only [validContainer, decide_eq_true_eq]; omega)

/-- With pairwise distinct surviving longnames, none of them a derived key, every
surviving doclet whose `memberof` resolves to a node that is not enum-tagged hangs under
that node in the state left by the builder. -/
theorem attachedUnder_of_build {o : Options} {D : List Doclet} (hd : DistinctLongnames o D)
    (hn : NoDerivedLongnames o D) (s : Emitter) (hb : build o D = some s) (j p : Nat)
    (hj : j < D.length) (hs : survives o (docAt D j) = true) (hres : ResolvesTo o D j p) :
    ∃ n, s.srcIndex n = some j ∧ AttachedUnder s n p := by
  rw [build_eq_buildPrefix] at hb
  obtain ⟨sj, hsj, htr, hlk, hne⟩ := hres
  have hwf := wf_buildPrefix o D j sj hsj
  have ht := (forest_buildPrefix hd hn j (by omega) sj hsj).2
  obtain ⟨hns, hc⟩ := classInv_buildPrefix hd hn j (by omega) sj hsj
  have hsome := buildPrefix_isSome o D (j + 1)
  cases h1 : buildPrefix o D (j + 1) with
  | none => rw [h1] at hsome; simp at hsome
  | some s1 =>
    have hstep : buildTreeStep sj j = some s1 := by
      rw [buildPrefix_succ, hsj] at h1; exact h1
    obtain ⟨n, g, hn1, hg1, hp1, hsrc, hmem, hwhere⟩ :=
      buildTreeStep_attaches hwf ht hn hns hc hj hs p htr hlk hne s1 hstep
    have hgrow : Grows s1 s := by
      refine grows_buildPrefix o D (j + 1) s1 h1 (D.length - (j + 1)) s ?_
      rw [show j + 1 + (D.length - (j + 1)) = D.length by omega]; exact hb
    have hf := (forest_buildPrefix hd hn D.length (Nat.le_refl _) s hb).1
    have hmem' : n ∈ s.childrenOf g := hgrow.mem_container (c := some g) hmem
    refine ⟨n, by rw [hgrow.srcIndex_eq n hn1]; exact hsrc, g, hmem', ?_,
      reachable_child_iff hf hmem'⟩
    rcases hwhere with rfl | ⟨hkind, hname⟩
    · exact Or.inl rfl
    · right
      exact ⟨by rw [hgrow.kind_eq hg1]; exact hkind,
        by rw [hgrow.longname_eq hg1, hgrow.longname_eq hp1]; exact hname⟩

theorem othersAttached_of_build {o : Options} {D : List Doclet} (hd : DistinctLongnames o D)
    (hn : NoDerivedLongnames o D) (s : Emitter) (hb : build o D = some s) (i : Nat) :
    OthersAttached o D s i := by
  intro j hj _ hs
  refine ⟨fun hm => ?_, fun p hres => attachedUnder_of_build hd hn s hb j p hj hs hres⟩
  rw [build_eq_buildPrefix] at hb
  obtain ⟨n, hroot, hsrc⟩ := roots_src_buildPrefix hd hn D.length (Nat.le_refl _) s hb j hj hs hm
  exact ⟨n, hsrc, hroot, Or.inl hroot⟩

theorem noDerivedLongnames_orphanAmongMembersDocs :
    NoDerivedLongnames {} orphanAmongMembersDocs := by
  intro i hi _
  have hi' : i < 7 := hi
  interval_cases i <;> exact not_isDerivedKey_of_short _ (by decide) (by decide)

theorem orphanAt_orphanAmongMembersDocs : OrphanAt {} orphanAmongMembersDocs 2 :=
  ⟨(buildPrefix {} orphanAmongMembersDocs 2).get (by decide), 2, by simp, by decide, by decide,
    by decide, by decide⟩

/-- C7 (amended): when the surviving doclets have pairwise distinct longnames, none of
them a derived merge key, no `longname` or `memberof` of them is a property name of
`Object.prototype`, and the `memberof` of a surviving doclet `D` matches no node of the
lookup table when `D` is placed, the iteration of `_buildTree` for `D` reports exactly
one warning and pushes nothing, and the node of `D` is in no container after the run,
so it is not reachable from the forest roots.  Every other surviving doclet is attached
as without `D`: when it has no `memberof` its node is a forest root, and when its
`memberof` resolves to a node that is not enum-tagged its node is a child of that node,
or of the namespace-kind node named by the longname of that node followed by the
namespace suffix, and it is reachable from the forest roots exactly when the node that
holds it is. -/
theorem orphan_is_dropped (o : Options) (D : List Doclet) (hd : DistinctLongnames o D)
    (hn : NoDerivedLongnames o D) (_hkeys : NoInheritedKeys o D)
    (i : Nat) (hi : i < D.length) (horph : OrphanAt o D i) :
    ∃ si sn s, buildPrefix o D i = some si ∧ buildPrefix o D (i + 1) = some sn
      ∧ build o D = some s
      ∧ (∃ w, sn.warnings = si.warnings ++ [w])
      ∧ (∀ c, sn.container c = si.container c)
      ∧ (∀ n, s.srcIndex n = some i → Unplaced s n ∧ ¬ Reachable s n)
      ∧ OthersAttached o D s i := by
  have hsome := build_isSome o D
  cases hb : build o D with
  | none => rw [hb] at hsome; simp at hsome
  | some s =>
    have hb' := hb
    rw [build_eq_buildPrefix] at hb'
    have hplaced := orphan_unplaced hd hi horph D.length hi (Nat.le_refl _) s hb'
    obtain ⟨si, obj, hsi, hs, hl, hm, hn'⟩ := horph
    have hstep := buildTreeStep_orphan si i obj hs hl hm hn'
    refine ⟨si, (si.beforePlacement i).warn (Warning.missingParent
      ((si.beforePlacement i).doc i).longname
      (((si.beforePlacement i).doc i).memberof.getD "")), s, hsi, ?_, rfl,
      ⟨Warning.missingParent ((si.beforePlacement i).doc i).longname
        (((si.beforePlacement i).doc i).memberof.getD ""), ?_⟩, ?_, ?_,
      othersAttached_of_build hd hn s hb i⟩
    · rw [buildPrefix_succ, hsi]; exact hstep
    · show ((si.beforePlacement i).warn _).warnings = _
      unfold warn
      simp only [warnings_beforePlacement]
    · intro c; rw [container_warn, container_beforePlacement]
    · intro n hsrc
      have hu : Unplaced s n := fun c hc => hplaced c n i hc hsrc rfl
      exact ⟨hu, not_reachable_of_unplaced hu⟩

/-- C7 (amended) at a concrete input: the orphan `X` has the member `X.y`, next to the
namespace `A` with a function and a class that has a typedef, and the top-level
function `b`.  The `memberof` of `A.f` resolves to the node of `A`, that of `X.y` to the
node of the orphan, that of the typedef to the node of the class; the forest roots are
the nodes of `A` and `b`, and the run reports the one warning of `X`. -/
theorem orphan_is_dropped_witness :
    DistinctLongnames {} orphanAmongMembersDocs ∧ NoDerivedLongnames {} orphanAmongMembersDocs
    ∧ NoInheritedKeys {} orphanAmongMembersDocs ∧ OrphanAt {} orphanAmongMembersDocs 2
    ∧ ResolvesTo {} orphanAmongMembersDocs 1 0 ∧ ResolvesTo {} orphanAmongMembersDocs 3 2
    ∧ ResolvesTo {} orphanAmongMembersDocs 5 4
    ∧ (∃ si sn s, buildPrefix {} orphanAmongMembersDocs 2 = some si
      ∧ buildPrefix {} orphanAmongMembersDocs (2 + 1) = some sn
      ∧ build {} orphanAmongMembersDocs = some s
      ∧ (∃ w, sn.warnings = si.warnings ++ [w])
      ∧ (∀ c, sn.container c = si.container c)
      ∧ (∀ n, s.srcIndex n = some 2 → Unplaced s n ∧ ¬ Reachable s n)
      ∧ OthersAttached {} orphanAmongMembersDocs s 2)
    ∧ ∃ s, build {} orphanAmongMembersDocs = some s ∧ s._treeRoots = [0, 6]
      ∧ s.childrenOf 0 = [1, 4, 7] ∧ s.childrenOf 2 = [3] ∧ s.childrenOf 7 = [5]
      ∧ (s.docOf 7).longname = "A.K$$namespace$helper"
      ∧ s.warnings = [Warning.missingParent "X" "Nope"] :=
  ⟨by unfold DistinctLongnames; decide, noDerivedLongnames_orphanAmongMembersDocs,
    by unfold NoInheritedKeys; decide, orphanAt_orphanAmongMembersDocs,
    ⟨(buildPrefix {} orphanAmongMembersDocs 1).get (by decide), by simp, by decide, by decide,
      by decide⟩,
    ⟨(buildPrefix {} orphanAmongMembersDocs 3).get (by decide), by simp, by decide, by decide,
      by decide⟩,
    ⟨(buildPrefix {} orphanAmongMembersDocs 5).get (by decide), by simp, by decide, by decide,
      by decide⟩,
    orphan_is_dropped {} orphanAmongMembersDocs (by unfold DistinctLongnames; decide)
      noDerivedLongnames_orphanAmongMembersDocs (by unfold NoInheritedKeys; decide) 2
      (by decide) orphanAt_orphanAmongMembersDocs,
    ⟨(build {} orphanAmongMembersDocs).get (by decide), by simp, by decide, by decide,
      by decide, by decide, by decide, by decide⟩⟩

end Emitter

namespace Emitter

/-! ## What `parse` writes to the input doclets -/

/-- A relation between states that the `switch` respects is respected by the loop over
the children. -/
theorem parseChildren_rel (R : Emitter → Emitter → Prop) (hrefl : ∀ s, R s s)
    (htrans : ∀ a b c, R a b → R b c → R a c)
    (visit : Emitter → Nat → Option (Outcome (Emitter × Option TsNode)))
    (hv : ∀ s c v, visit s c = some (Outcome.value v) → R s v.1) :
    ∀ (l : List Nat) (s : Emitter) (acc : List TsNode) (v : Emitter × List TsNode),
      parseChildren visit s l acc = some (Outcome.value v) → R s v.1 := by
  intro l
  induction l with
  | nil =>
    intro s acc v h
    simp only [parseChildren, Option.some.injEq, Outcome.value.injEq] at h
    subst h
    exact hrefl s
  | cons c l ih =>
    intro s acc v h
    unfold parseChildren at h
    cases hc : visit s c with
    | none => rw [hc] at h; simp at h
    | some out =>
      cases out with
      | assertNever k => rw [hc] at h; simp at h
      | value w =>
        obtain ⟨s1, childNode⟩ := w
        rw [hc] at h
        simp only at h
        exact htrans _ _ _ (hv s c _ hc) (ih s1 _ v h)

/-- A relation between states that the `switch` respects is respected by the walk. -/
theorem parseTreeNode_rel (R : Emitter → Emitter → Prop) (hrefl : ∀ s, R s s)
    (htrans : ∀ a b c, R a b → R b c → R a c) (r : Resolver)
    (hd : ∀ s n parent children v, dispatch r s n parent children = Outcome.value v →
      R s v.1) :
    ∀ (fuel : Nat) (s : Emitter) (n : Nat) (parent : Option Nat) (v : Emitter × Option TsNode),
      _parseTreeNode r fuel s n parent = some (Outcome.value v) → R s v.1 := by
  intro fuel
  induction fuel with
  | zero => intro s n parent v h; simp [_parseTreeNode] at h
  | succ fuel ih =>
    intro s n parent v h
    unfold _parseTreeNode at h
    cases hc : parseChildren (fun s1 c => _parseTreeNode r fuel s1 c (some n)) s
        (s.childrenOf n) [] with
    | none => rw [hc] at h; simp at h
    | some o =>
      rw [hc] at h
      cases o with
      | assertNever k => simp at h
      | value w =>
        obtain ⟨s1, children⟩ := w
        simp only [Option.some.injEq] at h
        have h1 := parseChildren_rel R hrefl htrans _
          (fun s2 c v2 h2 => ih s2 c (some n) v2 h2) _ s [] _ hc
        exact htrans _ _ _ h1 (hd s1 n parent children v h)

theorem parseTree_rel (R : Emitter → Emitter → Prop) (hrefl : ∀ s, R s s)
    (htrans : ∀ a b c, R a b → R b c → R a c) (r : Resolver)
    (hd : ∀ s n parent children v, dispatch r s n parent children = Outcome.value v →
      R s v.1)
    (fuel : Nat) (s : Emitter) (v : Emitter × List TsNode)
    (h : _parseTree r fuel s = some (Outcome.value v)) : R s v.1 :=
  parseChildren_rel R hrefl htrans _
    (fun s2 c v2 h2 => parseTreeNode_rel R hrefl htrans r hd fuel s2 c none v2 h2) _ s [] v h

/-- The doclet a helper leaves is the doclet it was given, or that doclet with its name
normalised. -/
theorem dispatch_doclet (r : Resolver) (s : Emitter) (n : Nat) (parent : Option Nat)
    (children : List TsNode) (v : Emitter × Option TsNode)
    (h : dispatch r s n parent children = Outcome.value v) :
    v = (s, none)
    ∨ ∃ x, v = s.afterHelper n x
        ∧ (x.1 = normalizeName (s.docOf n) ∨ x.1 = s.docOf n) := by
  have key : ∀ (x : Doclet × List Warning × TsNode),
      dispatch r s n parent children = Outcome.value (s.afterHelper n x) →
      (x.1 = normalizeName (s.docOf n) ∨ x.1 = s.docOf n) →
      (v = (s, none) ∨ ∃ x, v = s.afterHelper n x
        ∧ (x.1 = normalizeName (s.docOf n) ∨ x.1 = s.docOf n)) := by
    intro x hx hd
    rw [hx] at h
    simp only [Outcome.value.injEq] at h
    exact Or.inr ⟨x, h.symm, hd⟩
  by_cases hfun : IsFunctionNode s n
  · have hd := dispatch_function r s n parent children hfun
    by_cases hc : s.tableParentKind n = some "class"
    · rw [if_pos hc] at hd
      exact key _ hd (Or.inl (by unfold createClassMethod; rfl))
    · rw [if_neg hc] at hd
      by_cases hi : s.tableParentKind n = some "interface"
      · rw [if_pos hi] at hd
        exact key _ hd (Or.inl (by unfold createInterfaceMethod; rfl))
      · rw [if_neg hi] at hd
        exact key _ hd (Or.inl (by unfold createFunction; rfl))
  by_cases hfield : IsFieldNode s n
  · have hd := dispatch_field r s n parent children hfield
    by_cases hc : s.treeParentKind parent = some "class"
    · rw [if_pos hc] at hd
      exact key _ hd (Or.inr (by unfold createClassMember; rfl))
    · rw [if_neg hc] at hd
      by_cases hi : s.treeParentKind parent = some "interface"
      · rw [if_pos hi] at hd
        exact key _ hd (Or.inr (by unfold createInterfaceMember; rfl))
      · rw [if_neg hi] at hd
        exact key _ hd (Or.inl (by unfold createNamespaceMember; rfl))
  unfold IsFunctionNode at hfun
  unfold IsFieldNode at hfield
  simp only [not_or] at hfun
  unfold dispatch at h key
  simp only at h key
  by_cases h1 : (s.docOf n).kind = "class"
  · rw [if_pos h1] at key
    exact key _ rfl (Or.inl (by unfold createClass; rfl))
  rw [if_neg h1] at h key
  by_cases h2 : (s.docOf n).kind = "constant" ∨ (s.docOf n).kind = "member"
  · rw [if_pos h2] at key
    by_cases h3 : (s.docOf n).isEnum = some true
    · rw [if_pos h3] at key
      exact key _ rfl (Or.inr (by unfold createEnum; rfl))
    · exact absurd ⟨h2.symm, h3⟩ hfield
  rw [if_neg h2] at h key
  rw [if_neg (fun hh : (s.docOf n).kind = "callback" ∨ (s.docOf n).kind = "function" =>
    hh.elim hfun.2 hfun.1)] at h key
  by_cases h7 : (s.docOf n).kind = "interface"
  · rw [if_pos h7] at key
    exact key _ rfl (Or.inl (by unfold createInterface; rfl))
  rw [if_neg h7] at h key
  by_cases h8 : (s.docOf n).kind = "mixin"
  · rw [if_pos h8] at key
    exact key _ rfl (Or.inl (by unfold createInterface; rfl))
  rw [if_neg h8] at h key
  by_cases h9 : (s.docOf n).kind = "module"
  · rw [if_pos h9] at key
    exact key _ rfl (Or.inl (by unfold createModule; rfl))
  rw [if_neg h9] at h key
  by_cases h10 : (s.docOf n).kind = "namespace"
  · rw [if_pos h10] at key
    exact key _ rfl (Or.inl (by unfold createNamespace; rfl))
  rw [if_neg h10] at h key
  by_cases h11 : (s.docOf n).kind = "typedef"
  · rw [if_pos h11] at key
    exact key _ rfl (Or.inl (by unfold createTypedef; rfl))
  rw [if_neg h11] at h
  by_cases h12 : (s.docOf n).kind = "file"
  · rw [if_pos h12] at h
    simp only [Outcome.value.injEq] at h
    exact Or.inl h.symm
  rw [if_neg h12] at h
  by_cases h13 : (s.docOf n).kind = "event"
  · rw [if_pos h13] at h
    simp only [Outcome.value.injEq] at h
    exact Or.inl h.symm
  rw [if_neg h13] at h
  cases h

theorem normalizeName_of_plain {d : Doclet} (h : stripExports d.name = d.name) :
    normalizeName d = d := by
  unfold normalizeName
  rw [h]

theorem list_set_getElem_self {α : Type} (l : List α) (i : Nat) (h : i < l.length) :
    l.set i l[i] = l := by
  apply List.ext_getElem?
  intro j
  rw [List.getElem?_set]
  by_cases hij : i = j
  · subst hij
    simp [h]
  · simp [hij]

theorem docs_setDoclet_self (s : Emitter) (n : Nat) : (s.setDoclet n (s.docOf n)).docs = s.docs := by
  unfold setDoclet
  cases hr : (s.node n).doclet with
  | src i =>
    simp only
    have hdoc : s.docOf n = s.doc i := by unfold docOf; rw [hr]; rfl
    rw [hdoc]
    unfold doc
    by_cases hlt : i < s.docs.length
    · rw [List.getElem?_eq_getElem hlt]
      simp only [Option.getD_some]
      exact list_set_getElem_self _ _ hlt
    · rw [List.set_eq_of_length_le (Nat.le_of_not_lt hlt)]
  | syn e => rfl

/-- The `switch` leaves the doclets of the input array as they are when none of their
names starts with `exports.`. -/
theorem dispatch_docs (r : Resolver) (s : Emitter) (n : Nat) (parent : Option Nat)
    (children : List TsNode) (v : Emitter × Option TsNode)
    (h : dispatch r s n parent children = Outcome.value v) (hp : PlainNames s.docs) :
    v.1.docs = s.docs := by
  rcases dispatch_doclet r s n parent children v h with rfl | ⟨x, rfl, hx⟩
  · rfl
  · show (s.setDoclet n x.1).docs = s.docs
    cases hr : (s.node n).doclet with
    | syn e => unfold setDoclet; rw [hr]
    | src i =>
      have hdoc : s.docOf n = s.doc i := by unfold docOf; rw [hr]; rfl
      have hplain : normalizeName (s.docOf n) = s.docOf n := by
        rw [hdoc]
        unfold doc
        by_cases hlt : i < s.docs.length
        · rw [List.getElem?_eq_getElem hlt]
          exact normalizeName_of_plain (hp _ (List.getElem_mem _))
        · rw [List.getElem?_eq_none (Nat.le_of_not_lt hlt)]
          rfl
      have hx1 : x.1 = s.docOf n := by
        rcases hx with hx | hx
        · rw [hx, hplain]
        · exact hx
      rw [hx1]
      exact docs_setDoclet_self s n

/-- The walk leaves the doclets of the input array as they are when none of their names
starts with `exports.`. -/
theorem parseTree_docs (r : Resolver) (fuel : Nat) (s : Emitter) (v : Emitter × List TsNode)
    (h : _parseTree r fuel s = some (Outcome.value v)) (hp : PlainNames s.docs) :
    v.1.docs = s.docs :=
  parseTree_rel (fun a b => PlainNames a.docs → b.docs = a.docs) (fun _ _ => rfl)
    (fun a b c hab hbc hpa => by
      have h1 := hab hpa
      rw [hbc (by rw [h1]; exact hpa), h1])
    r (fun s1 n parent children v1 hd hp1 => dispatch_docs r s1 n parent children v1 hd hp1)
    fuel s v h hp

/-- The doclets of the input array are the same up to their names across the `switch`. -/
theorem dispatch_docs_frame (r : Resolver) (s : Emitter) (n : Nat) (parent : Option Nat)
    (children : List TsNode) (v : Emitter × Option TsNode)
    (h : dispatch r s n parent children = Outcome.value v) :
    v.1.docs.length = s.docs.length ∧ ∀ i, (v.1.doc i).unname = (s.doc i).unname := by
  rcases dispatch_doclet r s n parent children v h with rfl | ⟨x, rfl, hx⟩
  · exact ⟨rfl, fun _ => rfl⟩
  · have hun : x.1.unname = (s.docOf n).unname := by
      rcases hx with hx | hx <;> rw [hx]
      rfl
    show (s.setDoclet n x.1).docs.length = s.docs.length
      ∧ ∀ i, ((s.setDoclet n x.1).doc i).unname = (s.doc i).unname
    cases hr : (s.node n).doclet with
    | syn e =>
      unfold setDoclet
      rw [hr]
      exact ⟨rfl, fun _ => rfl⟩
    | src j =>
      have hdoc : s.docOf n = s.doc j := by unfold docOf; rw [hr]; rfl
      unfold setDoclet
      rw [hr]
      simp only
      refine ⟨by simp, fun i => ?_⟩
      rw [doc_set]
      by_cases hij : i = j ∧ j < s.docs.length
      · rw [if_pos hij, hun, hdoc, hij.1]
      · rw [if_neg hij]

/-- The doclets of the input array are the same up to their names across the walk. -/
theorem parseTree_docs_frame (r : Resolver) (fuel : Nat) (s : Emitter)
    (v : Emitter × List TsNode) (h : _parseTree r fuel s = some (Outcome.value v)) :
    v.1.docs.length = s.docs.length ∧ ∀ i, (v.1.doc i).unname = (s.doc i).unname :=
  parseTree_rel
    (fun a b => b.docs.length = a.docs.length ∧ ∀ i, (b.doc i).unname = (a.doc i).unname)
    (fun _ => ⟨rfl, fun _ => rfl⟩)
    (fun _ _ _ hab hbc => ⟨hbc.1.trans hab.1, fun i => (hbc.2 i).trans (hab.2 i)⟩)
    r (fun s1 n parent children v1 hd => dispatch_docs_frame r s1 n parent children v1 hd)
    fuel s v h

theorem reassignStatic_of_none (s : Emitter) (l : String)
    (h : ∀ d ∈ s.docs, isStaticChildOf l d = false) : (s.reassignStatic l).docs = s.docs := by
  unfold reassignStatic
  simp only
  conv_rhs => rw [← List.map_id s.docs]
  apply List.map_congr_left
  intro d hd
  rw [h d hd]
  rfl

/-- An iteration of `_buildTree` leaves the doclets as they are on a list without a
static member of an interface or mixin. -/
theorem buildTreeStep_docs_unwritten {o : Options} {D : List Doclet} {s : Emitter} (hwf : WF o D s)
    (hns : NoStaticMembers D) (hdocs : s.docs = D) (j : Nat) (s' : Emitter)
    (h : buildTreeStep s j = some s') : s'.docs = D := by
  rcases buildTreeStep_cases s j s' h with ⟨_, he⟩ | ⟨_, _, rfl⟩ | ⟨obj, _, hl, hp⟩
  · subst s'; exact hdocs
  · exact hdocs
  · have hwf1 := wf_interfaceMergeStep hwf (s.doc j)
    have hwf2 := wf_namespaceMergeStep hwf1 (s.doc j)
    rw [placementStep_docs hwf2 j obj _ _ s' hp]
    have h1 := docs_interfaceMergeStep s (s.doc j)
    rcases docs_namespaceMergeStep (interfaceMergeStep s (s.doc j)).1 (s.doc j) with
      h2 | ⟨hk, _, h2⟩
    · rw [h2, h1]; exact hdocs
    · rw [h2]
      have hmem : s.doc j ∈ D := by
        unfold doc
        rw [hdocs]
        by_cases hlt : j < D.length
        · rw [List.getElem?_eq_getElem hlt]
          exact List.getElem_mem _
        · exfalso
          have hdef : s.doc j = {} := by
            unfold doc
            rw [hdocs, List.getElem?_eq_none (Nat.le_of_not_lt hlt)]
            rfl
          rw [hdef] at hk
          rcases hk with hk | hk <;> exact absurd hk (by decide)
      rw [reassignStatic_of_none _ _ (fun d hd => hns _ hmem hk d (by rw [h1, hdocs] at hd; exact hd)),
        h1]
      exact hdocs

theorem buildPrefix_docs_unwritten {o : Options} {D : List Doclet} (hns : NoStaticMembers D) (j : Nat)
    (s : Emitter) (h : buildPrefix o D j = some s) : s.docs = D := by
  induction j generalizing s with
  | zero =>
    rw [buildPrefix_zero] at h
    simp only [Option.some.injEq] at h
    subst h
    exact (createInv_createTreeNodes o D).docs_eq
  | succ j ih =>
    rw [buildPrefix_succ] at h
    cases hp : buildPrefix o D j with
    | none => rw [hp] at h; simp at h
    | some s1 =>
      rw [hp] at h
      exact buildTreeStep_docs_unwritten (wf_buildPrefix o D j s1 hp) hns (ih s1 hp) j s h

theorem unmember_unname_comm (d : Doclet) : d.unname.unmember = d.unmember.unname := rfl

/-- After `parse` the doclets of the input array are those of the input up to
`memberof` and `name`. -/
theorem parse_docs_frame (r : Resolver) (fuel : Nat) (o : Options) (D : List Doclet)
    (v : Emitter × List TsNode) (h : parse r fuel o D = some (Outcome.value v)) :
    v.1.docs.length = D.length
    ∧ ∀ i, ((v.1.doc i).unname).unmember = ((docAt D i).unname).unmember := by
  unfold parse at h
  cases hb : build o D with
  | none => rw [hb] at h; simp at h
  | some s =>
    rw [hb] at h
    simp only at h
    rw [build_eq_buildPrefix] at hb
    have hwf := wf_buildPrefix o D _ s hb
    obtain ⟨hlen, hfr⟩ := parseTree_docs_frame r fuel s v h
    refine ⟨hlen.trans hwf.docs_length, fun i => ?_⟩
    rw [hfr i, unmember_unname_comm, hwf.doc_frame i]
    rfl

/-- On a list without a name that starts with `exports.` and without a static member of
an interface or mixin, `parse` leaves the doclets as they are. -/
theorem parse_docs_unwritten (r : Resolver) (fuel : Nat) (o : Options) (D : List Doclet)
    (hp : PlainNames D) (hns : NoStaticMembers D)
    (v : Emitter × List TsNode) (h : parse r fuel o D = some (Outcome.value v)) :
    v.1.docs = D := by
  unfold parse at h
  cases hb : build o D with
  | none => rw [hb] at h; simp at h
  | some s =>
    rw [hb] at h
    simp only at h
    rw [build_eq_buildPrefix] at hb
    have hdocs := buildPrefix_docs_unwritten hns _ s hb
    rw [parseTree_docs r fuel s v h (by rw [hdocs]; exact hp), hdocs]

theorem reparse_of_unwritten (r : Resolver) (fuel : Nat) (o : Options) (D : List Doclet)
    (hp : PlainNames D) (hns : NoStaticMembers D) :
    reparseOutlines r fuel o D = parseOutlines r fuel o D := by
  unfold reparseOutlines parseDocs
  cases hpar : parse r fuel o D with
  | none =>
    simp only [Option.bind]
    unfold parseOutlines parseResults
    rw [hpar]
    rfl
  | some out =>
    cases out with
    | assertNever k =>
      simp only [Option.bind]
      unfold parseOutlines parseResults
      rw [hpar]
      rfl
    | value v =>
      simp only [Option.bind]
      rw [parse_docs_unwritten r fuel o D hp hns v hpar]

/-- C11 (amended): `parse` writes to no field of an input doclet other than `memberof`
(line 107 reassigns the static members of an interface or mixin to the namespace key)
and `name` (the helpers strip the `exports.` prefix): when `parse` returns, the input
array has its length and every doclet of it is the same as before in every other field.
On a list without a name that starts with `exports.` and without a static member of an
interface or mixin, every field of every doclet is the same after `parse` as before,
and a second run of `parse` on the same doclet objects yields the same results as the
first.  The lists are those without a property name of `Object.prototype` as longname
or `memberof` of a surviving doclet. -/
theorem parse_writes_memberof_and_name (r : Resolver) (fuel : Nat) (o : Options)
    (D : List Doclet) (_hkeys : NoInheritedKeys o D) :
    (∀ v, parse r fuel o D = some (Outcome.value v) →
        v.1.docs.length = D.length
        ∧ ∀ i, ((v.1.doc i).unname).unmember = ((docAt D i).unname).unmember)
    ∧ (PlainNames D → NoStaticMembers D →
        (∀ v, parse r fuel o D = some (Outcome.value v) → v.1.docs = D)
        ∧ reparseOutlines r fuel o D = parseOutlines r fuel o D) :=
  ⟨fun v h => parse_docs_frame r fuel o D v h,
    fun hp hns => ⟨fun v h => parse_docs_unwritten r fuel o D hp hns v h,
      reparse_of_unwritten r fuel o D hp hns⟩⟩

/-- C11 (amended) at a concrete input without `exports.` names and static members: the
doclets are unchanged by the run and the second run yields the four declarations of the
first. -/
theorem parse_writes_memberof_and_name_witness :
    NoInheritedKeys {} orderDocs ∧ PlainNames orderDocs ∧ NoStaticMembers orderDocs
    ∧ (∀ v, parse {} 6 {} orderDocs = some (Outcome.value v) →
        v.1.docs.length = orderDocs.length
        ∧ ∀ i, ((v.1.doc i).unname).unmember = ((docAt orderDocs i).unname).unmember)
    ∧ ((∀ v, parse {} 6 {} orderDocs = some (Outcome.value v) → v.1.docs = orderDocs)
      ∧ reparseOutlines {} 6 {} orderDocs = parseOutlines {} 6 {} orderDocs)
    ∧ parseDocs {} 6 {} orderDocs = some orderDocs
    ∧ reparseOutlines {} 6 {} orderDocs
        = some [⟨⟨SyntaxKind.FunctionDeclaration, [Modifier.DeclareKeyword], "b", none⟩, []⟩,
            ⟨⟨SyntaxKind.ModuleDeclaration, [Modifier.DeclareKeyword], "N", none⟩,
              [⟨SyntaxKind.FunctionDeclaration, [], "z", none⟩,
                ⟨SyntaxKind.FunctionDeclaration, [], "a", none⟩]⟩,
            ⟨⟨SyntaxKind.FunctionDeclaration, [Modifier.DeclareKeyword], "c", none⟩, []⟩,
            ⟨⟨SyntaxKind.FunctionDeclaration, [Modifier.DeclareKeyword], "a", none⟩, []⟩] :=
  ⟨by unfold NoInheritedKeys; decide, by unfold PlainNames; decide,
    by unfold NoStaticMembers; decide,
    (parse_writes_memberof_and_name {} 6 {} orderDocs (by unfold NoInheritedKeys; decide)).1,
    (parse_writes_memberof_and_name {} 6 {} orderDocs (by unfold NoInheritedKeys; decide)).2
      (by unfold PlainNames; decide) (by unfold NoStaticMembers; decide),
    by decide, by decide⟩

end Emitter

end TsdJsdoc
